import Mathlib

/-!
# PolyFEM nonlinear solve drivers: augmented-Lagrangian escalation and friction lagging

Shallow embedding of the control flow of

* `State::solve_non_linear` and `State::solve_transient_tensor_non_linear`
  (`src/src/state/StateSolve.cpp`), namespace `StateSolve`;
* `State::solve_tensor_nonlinear`, `State::make_nl_solver`,
  `State::init_nonlinear_tensor_solve` and `State::solve_transient_tensor_nonlinear`
  (`src/src/polyfem/state/StateSolveNonlinear.cpp`), namespace `StateSolveNonlinear`;
* `gradient_from_energy` and `hessian_from_energy`
  (`src/cpp/src/utils/ElasticityUtils.cpp`), namespace `ElasticityUtils`.

Conventions.

* Scalars of type `double` that the drivers only double, compare or pass on
  (penalty weights, tolerances, norms) are exact rationals.  Doubling a binary
  floating-point number is exact, so the weight sequence `w, 2w, 4w, ...` is the
  same in both readings as long as it stays finite.
* Everything the drivers mutate through calls into other components (the
  solution vectors, the problem objects, the solver objects) is one abstract
  state `S`; each call is a function on `S` supplied by an environment record.
* `while` loops whose termination is not evident carry a fuel argument that
  bounds the number of evaluations of the loop condition.  A run that uses up
  its fuel ends in `Run.out_of_fuel` and still exposes the trace produced so far.
* Calls are recorded in a trace of events so that statements about which calls
  happen, in which order and with which arguments, can be made.
-/

/-- Outcome of running a loop with fuel: the loop left normally, or the fuel ran out first. -/
inductive Run (α : Type) where
  | done (a : α)
  | out_of_fuel (a : α)
  deriving DecidableEq, Repr

namespace Run

/-- The value carried by a run, finished or not. -/
def val {α : Type} : Run α → α
  | done a => a
  | out_of_fuel a => a

/-- Whether the run left its loop normally. -/
def finished {α : Type} : Run α → Bool
  | done _ => true
  | out_of_fuel _ => false

/-- Apply a function to the carried value, keeping the outcome. -/
def map {α β : Type} (f : α → β) : Run α → Run β
  | done a => done (f a)
  | out_of_fuel a => out_of_fuel (f a)

end Run

namespace StateSolve

/-- Calls made by the drivers of `StateSolve.cpp`, in program order. -/
inductive Event (S : Type) where
  /-- Call `alnl_problem.set_weight(al_weight)` -/
  | set_weight (w : ℚ)
  /-- Call `alnlsolver.minimize(alnl_problem, tmp_sol)`, started from the given state -/
  | al_minimize (start : S)
  /-- Call `logger().error` with the message "Unable to solve AL problem, weight .. >= .., stopping" -/
  | log_error (w max_w : ℚ)
  /-- Call `nlsolver.minimize(nl_problem, tmp_sol)`, started from the given state -/
  | nl_minimize (start : S)
  /-- Call `nl_problem.update_quantities((t + 1) * dt, sol)` and the same on `alnl_problem` -/
  | update_quantities (t : Nat)
  deriving DecidableEq, Repr

/-- The collaborators the two drivers call.  `S` is the mutable state they act on
(`sol`, `tmp_sol`, `nl_problem`, `alnl_problem`). -/
structure Env (S : Type) where
  /-- Test `std::isfinite(nl_problem.value(tmp_sol))` -/
  value_isfinite : S → Bool
  /-- Test `nl_problem.is_step_valid(sol, tmp_sol)` -/
  is_step_valid : S → Bool
  /-- Test `nl_problem.is_step_collision_free(sol, tmp_sol)` -/
  is_step_collision_free : S → Bool
  /-- Body of the AL loop after `set_weight(w)`: build `alnlsolver`, `alnl_problem.init(sol)`,
  `tmp_sol = sol`, `alnlsolver.minimize(alnl_problem, tmp_sol)`, `sol = tmp_sol`,
  `nl_problem.full_to_reduced(sol, tmp_sol)`. -/
  al_minimize : ℚ → S → S
  /-- Final solve: build `nlsolver`, `nl_problem.init(sol)`, `nlsolver.minimize(nl_problem, tmp_sol)`,
  `nl_problem.reduced_to_full(tmp_sol, sol)`. -/
  nl_minimize : S → S
  /-- Call `nl_problem.full_to_reduced(sol, tmp_sol)` at the head of a time step. -/
  full_to_reduced : S → S
  /-- End of a time step `t`: `update_quantities((t + 1) * dt, sol)` on both problems and the
  optional export of the frame. -/
  update_quantities : Nat → S → S

/-- The condition of the `while` loop:
`!isfinite(value(tmp_sol)) || !is_step_valid(sol, tmp_sol) || !is_step_collision_free(sol, tmp_sol)`. -/
def needs_al {S : Type} (P : Env S) (s : S) : Bool :=
  !P.value_isfinite s || !P.is_step_valid s || !P.is_step_collision_free s

/-- What a driver leaves behind: the state, the local `al_weight`, and the calls it made. -/
structure Result (S : Type) where
  state : S
  al_weight : ℚ
  trace : List (Event S)
  deriving DecidableEq, Repr

/-- Put events in front of the trace of a result. -/
def Result.prepend {S : Type} (evs : List (Event S)) (r : Result S) : Result S :=
  { r with trace := evs ++ r.trace }

/-- The AL escalation loop shared by both drivers
(`StateSolve.cpp` lines 591-614 and 303-326):
```
while (!isfinite(value) || !is_step_valid || !is_step_collision_free) {
    alnl_problem.set_weight(al_weight);
    ... alnlsolver.minimize(alnl_problem, tmp_sol); sol = tmp_sol; full_to_reduced ...
    al_weight *= 2;
    if (al_weight >= max_al_weight) { logger().error(...); break; }
}
```
-/
def al_loop {S : Type} (P : Env S) (max_al_weight : ℚ) : Nat → S → ℚ → Run (Result S)
  | 0, s, al_weight => Run.out_of_fuel ⟨s, al_weight, []⟩
  | fuel + 1, s, al_weight =>
    if needs_al P s then
      let s1 := P.al_minimize al_weight s
      let w1 := al_weight * 2
      if w1 ≥ max_al_weight then
        Run.done ⟨s1, w1, [Event.set_weight al_weight, Event.al_minimize s,
          Event.log_error w1 max_al_weight]⟩
      else
        (al_loop P max_al_weight fuel s1 w1).map
          (Result.prepend [Event.set_weight al_weight, Event.al_minimize s])
    else
      Run.done ⟨s, al_weight, []⟩

/-- The code after the AL loop of `solve_non_linear` (lines 616-624): the unpenalised solve. -/
def final_solve {S : Type} (P : Env S) (r : Result S) : Result S :=
  ⟨P.nl_minimize r.state, r.al_weight, r.trace ++ [Event.nl_minimize r.state]⟩

/-- Driver `State::solve_non_linear` from line 585 on.  `s0` is the state after `sol.setZero()` and
`nl_problem.full_to_reduced(sol, tmp_sol)`; `al_weight0` is `args["al_weight"]`. -/
def solve_non_linear {S : Type} (P : Env S) (al_weight0 max_al_weight : ℚ) (fuel : Nat) (s0 : S) :
    Run (Result S) :=
  match al_loop P max_al_weight fuel s0 al_weight0 with
  | Run.done r => Run.done (final_solve P r)
  | Run.out_of_fuel r => Run.out_of_fuel r

/-- State of the time loop of `solve_transient_tensor_non_linear`: the program state, the local
`al_weight`, and one trace per time step started so far (oldest first). -/
structure Transient (S : Type) where
  state : S
  al_weight : ℚ
  steps : List (List (Event S))
  deriving DecidableEq, Repr

/-- One pass through the body of `for (int t = 1; t <= time_steps; ++t)` (lines 297-352). -/
def transient_step {S : Type} (P : Env S) (al_weight0 max_al_weight : ℚ) (fuel : Nat) (t : Nat)
    (st : Transient S) : Run (Transient S) :=
  match al_loop P max_al_weight fuel (P.full_to_reduced st.state) st.al_weight with
  | Run.out_of_fuel r => Run.out_of_fuel ⟨r.state, r.al_weight, st.steps ++ [r.trace]⟩
  | Run.done r =>
    let r1 := final_solve P r
    Run.done ⟨P.update_quantities t r1.state, al_weight0,
      st.steps ++ [r1.trace ++ [Event.update_quantities t]]⟩

/-- The time loop, `n` steps starting with step number `t`. -/
def transient_loop {S : Type} (P : Env S) (al_weight0 max_al_weight : ℚ) (fuel : Nat) :
    Nat → Nat → Transient S → Run (Transient S)
  | 0, _, st => Run.done st
  | n + 1, t, st =>
    match transient_step P al_weight0 max_al_weight fuel t st with
    | Run.out_of_fuel st1 => Run.out_of_fuel st1
    | Run.done st1 => transient_loop P al_weight0 max_al_weight fuel n (t + 1) st1

/-- Driver `State::solve_transient_tensor_non_linear` from line 292 on: `al_weight = args["al_weight"]`,
then steps `t = 1 .. time_steps`.  `fuel` bounds each step's AL loop. -/
def solve_transient_tensor_non_linear {S : Type} (P : Env S) (al_weight0 max_al_weight : ℚ)
    (fuel : Nat) (time_steps : Nat) (s0 : S) : Run (Transient S) :=
  transient_loop P al_weight0 max_al_weight fuel time_steps 1 ⟨s0, al_weight0, []⟩

/-- The weights handed to `alnl_problem.set_weight`, in order. -/
def weights {S : Type} : List (Event S) → List ℚ
  | [] => []
  | Event.set_weight w :: tr => w :: weights tr
  | _ :: tr => weights tr

/-- Number of inner AL solves (`alnlsolver.minimize` calls) in a trace. -/
def al_solves {S : Type} : List (Event S) → Nat
  | [] => 0
  | Event.al_minimize _ :: tr => al_solves tr + 1
  | _ :: tr => al_solves tr

/-- Number of unpenalised solves (`nlsolver.minimize` calls) in a trace. -/
def nl_solves {S : Type} : List (Event S) → Nat
  | [] => 0
  | Event.nl_minimize _ :: tr => nl_solves tr + 1
  | _ :: tr => nl_solves tr

/-- Whether the "Unable to solve AL problem" error was logged. -/
def logged_error {S : Type} : List (Event S) → Bool
  | [] => false
  | Event.log_error _ _ :: _ => true
  | _ :: tr => logged_error tr

/-- The configuration reached by `i` rounds of the AL loop from `s` with weight `w`: round `k`
runs the AL solve with weight `w * 2 ^ k` on the configuration left by round `k - 1`. -/
def al_iterate {S : Type} (P : Env S) : Nat → ℚ → S → S
  | 0, _, s => s
  | i + 1, w, s => al_iterate P i (w * 2) (P.al_minimize w s)

/-- A test environment on `S = Nat` in which no configuration ever passes the validity test
(the energy is never finite); each solve bumps the state so that calls can be told apart. -/
def never_valid : Env Nat where
  value_isfinite := fun _ => false
  is_step_valid := fun _ => true
  is_step_collision_free := fun _ => true
  al_minimize := fun _ s => s + 1
  nl_minimize := fun s => s + 100
  full_to_reduced := fun s => s
  update_quantities := fun _ s => s

/-- A test environment on `S = Nat` in which every configuration passes the validity test. -/
def always_valid : Env Nat where
  value_isfinite := fun _ => true
  is_step_valid := fun _ => true
  is_step_collision_free := fun _ => true
  al_minimize := fun _ s => s + 1
  nl_minimize := fun s => s + 100
  full_to_reduced := fun s => s
  update_quantities := fun _ s => s

end StateSolve


namespace StateSolveNonlinear

/-- Configuration vectors and gradients (`Eigen::MatrixXd`, `Eigen::VectorXd`) with exact entries. -/
abbrev Vec := List ℚ

/-- Entrywise difference, as in `prev_sol - sol`. -/
def vec_sub (a b : Vec) : Vec := List.zipWith (fun x y => x - y) a b

/-- The maximum absolute entry, `v.lpNorm<Eigen::Infinity>()`. -/
def lp_norm_infinity (v : Vec) : ℚ := v.foldr (fun x m => max |x| m) 0

/-- Sum of the squared entries, `v.squaredNorm()`. -/
def squared_norm (v : Vec) : ℚ := (v.map fun x => x * x).sum

/-- The test `v.norm() <= tol` in exact arithmetic: the Euclidean norm is a square root, so the
test is decided on the squares (see `norm_le_iff_sqrt`). -/
def norm_le (v : Vec) (tol : ℚ) : Bool := decide (0 ≤ tol ∧ squared_norm v ≤ tol * tol)

/-- The solver object built by `make_nl_solver`: a `SparseNewtonDescentSolver` with the name of
its linear solver, or an `LBFGSSolver`. -/
inductive NLSolver where
  | newton (linear_solver : String)
  | lbfgs
  deriving DecidableEq, Repr

/-- Function `State::make_nl_solver` (lines 41-63).  `name` is `args["solver"]["nonlinear"]["solver"]`,
`configured_linear_solver` is `args["solver"]["linear"]["solver"]`; the error value is the message
of the `std::invalid_argument` that is thrown.  The remaining constructor arguments of the two
solvers (`args["solver"]["nonlinear"]`, the other linear-solver parameters and `dt`) do not
influence which solver is built and are left out. -/
def make_nl_solver (name configured_linear_solver linear_solver_type : String) :
    Except String NLSolver :=
  if name = "newton" ∨ name = "Newton" then
    Except.ok (NLSolver.newton
      (if linear_solver_type ≠ "" then linear_solver_type else configured_linear_solver))
  else if name = "lbfgs" ∨ name = "LBFGS" ∨ name = "L-BFGS" then
    Except.ok NLSolver.lbfgs
  else
    Except.error ("invalid nonlinear solver type: " ++ name)

/-- One entry of the JSON array `stats.solver_info`. -/
structure Record (Info : Type) where
  type : String
  t : Int
  info : Info
  weight : Option ℚ
  lag_i : Option Int
  deriving DecidableEq, Repr

/-- One invocation of `al_solver.post_subsolve` from inside `al_solver.solve`: the weight it is
called with, and `nl_solver->get_info()` and `sol` as they are at that moment. -/
structure Subsolve (Info : Type) where
  al_weight : ℚ
  info : Info
  sol : Vec
  deriving DecidableEq, Repr

/-- What `al_solver.solve(nl_problem, sol, force)` leaves behind: the collaborators' state, the
new `sol`, and the `post_subsolve` invocations it made, in order. -/
structure ALOutcome (W Info : Type) where
  world : W
  sol : Vec
  subsolves : List (Subsolve Info)

/-- The collaborators of `solve_tensor_nonlinear` (`NLProblem`, `ALSolver`, the nonlinear solver,
`solve_data`), none of which is defined in this file of the source.  `W` is their joint mutable
state.  `uses_lagging` and `max_lagging_iterations` are `const` queries of the problem set-up. -/
structure Env (W Info : Type) where
  /-- Query `nl_problem.uses_lagging()` -/
  uses_lagging : Bool
  /-- Query `nl_problem.max_lagging_iterations()` -/
  max_lagging_iterations : Int
  /-- Call `nl_problem.init_lagging(sol)` -/
  init_lagging : W → Vec → W
  /-- Call `al_solver.solve(nl_problem, sol, args[...]["force"])` with the solver built before -/
  al_solve : NLSolver → W → Vec → ALOutcome W Info
  /-- Call `nl_problem.full_to_reduced(sol)` -/
  full_to_reduced : Vec → Vec
  /-- Call `nl_problem.reduced_to_full(tmp_sol)` -/
  reduced_to_full : W → Vec → Vec
  /-- Call `nl_problem.update_lagging(tmp_sol, lag_i)` -/
  update_lagging : W → Vec → Int → W
  /-- Call `nl_problem.gradient(tmp_sol, grad)`: the gradient of the total objective -/
  gradient : W → Vec → Vec
  /-- Call `nl_problem.init(sol)` -/
  init : W → Vec → W
  /-- Call `solve_data.update_barrier_stiffness(sol)` -/
  update_barrier_stiffness : W → Vec → W
  /-- Call `nl_solver->minimize(nl_problem, tmp_sol)`: new state and new `tmp_sol` -/
  minimize : NLSolver → W → Vec → W × Vec
  /-- Query `nl_solver->get_info()` -/
  get_info : W → Info

/-- The entries of `args` read by `solve_tensor_nonlinear` and `make_nl_solver`. -/
structure Config where
  /-- Entry `args["solver"]["nonlinear"]["solver"]` -/
  nonlinear_solver : String
  /-- Entry `args["solver"]["linear"]["solver"]` -/
  linear_solver : String
  /-- Entry `args["solver"]["contact"]["friction_convergence_tol"]`, which may be absent -/
  friction_convergence_tol : Option ℚ
  deriving DecidableEq, Repr

/-- Calls made by `solve_tensor_nonlinear`, in program order, with their arguments. -/
inductive Call where
  | init_lagging (sol : Vec)
  | save_subsolve (i : Nat) (sol : Vec)
  | al_solve (sol : Vec)
  | update_lagging (tmp_sol : Vec) (lag_i : Int)
  | gradient (tmp_sol : Vec)
  | init (sol : Vec)
  | update_barrier_stiffness (sol : Vec)
  | minimize (tmp_sol : Vec)
  deriving DecidableEq, Repr

/-- The variables of `solve_tensor_nonlinear`: the collaborators' state, the in-out argument
`sol`, the locals `prev_sol`, `subsolve_count` and `lagging_converged`, the member
`stats.solver_info`, and the calls made so far. -/
structure State (W Info : Type) where
  world : W
  sol : Vec
  prev_sol : Vec
  subsolve_count : Nat
  solver_info : List (Record Info)
  lagging_converged : Bool
  trace : List Call

/-- The callback `al_solver.post_subsolve` (lines 334-342): push one record, of type "al" with the
weight when `al_weight > 0` and of type "rc" without a weight otherwise, then
`save_subsolve(++subsolve_count, t, sol, ...)`. -/
def post_subsolve {W Info : Type} (t : Int) (st : State W Info) (sub : Subsolve Info) :
    State W Info :=
  let record : Record Info :=
    { type := if sub.al_weight > 0 then "al" else "rc", t := t, info := sub.info,
      weight := none, lag_i := none }
  let record := if sub.al_weight > 0 then { record with weight := some sub.al_weight } else record
  { st with
    solver_info := st.solver_info ++ [record]
    subsolve_count := st.subsolve_count + 1
    trace := st.trace ++ [Call.save_subsolve (st.subsolve_count + 1) sub.sol] }

/-- The tolerance `args["solver"]["contact"].value("friction_convergence_tol", 1e-2)`. -/
def lagging_tol (cfg : Config) : ℚ := cfg.friction_convergence_tol.getD (1 / 100)

/-- The tiny-update threshold `1e-12` of the stagnation test. -/
def tiny_update_tol : ℚ := 1 / 10 ^ 12

/-- One pass through the body of the lagging loop (lines 355-409).  The first component tells
whether the body left the loop through a `break`. -/
def lagging_body {W Info : Type} (P : Env W Info) (cfg : Config) (nl_solver : NLSolver) (t : Int)
    (lag_i : Int) (st : State W Info) : Bool × State W Info :=
  let tmp_sol := P.full_to_reduced st.sol
  -- Update the lagging before checking for convergence
  let world1 := P.update_lagging st.world tmp_sol lag_i
  -- Check if lagging converged
  let grad := P.gradient world1 tmp_sol
  let delta_x_norm := lp_norm_infinity (vec_sub st.prev_sol st.sol)
  let st1 : State W Info :=
    { st with
      world := world1
      trace := st.trace ++ [Call.update_lagging tmp_sol lag_i, Call.gradient tmp_sol] }
  if norm_le grad (lagging_tol cfg) then
    (true, { st1 with lagging_converged := true })
  else if delta_x_norm ≤ tiny_update_tol then
    (true, { st1 with lagging_converged := false })
  else if lag_i ≥ P.max_lagging_iterations then
    (true, { st1 with lagging_converged := false })
  else
    -- Solve the problem with the updated lagging
    let world2 := P.init world1 st.sol
    let world3 := P.update_barrier_stiffness world2 st.sol
    let solved := P.minimize nl_solver world3 tmp_sol
    let sol' := P.reduced_to_full solved.1 solved.2
    let record : Record Info :=
      { type := "rc", t := t, info := P.get_info solved.1, weight := none, lag_i := some lag_i }
    (false,
      { world := solved.1
        sol := sol'
        prev_sol := st.sol
        subsolve_count := st.subsolve_count + 1
        solver_info := st.solver_info ++ [record]
        lagging_converged := st1.lagging_converged
        trace := st1.trace ++ [Call.init st.sol, Call.update_barrier_stiffness st.sol,
          Call.minimize tmp_sol, Call.save_subsolve (st.subsolve_count + 1) sol'] })

/-- The lagging loop `for (int lag_i = 1; !lagging_converged; lag_i++)` from iteration `lag_i` on;
the fuel bounds the number of evaluations of the loop condition. -/
def lagging_loop {W Info : Type} (P : Env W Info) (cfg : Config) (nl_solver : NLSolver) (t : Int) :
    Nat → Int → State W Info → Run (State W Info)
  | 0, _, st => Run.out_of_fuel st
  | fuel + 1, lag_i, st =>
    if !st.lagging_converged then
      match lagging_body P cfg nl_solver t lag_i st with
      | (true, st1) => Run.done st1
      | (false, st1) => lagging_loop P cfg nl_solver t fuel (lag_i + 1) st1
    else
      Run.done st

/-- The part of `solve_tensor_nonlinear` before the solver is built (lines 303-317): the optional
`init_lagging` and the first `save_subsolve`. -/
def before_solve {W Info : Type} (P : Env W Info) (world : W) (solver_info : List (Record Info))
    (sol : Vec) (init_lagging : Bool) : State W Info :=
  let st0 : State W Info :=
    { world := world, sol := sol, prev_sol := sol, subsolve_count := 0,
      solver_info := solver_info, lagging_converged := false, trace := [] }
  let st1 : State W Info :=
    if P.uses_lagging then
      if init_lagging then
        { st0 with world := P.init_lagging world sol, trace := [Call.init_lagging sol] }
      else st0
    else st0
  { st1 with trace := st1.trace ++ [Call.save_subsolve 0 sol] }

/-- The AL solve of lines 344-345 with the effect of its `post_subsolve` callbacks:
`prev_sol = sol; al_solver.solve(nl_problem, sol, force)`. -/
def al_phase {W Info : Type} (P : Env W Info) (nl_solver : NLSolver) (t : Int)
    (st : State W Info) : State W Info :=
  let out := P.al_solve nl_solver st.world st.sol
  let st1 : State W Info :=
    { st with prev_sol := st.sol, trace := st.trace ++ [Call.al_solve st.sol] }
  let st2 := out.subsolves.foldl (post_subsolve t) st1
  { st2 with world := out.world, sol := out.sol }

/-- Driver `State::solve_tensor_nonlinear(sol, t, init_lagging)` (lines 296-410).  The error value holds
the message of the exception of `make_nl_solver` and the state at the throw. -/
def solve_tensor_nonlinear {W Info : Type} (P : Env W Info) (cfg : Config) (fuel : Nat)
    (world : W) (solver_info : List (Record Info)) (sol : Vec) (t : Int) (init_lagging : Bool) :
    Except (String × State W Info) (Run (State W Info)) :=
  let st1 := before_solve P world solver_info sol init_lagging
  match make_nl_solver cfg.nonlinear_solver cfg.linear_solver "" with
  | Except.error msg => Except.error (msg, st1)
  | Except.ok nl_solver =>
    let st2 := al_phase P nl_solver t st1
    -- Lagging loop (start at 1 because we already did an iteration above)
    let st3 := { st2 with lagging_converged := !P.uses_lagging }
    Except.ok (lagging_loop P cfg nl_solver t fuel 1 st3)

/-- Number of `nl_solver->minimize` calls made by `solve_tensor_nonlinear` itself. -/
def minimize_calls : List Call → Nat
  | [] => 0
  | Call.minimize _ :: tr => minimize_calls tr + 1
  | _ :: tr => minimize_calls tr

/-- Number of `al_solver.solve` calls. -/
def al_solve_calls : List Call → Nat
  | [] => 0
  | Call.al_solve _ :: tr => al_solve_calls tr + 1
  | _ :: tr => al_solve_calls tr

/-- Number of `init_lagging` and `update_lagging` calls. -/
def lagging_calls : List Call → Nat
  | [] => 0
  | Call.init_lagging _ :: tr => lagging_calls tr + 1
  | Call.update_lagging _ _ :: tr => lagging_calls tr + 1
  | _ :: tr => lagging_calls tr

/-- A test set-up on `W = Nat` (the number of solves made so far) with one degree of freedom:
every solve adds `step` to the solution, the gradient of the total objective is `[g]`, and the
AL solve reports one subsolve with weight 0. -/
def test_env (lagging : Bool) (max_iter : Int) (g step : ℚ) : Env Nat Nat where
  uses_lagging := lagging
  max_lagging_iterations := max_iter
  init_lagging := fun w _ => w
  al_solve := fun _ w sol =>
    { world := w + 1, sol := sol.map (· + step),
      subsolves := [{ al_weight := 0, info := w + 1, sol := sol.map (· + step) }] }
  full_to_reduced := fun v => v
  reduced_to_full := fun _ v => v
  update_lagging := fun w _ _ => w
  gradient := fun _ _ => [g]
  init := fun w _ => w
  update_barrier_stiffness := fun w _ => w
  minimize := fun _ w v => (w + 1, v.map (· + step))
  get_info := fun w => w

/-- A configuration selecting the Newton solver and leaving the lagging tolerance at its default. -/
def test_config : Config :=
  { nonlinear_solver := "newton", linear_solver := "Eigen::SimplicialLDLT",
    friction_convergence_tol := none }

/-- A state at the head of the lagging loop for the tests: one degree of freedom, `sol` and
`prev_sol` both `[0]`, nothing recorded yet. -/
def test_state : State Nat Nat :=
  { world := 0, sol := [0], prev_sol := [0], subsolve_count := 0, solver_info := [],
    lagging_converged := false, trace := [] }

end StateSolveNonlinear

namespace StateSolveNonlinear

/-- Where a run of `solve_tensor_nonlinear` stands with respect to the lagging state: nothing
done yet; `init_lagging` called and no solve made; a solve just ended and the lagging state not
refreshed since; the lagging state refreshed once since the last solve. -/
inductive Phase where
  | start
  | initialised
  | solved
  | refreshed
  deriving DecidableEq, Repr

/-- The discipline on lagging calls, as a checker on the calls of a run: `init_lagging` only as
the very first lagging or solve call, one `al_solver.solve` before any other solve, exactly one
`update_lagging` between two consecutive solves, and a `minimize` only after such a refresh.
The other calls do not touch the lagging state and are allowed anywhere. -/
def discipline_step : Phase → Call → Option Phase
  | Phase.start, Call.init_lagging _ => some Phase.initialised
  | _, Call.init_lagging _ => none
  | Phase.start, Call.al_solve _ => some Phase.solved
  | Phase.initialised, Call.al_solve _ => some Phase.solved
  | _, Call.al_solve _ => none
  | Phase.solved, Call.update_lagging _ _ => some Phase.refreshed
  | _, Call.update_lagging _ _ => none
  | Phase.refreshed, Call.minimize _ => some Phase.solved
  | _, Call.minimize _ => none
  | p, _ => some p

/-- Run the checker `discipline_step` over a list of calls; `none` means a violation. -/
def discipline : Phase → List Call → Option Phase
  | p, [] => some p
  | p, c :: tr =>
    match discipline_step p c with
    | none => none
    | some q => discipline q tr

end StateSolveNonlinear

namespace StateSolveNonlinear

/-- What `mesh::remesh(*this, sol, time, dt)` leaves behind. -/
structure RemeshOutcome (W : Type) where
  success : Bool
  world : W
  sol : Vec

/-- The collaborators of `init_nonlinear_tensor_solve` and of the time loop of
`solve_transient_tensor_nonlinear`, acting on the same state `W` as `Env`. -/
structure SetupEnv (W : Type) where
  /-- Query `is_contact_enabled()` -/
  is_contact_enabled : Bool
  /-- Test `ipc::has_intersections(collision_mesh, displaced)` on the vertices displaced by `sol` -/
  has_intersections : W → Vec → Bool
  /-- Query `problem->is_time_dependent()` -/
  is_time_dependent : Bool
  /-- Lines 224-233: construct the time integrator and `init` it with `sol`, the initial
  velocity and acceleration, and `dt` -/
  construct_time_integrator : W → Vec → W
  /-- Line 239: `solve_data.time_integrator = nullptr` -/
  reset_time_integrator : W → W
  /-- Lines 245-281: `solve_data.init_forms(...)` at time `t` and the settings of the forms -/
  init_forms : W → ℚ → Vec → W
  /-- Lines 286-289: build `solve_data.nl_problem` for time `t` -/
  make_nl_problem : W → ℚ → W
  /-- Call `solve_data.time_integrator->update_quantities(sol)` -/
  time_integrator_update_quantities : W → Vec → W
  /-- Call `solve_data.nl_problem->update_quantities(time, sol)` -/
  nl_problem_update_quantities : W → ℚ → Vec → W
  /-- Call `solve_data.update_dt()` -/
  update_dt : W → W
  /-- Call `mesh::remesh(*this, sol, time, dt)` -/
  remesh : W → Vec → ℚ → ℚ → RemeshOutcome W

/-- Calls made by `init_nonlinear_tensor_solve`, in program order. -/
inductive SetupCall where
  | write_intersection_obj
  | construct_time_integrator
  | reset_time_integrator
  | init_forms
  | make_nl_problem
  deriving DecidableEq, Repr

/-- What `init_nonlinear_tensor_solve` acts on: the collaborators' state (time integrator, forms,
`solve_data.nl_problem`), `stats.solver_info`, and the calls made. -/
structure Setup (W Info : Type) where
  world : W
  solver_info : List (Record Info)
  calls : List SetupCall

/-- Function `State::init_nonlinear_tensor_solve(sol, t, init_time_integrator)` (lines 193-294).
The error value holds the message of `log_and_throw_error` and the state at the throw. -/
def init_nonlinear_tensor_solve {W Info : Type} (E : SetupEnv W) (world : W)
    (solver_info : List (Record Info)) (sol : Vec) (t : ℚ) (init_time_integrator : Bool) :
    Except (String × Setup W Info) (Setup W Info) :=
  -- Check for initial intersections
  let intersecting := if E.is_contact_enabled then E.has_intersections world sol else false
  if intersecting then
    Except.error ("Unable to solve, initial solution has intersections!",
      { world := world, solver_info := solver_info, calls := [SetupCall.write_intersection_obj] })
  else
    -- Initialize time integrator
    let st1 : Setup W Info :=
      if E.is_time_dependent then
        if init_time_integrator then
          { world := E.construct_time_integrator world sol, solver_info := solver_info,
            calls := [SetupCall.construct_time_integrator] }
        else
          { world := world, solver_info := solver_info, calls := [] }
      else
        { world := E.reset_time_integrator world, solver_info := solver_info,
          calls := [SetupCall.reset_time_integrator] }
    -- Initialize forms
    let world2 := E.init_forms st1.world t sol
    -- Initialize nonlinear problems
    let world3 := E.make_nl_problem world2 t
    -- stats.solver_info = json::array()
    Except.ok { world := world3, solver_info := [],
                calls := st1.calls ++ [SetupCall.init_forms, SetupCall.make_nl_problem] }

/-- The entries of `args` and the build option read by the time loop. -/
structure TransientConfig where
  /-- Entry `args["space"]["remesh"]["enabled"]` -/
  remesh_enabled : Bool
  /-- Whether `POLYFEM_WITH_REMESHING` is defined in the build -/
  with_remeshing : Bool
  /-- Entry `args["output"]["data"]["rest_mesh"]` -/
  rest_mesh_path : String
  deriving DecidableEq, Repr

/-- Calls made by one time step of `solve_transient_tensor_nonlinear`, in program order. -/
inductive StepCall where
  | save_timestep (time : ℚ) (save_i : Nat)
  | solve_tensor_nonlinear (t : Int) (init_lagging : Bool)
  | inner (c : Call)
  | save_energy (save_i : Nat)
  | remesh (time : ℚ)
  | update_quantities (sol : Vec)
  | nl_problem_update_quantities (time : ℚ) (sol : Vec)
  | update_dt
  | update_barrier_stiffness (sol : Vec)
  | write_rest_mesh (t : Int)
  | save_raw (t : Int)
  | save_restart_json (t : Int)
  | save_stats (t : Int)
  deriving DecidableEq, Repr

/-- The variables of the time loop inside one step, with the calls of that step. -/
structure StepState (W Info : Type) where
  world : W
  sol : Vec
  solver_info : List (Record Info)
  save_i : Nat
  calls : List StepCall

/-- A call `solve_tensor_nonlinear(sol, t, init_lagging)` from the time loop: its calls are
recorded as `inner` calls after the call itself. -/
def call_solve {W Info : Type} (P : Env W Info) (cfg : Config) (fuel : Nat) (t : Int)
    (init_lagging : Bool) (s : StepState W Info) :
    Except (String × StepState W Info) (Run (StepState W Info)) :=
  let absorb := fun (st : State W Info) =>
    ({ world := st.world, sol := st.sol, solver_info := st.solver_info, save_i := s.save_i,
       calls := s.calls ++ StepCall.solve_tensor_nonlinear t init_lagging
         :: st.trace.map StepCall.inner } : StepState W Info)
  match solve_tensor_nonlinear P cfg fuel s.world s.solver_info s.sol t init_lagging with
  | Except.error (msg, st) => Except.error (msg, absorb st)
  | Except.ok (Run.out_of_fuel st) => Except.ok (Run.out_of_fuel (absorb st))
  | Except.ok (Run.done st) => Except.ok (Run.done (absorb st))

/-- The pair `save_energy(save_i); save_timestep(time, save_i++, ...)`. -/
def save_frame {W Info : Type} (time : ℚ) (s : StepState W Info) : StepState W Info :=
  { s with
    save_i := s.save_i + 1
    calls := s.calls ++ [StepCall.save_energy s.save_i, StepCall.save_timestep time s.save_i] }

/-- The block under `#ifdef POLYFEM_WITH_REMESHING` (lines 132-156). -/
def remesh_part {W Info : Type} (P : Env W Info) (E : SetupEnv W) (cfg : Config)
    (tc : TransientConfig) (fuel : Nat) (t0 dt : ℚ) (t : Int) (s : StepState W Info) :
    Except (String × StepState W Info) (Run (StepState W Info)) :=
  if tc.with_remeshing && tc.remesh_enabled then
    let out := E.remesh s.world s.sol (t0 + dt * t) dt
    -- Save the solution after remeshing
    let s1 := save_frame (t0 + dt * t)
      { s with world := out.world, sol := out.sol,
               calls := s.calls ++ [StepCall.remesh (t0 + dt * t)] }
    -- Only do global relaxation if remeshing was successful
    if out.success then
      match call_solve P cfg fuel t false s1 with
      | Except.ok (Run.done s2) => Except.ok (Run.done (save_frame (t0 + dt * t) s2))
      | other => other
    else
      Except.ok (Run.done (save_frame (t0 + dt * t) s1))
  else
    Except.ok (Run.done s)

/-- The calls that close time step `t` (lines 158-189), from "Update quantities" on. -/
def closing_calls (tc : TransientConfig) (t0 dt : ℚ) (t : Int) (sol : Vec) : List StepCall :=
  [StepCall.update_quantities sol,
    StepCall.nl_problem_update_quantities (t0 + (t + 1) * dt) sol,
    StepCall.update_dt,
    StepCall.update_barrier_stiffness sol]
  ++ (if tc.remesh_enabled && tc.rest_mesh_path ≠ "" then [StepCall.write_rest_mesh t] else [])
  ++ [StepCall.save_raw t, StepCall.save_restart_json t, StepCall.save_stats t]

/-- The end of time step `t` (lines 158-189). -/
def finish_step {W Info : Type} (P : Env W Info) (E : SetupEnv W) (tc : TransientConfig)
    (t0 dt : ℚ) (t : Int) (s : StepState W Info) : StepState W Info :=
  let world1 := E.time_integrator_update_quantities s.world s.sol
  let world2 := E.nl_problem_update_quantities world1 (t0 + (t + 1) * dt) s.sol
  let world3 := E.update_dt world2
  let world4 := P.update_barrier_stiffness world3 s.sol
  { s with world := world4, calls := s.calls ++ closing_calls tc t0 dt t s.sol }

/-- One pass through the body of `for (int t = 1; t <= time_steps; ++t)` (lines 119-190). -/
def time_step {W Info : Type} (P : Env W Info) (E : SetupEnv W) (cfg : Config)
    (tc : TransientConfig) (fuel : Nat) (t0 dt : ℚ) (t : Int) (s : StepState W Info) :
    Except (String × StepState W Info) (Run (StepState W Info)) :=
  match call_solve P cfg fuel t true s with
  | Except.ok (Run.done s1) =>
    match remesh_part P E cfg tc fuel t0 dt t (save_frame (t0 + dt * t) s1) with
    | Except.ok (Run.done s2) => Except.ok (Run.done (finish_step P E tc t0 dt t s2))
    | other => other
  | other => other

/-- The variables of `solve_transient_tensor_nonlinear` between steps, with the calls made
before the loop and one list of calls per time step started so far (oldest first). -/
structure Timeline (W Info : Type) where
  world : W
  sol : Vec
  solver_info : List (Record Info)
  save_i : Nat
  prelude : List StepCall
  steps : List (List StepCall)

/-- The state of the time loop after a step that started from `tl` and ended in `s`. -/
def Timeline.commit {W Info : Type} (tl : Timeline W Info) (s : StepState W Info) :
    Timeline W Info :=
  { tl with world := s.world, sol := s.sol, solver_info := s.solver_info, save_i := s.save_i,
            steps := tl.steps ++ [s.calls] }

/-- The time loop: `n` further steps, the next one with step number `t`. -/
def time_loop {W Info : Type} (P : Env W Info) (E : SetupEnv W) (cfg : Config)
    (tc : TransientConfig) (fuel : Nat) (t0 dt : ℚ) :
    Nat → Int → Timeline W Info → Except (String × Timeline W Info) (Run (Timeline W Info))
  | 0, _, tl => Except.ok (Run.done tl)
  | n + 1, t, tl =>
    match time_step P E cfg tc fuel t0 dt t
        { world := tl.world, sol := tl.sol, solver_info := tl.solver_info, save_i := tl.save_i,
          calls := [] } with
    | Except.error (msg, s) => Except.error (msg, tl.commit s)
    | Except.ok (Run.out_of_fuel s) => Except.ok (Run.out_of_fuel (tl.commit s))
    | Except.ok (Run.done s) => time_loop P E cfg tc fuel t0 dt n (t + 1) (tl.commit s)

/-- Driver `State::solve_transient_tensor_nonlinear(time_steps, t0, dt, sol)` (lines 65-191):
`init_nonlinear_tensor_solve(sol, t0 + dt)` with the time integrator initialised, the first
`save_timestep`, then the steps `t = 1 .. time_steps`. -/
def solve_transient_tensor_nonlinear {W Info : Type} (P : Env W Info) (E : SetupEnv W)
    (cfg : Config) (tc : TransientConfig) (fuel : Nat) (time_steps : Int) (t0 dt : ℚ)
    (world : W) (solver_info : List (Record Info)) (sol : Vec) :
    Except (String × Timeline W Info) (Run (Timeline W Info)) :=
  match init_nonlinear_tensor_solve E world solver_info sol (t0 + dt) true with
  | Except.error (msg, st) =>
    Except.error (msg, { world := st.world, sol := sol, solver_info := st.solver_info,
                         save_i := 0, prelude := [], steps := [] })
  | Except.ok st =>
    time_loop P E cfg tc fuel t0 dt time_steps.toNat 1
      { world := st.world, sol := sol, solver_info := st.solver_info, save_i := 1,
        prelude := [StepCall.save_timestep t0 0], steps := [] }

/-- Whether a call belongs to the solve phase of a step: the solves themselves, the frames saved
around them and the remeshing. -/
def StepCall.in_solve_phase : StepCall → Bool
  | StepCall.solve_tensor_nonlinear _ _ => true
  | StepCall.inner _ => true
  | StepCall.save_energy _ => true
  | StepCall.save_timestep _ _ => true
  | StepCall.remesh _ => true
  | _ => false

/-- Whether a call only writes output at the end of a step. -/
def StepCall.is_output : StepCall → Bool
  | StepCall.write_rest_mesh _ => true
  | StepCall.save_raw _ => true
  | StepCall.save_restart_json _ => true
  | StepCall.save_stats _ => true
  | _ => false

/-- Whether a call is `solve_data.time_integrator->update_quantities(sol)`. -/
def StepCall.is_update_quantities : StepCall → Bool
  | StepCall.update_quantities _ => true
  | _ => false

/-- A test set-up for the time loop on `W = Nat`: contact enabled, intersections exactly when the
first entry of `sol` is `-1`, every collaborator leaving the state alone. -/
def test_setup : SetupEnv Nat where
  is_contact_enabled := true
  has_intersections := fun _ sol => decide (sol.head? = some (-1))
  is_time_dependent := true
  construct_time_integrator := fun w _ => w
  reset_time_integrator := fun w => w
  init_forms := fun w _ _ => w
  make_nl_problem := fun w _ => w
  time_integrator_update_quantities := fun w _ => w
  nl_problem_update_quantities := fun w _ _ => w
  update_dt := fun w => w
  remesh := fun w sol _ _ => { success := true, world := w, sol := sol }

/-- A time-loop configuration without remeshing. -/
def test_transient_config : TransientConfig :=
  { remesh_enabled := false, with_remeshing := false, rest_mesh_path := "" }

end StateSolveNonlinear

namespace ElasticityUtils

/-- Result of an autodiff evaluation with a statically sized gradient,
`DScalar1<double, Eigen::Matrix<double, n, 1>>`. -/
structure DScalar1 (n : Nat) where
  value : ℚ
  gradient : Fin n → ℚ

/-- Result of an autodiff evaluation with a dynamically sized gradient,
`DScalar1<double, Eigen::VectorXd>`. -/
structure DScalar1Dyn where
  value : ℚ
  gradient : List ℚ

/-- A dense matrix with run-time dimensions, `Eigen::MatrixXd`. -/
structure MatrixXd where
  rows : Nat
  cols : Nat
  coeff : Fin rows → Fin cols → ℚ

/-- The number of coefficients, `m.size()`. -/
def MatrixXd.size (m : MatrixXd) : Nat := m.rows * m.cols

/-- The default-constructed matrix `Eigen::MatrixXd hessian;`, of size 0. -/
def MatrixXd.empty : MatrixXd := { rows := 0, cols := 0, coeff := fun i => i.elim0 }

/-- Result of an autodiff evaluation with statically sized gradient and Hessian,
`DScalar2<double, Eigen::Matrix<double, n, 1>, Eigen::Matrix<double, n, n>>`. -/
structure DScalar2 (n : Nat) where
  value : ℚ
  gradient : Fin n → ℚ
  hessian : Fin n → Fin n → ℚ

/-- Result of an autodiff evaluation with dynamically sized gradient and Hessian,
`DScalar2<double, Eigen::VectorXd, Eigen::MatrixXd>`. -/
structure DScalar2Dyn where
  value : ℚ
  gradient : List ℚ
  hessian : MatrixXd

/-- The evaluators a caller passes to `gradient_from_energy` or `hessian_from_energy`, by name. -/
inductive Evaluator where
  | fun6
  | fun8
  | fun12
  | fun18
  | fun24
  | fun30
  | fun81
  | funn
  deriving DecidableEq, Repr

/-- The eight evaluators passed to `gradient_from_energy`; `A` stands for the arguments
`(vals, displacement, da)` they are all called with. -/
structure GradientEvaluators (A : Type) where
  fun6 : A → DScalar1 6
  fun8 : A → DScalar1 8
  fun12 : A → DScalar1 12
  fun18 : A → DScalar1 18
  fun24 : A → DScalar1 24
  fun30 : A → DScalar1 30
  fun81 : A → DScalar1 81
  funn : A → DScalar1Dyn

/-- The seven evaluators passed to `hessian_from_energy` (its `fun81` parameter is commented
out in the source). -/
structure HessianEvaluators (A : Type) where
  fun6 : A → DScalar2 6
  fun8 : A → DScalar2 8
  fun12 : A → DScalar2 12
  fun18 : A → DScalar2 18
  fun24 : A → DScalar2 24
  fun30 : A → DScalar2 30
  funn : A → DScalar2Dyn

/-- The assignment `grad = auto_diff_energy.getGradient()` of a fixed-size vector to the
`Eigen::VectorXd grad`. -/
def to_vector {n : Nat} (g : Fin n → ℚ) : List ℚ := List.ofFn g

/-- The assignment `hessian = auto_diff_energy.getHessian()` of a fixed-size matrix to the
`Eigen::MatrixXd hessian`. -/
def to_matrix {n : Nat} (h : Fin n → Fin n → ℚ) : MatrixXd := { rows := n, cols := n, coeff := h }

/-- The warning printed to `std::cout`. -/
def warning (n_bases : Int) : String := "[Warning] " ++ toString n_bases ++ " not using static sizes"

/-- What a call of `gradient_from_energy` produces: the returned vector, the evaluators it
called, what it printed, and the function-local `static bool show_message` after the call. -/
structure GradientResult where
  grad : List ℚ
  called : List Evaluator
  printed : List String
  show_message : Bool

/-- Function `gradient_from_energy` (lines 6-113).  `show_message` is the value of the
function-local static flag before the call. -/
def gradient_from_energy {A : Type} (size n_bases : Int) (a : A) (E : GradientEvaluators A)
    (show_message : Bool) : GradientResult :=
  -- Eigen::VectorXd grad; switch(size) ...
  let switched : List ℚ × List Evaluator :=
    if size = 2 then
      if n_bases = 3 then (to_vector (E.fun6 a).gradient, [Evaluator.fun6])
      else if n_bases = 6 then (to_vector (E.fun12 a).gradient, [Evaluator.fun12])
      else if n_bases = 4 then (to_vector (E.fun8 a).gradient, [Evaluator.fun8])
      else if n_bases = 9 then (to_vector (E.fun18 a).gradient, [Evaluator.fun18])
      else ([], [])
    else if size = 3 then
      if n_bases = 4 then (to_vector (E.fun12 a).gradient, [Evaluator.fun12])
      else if n_bases = 10 then (to_vector (E.fun30 a).gradient, [Evaluator.fun30])
      else if n_bases = 8 then (to_vector (E.fun24 a).gradient, [Evaluator.fun24])
      else if n_bases = 27 then (to_vector (E.fun81 a).gradient, [Evaluator.fun81])
      else ([], [])
    else ([], [])
  if switched.1.length ≤ 0 then
    { grad := (E.funn a).gradient
      called := switched.2 ++ [Evaluator.funn]
      printed := if show_message then [warning n_bases] else []
      show_message := if show_message then false else show_message }
  else
    { grad := switched.1, called := switched.2, printed := [], show_message := show_message }

/-- What a call of `hessian_from_energy` produces: the returned matrix, the evaluators it
called, what it printed, and its own function-local `static bool show_message` after the call. -/
structure HessianResult where
  hessian : MatrixXd
  called : List Evaluator
  printed : List String
  show_message : Bool

/-- Function `hessian_from_energy` (lines 116-226).  `show_message` is the value of the
function-local static flag before the call. -/
def hessian_from_energy {A : Type} (size n_bases : Int) (a : A) (E : HessianEvaluators A)
    (show_message : Bool) : HessianResult :=
  -- Eigen::MatrixXd hessian; switch(size) ...
  let switched : MatrixXd × List Evaluator :=
    if size = 2 then
      if n_bases = 3 then (to_matrix (E.fun6 a).hessian, [Evaluator.fun6])
      else if n_bases = 6 then (to_matrix (E.fun12 a).hessian, [Evaluator.fun12])
      else if n_bases = 4 then (to_matrix (E.fun8 a).hessian, [Evaluator.fun8])
      else if n_bases = 9 then (to_matrix (E.fun18 a).hessian, [Evaluator.fun18])
      else (MatrixXd.empty, [])
    else if size = 3 then
      if n_bases = 4 then (to_matrix (E.fun12 a).hessian, [Evaluator.fun12])
      else if n_bases = 10 then (to_matrix (E.fun30 a).hessian, [Evaluator.fun30])
      else if n_bases = 8 then (to_matrix (E.fun24 a).hessian, [Evaluator.fun24])
      else (MatrixXd.empty, [])
    else (MatrixXd.empty, [])
  if switched.1.size ≤ 0 then
    { hessian := (E.funn a).hessian
      called := switched.2 ++ [Evaluator.funn]
      printed := if show_message then [warning n_bases] else []
      show_message := if show_message then false else show_message }
  else
    { hessian := switched.1, called := switched.2, printed := [], show_message := show_message }

/-- The selection stated for `gradient_from_energy`, as a table: the eight standard elements
`(size, n_bases)` with the statically sized evaluator each one is given. -/
def standard_elements : List (Int × Int × Evaluator) :=
  [(2, 3, Evaluator.fun6), (2, 4, Evaluator.fun8), (2, 6, Evaluator.fun12),
   (2, 9, Evaluator.fun18), (3, 4, Evaluator.fun12), (3, 8, Evaluator.fun24),
   (3, 10, Evaluator.fun30), (3, 27, Evaluator.fun81)]

/-- The evaluator stated for `(size, n_bases)`: the one of the table, else the generic `funn`. -/
def stated_evaluator (size n_bases : Int) : Evaluator :=
  match standard_elements.find? (fun e => decide (size = e.1 ∧ n_bases = e.2.1)) with
  | some e => e.2.2
  | none => Evaluator.funn

/-- The dimension of a statically sized evaluator; the generic one has none. -/
def Evaluator.dimension : Evaluator → Option Int
  | Evaluator.fun6 => some 6
  | Evaluator.fun8 => some 8
  | Evaluator.fun12 => some 12
  | Evaluator.fun18 => some 18
  | Evaluator.fun24 => some 24
  | Evaluator.fun30 => some 30
  | Evaluator.fun81 => some 81
  | Evaluator.funn => none

/-- The gradient an evaluator of `gradient_from_energy` yields, as a dynamic vector. -/
def gradient_of {A : Type} (E : GradientEvaluators A) (a : A) : Evaluator → List ℚ
  | Evaluator.fun6 => to_vector (E.fun6 a).gradient
  | Evaluator.fun8 => to_vector (E.fun8 a).gradient
  | Evaluator.fun12 => to_vector (E.fun12 a).gradient
  | Evaluator.fun18 => to_vector (E.fun18 a).gradient
  | Evaluator.fun24 => to_vector (E.fun24 a).gradient
  | Evaluator.fun30 => to_vector (E.fun30 a).gradient
  | Evaluator.fun81 => to_vector (E.fun81 a).gradient
  | Evaluator.funn => (E.funn a).gradient

/-- The Hessian an evaluator of `hessian_from_energy` yields, as a dynamic matrix; there is no
evaluator `fun81` for the Hessian. -/
def hessian_of {A : Type} (E : HessianEvaluators A) (a : A) : Evaluator → Option MatrixXd
  | Evaluator.fun6 => some (to_matrix (E.fun6 a).hessian)
  | Evaluator.fun8 => some (to_matrix (E.fun8 a).hessian)
  | Evaluator.fun12 => some (to_matrix (E.fun12 a).hessian)
  | Evaluator.fun18 => some (to_matrix (E.fun18 a).hessian)
  | Evaluator.fun24 => some (to_matrix (E.fun24 a).hessian)
  | Evaluator.fun30 => some (to_matrix (E.fun30 a).hessian)
  | Evaluator.fun81 => none
  | Evaluator.funn => some (E.funn a).hessian

/-- Test evaluators on `A = Unit`: the evaluator of dimension `n` yields the constant gradient
`n`, the generic one the gradient `[0]`. -/
def test_gradient_evaluators : GradientEvaluators Unit where
  fun6 := fun _ => { value := 0, gradient := fun _ => 6 }
  fun8 := fun _ => { value := 0, gradient := fun _ => 8 }
  fun12 := fun _ => { value := 0, gradient := fun _ => 12 }
  fun18 := fun _ => { value := 0, gradient := fun _ => 18 }
  fun24 := fun _ => { value := 0, gradient := fun _ => 24 }
  fun30 := fun _ => { value := 0, gradient := fun _ => 30 }
  fun81 := fun _ => { value := 0, gradient := fun _ => 81 }
  funn := fun _ => { value := 0, gradient := [0] }

/-- Test evaluators on `A = Unit` for the Hessian: constant Hessians, the generic one `1 x 1`. -/
def test_hessian_evaluators : HessianEvaluators Unit where
  fun6 := fun _ => { value := 0, gradient := fun _ => 6, hessian := fun _ _ => 6 }
  fun8 := fun _ => { value := 0, gradient := fun _ => 8, hessian := fun _ _ => 8 }
  fun12 := fun _ => { value := 0, gradient := fun _ => 12, hessian := fun _ _ => 12 }
  fun18 := fun _ => { value := 0, gradient := fun _ => 18, hessian := fun _ _ => 18 }
  fun24 := fun _ => { value := 0, gradient := fun _ => 24, hessian := fun _ _ => 24 }
  fun30 := fun _ => { value := 0, gradient := fun _ => 30, hessian := fun _ _ => 30 }
  funn := fun _ => { value := 0, gradient := [0],
                     hessian := { rows := 1, cols := 1, coeff := fun _ _ => 0 } }

end ElasticityUtils

namespace ElasticityUtils

/-- A sequence of calls of `gradient_from_energy` in one process: the function-local static flag
`show_message` left by one call is the flag the next call starts with.  A call is given by its
`size`, `n_bases` and remaining arguments. -/
def gradient_calls {A : Type} (E : GradientEvaluators A) :
    Bool → List (Int × Int × A) → List GradientResult
  | _, [] => []
  | show_message, (size, n_bases, a) :: rest =>
    let r := gradient_from_energy size n_bases a E show_message
    r :: gradient_calls E r.show_message rest

/-- A sequence of calls of `hessian_from_energy` in one process, threading its own static flag. -/
def hessian_calls {A : Type} (E : HessianEvaluators A) :
    Bool → List (Int × Int × A) → List HessianResult
  | _, [] => []
  | show_message, (size, n_bases, a) :: rest =>
    let r := hessian_from_energy size n_bases a E show_message
    r :: hessian_calls E r.show_message rest

end ElasticityUtils

namespace ElasticityUtils

/-- Class `ElasticityTensor`: the upper triangle of the symmetric stiffness matrix in Voigt form,
stored row by row in the column vector `stifness_tensor_`, and the dimension `size_`. -/
structure ElasticityTensor where
  stifness_tensor_ : List ℚ
  size_ : Int

/-- Method `ElasticityTensor::resize` (lines 246-256): 6 entries for size 2, 21 otherwise, all
set to zero. -/
def ElasticityTensor.resize (size : Int) : ElasticityTensor :=
  { stifness_tensor_ := List.replicate (if size = 2 then 6 else 21) 0, size_ := size }

/-- The storage slot computed by both overloads of `ElasticityTensor::operator()`
(lines 258-298): the indices are ordered, the five assertions on them are checked, then
`index = n * i + j - i * (i + 1) / 2` (an `int` division, which truncates) and the assertion
`index < stifness_tensor_.size()`.  A failing assertion gives `none`. -/
def ElasticityTensor.index (t : ElasticityTensor) (i j : Int) : Option Int :=
  -- if(j < i) { int tmp=i; i = j; j = tmp; }
  let ij : Int × Int := if j < i then (j, i) else (i, j)
  let i := ij.1
  let j := ij.2
  if ¬ (j ≥ i) then none else
  let n : Int := if t.size_ = 2 then 3 else 6
  if ¬ (i < n) then none else
  if ¬ (j < n) then none else
  if ¬ (i ≥ 0) then none else
  if ¬ (j ≥ 0) then none else
  let index : Int := n * i + j - Int.tdiv (i * (i + 1)) 2
  if ¬ (index < (t.stifness_tensor_.length : Int)) then none else
  some index

/-- Coefficient access `stifness_tensor_(index)` of the Eigen vector, range checked. -/
def ElasticityTensor.coeff (t : ElasticityTensor) (index : Int) : Option ℚ :=
  if 0 ≤ index then t.stifness_tensor_[index.toNat]? else none

/-- Method `double ElasticityTensor::operator()(int i, int j) const` (lines 258-277). -/
def ElasticityTensor.get (t : ElasticityTensor) (i j : Int) : Option ℚ :=
  match t.index i j with
  | none => none
  | some index => t.coeff index

/-- An assignment `(*this)(i, j) = v` through `double &ElasticityTensor::operator()(int i, int j)`
(lines 279-298). -/
def ElasticityTensor.assign (t : ElasticityTensor) (i j : Int) (v : ℚ) :
    Option ElasticityTensor :=
  match t.index i j with
  | none => none
  | some index =>
    if 0 ≤ index ∧ index.toNat < t.stifness_tensor_.length then
      some { t with stifness_tensor_ := t.stifness_tensor_.set index.toNat v }
    else none

/-- A sequence of assignments `(*this)(i, j) = v`, in order. -/
def ElasticityTensor.assign_all (t : ElasticityTensor) (entries : List (Int × Int × ℚ)) :
    Option ElasticityTensor :=
  entries.foldlM (fun t e => t.assign e.1 e.2.1 e.2.2) t

/-- Method `ElasticityTensor::set_from_lambda_mu` (lines 351-394). -/
def ElasticityTensor.set_from_lambda_mu (t : ElasticityTensor) (lambda mu : ℚ) :
    Option ElasticityTensor :=
  if t.size_ = 2 then
    t.assign_all
      [(0, 0, 2 * mu + lambda), (0, 1, lambda), (0, 2, 0),
       (1, 1, 2 * mu + lambda), (1, 2, 0),
       (2, 2, mu)]
  else
    t.assign_all
      [(0, 0, 2 * mu + lambda), (0, 1, lambda), (0, 2, lambda), (0, 3, 0), (0, 4, 0), (0, 5, 0),
       (1, 1, 2 * mu + lambda), (1, 2, lambda), (1, 3, 0), (1, 4, 0), (1, 5, 0),
       (2, 2, 2 * mu + lambda), (2, 3, 0), (2, 4, 0), (2, 5, 0),
       (3, 3, mu), (3, 4, 0), (3, 5, 0),
       (4, 4, mu), (4, 5, 0),
       (5, 5, mu)]

/-- Method `ElasticityTensor::compute_stress<DIM>` (lines 396-405):
`res = 0; for k < DIM: res += (*this)(j, k) * strain[k]`. -/
def ElasticityTensor.compute_stress (t : ElasticityTensor) (DIM : Nat) (strain : Fin DIM → ℚ)
    (j : Int) : Option ℚ :=
  (List.finRange DIM).foldlM
    (fun res k => match t.get j (k.val : Int) with
      | none => none
      | some c => some (res + c * strain k)) 0

end ElasticityUtils

namespace PolygonalBasis3d

/-- One entry of `Basis::global()`: a global node id and its weight. -/
structure Global where
  index : Int
  val : ℚ

/-- What the two functions read of a `Basis`: the list returned by `global()`. -/
structure Basis where
  global : List Global

/-- What the two functions read of an `ElementBases`: its vector `bases`. -/
structure ElementBases where
  bases : List Basis

/-- What the two functions read of an `InterfaceData`: its vector `local_indices`. -/
structure InterfaceData where
  local_indices : List Int

/-- The queries made to the `Mesh3D`: the number of faces of a cell, the face id of
`get_index_from_element(c, lf, 0)` and the element of `switch_element` of that index. -/
structure Mesh3D where
  n_cell_faces : Int → Int
  face : Int → Int → Int
  switch_element : Int → Int → Int

/-- Checked access to a `std::vector` by an `int`. -/
def at_index {α : Type} (v : List α) (i : Int) : Option α :=
  if 0 ≤ i then v[i.toNat]? else none

/-- The body shared by the face loops of `compute_nonzero_bases_ids` (lines 33-47) and of
`sample_polyhedra` (lines 333-357): the entries `x` of `b.bases[other_local_basis_id].global()`
for every `other_local_basis_id` of `bdata.local_indices`, in the order visited.  A failing
assertion, a missing key of the map or an index out of range gives `none`. -/
def face_entries (mesh : Mesh3D) (c : Int) (bases : List ElementBases)
    (poly_face_to_data : Int → Option InterfaceData) (lf : Int) : Option (List Global) :=
  -- auto index = mesh.get_index_from_element(c, lf, 0);
  -- const int c2 = mesh.switch_element(index).element;
  let c2 := mesh.switch_element c lf
  -- assert(c2 >= 0);
  if c2 < 0 then none else
  -- const InterfaceData &bdata = poly_face_to_data.at(index.face);
  match poly_face_to_data (mesh.face c lf) with
  | none => none
  | some bdata =>
    -- const ElementBases &b=bases[c2];
    match at_index bases c2 with
    | none => none
    | some b =>
      bdata.local_indices.foldlM
        (fun acc other_local_basis_id =>
          match at_index b.bases other_local_basis_id with
          | none => none
          | some basis => some (acc ++ basis.global)) []

/-- The loop `for (int lf = 0; lf < mesh.n_cell_faces(c); ++lf)` over the faces of the cell,
collecting what the body visits. -/
def cell_entries (mesh : Mesh3D) (c : Int) (bases : List ElementBases)
    (poly_face_to_data : Int → Option InterfaceData) : Option (List Global) :=
  (List.range (mesh.n_cell_faces c).toNat).foldlM
    (fun acc lf =>
      match face_entries mesh c bases poly_face_to_data (lf : Int) with
      | none => none
      | some xs => some (acc ++ xs)) []

/-- Function `std::unique` followed by the `resize`: of every run of equal consecutive elements
one is kept. -/
def unique : List Int → List Int
  | [] => []
  | [x] => [x]
  | x :: y :: rest => if x = y then unique (y :: rest) else x :: unique (y :: rest)

/-- Function `compute_nonzero_bases_ids` (lines 28-54): every visited `x.index` is pushed to
`local_to_global`, which is then sorted and freed of duplicates. -/
def compute_nonzero_bases_ids (mesh : Mesh3D) (c : Int) (bases : List ElementBases)
    (poly_face_to_data : Int → Option InterfaceData) : Option (List Int) :=
  match cell_entries mesh c bases poly_face_to_data with
  | none => none
  | some xs =>
    let local_to_global := xs.map (fun x => x.index)
    -- std::sort(local_to_global.begin(), local_to_global.end());
    let local_to_global := local_to_global.insertionSort (fun a b => a ≤ b)
    -- auto it = std::unique(...); local_to_global.resize(std::distance(begin, it));
    some (unique local_to_global)

/-- The right-hand side loop of `sample_polyhedra` (lines 329-357), reduced to the columns it
addresses: `local_to_global` is the result of `compute_nonzero_bases_ids` for the same cell
(line 244), `rhs` has `local_to_global.size()` columns, and for every visited entry the column
`poly_local_basis_id = std::distance(begin, std::find(begin, end, global_node_id))` is updated;
a column outside `rhs` gives `none`. -/
def sample_polyhedra_columns (mesh : Mesh3D) (element_index : Int) (bases : List ElementBases)
    (poly_face_to_data : Int → Option InterfaceData) : Option (List Nat) :=
  match compute_nonzero_bases_ids mesh element_index bases poly_face_to_data with
  | none => none
  | some local_to_global =>
    match cell_entries mesh element_index bases poly_face_to_data with
    | none => none
    | some xs =>
      xs.foldlM
        (fun cols x =>
          let global_node_id := x.index
          let poly_local_basis_id := local_to_global.indexOf global_node_id
          if poly_local_basis_id < local_to_global.length then some (cols ++ [poly_local_basis_id])
          else none) []

/-- A test cell with two faces whose neighbours carry the nodes 7, 3 and 3, 5. -/
def test_mesh : Mesh3D :=
  { n_cell_faces := fun _ => 2, face := fun _ lf => 10 + lf, switch_element := fun _ lf => lf }

/-- The bases of the two neighbours of the test cell. -/
def test_bases : List ElementBases :=
  [{ bases := [{ global := [{ index := 7, val := 1 }] }, { global := [{ index := 3, val := 1 }] }] },
   { bases := [{ global := [{ index := 3, val := 1 / 2 }, { index := 5, val := 1 / 2 }] }] }]

/-- The interface data of the two faces of the test cell. -/
def test_data : Int → Option InterfaceData :=
  fun f => if f = 10 then some { local_indices := [0, 1] }
           else if f = 11 then some { local_indices := [0] } else none

end PolygonalBasis3d

namespace UpsampleMesh

/-- An `Eigen::Triplet<double>`: row, column and value of a sparse entry. -/
structure Triplet where
  row : Int
  col : Int
  value : ℚ
deriving DecidableEq

/-- Checked coefficient access `v(i)` of an integer vector. -/
def coeff (v : List Int) (i : Int) : Option Int :=
  if 0 ≤ i then v[i.toNat]? else none

/-- The loop of `stitch_mesh` (lines 33-39) that finds the removed vertices:
`for (int i = 0, j = 0; i < V.rows(); i++)` with the sorted `indices`; the state is
`(j, removed_indices)`. -/
def removed_loop (indices : List Int) (rows : Nat) : Nat × List Int :=
  (List.range rows).foldl
    (fun (st : Nat × List Int) (i : Nat) =>
      -- if (j < indices.size() && indices(j) == i) j++; else removed_indices.push_back(i);
      if st.1 < indices.length ∧ indices[st.1]? = some (i : Int) then (st.1 + 1, st.2)
      else (st.1, st.2 ++ [(i : Int)]))
    (0, [])

/-- What `stitch_mesh` computes besides the outputs of `igl::remove_duplicate_vertices`. -/
structure Stitched where
  removed_indices : List Int
  W_out : List Triplet
deriving DecidableEq

/-- Function `stitch_mesh` (lines 14-53).  `V_rows` is `V.rows()`; `indices`, `inverse` and
`V_out_rows` are what `igl::remove_duplicate_vertices` returned.  A failing assertion or an
access out of range gives `none`.  `std::binary_search` on the sorted `removed_indices` is
membership. -/
def stitch_mesh (V_rows : Nat) (W : List Triplet) (indices inverse : List Int)
    (V_out_rows : Nat) : Option Stitched :=
  -- assert(indices.size() == V_out.rows());
  if indices.length ≠ V_out_rows then none else
  -- assert(inverse.size() == V.rows());
  if inverse.length ≠ V_rows then none else
  -- std::sort(indices.data(), indices.data() + indices.size());
  let indices := indices.insertionSort (fun a b => a ≤ b)
  let removed_indices := (removed_loop indices V_rows).2
  -- assert(removed_indices.size() == V.rows() - indices.size());
  if (removed_indices.length : Int) ≠ (V_rows : Int) - (indices.length : Int) then none else
  -- assert(std::is_sorted(removed_indices.begin(), removed_indices.end()));
  if ¬ removed_indices.Sorted (fun a b => a ≤ b) then none else
  -- for (const Eigen::Triplet<double> &w : W) ...
  match W.foldlM
      (fun (W_out : List Triplet) (w : Triplet) =>
        if w.row ∈ removed_indices then some W_out
        else match coeff inverse w.row with
          | none => none
          | some r => some (W_out ++ [{ row := r, col := w.col, value := w.value }])) [] with
  | none => none
  | some W_out => some { removed_indices := removed_indices, W_out := W_out }

end UpsampleMesh

namespace UpsampleMesh

/-- The integer nearest to `y`; when `y` lies halfway between two integers, the even one. -/
def round_half_even (y : ℚ) : Int :=
  if y - (Int.floor y : ℚ) < 1 / 2 then Int.floor y
  else if 1 / 2 < y - (Int.floor y : ℚ) then Int.floor y + 1
  else if Int.floor y % 2 = 0 then Int.floor y else Int.floor y + 1

/-- The `double` that holds the exact result `x` of an arithmetic operation: `x` rounded to the
nearest multiple of `2 ^ (e - 52)`, ties to even, where `2 ^ e ≤ |x| < 2 ^ (e + 1)` and `e` is
not taken below `-1022` (binary64: 53 significant bits, gradual underflow).  Every operation
of the source is rounded on its own (no fused multiply-add, no extended precision).  Overflow
is not represented: a result of magnitude `2 ^ 1024` or more stands for an infinity. -/
def fl (x : ℚ) : ℚ :=
  (round_half_even (x / 2 ^ (max (Int.log 2 |x|) (-1022) - 52)) : ℚ)
    * 2 ^ (max (Int.log 2 |x|) (-1022) - 52)

/-- The value left in a 32-bit `int` by an operation whose exact result is `x` (two's
complement wrap-around). -/
def wrap_int (x : Int) : Int :=
  (x + 2147483648) % 4294967296 - 2147483648

/-- The index pairs visited by `for i < n: for j < n - i`, in order. -/
def vertex_pairs (n : Nat) : List (Nat × Nat) :=
  (List.range n).flatMap (fun i => (List.range (n - i)).map (fun j => (i, j)))

/-- The state of the vertex loop of `regular_grid_triangle_barycentric_coordinates`: the counter
`vi`, the map `ij2v` from `(i, j)` to a vertex id (initially the constant `-1`) and the rows of
`V` written so far. -/
structure VertexState where
  vi : Int
  ij2v : Nat → Nat → Int
  V : List (ℚ × ℚ)

/-- The vertex loop (lines 91-98): `ij2v(i, j) = vi; V.row(vi++) << i * delta, j * delta;`.
The products of the `int` counters with the `double` `delta` are rounded. -/
def vertex_loop (n : Nat) (delta : ℚ) : VertexState :=
  (vertex_pairs n).foldl
    (fun st ij =>
      { vi := st.vi + 1,
        ij2v := fun i j => if i = ij.1 ∧ j = ij.2 then st.vi else st.ij2v i j,
        V := st.V ++ [(fl ((ij.1 : ℚ) * delta), fl ((ij.2 : ℚ) * delta))] })
    { vi := 0, ij2v := fun _ _ => -1, V := [] }

/-- The index pairs visited by `for i < n - 1: for j < n - 1`, in order. -/
def face_pairs (n : Nat) : List (Nat × Nat) :=
  (List.range (n - 1)).flatMap (fun i => (List.range (n - 1)).map (fun j => (i, j)))

/-- The body of the face loop (lines 109-119) for the cell `(i, j)`: the rows written to `F`.
Each of the two candidate triangles is written when all its three ids are nonnegative. -/
def cell_faces (ij2v : Nat → Nat → Int) (ij : Nat × Nat) : List (Int × Int × Int) :=
  let i := ij.1
  let j := ij.2
  -- f << ij2v(i, j), ij2v(i + 1, j), ij2v(i, j + 1);
  let f1 : Int × Int × Int := (ij2v i j, ij2v (i + 1) j, ij2v i (j + 1))
  -- f << ij2v(i + 1, j), ij2v(i + 1, j + 1), ij2v(i, j + 1);
  let f2 : Int × Int × Int := (ij2v (i + 1) j, ij2v (i + 1) (j + 1), ij2v i (j + 1))
  (if f1.1 ≥ 0 ∧ f1.2.1 ≥ 0 ∧ f1.2.2 ≥ 0 then [f1] else [])
    ++ (if f2.1 ≥ 0 ∧ f2.2.1 ≥ 0 ∧ f2.2.2 ≥ 0 then [f2] else [])

/-- The face loop (lines 105-121): `F.row(fi++) = f` for the rows of every cell, in order. -/
def face_loop (n : Nat) (ij2v : Nat → Nat → Int) : List (Int × Int × Int) :=
  (face_pairs n).foldl (fun F ij => F ++ cell_faces ij2v ij) []

/-- The matrices returned by `regular_grid_triangle_barycentric_coordinates`. -/
structure Grid where
  V : List (ℚ × ℚ)
  F : List (Int × Int × Int)
deriving DecidableEq

/-- Function `regular_grid_triangle_barycentric_coordinates` (lines 82-125) for an `int` `n`.
The rows of `V` and `F` are kept in the order written.  The `int` expressions `n - 1`,
`n * (n + 1)` and `(n - 1) * (n - 1)` wrap around; `delta` and the coordinates are doubles.
`none` stands for a failing check: a negative size passed to `Constant` or `resize`, the
assertion `vi == V.rows()`, or more rows written to `F` than allocated.  It also stands for
`n = 1`, where `delta = 1.0 / 0` is infinite and the single vertex is not a number, which a
rational cannot hold. -/
def regular_grid_triangle_barycentric_coordinates (n : Int) : Option Grid :=
  -- const double delta = 1.0 / (n - 1);
  if wrap_int (n - 1) = 0 then none else
  let delta : ℚ := fl (1 / ((wrap_int (n - 1) : Int) : ℚ))
  -- Eigen::MatrixXd ij2v = Eigen::MatrixXd::Constant(n, n, -1);
  if n < 0 then none else
  -- V.resize(n * (n + 1) / 2, 2);
  let V_rows : Int := Int.tdiv (wrap_int (n * wrap_int (n + 1))) 2
  if V_rows < 0 then none else
  let st := vertex_loop n.toNat delta
  -- assert(vi == V.rows());
  if st.vi ≠ V_rows then none else
  -- F.resize((n - 1) * (n - 1), 3);
  let F_rows : Int := wrap_int (wrap_int (n - 1) * wrap_int (n - 1))
  if F_rows < 0 then none else
  let F := face_loop n.toNat st.ij2v
  if (F.length : Int) > F_rows then none else
  -- F.conservativeResize(fi, Eigen::NoChange);
  some { V := st.V, F := F }

end UpsampleMesh

namespace UpsampleMesh

/-- The type of a local boundary, as far as `build_collision_proxy` reads it: it is compared
with `BoundaryType::TRI` only. -/
inductive BoundaryType where
  | TRI
  | OTHER
deriving DecidableEq

/-- What `build_collision_proxy` reads of a `LocalBoundary`: `type()`, `element_id()` and the
values of `local_primitive_id(fi)` for `fi < size()`. -/
structure LocalBoundary where
  type : BoundaryType
  element_id : Int
  local_primitive_id : List Int

/-- The conversion of one row `(u, v)` of `UV` into a row of `UVW` by the `switch (local_fid)`
of `build_collision_proxy` (lines 334-357); `UVW` starts as zero.  The `default` label gives
`none`. -/
def to_UVW (local_fid : Int) (uv : ℚ × ℚ) : Option (ℚ × ℚ × ℚ) :=
  -- case 0: UVW.leftCols(2) = UV;
  if local_fid = 0 then some (uv.1, uv.2, 0)
  -- case 1: UVW.col(0) = UV.col(0); UVW.col(2) = UV.col(1);
  else if local_fid = 1 then some (uv.1, 0, uv.2)
  -- case 2: UVW.leftCols(2) = UV; UVW.col(2) = 1 - UV.col(0).array() - UV.col(1).array();
  else if local_fid = 2 then some (uv.1, uv.2, 1 - uv.1 - uv.2)
  -- case 3: UVW.col(1) = UV.col(1); UVW.col(2) = UV.col(0);
  else if local_fid = 3 then some (0, uv.2, uv.1)
  else none

/-- What one processed boundary face appends to the temporary proxy: its tessellation in the
parametric coordinates `UVW` of the parent element `element_id`, placed at row `offset` of
`proxy_vertices_tmp` (the faces are `F_local + offset`, the weights have rows `offset + i`). -/
structure FaceTessellation where
  element_id : Int
  local_fid : Int
  offset : Nat
  UVW : List (ℚ × ℚ × ℚ)
deriving DecidableEq

/-- The loop `for (int fi = 0; fi < local_boundary.size(); fi++)` of `build_collision_proxy`
(lines 327-381) over the faces of one local boundary.  In the `default` label of the switch the
statement `continue;` comes first, so the face is skipped and the call of
`log_and_throw_error` after it is never reached. -/
def boundary_face_loop (UV : List (ℚ × ℚ)) (local_boundary : LocalBoundary)
    (proxy_tmp : List FaceTessellation) : List FaceTessellation :=
  local_boundary.local_primitive_id.foldl
    (fun proxy_tmp local_fid =>
      if local_fid = 0 ∨ local_fid = 1 ∨ local_fid = 2 ∨ local_fid = 3 then
        -- const int offset = proxy_vertices_tmp.rows(); append_rows(...)
        proxy_tmp ++ [{ element_id := local_boundary.element_id, local_fid := local_fid,
                        offset := (proxy_tmp.map (fun f => f.UVW.length)).sum,
                        UVW := UV.filterMap (to_UVW local_fid) }]
      else
        -- default: continue;
        proxy_tmp)
    proxy_tmp

/-- Function `build_collision_proxy` (lines 284-387) up to the final call of `stitch_mesh`:
the error thrown by `log_and_throw_error`, or the temporary proxy that is stitched and
returned.  `UV` is the grid of `regular_grid_triangle_barycentric_coordinates(10, ...)`. -/
def build_collision_proxy (is_conforming : Bool) (UV : List (ℚ × ℚ))
    (total_local_boundary : List LocalBoundary) : Except String (List FaceTessellation) :=
  if ¬ is_conforming then
    Except.error "build_collision_proxy() is only implemented for conforming meshes!"
  else
    total_local_boundary.foldlM
      (fun proxy_tmp local_boundary =>
        if local_boundary.type ≠ BoundaryType.TRI then
          Except.error "build_collision_proxy() is only implemented for triangles!"
        else
          Except.ok (boundary_face_loop UV local_boundary proxy_tmp))
      []

/-- The message of the call of `log_and_throw_error` in the `default` label (line 356). -/
def unknown_local_fid_error (local_fid : Int) : String :=
  "build_collision_proxy(): unknown local_fid=" ++ toString local_fid

end UpsampleMesh

namespace ControlProblem

/-- A dense vector of doubles (`TVector`), with exact coefficients. -/
abbrev TVector := List ℚ

/-- Checked coefficient read `v(i)`. -/
def read (v : TVector) (i : Int) : Option ℚ :=
  if 0 ≤ i then v[i.toNat]? else none

/-- Checked coefficient write `v(i) = a`. -/
def write (v : TVector) (i : Int) (a : ℚ) : Option TVector :=
  if 0 ≤ i ∧ i.toNat < v.length then some (v.set i.toNat a) else none

/-- The assignment `optimize_boundary_ids_to_position[i] = count` on a `std::map<int, int>`,
kept as a list of key-value pairs with distinct keys. -/
def map_assign (m : List (Int × Int)) (key value : Int) : List (Int × Int) :=
  if m.any (fun e => e.1 == key) then m.map (fun e => if e.1 = key then (key, value) else e)
  else m ++ [(key, value)]

/-- The first loop of the constructor (lines 16-24): the position of every id of
`opt_params["optimize_boundary_ids"]`. -/
def build_positions (optimize_boundary_ids : List Int) : List (Int × Int) :=
  (optimize_boundary_ids.foldl
    (fun (st : List (Int × Int) × Int) i => (map_assign st.1 i st.2, st.2 + 1)) ([], 0)).1

/-- The state read by the lambdas `x_to_param` and `param_to_x`: `boundary_ids_list`, the map
`optimize_boundary_ids_to_position`, `state.args["time_steps"]` and `state.mesh->dimension()`. -/
structure Data where
  boundary_ids_list : List Int
  optimize_boundary_ids_to_position : List (Int × Int)
  time_steps : Int
  dimension : Int

/-- The pairs `(t, b)` visited by the two nested loops, in order. -/
def loop_pairs (cp : Data) : List (Nat × Nat) :=
  (List.range cp.time_steps.toNat).flatMap
    (fun t => (List.range cp.boundary_ids_list.length).map (fun b => (t, b)))

/-- The index `t * optimize_boundary_ids_to_position.size() * dimension + position * dimension
+ dim` into `x`, with `dim = b % dimension`. -/
def x_index (cp : Data) (t b : Nat) (position : Int) : Int :=
  let dim : Int := Int.tmod (b : Int) cp.dimension
  (t : Int) * (cp.optimize_boundary_ids_to_position.length : Int) * cp.dimension
    + position * cp.dimension + dim

/-- The index `t * boundary_ids_list.size() + b` into `param`. -/
def param_index (cp : Data) (t b : Nat) : Int :=
  (t : Int) * (cp.boundary_ids_list.length : Int) + (b : Int)

/-- Lambda `x_to_param` (lines 62-76).  An access out of range gives `none`. -/
def x_to_param (cp : Data) (x : TVector) : Option TVector :=
  -- param.setZero(boundary_ids_list.size());
  let param : TVector := List.replicate cp.boundary_ids_list.length 0
  (loop_pairs cp).foldlM
    (fun (param : TVector) (tb : Nat × Nat) =>
      match cp.boundary_ids_list[tb.2]? with
      | none => none
      | some boundary_id =>
        -- if (optimize_boundary_ids_to_position.count(boundary_id) == 0) continue;
        match cp.optimize_boundary_ids_to_position.lookup boundary_id with
        | none => some param
        | some position =>
          match read x (x_index cp tb.1 tb.2 position) with
          | none => none
          | some a => write param (param_index cp tb.1 tb.2) a)
    param

/-- Lambda `param_to_x` (lines 77-90).  The failing assertion or an access out of range gives
`none`. -/
def param_to_x (cp : Data) (param : TVector) : Option TVector :=
  -- x.setZero(time_steps * optimize_boundary_ids_to_position.size() * dimension);
  let x : TVector := List.replicate
    (cp.time_steps * (cp.optimize_boundary_ids_to_position.length : Int) * cp.dimension).toNat 0
  -- assert(param.size() == (boundary_ids_list.size() * time_steps));
  if (param.length : Int) ≠ (cp.boundary_ids_list.length : Int) * cp.time_steps then none else
  (loop_pairs cp).foldlM
    (fun (x : TVector) (tb : Nat × Nat) =>
      match cp.boundary_ids_list[tb.2]? with
      | none => none
      | some boundary_id =>
        match cp.optimize_boundary_ids_to_position.lookup boundary_id with
        | none => some x
        | some position =>
          match read param (param_index cp tb.1 tb.2) with
          | none => none
          | some a => write x (x_index cp tb.1 tb.2 position) a)
    x

/-- A problem with one boundary node, on the optimised boundary 7, in dimension 1 with two
time steps. -/
def test_data : Data :=
  { boundary_ids_list := [7], optimize_boundary_ids_to_position := build_positions [7],
    time_steps := 2, dimension := 1 }

end ControlProblem

namespace UpsampleMesh

/-- A row of a matrix of doubles with `d` columns (`VectorNd`, a row of `V`). -/
abbrev VectorNd (d : Nat) := Fin d → ℚ

/-- Method `maxCoeff()` of a nonempty column of doubles; an empty one gives `none`. -/
def maxCoeff : List ℚ → Option ℚ
  | [] => none
  | x :: xs => some (xs.foldl max x)

/-- The double nearest to the square root of `x ≥ 0` (`std::sqrt` is correctly rounded): the
multiple `m * q` of `q = 2 ^ (e - 52)` nearest to it, ties to even, where `e` is half the binary
exponent of `x`, rounded down and not taken below `-1022`.  The comparison of the root of
`y = x / q ^ 2` with `m + 1 / 2` is made on the squares. -/
def fl_sqrt (x : ℚ) : ℚ :=
  let q : ℚ := 2 ^ (max (Int.log 2 x / 2) (-1022) - 52)
  let y : ℚ := x / (q * q)
  let m : Nat := Nat.sqrt (Nat.floor y)
  let h : ℚ := ((m : ℚ) + 1 / 2) * ((m : ℚ) + 1 / 2)
  if y < h then (m : ℚ) * q
  else if h < y then ((m : ℚ) + 1) * q
  else if m % 2 = 0 then (m : ℚ) * q else ((m : ℚ) + 1) * q

/-- The sum of a row of doubles as Eigen's default reduction computes it: the coefficients are
added from the left and every sum is rounded; the empty sum is zero. -/
def sum_doubles : List ℚ → ℚ
  | [] => 0
  | x :: xs => xs.foldl (fun s y => fl (s + y)) x

/-- Method `.norm()` of a row `v` of doubles: the square root of the sum of the squares, every
operation rounded. -/
def rowwise_norm {d : Nat} (v : VectorNd d) : ℚ :=
  fl_sqrt (sum_doubles ((List.finRange d).map (fun c => fl (v c * v c))))

/-- Function `max_edge_length` (lines 66-79).  `V` gives the rows of the vertex matrix, `F` the
rows of the face matrix and `cols` is `F.cols()`; the differences of the coordinates, the norms
and the maxima are doubles. -/
def max_edge_length {d : Nat} (V : Nat → VectorNd d) (F : List (List Nat)) (cols : Nat) :
    Option ℚ :=
  (List.range cols).foldlM
    (fun (max_edge_length : ℚ) (i : Nat) =>
      -- (V(F.col(i), all) - V(F.col((i + 1) % F.cols()), all)).rowwise().norm().maxCoeff()
      match maxCoeff (F.map (fun row =>
          rowwise_norm (fun c => fl (V (row.getD i 0) c - V (row.getD ((i + 1) % cols) 0) c))))
        with
      | none => none
      | some m => some (max max_edge_length m))
    0

/-- Function `sample_triangle` (lines 127-142):
`V.row(i) = coords(i, 0) * (b - a) + coords(i, 1) * (c - a) + a`, coefficient by coefficient,
every operation rounded. -/
def sample_triangle {d : Nat} (a b c : VectorNd d) (coords : List (ℚ × ℚ)) :
    List (VectorNd d) :=
  coords.map (fun uv => fun k =>
    fl (fl (fl (uv.1 * fl (b k - a k)) + fl (uv.2 * fl (c k - a k))) + a k))

/-- The conversion `int(x)` of a double with the integral value `x`.  A value that does not fit
in 32 bits gives `INT_MIN`, the result of the conversion instruction of x86-64 (the C++
standard leaves it undefined). -/
def double_to_int (x : Int) : Int :=
  if -2147483648 ≤ x ∧ x ≤ 2147483647 then x else -2147483648

/-- The number of vertices per edge chosen by `regular_grid_tessilation` (lines 152-155):
`std::max(1, int(std::ceil(in_max_edge_length / out_max_edge_length))) + 1`, with the quotient a
double and the sum an `int`.  A zero `out_max_edge_length`, whose quotient is infinite or not a
number, is outside this model. -/
def edge_vertices (in_max_edge_length out_max_edge_length : ℚ) : Int :=
  wrap_int (max 1 (double_to_int (Int.ceil (fl (in_max_edge_length / out_max_edge_length)))) + 1)

/-- What `igl::remove_duplicate_vertices(V, F, epsilon, V_out, indices, inverse, F_out)`
returns. -/
structure Deduplicated (d : Nat) where
  V_out : List (VectorNd d)
  indices : List Int
  inverse : List Int
  F_out : List (Int × Int × Int)

/-- The matrices returned by `regular_grid_tessilation`. -/
structure Mesh (d : Nat) where
  V_out : List (VectorNd d)
  F_out : List (Int × Int × Int)

/-- Function `regular_grid_tessilation` (lines 144-172) for a triangle mesh.  The library call
`igl::remove_duplicate_vertices` made by `stitch_mesh` (with the default `epsilon`) is the
parameter `remove_duplicate_vertices`; `stitch_mesh` is run on its results with no weights, and
its matrices `V_out` and `F_out` are returned.  The vertex ids of `F_tmp` are `int`
coefficients; `none` is a failing check of `max_edge_length`, of the grid or of
`stitch_mesh`. -/
def regular_grid_tessilation {d : Nat}
    (remove_duplicate_vertices : List (VectorNd d) → List (Int × Int × Int) → Deduplicated d)
    (V : Nat → VectorNd d) (F : List (List Nat)) (out_max_edge_length : ℚ) :
    Option (Mesh d) :=
  match max_edge_length V F 3 with
  | none => none
  | some in_max_edge_length =>
    let n := edge_vertices in_max_edge_length out_max_edge_length
    match regular_grid_triangle_barycentric_coordinates n with
    | none => none
    | some grid =>
      -- V_tmp.middleRows(i * coords.rows(), coords.rows()) = sample_triangle(...)
      let V_tmp := F.flatMap (fun row =>
        sample_triangle (V (row.getD 0 0)) (V (row.getD 1 0)) (V (row.getD 2 0)) grid.V)
      -- F_tmp.middleRows(i * local_F.rows(), local_F.rows()) = local_F + i * coords.rows()
      let F_tmp := F.enum.flatMap (fun irow =>
        grid.F.map (fun f =>
          (wrap_int (f.1 + wrap_int ((irow.1 : Int) * (grid.V.length : Int))),
           wrap_int (f.2.1 + wrap_int ((irow.1 : Int) * (grid.V.length : Int))),
           wrap_int (f.2.2 + wrap_int ((irow.1 : Int) * (grid.V.length : Int))))))
      -- stitch_mesh(V_tmp, F_tmp, V_out, F_out);
      let r := remove_duplicate_vertices V_tmp F_tmp
      match stitch_mesh V_tmp.length [] r.indices r.inverse r.V_out.length with
      | none => none
      | some _ => some { V_out := r.V_out, F_out := r.F_out }

/-- The result of `igl::remove_duplicate_vertices` on a mesh none of whose vertices is within
`epsilon` of another: every vertex is kept in place, `indices` and `inverse` are the identity,
and the faces are mapped through `inverse`. -/
def keep_all {d : Nat} (V : List (VectorNd d)) (F : List (Int × Int × Int)) : Deduplicated d :=
  { V_out := V,
    indices := (List.range V.length).map (fun i : Nat => (i : Int)),
    inverse := (List.range V.length).map (fun i : Nat => (i : Int)),
    F_out := F.map (fun f =>
      (((List.range V.length).map (fun i : Nat => (i : Int))).getD f.1.toNat 0,
       ((List.range V.length).map (fun i : Nat => (i : Int))).getD f.2.1.toNat 0,
       ((List.range V.length).map (fun i : Nat => (i : Int))).getD f.2.2.toNat 0)) }

/-- The vertices of a test triangle with corners `(0, 0)`, `(3, 0)`, `(0, 4)`. -/
def test_V : Nat → VectorNd 2 := fun k =>
  if k = 1 then ![3, 0] else if k = 2 then ![0, 4] else ![0, 0]

end UpsampleMesh

namespace ControlProblem

/-- Block `x.segment(start, n)`: the `n` coefficients of `x` from `start` on. -/
def segment (x : TVector) (start n : Nat) : TVector :=
  (List.range n).map (fun i => x.getD (start + i) 0)

/-- Coefficientwise difference `a - b` of two vectors of the same size. -/
def sub (a b : TVector) : TVector :=
  List.zipWith (fun u v => u - v) a b

/-- The update `gradv.segment(start, v.size()) += v`. -/
def add_segment (gradv : TVector) (start : Nat) (v : TVector) : TVector :=
  (List.range gradv.length).map
    (fun i => if start ≤ i ∧ i < start + v.length then gradv.getD i 0 + v.getD (i - start) 0
              else gradv.getD i 0)

/-- The update `gradv.segment(start, v.size()) -= v`. -/
def sub_segment (gradv : TVector) (start : Nat) (v : TVector) : TVector :=
  (List.range gradv.length).map
    (fun i => if start ≤ i ∧ i < start + v.length then gradv.getD i 0 - v.getD (i - start) 0
              else gradv.getD i 0)

/-- Method `ControlProblem::smooth_value` (lines 107-125); the loop state is `(val, prev)`. -/
def smooth_value (smoothing_weight dt : ℚ) (time_steps dim_per_timestep : Nat) (x : TVector) :
    ℚ :=
  let st := (List.range time_steps).foldl
    (fun (st : ℚ × TVector) (t : Nat) =>
      -- Eigen::VectorXd curr = x.segment(t * dim_per_timestep, dim_per_timestep);
      let curr := segment x (t * dim_per_timestep) dim_per_timestep
      -- val += ((curr - prev) / dt).array().pow(2).sum(); prev = curr;
      (st.1 + (((sub curr st.2).map (fun u => u / dt)).map (fun u => u ^ 2)).sum, curr))
    (0, List.replicate dim_per_timestep 0)
  smoothing_weight * st.1

/-- The loop state of `smooth_gradient`: `gradv`, `prev` and `curr`. -/
structure GradientState where
  gradv : TVector
  prev : TVector
  curr : TVector

/-- Method `ControlProblem::smooth_gradient` (lines 145-181). -/
def smooth_gradient (smoothing_weight dt : ℚ) (time_steps dim_per_timestep : Nat)
    (x : TVector) : TVector :=
  let st := (List.range time_steps).foldl
    (fun (st : GradientState) (t : Nat) =>
      -- gradv.segment(t * d, d) += 2 * (curr - prev) / pow(dt, 2);
      let gradv := add_segment st.gradv (t * dim_per_timestep)
        ((sub st.curr st.prev).map (fun u => 2 * u / dt ^ 2))
      -- prev = curr;
      let prev := st.curr
      if (t : Int) < (time_steps : Int) - 1 then
        -- Eigen::VectorXd next = x.segment((t + 1) * d, d);
        let next := segment x ((t + 1) * dim_per_timestep) dim_per_timestep
        -- gradv.segment(t * d, d) -= 2 * (next - curr) / pow(dt, 2); curr = next;
        { gradv := sub_segment gradv (t * dim_per_timestep)
            ((sub next st.curr).map (fun u => 2 * u / dt ^ 2)),
          prev := prev, curr := next }
      else
        { gradv := gradv, prev := prev, curr := st.curr })
    { gradv := List.replicate x.length 0,
      prev := List.replicate dim_per_timestep 0,
      curr := segment x 0 dim_per_timestep }
  -- gradv *= smoothing_weight;
  st.gradv.map (fun g => g * smoothing_weight)

/-- Coefficient `i` of block `t` of a vector made of blocks of size `d`. -/
def block (d : Nat) (x : TVector) (t i : Nat) : ℚ :=
  x.getD (t * d + i) 0

/-- Coefficient `i` of the block before block `t`; the block before the first is zero. -/
def block_before (d : Nat) (x : TVector) (t i : Nat) : ℚ :=
  if t = 0 then 0 else block d x (t - 1) i

end ControlProblem

namespace Run

@[simp] theorem val_map {α β : Type} (f : α → β) (r : Run α) : (r.map f).val = f r.val := by
  cases r <;> rfl

@[simp] theorem val_done {α : Type} (a : α) : (Run.done a).val = a := rfl

@[simp] theorem val_out_of_fuel {α : Type} (a : α) : (Run.out_of_fuel a).val = a := rfl

end Run

namespace StateSolve

section TraceLemmas

variable {S : Type}

@[simp] theorem weights_nil : weights ([] : List (Event S)) = [] := rfl

@[simp] theorem weights_set_weight (w : ℚ) (tr : List (Event S)) :
    weights (Event.set_weight w :: tr) = w :: weights tr := rfl

@[simp] theorem weights_al_minimize (s : S) (tr : List (Event S)) :
    weights (Event.al_minimize s :: tr) = weights tr := rfl

@[simp] theorem weights_log_error (w m : ℚ) (tr : List (Event S)) :
    weights (Event.log_error w m :: tr) = weights tr := rfl

@[simp] theorem weights_nl_minimize (s : S) (tr : List (Event S)) :
    weights (Event.nl_minimize s :: tr) = weights tr := rfl

@[simp] theorem weights_update_quantities (t : Nat) (tr : List (Event S)) :
    weights (Event.update_quantities t :: tr) = weights tr := rfl

theorem weights_append (a b : List (Event S)) : weights (a ++ b) = weights a ++ weights b := by
  induction a with
  | nil => rfl
  | cons e a ih => cases e <;> simp [ih]

@[simp] theorem weights_final_solve (P : Env S) (r : Result S) :
    weights (final_solve P r).trace = weights r.trace := by
  simp [final_solve, weights_append]

end TraceLemmas

/-- Inside one AL loop started with a non-negative weight `w ≤ M`, the weights handed to
`set_weight` are sorted and lie between `w` and `M`, also on a run cut short by the fuel. -/
theorem al_loop_weights {S : Type} (P : Env S) (M : ℚ) :
    ∀ (fuel : Nat) (s : S) (w : ℚ), 0 ≤ w → w ≤ M →
      (weights (al_loop P M fuel s w).val.trace).Sorted (· ≤ ·) ∧
        ∀ x ∈ weights (al_loop P M fuel s w).val.trace, w ≤ x ∧ x ≤ M := by
  intro fuel
  induction fuel with
  | zero => intro s w _ _; simp [al_loop]
  | succ fuel ih =>
    intro s w h0 hM
    unfold al_loop
    by_cases hneed : needs_al P s = true
    · by_cases hbrk : w * 2 ≥ M
      · simp [hneed, hbrk, hM]
      · have hlt : w * 2 < M := not_le.mp hbrk
        obtain ⟨hs, hb⟩ := ih (P.al_minimize w s) (w * 2) (by linarith) hlt.le
        simp only [hneed, hbrk, if_true, if_false, Run.val_map, Result.prepend,
          List.cons_append, List.nil_append, weights_set_weight, weights_al_minimize,
          List.sorted_cons, List.mem_cons]
        refine ⟨⟨fun x hx => ?_, hs⟩, fun x hx => ?_⟩
        · have := (hb x hx).1; linarith
        · rcases hx with rfl | hx
          · exact ⟨le_refl _, hM⟩
          · have := hb x hx; exact ⟨by linarith, this.2⟩
    · simp [hneed]

end StateSolve

namespace StateSolve

/-- Invariant of the time loop: the local `al_weight` is back at its configured value at the head
of every step, so every step's trace has sorted weights bounded by the ceiling. -/
theorem transient_loop_weights {S : Type} (P : Env S) (w0 M : ℚ) (h0 : 0 ≤ w0) (hM : w0 ≤ M)
    (fuel : Nat) :
    ∀ (n t : Nat) (st : Transient S), st.al_weight = w0 →
      (∀ tr ∈ st.steps, (weights tr).Sorted (· ≤ ·) ∧ ∀ w ∈ weights tr, w ≤ M) →
      ∀ tr ∈ (transient_loop P w0 M fuel n t st).val.steps,
        (weights tr).Sorted (· ≤ ·) ∧ ∀ w ∈ weights tr, w ≤ M := by
  intro n
  induction n with
  | zero => intro t st _ hst; simpa [transient_loop] using hst
  | succ n ih =>
    intro t st hw hst
    have key := al_loop_weights P M fuel (P.full_to_reduced st.state) w0 h0 hM
    unfold transient_loop transient_step
    rw [hw]
    cases hrun : al_loop P M fuel (P.full_to_reduced st.state) w0 with
    | out_of_fuel r =>
      rw [hrun] at key
      intro tr htr
      simp only [Run.val_out_of_fuel, List.mem_append, List.mem_singleton] at htr
      rcases htr with h | rfl
      · exact hst tr h
      · exact ⟨key.1, fun w hw => (key.2 w hw).2⟩
    | done r =>
      rw [hrun] at key
      refine ih (t + 1) _ rfl ?_
      intro tr htr
      simp only [List.mem_append, List.mem_singleton] at htr
      rcases htr with h | rfl
      · exact hst tr h
      · simp only [weights_append, weights_final_solve, weights_update_quantities, weights_nil,
          List.append_nil]
        exact ⟨key.1, fun w hw => (key.2 w hw).2⟩

/-- C1 (amended): when the configured `al_weight` satisfies `0 ≤ al_weight ≤ max_al_weight`, the
weights handed to `alnl_problem.set_weight` by the AL loop of `solve_non_linear`, and by the AL
loop of every time step of `solve_transient_tensor_non_linear`, form a non-decreasing sequence
all of whose members are at most `max_al_weight`; this holds for every prefix of a run too. -/
theorem al_weights_sorted_bounded {S : Type} (P : Env S) (al_weight0 max_al_weight : ℚ)
    (h0 : 0 ≤ al_weight0) (hmax : al_weight0 ≤ max_al_weight) (fuel : Nat) (s0 : S) :
    ((weights (solve_non_linear P al_weight0 max_al_weight fuel s0).val.trace).Sorted (· ≤ ·) ∧
      ∀ w ∈ weights (solve_non_linear P al_weight0 max_al_weight fuel s0).val.trace,
        w ≤ max_al_weight) ∧
    ∀ (time_steps : Nat),
      ∀ tr ∈ (solve_transient_tensor_non_linear P al_weight0 max_al_weight fuel
          time_steps s0).val.steps,
        (weights tr).Sorted (· ≤ ·) ∧ ∀ w ∈ weights tr, w ≤ max_al_weight := by
  constructor
  · have key := al_loop_weights P max_al_weight fuel s0 al_weight0 h0 hmax
    unfold solve_non_linear
    cases hrun : al_loop P max_al_weight fuel s0 al_weight0 with
    | out_of_fuel r =>
      rw [hrun] at key
      exact ⟨key.1, fun w hw => (key.2 w hw).2⟩
    | done r =>
      rw [hrun] at key
      simp only [Run.val_done, weights_final_solve]
      exact ⟨key.1, fun w hw => (key.2 w hw).2⟩
  · intro time_steps
    exact transient_loop_weights P al_weight0 max_al_weight h0 hmax fuel time_steps 1
      ⟨s0, al_weight0, []⟩ rfl (by simp)

/-- Witness for `al_weights_sorted_bounded`: weight 1, ceiling 5, validity never reached. -/
theorem al_weights_sorted_bounded_witness :
    (0 : ℚ) ≤ 1 ∧ (1 : ℚ) ≤ 5 ∧
    ((weights (solve_non_linear never_valid 1 5 9 0).val.trace).Sorted (· ≤ ·) ∧
      ∀ w ∈ weights (solve_non_linear never_valid 1 5 9 0).val.trace, w ≤ 5) ∧
    ∀ (time_steps : Nat),
      ∀ tr ∈ (solve_transient_tensor_non_linear never_valid 1 5 9 time_steps 0).val.steps,
        (weights tr).Sorted (· ≤ ·) ∧ ∀ w ∈ weights tr, w ≤ 5 :=
  ⟨by norm_num, by norm_num,
    al_weights_sorted_bounded never_valid 1 5 (by norm_num) (by norm_num) 9 0⟩

/-- C1 as stated fails: with `al_weight = 3 > max_al_weight = 2` the first (and only) AL solve of
`solve_non_linear` is handed the weight 3, above the ceiling; and with `al_weight = -1` the
weights handed over are `-1, -2`, a decreasing sequence. -/
theorem al_weights_unbounded_counterexample :
    (solve_non_linear never_valid 3 2 5 0).finished = true ∧
    weights (solve_non_linear never_valid 3 2 5 0).val.trace = [3] ∧
    ¬ (∀ w ∈ weights (solve_non_linear never_valid 3 2 5 0).val.trace, w ≤ 2) ∧
    weights (solve_non_linear never_valid (-1) 2 2 0).val.trace = [-1, -2] ∧
    ¬ (weights (solve_non_linear never_valid (-1) 2 2 0).val.trace).Sorted (· ≤ ·) := by
  norm_num [solve_non_linear, al_loop, needs_al, never_valid, final_solve, Run.map,
    Result.prepend, Run.val, Run.finished, weights]

end StateSolve

namespace StateSolve

section TraceLemmas

variable {S : Type}

@[simp] theorem al_solves_nil : al_solves ([] : List (Event S)) = 0 := rfl

@[simp] theorem al_solves_set_weight (w : ℚ) (tr : List (Event S)) :
    al_solves (Event.set_weight w :: tr) = al_solves tr := rfl

@[simp] theorem al_solves_al_minimize (s : S) (tr : List (Event S)) :
    al_solves (Event.al_minimize s :: tr) = al_solves tr + 1 := rfl

@[simp] theorem al_solves_log_error (w m : ℚ) (tr : List (Event S)) :
    al_solves (Event.log_error w m :: tr) = al_solves tr := rfl

@[simp] theorem al_solves_nl_minimize (s : S) (tr : List (Event S)) :
    al_solves (Event.nl_minimize s :: tr) = al_solves tr := rfl

@[simp] theorem al_solves_update_quantities (t : Nat) (tr : List (Event S)) :
    al_solves (Event.update_quantities t :: tr) = al_solves tr := rfl

theorem al_solves_append (a b : List (Event S)) :
    al_solves (a ++ b) = al_solves a + al_solves b := by
  induction a with
  | nil => simp
  | cons e a ih => cases e <;> simp [ih]; omega

@[simp] theorem al_solves_final_solve (P : Env S) (r : Result S) :
    al_solves (final_solve P r).trace = al_solves r.trace := by
  simp [final_solve, al_solves_append]

end TraceLemmas

/-- When the validity test never succeeds and `n + 1` is the first exponent with
`max_al_weight ≤ w * 2 ^ (n + 1)`, the AL loop started at weight `w` makes exactly `n + 1`
inner solves, with the weights `w, 2w, ..., 2^n w`, and leaves through the ceiling test. -/
theorem al_loop_exhaust {S : Type} (P : Env S) (M : ℚ) (hnever : ∀ s, needs_al P s = true) :
    ∀ (n fuel : Nat) (s : S) (w : ℚ), n + 1 ≤ fuel →
      (∀ i, i < n → w * 2 ^ (i + 1) < M) → M ≤ w * 2 ^ (n + 1) →
      ∃ r, al_loop P M fuel s w = Run.done r ∧ al_solves r.trace = n + 1 ∧
        weights r.trace = (List.range (n + 1)).map (fun i => w * 2 ^ i) ∧
        r.al_weight = w * 2 ^ (n + 1) := by
  intro n
  induction n with
  | zero =>
    intro fuel s w hfuel _ hge
    obtain ⟨fuel, rfl⟩ : ∃ f, fuel = f + 1 := ⟨fuel - 1, by omega⟩
    have hbrk : w * 2 ≥ M := by simpa using hge
    refine ⟨⟨P.al_minimize w s, w * 2,
      [Event.set_weight w, Event.al_minimize s, Event.log_error (w * 2) M]⟩, ?_, ?_, ?_, ?_⟩
    · simp [al_loop, hnever, hbrk]
    · simp
    · simp [List.range_succ]
    · simp
  | succ n ih =>
    intro fuel s w hfuel hlt hge
    obtain ⟨fuel, rfl⟩ : ∃ f, fuel = f + 1 := ⟨fuel - 1, by omega⟩
    have hcont : ¬ (w * 2 ≥ M) := by
      have := hlt 0 (Nat.succ_pos n)
      simpa using this
    obtain ⟨r, hr, hsolves, hweights, hw⟩ := ih fuel (P.al_minimize w s) (w * 2) (by omega)
      (fun i hi => by
        have := hlt (i + 1) (by omega)
        calc w * 2 * 2 ^ (i + 1) = w * 2 ^ (i + 1 + 1) := by ring
          _ < M := this)
      (by
        calc M ≤ w * 2 ^ (n + 1 + 1) := hge
          _ = w * 2 * 2 ^ (n + 1) := by ring)
    refine ⟨Result.prepend [Event.set_weight w, Event.al_minimize s] r, ?_, ?_, ?_, ?_⟩
    · simp [al_loop, hnever, hcont, hr, Run.map]
    · simp [Result.prepend, hsolves]
    · simp only [Result.prepend, List.cons_append, List.nil_append, weights_set_weight,
        weights_al_minimize, hweights]
      rw [List.range_succ_eq_map (n + 1), List.map_cons, List.map_map]
      simp only [pow_zero, mul_one, List.cons.injEq, true_and]
      apply List.map_congr_left
      intro i _
      simp only [Function.comp_apply, Nat.succ_eq_add_one]
      ring
    · simp only [Result.prepend, hw]
      ring

/-- The number `⌈log₂ x⌉` is the least exponent `k` with `x ≤ 2 ^ k`; for `x > 1` it is positive. -/
theorem ceil_logb_two_spec (x : ℝ) (hx : 1 < x) :
    0 < ⌈Real.logb 2 x⌉₊ ∧ x ≤ 2 ^ ⌈Real.logb 2 x⌉₊ ∧
      ∀ i : ℕ, i < ⌈Real.logb 2 x⌉₊ → (2 : ℝ) ^ i < x := by
  have hx0 : 0 < x := by linarith
  refine ⟨?_, ?_, ?_⟩
  · rw [Nat.ceil_pos]
    exact Real.logb_pos (by norm_num) hx
  · have h := Nat.le_ceil (Real.logb 2 x)
    rw [Real.logb_le_iff_le_rpow (by norm_num) hx0, Real.rpow_natCast] at h
    exact h
  · intro i hi
    rw [Nat.lt_ceil, Real.lt_logb_iff_rpow_lt (by norm_num) hx0, Real.rpow_natCast] at hi
    exact hi

/-- A value strictly between `2 ^ n` and `2 ^ (n + 1)` (right end included) has `⌈log₂ x⌉ = n + 1`. -/
theorem ceil_logb_two_eq (x : ℝ) (n : ℕ) (h1 : (2 : ℝ) ^ n < x) (h2 : x ≤ 2 ^ (n + 1)) :
    ⌈Real.logb 2 x⌉₊ = n + 1 := by
  have hx0 : 0 < x := lt_trans (by positivity) h1
  apply le_antisymm
  · rw [Nat.ceil_le, Real.logb_le_iff_le_rpow (by norm_num) hx0, Real.rpow_natCast]
    exact h2
  · rw [Nat.succ_le_iff, Nat.lt_ceil, Real.lt_logb_iff_rpow_lt (by norm_num) hx0,
      Real.rpow_natCast]
    exact h1

/-- C2: if the configuration never passes the validity test and `0 < al_weight < max_al_weight`,
then `solve_non_linear` leaves its AL loop after exactly `⌈log₂(max_al_weight / al_weight)⌉`
escalations: that many inner AL solves, one `set_weight` each, with the weight doubled that many
times; any fuel of at least that size lets the run finish. -/
theorem al_exhaustion_count {S : Type} (P : Env S) (al_weight0 max_al_weight : ℚ)
    (hpos : 0 < al_weight0) (hlt : al_weight0 < max_al_weight)
    (hnever : ∀ s, needs_al P s = true) (s0 : S) (fuel : Nat)
    (hfuel : ⌈Real.logb 2 ((max_al_weight : ℝ) / (al_weight0 : ℝ))⌉₊ ≤ fuel) :
    ∃ r, solve_non_linear P al_weight0 max_al_weight fuel s0 = Run.done r ∧
      al_solves r.trace = ⌈Real.logb 2 ((max_al_weight : ℝ) / (al_weight0 : ℝ))⌉₊ ∧
      (weights r.trace).length = ⌈Real.logb 2 ((max_al_weight : ℝ) / (al_weight0 : ℝ))⌉₊ ∧
      r.al_weight = al_weight0 * 2 ^ ⌈Real.logb 2 ((max_al_weight : ℝ) / (al_weight0 : ℝ))⌉₊ := by
  have hposR : (0 : ℝ) < (al_weight0 : ℝ) := by exact_mod_cast hpos
  have hx : (1 : ℝ) < (max_al_weight : ℝ) / (al_weight0 : ℝ) := by
    rw [one_lt_div hposR]
    exact_mod_cast hlt
  obtain ⟨hk, hle, hmin⟩ := ceil_logb_two_spec _ hx
  generalize ⌈Real.logb 2 ((max_al_weight : ℝ) / (al_weight0 : ℝ))⌉₊ = k at *
  obtain ⟨n, rfl⟩ : ∃ n, k = n + 1 := ⟨k - 1, by omega⟩
  have hge : max_al_weight ≤ al_weight0 * 2 ^ (n + 1) := by
    rw [div_le_iff₀ hposR] at hle
    have : (max_al_weight : ℝ) ≤ ((al_weight0 * 2 ^ (n + 1) : ℚ) : ℝ) := by
      push_cast
      linarith
    exact_mod_cast this
  have hbelow : ∀ i, i < n → al_weight0 * 2 ^ (i + 1) < max_al_weight := by
    intro i hi
    have h := hmin (i + 1) (by omega)
    rw [lt_div_iff₀ hposR] at h
    have : ((al_weight0 * 2 ^ (i + 1) : ℚ) : ℝ) < (max_al_weight : ℝ) := by
      push_cast
      linarith
    exact_mod_cast this
  obtain ⟨r, hr, hsolves, hweights, hw⟩ :=
    al_loop_exhaust P max_al_weight hnever n fuel s0 al_weight0 hfuel hbelow hge
  refine ⟨final_solve P r, by simp [solve_non_linear, hr], by simpa using hsolves, ?_, ?_⟩
  · simp [hweights]
  · simpa [final_solve] using hw

/-- Witness for `al_exhaustion_count`, the scenario of the specification: weight 1 doubled against
the ceiling `10^8` with validity never reached stops after exactly 27 escalations. -/
theorem al_exhaustion_count_witness :
    ∃ r, solve_non_linear never_valid 1 (10 ^ 8) 27 0 = Run.done r ∧
      al_solves r.trace = 27 ∧ (weights r.trace).length = 27 ∧ r.al_weight = 2 ^ 27 := by
  have hk : ⌈Real.logb 2 (((10 ^ 8 : ℚ) : ℝ) / ((1 : ℚ) : ℝ))⌉₊ = 27 := by
    apply ceil_logb_two_eq _ 26 <;> norm_num
  have h := al_exhaustion_count never_valid 1 (10 ^ 8) (by norm_num) (by norm_num)
    (fun s => by simp [needs_al, never_valid]) 0 27 (le_of_eq hk)
  rw [hk] at h
  simpa using h

end StateSolve

namespace StateSolve

section TraceLemmas

variable {S : Type}

@[simp] theorem logged_error_nil : logged_error ([] : List (Event S)) = false := rfl

@[simp] theorem logged_error_set_weight (w : ℚ) (tr : List (Event S)) :
    logged_error (Event.set_weight w :: tr) = logged_error tr := rfl

@[simp] theorem logged_error_al_minimize (s : S) (tr : List (Event S)) :
    logged_error (Event.al_minimize s :: tr) = logged_error tr := rfl

@[simp] theorem logged_error_log_error (w m : ℚ) (tr : List (Event S)) :
    logged_error (Event.log_error w m :: tr) = true := rfl

@[simp] theorem logged_error_nl_minimize (s : S) (tr : List (Event S)) :
    logged_error (Event.nl_minimize s :: tr) = logged_error tr := rfl

@[simp] theorem logged_error_update_quantities (t : Nat) (tr : List (Event S)) :
    logged_error (Event.update_quantities t :: tr) = logged_error tr := rfl

theorem logged_error_append (a b : List (Event S)) :
    logged_error (a ++ b) = (logged_error a || logged_error b) := by
  induction a with
  | nil => simp
  | cons e a ih => cases e <;> simp [ih]

theorem needs_al_eq_false (P : Env S) (s : S) :
    needs_al P s = false ↔
      P.value_isfinite s = true ∧ P.is_step_valid s = true ∧ P.is_step_collision_free s = true := by
  simp [needs_al, and_assoc]

end TraceLemmas

/-- The AL loop itself never starts the unpenalised solve. -/
theorem al_loop_no_nl_minimize {S : Type} (P : Env S) (M : ℚ) :
    ∀ (fuel : Nat) (s : S) (w : ℚ) (x : S),
      Event.nl_minimize x ∉ (al_loop P M fuel s w).val.trace := by
  intro fuel
  induction fuel with
  | zero => intro s w x; simp [al_loop]
  | succ fuel ih =>
    intro s w x
    unfold al_loop
    by_cases hneed : needs_al P s = true
    · by_cases hbrk : w * 2 ≥ M
      · simp [hneed, hbrk]
      · simpa [hneed, hbrk, Result.prepend] using ih (P.al_minimize w s) (w * 2) x
    · simp [hneed]

/-- The two ways out of the AL loop: the configuration passes the validity test and nothing
was logged, or the doubled weight has reached the ceiling and the error is the last event. -/
theorem al_loop_done_cases {S : Type} (P : Env S) (M : ℚ) :
    ∀ (fuel : Nat) (s : S) (w : ℚ) (r : Result S), al_loop P M fuel s w = Run.done r →
      (needs_al P r.state = false ∧ logged_error r.trace = false) ∨
      (∃ pre, r.trace = pre ++ [Event.log_error r.al_weight M] ∧ M ≤ r.al_weight ∧
        logged_error pre = false ∧ 0 < al_solves pre) := by
  intro fuel
  induction fuel with
  | zero => intro s w r h; simp [al_loop] at h
  | succ fuel ih =>
    intro s w r h
    unfold al_loop at h
    by_cases hneed : needs_al P s = true
    · by_cases hbrk : w * 2 ≥ M
      · simp only [hneed, hbrk, if_true, Run.done.injEq] at h
        subst h
        exact Or.inr ⟨[Event.set_weight w, Event.al_minimize s], by simp, hbrk, by simp, by simp⟩
      · simp only [hneed, hbrk, if_true, if_false] at h
        cases hrec : al_loop P M fuel (P.al_minimize w s) (w * 2) with
        | out_of_fuel r1 => simp [hrec, Run.map] at h
        | done r1 =>
          simp only [hrec, Run.map, Run.done.injEq] at h
          subst h
          rcases ih _ _ r1 hrec with ⟨hv, hl⟩ | ⟨pre, hpre, hge, hl, _⟩
          · exact Or.inl ⟨hv, by simpa [Result.prepend] using hl⟩
          · refine Or.inr ⟨Event.set_weight w :: Event.al_minimize s :: pre, ?_, hge, ?_, ?_⟩
            · simp [Result.prepend, hpre]
            · simpa using hl
            · simp
    · simp only [hneed, Bool.false_eq_true, if_false, Run.done.injEq] at h
      subst h
      exact Or.inl ⟨by simpa using hneed, rfl⟩

/-- A run of the AL loop that is cut short by the fuel has not logged the error. -/
theorem al_loop_out_of_fuel {S : Type} (P : Env S) (M : ℚ) :
    ∀ (fuel : Nat) (s : S) (w : ℚ) (r : Result S), al_loop P M fuel s w = Run.out_of_fuel r →
      logged_error r.trace = false := by
  intro fuel
  induction fuel with
  | zero => intro s w r h; simp only [al_loop, Run.out_of_fuel.injEq] at h; subst h; rfl
  | succ fuel ih =>
    intro s w r h
    unfold al_loop at h
    by_cases hneed : needs_al P s = true
    · by_cases hbrk : w * 2 ≥ M
      · simp [hneed, hbrk] at h
      · simp only [hneed, hbrk, if_true, if_false] at h
        cases hrec : al_loop P M fuel (P.al_minimize w s) (w * 2) with
        | done r1 => simp [hrec, Run.map] at h
        | out_of_fuel r1 =>
          simp only [hrec, Run.map, Run.out_of_fuel.injEq] at h
          subst h
          simpa [Result.prepend] using ih _ _ r1 hrec
    · simp [hneed] at h

/-- A property of step traces that holds of every finished step and of a step cut short by the
fuel holds of every step trace of the time loop. -/
theorem transient_loop_steps {S : Type} (P : Env S) (w0 M : ℚ) (fuel : Nat)
    (Q : Nat → List (Event S) → Prop)
    (hdone : ∀ s w t r, al_loop P M fuel s w = Run.done r →
      Q t ((final_solve P r).trace ++ [Event.update_quantities t]))
    (hout : ∀ s w t r, al_loop P M fuel s w = Run.out_of_fuel r → Q t r.trace) :
    ∀ (n t : Nat) (st : Transient S),
      (∀ i tr, st.steps[i]? = some tr → Q (t - st.steps.length + i) tr) →
      st.steps.length < t →
      ∀ i tr, (transient_loop P w0 M fuel n t st).val.steps[i]? = some tr →
        Q (t - st.steps.length + i) tr := by
  intro n
  induction n with
  | zero => intro t st hst _; simpa [transient_loop] using hst
  | succ n ih =>
    intro t st hst hlen
    unfold transient_loop transient_step
    have hstep : ∀ (last : List (Event S)), Q t last →
        ∀ i tr, (st.steps ++ [last])[i]? = some tr → Q (t - st.steps.length + i) tr := by
      intro last hlast i tr hi
      rcases Nat.lt_or_ge i st.steps.length with h | h
      · rw [List.getElem?_append_left h] at hi
        exact hst i tr hi
      · rw [List.getElem?_append_right h] at hi
        rcases Nat.eq_or_lt_of_le h with h0 | h1
        · rw [← h0] at hi
          simp only [Nat.sub_self, List.getElem?_cons_zero, Option.some.injEq] at hi
          subst hi
          rw [← h0]
          have : t - st.steps.length + st.steps.length = t := by omega
          rw [this]
          exact hlast
        · have : ∃ k, i - st.steps.length = k + 1 := ⟨i - st.steps.length - 1, by omega⟩
          obtain ⟨k, hk⟩ := this
          rw [hk] at hi
          simp at hi
    cases hrun : al_loop P M fuel (P.full_to_reduced st.state) st.al_weight with
    | out_of_fuel r =>
      simpa using hstep r.trace (hout _ _ t r hrun)
    | done r =>
      simp only
      intro i tr hi
      have := ih (t + 1) ⟨P.update_quantities t (final_solve P r).state, w0,
        st.steps ++ [(final_solve P r).trace ++ [Event.update_quantities t]]⟩
        (by
          intro j tr' hj
          have h := hstep _ (hdone _ _ t r hrun) j tr' hj
          simp only [List.length_append, List.length_singleton]
          have e : t + 1 - (st.steps.length + 1) + j = t - st.steps.length + j := by omega
          rw [e]
          exact h)
        (by simp only [List.length_append, List.length_singleton]; omega) i tr hi
      simp only [List.length_append, List.length_singleton] at this
      have e : t + 1 - (st.steps.length + 1) + i = t - st.steps.length + i := by omega
      rw [e] at this
      exact this

end StateSolve

namespace StateSolve

/-- The time loop runs every step to its end unless the fuel of one AL loop runs out: a finished
run has started, and finished, exactly `n` further steps. -/
theorem transient_loop_length {S : Type} (P : Env S) (w0 M : ℚ) (fuel : Nat) :
    ∀ (n t : Nat) (st r : Transient S), transient_loop P w0 M fuel n t st = Run.done r →
      r.steps.length = st.steps.length + n := by
  intro n
  induction n with
  | zero => intro t st r h; simp only [transient_loop, Run.done.injEq] at h; subst h; rfl
  | succ n ih =>
    intro t st r h
    unfold transient_loop transient_step at h
    cases hrun : al_loop P M fuel (P.full_to_reduced st.state) st.al_weight with
    | out_of_fuel r1 => simp [hrun] at h
    | done r1 =>
      simp only [hrun] at h
      have := ih _ _ _ h
      simp only [List.length_append, List.length_singleton] at this
      omega

/-- When the validity test fails before each of the first `n + 1` rounds and `n + 1` is the first
exponent with `max_al_weight ≤ w * 2 ^ (n + 1)`, the AL loop makes `n + 1` solves, logs the
error as its last event and leaves with the configuration of the last AL solve. -/
theorem al_loop_reaches_ceiling {S : Type} (P : Env S) (M : ℚ) :
    ∀ (n fuel : Nat) (s : S) (w : ℚ), n + 1 ≤ fuel →
      (∀ i, i ≤ n → needs_al P (al_iterate P i w s) = true) →
      (∀ i, i < n → w * 2 ^ (i + 1) < M) → M ≤ w * 2 ^ (n + 1) →
      ∃ pre, al_loop P M fuel s w
          = Run.done ⟨al_iterate P (n + 1) w s, w * 2 ^ (n + 1),
              pre ++ [Event.log_error (w * 2 ^ (n + 1)) M]⟩ ∧
        logged_error pre = false ∧ al_solves pre = n + 1 ∧ nl_solves pre = 0 := by
  intro n
  induction n with
  | zero =>
    intro fuel s w hfuel hneed _ hge
    obtain ⟨fuel, rfl⟩ : ∃ f, fuel = f + 1 := ⟨fuel - 1, by omega⟩
    have hbrk : w * 2 ≥ M := by simpa using hge
    have h0 : needs_al P s = true := hneed 0 (le_refl 0)
    refine ⟨[Event.set_weight w, Event.al_minimize s], ?_, rfl, rfl, rfl⟩
    simp [al_loop, h0, hbrk, al_iterate]
  | succ n ih =>
    intro fuel s w hfuel hneed hlt hge
    obtain ⟨fuel, rfl⟩ : ∃ f, fuel = f + 1 := ⟨fuel - 1, by omega⟩
    have hcont : ¬ (w * 2 ≥ M) := by
      have := hlt 0 (Nat.succ_pos n)
      simpa using this
    have h0 : needs_al P s = true := hneed 0 (Nat.zero_le _)
    obtain ⟨pre, hr, hlog, hsolves, hnl⟩ := ih fuel (P.al_minimize w s) (w * 2) (by omega)
      (fun i hi => hneed (i + 1) (by omega))
      (fun i hi => by
        have := hlt (i + 1) (by omega)
        calc w * 2 * 2 ^ (i + 1) = w * 2 ^ (i + 1 + 1) := by ring
          _ < M := this)
      (by
        calc M ≤ w * 2 ^ (n + 1 + 1) := hge
          _ = w * 2 * 2 ^ (n + 1) := by ring)
    have hw : w * 2 * 2 ^ (n + 1) = w * 2 ^ (n + 1 + 1) := by ring
    refine ⟨Event.set_weight w :: Event.al_minimize s :: pre, ?_, ?_, ?_, ?_⟩
    · simp only [al_loop, h0, hcont, if_true, if_false, hr, Run.map, Result.prepend]
      simp [al_iterate, hw]
    · simpa using hlog
    · simp [al_solves, hsolves]
    · simpa [nl_solves] using hnl

/-- C3 (amended): when the AL weight reaches `max_al_weight` (the validity test failed before
each of the `n + 1` rounds and the weight doubled in round `n + 1` is the first to reach the
ceiling), `solve_non_linear` logs the error "Unable to solve AL problem", leaves the loop, and
then still runs the final unpenalised minimisation from the configuration of the last AL solve
and returns normally with its result; a time step of `solve_transient_tensor_non_linear` that
starts with this weight does the same, goes on to `update_quantities`, and the time loop carries
on with the next step, the weight reset.  The log entry is the only report of the exhausted
escalation: the result is a normal return in both drivers. -/
theorem exhaustion_logged_then_final_solve {S : Type} (P : Env S) (al_weight0 max_al_weight : ℚ)
    (n fuel : Nat) (s0 : S) (hfuel : n + 1 ≤ fuel)
    (hinvalid : ∀ i, i ≤ n → needs_al P (al_iterate P i al_weight0 s0) = true)
    (hbelow : ∀ i, i < n → al_weight0 * 2 ^ (i + 1) < max_al_weight)
    (hreach : max_al_weight ≤ al_weight0 * 2 ^ (n + 1)) :
    ∃ pre, logged_error pre = false ∧ al_solves pre = n + 1 ∧ nl_solves pre = 0 ∧
      solve_non_linear P al_weight0 max_al_weight fuel s0
        = Run.done ⟨P.nl_minimize (al_iterate P (n + 1) al_weight0 s0),
            al_weight0 * 2 ^ (n + 1),
            pre ++ [Event.log_error (al_weight0 * 2 ^ (n + 1)) max_al_weight,
              Event.nl_minimize (al_iterate P (n + 1) al_weight0 s0)]⟩ ∧
      ∀ (w_reset : ℚ) (k t : Nat) (st : Transient S),
        st.al_weight = al_weight0 → P.full_to_reduced st.state = s0 →
        transient_step P w_reset max_al_weight fuel t st
          = Run.done ⟨P.update_quantities t
                (P.nl_minimize (al_iterate P (n + 1) al_weight0 s0)),
              w_reset,
              st.steps ++ [pre ++ [Event.log_error (al_weight0 * 2 ^ (n + 1)) max_al_weight,
                Event.nl_minimize (al_iterate P (n + 1) al_weight0 s0),
                Event.update_quantities t]]⟩ ∧
        transient_loop P w_reset max_al_weight fuel (k + 1) t st
          = transient_loop P w_reset max_al_weight fuel k (t + 1)
              ⟨P.update_quantities t (P.nl_minimize (al_iterate P (n + 1) al_weight0 s0)),
                w_reset,
                st.steps ++ [pre ++ [Event.log_error (al_weight0 * 2 ^ (n + 1)) max_al_weight,
                  Event.nl_minimize (al_iterate P (n + 1) al_weight0 s0),
                  Event.update_quantities t]]⟩ := by
  obtain ⟨pre, hrun, hlog, hsolves, hnl⟩ :=
    al_loop_reaches_ceiling P max_al_weight n fuel s0 al_weight0 hfuel hinvalid hbelow hreach
  refine ⟨pre, hlog, hsolves, hnl, ?_, ?_⟩
  · simp only [solve_non_linear, hrun, final_solve, List.append_assoc, List.cons_append,
      List.nil_append]
  · intro w_reset k t st hw hs
    have hstep : transient_step P w_reset max_al_weight fuel t st
        = Run.done ⟨P.update_quantities t
              (P.nl_minimize (al_iterate P (n + 1) al_weight0 s0)),
            w_reset,
            st.steps ++ [pre ++ [Event.log_error (al_weight0 * 2 ^ (n + 1)) max_al_weight,
              Event.nl_minimize (al_iterate P (n + 1) al_weight0 s0),
              Event.update_quantities t]]⟩ := by
      simp only [transient_step, hw, hs, hrun, final_solve, List.append_assoc,
        List.cons_append, List.nil_append]
    refine ⟨hstep, ?_⟩
    simp only [transient_loop, hstep]

/-- Witness for `exhaustion_logged_then_final_solve`: weight 1 against the ceiling 2 with a
configuration that never becomes valid reaches the ceiling in the first round. -/
theorem exhaustion_logged_then_final_solve_witness :
    ∃ pre, logged_error pre = false ∧ al_solves pre = 0 + 1 ∧ nl_solves pre = 0 ∧
      solve_non_linear never_valid 1 2 5 0
        = Run.done ⟨never_valid.nl_minimize (al_iterate never_valid (0 + 1) 1 0),
            1 * 2 ^ (0 + 1),
            pre ++ [Event.log_error (1 * 2 ^ (0 + 1)) 2,
              Event.nl_minimize (al_iterate never_valid (0 + 1) 1 0)]⟩ := by
  obtain ⟨pre, h1, h2, h3, h4, _⟩ := exhaustion_logged_then_final_solve never_valid 1 2 0 5 0
    (by decide) (fun _ _ => rfl) (fun i hi => absurd hi (Nat.not_lt_zero i)) (by norm_num)
  exact ⟨pre, h1, h2, h3, h4⟩

/-- C3 as stated fails: with weight 1, ceiling 2 and a configuration that never becomes valid,
`solve_non_linear` logs the error and then runs the final minimisation from the still invalid
configuration and returns normally, exactly as after a successful escalation; the transient
driver does so in its first step and carries on with the second. -/
theorem exhaustion_not_reported_counterexample :
    solve_non_linear never_valid 1 2 5 0
      = Run.done ⟨101, 2, [.set_weight 1, .al_minimize 0, .log_error 2 2, .nl_minimize 1]⟩ ∧
    needs_al never_valid 1 = true ∧
    solve_transient_tensor_non_linear never_valid 1 2 5 2 0
      = Run.done ⟨202, 1,
          [[.set_weight 1, .al_minimize 0, .log_error 2 2, .nl_minimize 1, .update_quantities 1],
           [.set_weight 1, .al_minimize 101, .log_error 2 2, .nl_minimize 102,
            .update_quantities 2]]⟩ := by
  norm_num [solve_non_linear, solve_transient_tensor_non_linear, transient_loop, transient_step,
    al_loop, needs_al, never_valid, final_solve]

/-- C4 (amended): whenever the final unpenalised minimisation is started by `solve_non_linear`,
or by a time step of `solve_transient_tensor_non_linear`, the configuration it starts from has
finite energy, passes `is_step_valid` and passes `is_step_collision_free`, or else the AL loop
before it was left through the weight ceiling (the error was logged). -/
theorem final_solve_start_valid_or_exhausted {S : Type} (P : Env S)
    (al_weight0 max_al_weight : ℚ) (fuel : Nat) (s0 : S) :
    (∀ s, Event.nl_minimize s ∈ (solve_non_linear P al_weight0 max_al_weight fuel s0).val.trace →
      (P.value_isfinite s = true ∧ P.is_step_valid s = true ∧ P.is_step_collision_free s = true) ∨
      logged_error (solve_non_linear P al_weight0 max_al_weight fuel s0).val.trace = true) ∧
    (∀ time_steps,
      ∀ tr ∈ (solve_transient_tensor_non_linear P al_weight0 max_al_weight fuel
          time_steps s0).val.steps,
        ∀ s, Event.nl_minimize s ∈ tr →
          (P.value_isfinite s = true ∧ P.is_step_valid s = true ∧
            P.is_step_collision_free s = true) ∨ logged_error tr = true) := by
  have hdone : ∀ (s : S) (w : ℚ) (r : Result S) (tail : List (Event S)),
      al_loop P max_al_weight fuel s w = Run.done r →
      (∀ x, Event.nl_minimize x ∉ tail) →
      ∀ x, Event.nl_minimize x ∈ (final_solve P r).trace ++ tail →
        (P.value_isfinite x = true ∧ P.is_step_valid x = true ∧
          P.is_step_collision_free x = true) ∨
        logged_error ((final_solve P r).trace ++ tail) = true := by
    intro s w r tail hrun htail x hx
    have hno := al_loop_no_nl_minimize P max_al_weight fuel s w x
    rw [hrun] at hno
    simp only [final_solve, List.mem_append, List.mem_singleton, Event.nl_minimize.injEq] at hx
    rcases hx with (hx | hx) | hx
    · exact absurd hx hno
    · subst hx
      rcases al_loop_done_cases P max_al_weight fuel s w r hrun with
        ⟨hv, _⟩ | ⟨pre, hpre, _, _, _⟩
      · exact Or.inl ((needs_al_eq_false P _).mp hv)
      · exact Or.inr (by simp [final_solve, logged_error_append, hpre])
    · exact absurd hx (htail x)
  constructor
  · intro s hs
    unfold solve_non_linear at hs ⊢
    cases hrun : al_loop P max_al_weight fuel s0 al_weight0 with
    | out_of_fuel r =>
      have hno := al_loop_no_nl_minimize P max_al_weight fuel s0 al_weight0 s
      rw [hrun] at hs hno
      exact absurd hs hno
    | done r =>
      rw [hrun] at hs
      simpa using hdone s0 al_weight0 r [] hrun (by simp) s (by simpa using hs)
  · intro time_steps tr htr s hs
    obtain ⟨i, hi⟩ := List.mem_iff_getElem?.mp htr
    exact transient_loop_steps P al_weight0 max_al_weight fuel
      (fun _ tr => ∀ s, Event.nl_minimize s ∈ tr →
        (P.value_isfinite s = true ∧ P.is_step_valid s = true ∧
          P.is_step_collision_free s = true) ∨ logged_error tr = true)
      (fun s w t r hrun => hdone s w r [Event.update_quantities t] hrun (by simp))
      (by
        intro s w t r hrun x hx
        have hno := al_loop_no_nl_minimize P max_al_weight fuel s w x
        rw [hrun] at hno
        exact absurd hx hno)
      time_steps 1 ⟨s0, al_weight0, []⟩ (by simp) (by simp) i tr hi s hs

/-- Witness for `final_solve_start_valid_or_exhausted`: the final solve of the ceiling-2 run
starts from state 1, which is invalid, after the error was logged. -/
theorem final_solve_start_valid_or_exhausted_witness :
    Event.nl_minimize 1 ∈ (solve_non_linear never_valid 1 2 5 0).val.trace ∧
    ((never_valid.value_isfinite 1 = true ∧ never_valid.is_step_valid 1 = true ∧
        never_valid.is_step_collision_free 1 = true) ∨
      logged_error (solve_non_linear never_valid 1 2 5 0).val.trace = true) := by
  have hmem : Event.nl_minimize 1 ∈ (solve_non_linear never_valid 1 2 5 0).val.trace := by
    norm_num [solve_non_linear, al_loop, needs_al, never_valid, final_solve]
  exact ⟨hmem, (final_solve_start_valid_or_exhausted never_valid 1 2 5 0).1 1 hmem⟩

/-- C4 as stated fails: with weight 1 and ceiling 2 the final unpenalised minimisation of
`solve_non_linear` is started from state 1, whose energy is not finite. -/
theorem final_solve_from_invalid_counterexample :
    ¬ (∀ s, Event.nl_minimize s ∈ (solve_non_linear never_valid 1 2 5 0).val.trace →
      never_valid.value_isfinite s = true ∧ never_valid.is_step_valid s = true ∧
        never_valid.is_step_collision_free s = true) := by
  intro h
  have hmem : Event.nl_minimize 1 ∈ (solve_non_linear never_valid 1 2 5 0).val.trace := by
    norm_num [solve_non_linear, al_loop, needs_al, never_valid, final_solve]
  have := (h 1 hmem).1
  simp [never_valid] at this

end StateSolve

namespace StateSolve

/-- C5: if the initial configuration has finite energy, is a valid step and is collision-free,
`solve_non_linear` makes no AL solve and no weight escalation: its only call is one
`nlsolver.minimize` on the unpenalised problem, started from the initial configuration, and
`al_weight` is left at its configured value. -/
theorem valid_start_single_minimize {S : Type} (P : Env S) (al_weight0 max_al_weight : ℚ)
    (fuel : Nat) (s0 : S) (hfin : P.value_isfinite s0 = true) (hvalid : P.is_step_valid s0 = true)
    (hfree : P.is_step_collision_free s0 = true) :
    solve_non_linear P al_weight0 max_al_weight (fuel + 1) s0
      = Run.done ⟨P.nl_minimize s0, al_weight0, [Event.nl_minimize s0]⟩ ∧
    al_solves (solve_non_linear P al_weight0 max_al_weight (fuel + 1) s0).val.trace = 0 ∧
    weights (solve_non_linear P al_weight0 max_al_weight (fuel + 1) s0).val.trace = [] ∧
    nl_solves (solve_non_linear P al_weight0 max_al_weight (fuel + 1) s0).val.trace = 1 := by
  have hrun : solve_non_linear P al_weight0 max_al_weight (fuel + 1) s0
      = Run.done ⟨P.nl_minimize s0, al_weight0, [Event.nl_minimize s0]⟩ := by
    simp [solve_non_linear, al_loop, needs_al, hfin, hvalid, hfree, final_solve]
  rw [hrun]
  exact ⟨rfl, rfl, rfl, rfl⟩

/-- Witness for `valid_start_single_minimize`: an environment in which every state is valid. -/
theorem valid_start_single_minimize_witness :
    solve_non_linear always_valid 1 2 1 0
      = Run.done ⟨always_valid.nl_minimize 0, 1, [Event.nl_minimize 0]⟩ ∧
    al_solves (solve_non_linear always_valid 1 2 1 0).val.trace = 0 ∧
    weights (solve_non_linear always_valid 1 2 1 0).val.trace = [] ∧
    nl_solves (solve_non_linear always_valid 1 2 1 0).val.trace = 1 :=
  valid_start_single_minimize always_valid 1 2 0 0 rfl rfl rfl

/-- With `al_weight = 0` and a positive ceiling the doubled weight stays at 0, so while the
validity test fails the AL loop uses up any fuel: after `fuel` evaluations of the condition it
has made `fuel` inner solves, all with weight 0, and is still running. -/
theorem al_loop_zero_weight {S : Type} (P : Env S) (M : ℚ) (hM : 0 < M)
    (hnever : ∀ s, needs_al P s = true) :
    ∀ (fuel : Nat) (s : S), ∃ r, al_loop P M fuel s 0 = Run.out_of_fuel r ∧
      al_solves r.trace = fuel ∧ r.al_weight = 0 ∧ logged_error r.trace = false := by
  intro fuel
  induction fuel with
  | zero => intro s; exact ⟨_, rfl, rfl, rfl, rfl⟩
  | succ fuel ih =>
    intro s
    obtain ⟨r, hr, hsolves, hw, hlog⟩ := ih (P.al_minimize 0 s)
    refine ⟨Result.prepend [Event.set_weight 0, Event.al_minimize s] r, ?_, ?_, ?_, ?_⟩
    · have hM' : ¬ (M ≤ 0) := not_le.mpr hM
      simp [al_loop, hnever, hM', hr, Run.map]
    · simp [Result.prepend, hsolves]
    · simpa [Result.prepend] using hw
    · simpa [Result.prepend] using hlog

/-- C6 (the code at the failing input): with `al_weight = 0`, a positive `max_al_weight` and a
validity test that never succeeds, the AL loop of `solve_non_linear` does not terminate: for every
amount of fuel the run is still inside the loop, having made that many inner solves, and the
final solve is never reached. -/
theorem zero_weight_never_terminates {S : Type} (P : Env S) (max_al_weight : ℚ)
    (hmax : 0 < max_al_weight) (hnever : ∀ s, needs_al P s = true) (s0 : S) (fuel : Nat) :
    (solve_non_linear P 0 max_al_weight fuel s0).finished = false ∧
    al_solves (solve_non_linear P 0 max_al_weight fuel s0).val.trace = fuel ∧
    nl_solves (solve_non_linear P 0 max_al_weight fuel s0).val.trace = 0 ∧
    logged_error (solve_non_linear P 0 max_al_weight fuel s0).val.trace = false := by
  obtain ⟨r, hr, hsolves, _, hlog⟩ := al_loop_zero_weight P max_al_weight hmax hnever fuel s0
  have hrun : solve_non_linear P 0 max_al_weight fuel s0 = Run.out_of_fuel r := by
    simp [solve_non_linear, hr]
  have hno := al_loop_no_nl_minimize P max_al_weight fuel s0 0
  rw [hr] at hno
  rw [hrun]
  refine ⟨rfl, hsolves, ?_, hlog⟩
  simp only [Run.val_out_of_fuel] at hno ⊢
  generalize r.trace = tr at hno
  induction tr with
  | nil => rfl
  | cons e tr ih =>
    cases e with
    | nl_minimize x => exact absurd (List.mem_cons_self _ _) (hno x)
    | _ => exact ih (fun x hx => hno x (List.mem_cons_of_mem _ hx))

/-- Witness for `zero_weight_never_terminates`: ceiling `10^8`, one thousand rounds of fuel. -/
theorem zero_weight_never_terminates_witness :
    (solve_non_linear never_valid 0 (10 ^ 8) 1000 0).finished = false ∧
    al_solves (solve_non_linear never_valid 0 (10 ^ 8) 1000 0).val.trace = 1000 ∧
    nl_solves (solve_non_linear never_valid 0 (10 ^ 8) 1000 0).val.trace = 0 ∧
    logged_error (solve_non_linear never_valid 0 (10 ^ 8) 1000 0).val.trace = false :=
  zero_weight_never_terminates never_valid (10 ^ 8) (by norm_num)
    (fun s => by simp [needs_al, never_valid]) 0 1000

end StateSolve

namespace StateSolveNonlinear

section CallCounts

@[simp] theorem minimize_calls_nil : minimize_calls [] = 0 := rfl

theorem minimize_calls_append (a b : List Call) :
    minimize_calls (a ++ b) = minimize_calls a + minimize_calls b := by
  induction a with
  | nil => simp
  | cons c a ih => cases c <;> simp [minimize_calls, ih]; omega

@[simp] theorem al_solve_calls_nil : al_solve_calls [] = 0 := rfl

theorem al_solve_calls_append (a b : List Call) :
    al_solve_calls (a ++ b) = al_solve_calls a + al_solve_calls b := by
  induction a with
  | nil => simp
  | cons c a ih => cases c <;> simp [al_solve_calls, ih]; omega

@[simp] theorem lagging_calls_nil : lagging_calls [] = 0 := rfl

theorem lagging_calls_append (a b : List Call) :
    lagging_calls (a ++ b) = lagging_calls a + lagging_calls b := by
  induction a with
  | nil => simp
  | cons c a ih => cases c <;> simp [lagging_calls, ih] <;> omega

end CallCounts

/-- The `post_subsolve` callbacks of one AL solve touch only `stats.solver_info`,
`subsolve_count` and the output files: the other variables keep their values and the only calls
they add are `save_subsolve` calls. -/
theorem foldl_post_subsolve_frame {W Info : Type} (t : Int) (subs : List (Subsolve Info)) :
    ∀ st : State W Info,
      (subs.foldl (post_subsolve t) st).world = st.world ∧
      (subs.foldl (post_subsolve t) st).sol = st.sol ∧
      (subs.foldl (post_subsolve t) st).prev_sol = st.prev_sol ∧
      (subs.foldl (post_subsolve t) st).lagging_converged = st.lagging_converged ∧
      minimize_calls (subs.foldl (post_subsolve t) st).trace = minimize_calls st.trace ∧
      al_solve_calls (subs.foldl (post_subsolve t) st).trace = al_solve_calls st.trace ∧
      lagging_calls (subs.foldl (post_subsolve t) st).trace = lagging_calls st.trace := by
  induction subs with
  | nil => intro st; simp
  | cons sub subs ih =>
    intro st
    obtain ⟨h1, h2, h3, h4, h5, h6, h7⟩ := ih (post_subsolve t st sub)
    simp only [List.foldl_cons]
    refine ⟨h1, h2, h3, h4, ?_, ?_, ?_⟩
    · rw [h5]; simp [post_subsolve, minimize_calls_append, minimize_calls]
    · rw [h6]; simp [post_subsolve, al_solve_calls_append, al_solve_calls]
    · rw [h7]; simp [post_subsolve, lagging_calls_append, lagging_calls]

/-- The exact-arithmetic test `norm_le` is the comparison of the Euclidean norm with the
tolerance. -/
theorem norm_le_iff_sqrt (v : Vec) (tol : ℚ) :
    norm_le v tol = true ↔ Real.sqrt ((squared_norm v : ℚ) : ℝ) ≤ (tol : ℝ) := by
  rw [Real.sqrt_le_iff]
  simp only [norm_le, decide_eq_true_eq]
  constructor
  · rintro ⟨h0, h1⟩
    refine ⟨by exact_mod_cast h0, ?_⟩
    have : ((squared_norm v : ℚ) : ℝ) ≤ ((tol * tol : ℚ) : ℝ) := by exact_mod_cast h1
    rw [pow_two]
    exact_mod_cast this
  · rintro ⟨h0, h1⟩
    refine ⟨by exact_mod_cast h0, ?_⟩
    rw [pow_two] at h1
    exact_mod_cast h1

/-- The state right after the AL solve: one `al_solver.solve` call, no call of `minimize`,
`sol` and the collaborators' state as the AL solve left them. -/
theorem al_phase_spec {W Info : Type} (P : Env W Info) (nl_solver : NLSolver) (t : Int)
    (st : State W Info) :
    (al_phase P nl_solver t st).sol = (P.al_solve nl_solver st.world st.sol).sol ∧
    (al_phase P nl_solver t st).world = (P.al_solve nl_solver st.world st.sol).world ∧
    (al_phase P nl_solver t st).prev_sol = st.sol ∧
    minimize_calls (al_phase P nl_solver t st).trace = minimize_calls st.trace ∧
    al_solve_calls (al_phase P nl_solver t st).trace = al_solve_calls st.trace + 1 ∧
    lagging_calls (al_phase P nl_solver t st).trace = lagging_calls st.trace := by
  obtain ⟨_, _, h3, _, h5, h6, h7⟩ := foldl_post_subsolve_frame t
    (P.al_solve nl_solver st.world st.sol).subsolves
    ({ st with prev_sol := st.sol, trace := st.trace ++ [Call.al_solve st.sol] } : State W Info)
  refine ⟨rfl, rfl, ?_, ?_, ?_, ?_⟩
  · simpa [al_phase] using h3
  · simpa [al_phase, minimize_calls_append, minimize_calls] using h5
  · simpa [al_phase, al_solve_calls_append, al_solve_calls] using h6
  · simpa [al_phase, lagging_calls_append, lagging_calls] using h7

/-- The state before the solver is built: no solve yet, `sol` untouched, and `init_lagging`
called exactly when both `uses_lagging()` and the argument `init_lagging` hold. -/
theorem before_solve_spec {W Info : Type} (P : Env W Info) (world : W)
    (solver_info : List (Record Info)) (sol : Vec) (init_lagging : Bool) :
    (before_solve P world solver_info sol init_lagging).sol = sol ∧
    minimize_calls (before_solve P world solver_info sol init_lagging).trace = 0 ∧
    al_solve_calls (before_solve P world solver_info sol init_lagging).trace = 0 ∧
    lagging_calls (before_solve P world solver_info sol init_lagging).trace
      = (if P.uses_lagging && init_lagging then 1 else 0) ∧
    (P.uses_lagging = false →
      (before_solve P world solver_info sol init_lagging).world = world) := by
  cases hl : P.uses_lagging <;> cases init_lagging <;>
    simp [before_solve, hl, minimize_calls, al_solve_calls, lagging_calls]

end StateSolveNonlinear

namespace StateSolveNonlinear

/-- C7: for a problem whose `uses_lagging()` is false, `solve_tensor_nonlinear` (once
`make_nl_solver` has built the solver) returns after exactly one `al_solver.solve` call and no
pass through the lagging loop: it calls neither `init_lagging` nor `update_lagging` nor
`nl_solver->minimize`, and the `sol` and collaborator state it returns are exactly those produced
by that single AL solve on the incoming `sol`. -/
theorem no_lagging_single_al_pass {W Info : Type} (P : Env W Info) (cfg : Config) (fuel : Nat)
    (world : W) (solver_info : List (Record Info)) (sol : Vec) (t : Int) (init_lagging : Bool)
    (nl_solver : NLSolver) (hno : P.uses_lagging = false)
    (hsolver : make_nl_solver cfg.nonlinear_solver cfg.linear_solver "" = Except.ok nl_solver) :
    ∃ r, solve_tensor_nonlinear P cfg (fuel + 1) world solver_info sol t init_lagging
        = Except.ok (Run.done r) ∧
      r.sol = (P.al_solve nl_solver world sol).sol ∧
      r.world = (P.al_solve nl_solver world sol).world ∧
      r.lagging_converged = true ∧
      al_solve_calls r.trace = 1 ∧ lagging_calls r.trace = 0 ∧ minimize_calls r.trace = 0 := by
  obtain ⟨b1, b2, b3, b4, b5⟩ := before_solve_spec P world solver_info sol init_lagging
  obtain ⟨a1, a2, _, a4, a5, a6⟩ := al_phase_spec P nl_solver t
    (before_solve P world solver_info sol init_lagging)
  rw [b1, b5 hno] at a1 a2
  refine ⟨{ al_phase P nl_solver t (before_solve P world solver_info sol init_lagging) with
      lagging_converged := true }, ?_, a1, a2, rfl, ?_, ?_, ?_⟩
  · simp [solve_tensor_nonlinear, hsolver, hno, lagging_loop]
  · simpa [b3] using a5
  · simpa [b4, hno] using a6
  · simpa [b2] using a4

/-- Witness for `no_lagging_single_al_pass`: the frictionless test set-up with the Newton solver. -/
theorem no_lagging_single_al_pass_witness :
    ∃ r, solve_tensor_nonlinear (test_env false 5 1 1) test_config 1 0 [] [0] 1 true
        = Except.ok (Run.done r) ∧
      r.sol = ((test_env false 5 1 1).al_solve
        (NLSolver.newton "Eigen::SimplicialLDLT") 0 [0]).sol ∧
      r.world = ((test_env false 5 1 1).al_solve
        (NLSolver.newton "Eigen::SimplicialLDLT") 0 [0]).world ∧
      r.lagging_converged = true ∧
      al_solve_calls r.trace = 1 ∧ lagging_calls r.trace = 0 ∧ minimize_calls r.trace = 0 :=
  no_lagging_single_al_pass (test_env false 5 1 1) test_config 0 0 [] [0] 1 true
    (NLSolver.newton "Eigen::SimplicialLDLT") rfl (by simp [make_nl_solver, test_config])

end StateSolveNonlinear

namespace StateSolveNonlinear

/-- The outcomes of one pass through the body of the lagging loop.  A pass that leaves the loop
changes neither `sol` nor `stats.solver_info` and calls no `minimize`; a pass that goes on has
`lag_i` below the iteration budget, calls `minimize` once and keeps `lagging_converged`. -/
theorem lagging_body_cases {W Info : Type} (P : Env W Info) (cfg : Config) (nl_solver : NLSolver)
    (t lag_i : Int) (st : State W Info) :
    ((lagging_body P cfg nl_solver t lag_i st).1 = true ∧
      (lagging_body P cfg nl_solver t lag_i st).2.sol = st.sol ∧
      (lagging_body P cfg nl_solver t lag_i st).2.solver_info = st.solver_info ∧
      minimize_calls (lagging_body P cfg nl_solver t lag_i st).2.trace
        = minimize_calls st.trace) ∨
    ((lagging_body P cfg nl_solver t lag_i st).1 = false ∧
      lag_i < P.max_lagging_iterations ∧
      (lagging_body P cfg nl_solver t lag_i st).2.lagging_converged = st.lagging_converged ∧
      minimize_calls (lagging_body P cfg nl_solver t lag_i st).2.trace
        = minimize_calls st.trace + 1) := by
  unfold lagging_body
  by_cases h1 : norm_le (P.gradient (P.update_lagging st.world (P.full_to_reduced st.sol) lag_i)
      (P.full_to_reduced st.sol)) (lagging_tol cfg) = true
  · left; simp [h1, minimize_calls_append, minimize_calls]
  · by_cases h2 : lp_norm_infinity (vec_sub st.prev_sol st.sol) ≤ tiny_update_tol
    · left; simp [h1, h2, minimize_calls_append, minimize_calls]
    · by_cases h3 : lag_i ≥ P.max_lagging_iterations
      · left; simp [h1, h2, h3, minimize_calls_append, minimize_calls]
      · right
        have h3' : lag_i < P.max_lagging_iterations := not_le.mp h3
        simp [h1, h2, h3, h3', minimize_calls_append, minimize_calls]

/-- The flag with which a pass through the body leaves the loop. -/
theorem lagging_body_flag {W Info : Type} (P : Env W Info) (cfg : Config) (nl_solver : NLSolver)
    (t lag_i : Int) (st : State W Info)
    (hbreak : (lagging_body P cfg nl_solver t lag_i st).1 = true) :
    (lagging_body P cfg nl_solver t lag_i st).2.lagging_converged
      = norm_le (P.gradient (P.update_lagging st.world (P.full_to_reduced st.sol) lag_i)
          (P.full_to_reduced st.sol)) (lagging_tol cfg) := by
  unfold lagging_body at hbreak ⊢
  by_cases h1 : norm_le (P.gradient (P.update_lagging st.world (P.full_to_reduced st.sol) lag_i)
      (P.full_to_reduced st.sol)) (lagging_tol cfg) = true
  · simp [h1]
  · by_cases h2 : lp_norm_infinity (vec_sub st.prev_sol st.sol) ≤ tiny_update_tol
    · simp [h1, h2]
    · by_cases h3 : lag_i ≥ P.max_lagging_iterations
      · simp [h1, h2, h3]
      · simp [h1, h2, h3] at hbreak

/-- A pass through the body that leaves the loop ends the loop with the state of that pass. -/
theorem lagging_loop_of_break {W Info : Type} (P : Env W Info) (cfg : Config)
    (nl_solver : NLSolver) (t lag_i : Int) (st : State W Info) (fuel : Nat)
    (hrun : st.lagging_converged = false)
    (hbreak : (lagging_body P cfg nl_solver t lag_i st).1 = true) :
    lagging_loop P cfg nl_solver t (fuel + 1) lag_i st
      = Run.done (lagging_body P cfg nl_solver t lag_i st).2 := by
  unfold lagging_loop
  rcases hb : lagging_body P cfg nl_solver t lag_i st with ⟨b, st1⟩
  rw [hb] at hbreak
  simp only at hbreak
  subst hbreak
  simp [hrun]

/-- C8: at every iteration `lag_i` of the lagging loop of `solve_tensor_nonlinear`, the pass
leaves the loop with `lagging_converged = true` if and only if the Euclidean norm of the gradient
of the total objective, evaluated at the current candidate after `update_lagging`, is at most the
tolerance `friction_convergence_tol` (`1e-2` when it is not configured).  The test comes first:
a candidate that meets it ends the loop as converged whatever `lag_i`, the iteration budget and
the size of the last update are, with `sol` unchanged and no further `minimize` call. -/
theorem lagging_converged_iff_gradient_small {W Info : Type} (P : Env W Info) (cfg : Config)
    (nl_solver : NLSolver) (t lag_i : Int) (st : State W Info) :
    (((lagging_body P cfg nl_solver t lag_i st).1 = true ∧
        (lagging_body P cfg nl_solver t lag_i st).2.lagging_converged = true) ↔
      Real.sqrt ((squared_norm (P.gradient
          (P.update_lagging st.world (P.full_to_reduced st.sol) lag_i)
          (P.full_to_reduced st.sol)) : ℚ) : ℝ)
        ≤ ((cfg.friction_convergence_tol.getD (1 / 100) : ℚ) : ℝ)) ∧
    (Real.sqrt ((squared_norm (P.gradient
          (P.update_lagging st.world (P.full_to_reduced st.sol) lag_i)
          (P.full_to_reduced st.sol)) : ℚ) : ℝ)
        ≤ ((cfg.friction_convergence_tol.getD (1 / 100) : ℚ) : ℝ) →
      st.lagging_converged = false →
      ∀ fuel, ∃ r, lagging_loop P cfg nl_solver t (fuel + 1) lag_i st = Run.done r ∧
        r.lagging_converged = true ∧ r.sol = st.sol ∧
        minimize_calls r.trace = minimize_calls st.trace) := by
  have hiff := norm_le_iff_sqrt (P.gradient
    (P.update_lagging st.world (P.full_to_reduced st.sol) lag_i) (P.full_to_reduced st.sol))
    (lagging_tol cfg)
  have hbody : norm_le (P.gradient (P.update_lagging st.world (P.full_to_reduced st.sol) lag_i)
      (P.full_to_reduced st.sol)) (lagging_tol cfg) = true →
      (lagging_body P cfg nl_solver t lag_i st).1 = true := by
    intro h
    unfold lagging_body
    simp [h]
  simp only [lagging_tol] at hiff hbody
  constructor
  · constructor
    · rintro ⟨hb, hc⟩
      rw [lagging_body_flag P cfg nl_solver t lag_i st hb] at hc
      exact hiff.mp hc
    · intro h
      have hb := hbody (hiff.mpr h)
      refine ⟨hb, ?_⟩
      rw [lagging_body_flag P cfg nl_solver t lag_i st hb]
      exact hiff.mpr h
  · intro h hrun fuel
    have hb := hbody (hiff.mpr h)
    refine ⟨_, lagging_loop_of_break P cfg nl_solver t lag_i st fuel hrun hb, ?_, ?_, ?_⟩
    · rw [lagging_body_flag P cfg nl_solver t lag_i st hb]
      exact hiff.mpr h
    · rcases lagging_body_cases P cfg nl_solver t lag_i st with ⟨_, h2, _, _⟩ | ⟨h1, _⟩
      · exact h2
      · rw [hb] at h1; exact absurd h1 (by simp)
    · rcases lagging_body_cases P cfg nl_solver t lag_i st with ⟨_, _, _, h4⟩ | ⟨h1, _⟩
      · exact h4
      · rw [hb] at h1; exact absurd h1 (by simp)

end StateSolveNonlinear

namespace StateSolveNonlinear

/-- Witness for `lagging_converged_iff_gradient_small`: a zero gradient is accepted at iteration
7 although the budget is 1 and the last update was zero. -/
theorem lagging_converged_iff_gradient_small_witness :
    ∃ r, lagging_loop (test_env true 1 0 0) test_config NLSolver.lbfgs 1 1 7 test_state
        = Run.done r ∧
      r.lagging_converged = true ∧ r.sol = test_state.sol ∧
      minimize_calls r.trace = minimize_calls test_state.trace :=
  (lagging_converged_iff_gradient_small (test_env true 1 0 0) test_config NLSolver.lbfgs 1 7
    test_state).2
    ((norm_le_iff_sqrt [0] (1 / 100)).mp (by norm_num [norm_le, squared_norm])) rfl 0

/-- C9: in the lagging loop of `solve_tensor_nonlinear`, whenever the gradient criterion is not
met and the infinity norm of `prev_sol - sol` is at most the tiny tolerance `1e-12`, the pass
leaves the loop at once with `lagging_converged = false`: the loop ends there whatever iteration
budget remains, with no further `minimize` call and with `sol` and `stats.solver_info`
unchanged. -/
theorem tiny_update_stops_unconverged {W Info : Type} (P : Env W Info) (cfg : Config)
    (nl_solver : NLSolver) (t lag_i : Int) (st : State W Info) (fuel : Nat)
    (hrun : st.lagging_converged = false)
    (hgrad : ¬ Real.sqrt ((squared_norm (P.gradient
          (P.update_lagging st.world (P.full_to_reduced st.sol) lag_i)
          (P.full_to_reduced st.sol)) : ℚ) : ℝ)
        ≤ ((cfg.friction_convergence_tol.getD (1 / 100) : ℚ) : ℝ))
    (htiny : lp_norm_infinity (vec_sub st.prev_sol st.sol) ≤ 1 / 10 ^ 12) :
    ∃ r, lagging_loop P cfg nl_solver t (fuel + 1) lag_i st = Run.done r ∧
      r.lagging_converged = false ∧ r.sol = st.sol ∧ r.solver_info = st.solver_info ∧
      minimize_calls r.trace = minimize_calls st.trace := by
  have hiff := norm_le_iff_sqrt (P.gradient
    (P.update_lagging st.world (P.full_to_reduced st.sol) lag_i) (P.full_to_reduced st.sol))
    (lagging_tol cfg)
  have hn : ¬ norm_le (P.gradient (P.update_lagging st.world (P.full_to_reduced st.sol) lag_i)
      (P.full_to_reduced st.sol)) (lagging_tol cfg) = true := fun h => hgrad (hiff.mp h)
  have htiny' : lp_norm_infinity (vec_sub st.prev_sol st.sol) ≤ tiny_update_tol := htiny
  have hb : (lagging_body P cfg nl_solver t lag_i st).1 = true := by
    unfold lagging_body
    simp [hn, htiny']
  refine ⟨_, lagging_loop_of_break P cfg nl_solver t lag_i st fuel hrun hb, ?_, ?_, ?_, ?_⟩
  · rw [lagging_body_flag P cfg nl_solver t lag_i st hb]
    simpa using hn
  all_goals
    rcases lagging_body_cases P cfg nl_solver t lag_i st with ⟨_, h2, h3, h4⟩ | ⟨h1, _⟩
    · first | exact h2 | exact h3 | exact h4
    · rw [hb] at h1; exact absurd h1 (by simp)

/-- Witness for `tiny_update_stops_unconverged`: gradient norm 1, update 0, budget 5, first
iteration. -/
theorem tiny_update_stops_unconverged_witness :
    ∃ r, lagging_loop (test_env true 5 1 0) test_config NLSolver.lbfgs 1 1 1 test_state
        = Run.done r ∧
      r.lagging_converged = false ∧ r.sol = test_state.sol ∧
      r.solver_info = test_state.solver_info ∧
      minimize_calls r.trace = minimize_calls test_state.trace :=
  tiny_update_stops_unconverged (test_env true 5 1 0) test_config NLSolver.lbfgs 1 1 test_state 0
    rfl
    (fun h => by
      have h' := (norm_le_iff_sqrt [1] (1 / 100)).mpr h
      norm_num [norm_le, squared_norm] at h')
    (by norm_num [lp_norm_infinity, vec_sub, test_state])

/-- No pass through the body of the lagging loop calls `al_solver.solve`. -/
theorem lagging_body_al_solve_calls {W Info : Type} (P : Env W Info) (cfg : Config)
    (nl_solver : NLSolver) (t lag_i : Int) (st : State W Info) :
    al_solve_calls (lagging_body P cfg nl_solver t lag_i st).2.trace
      = al_solve_calls st.trace := by
  unfold lagging_body
  by_cases h1 : norm_le (P.gradient (P.update_lagging st.world (P.full_to_reduced st.sol) lag_i)
      (P.full_to_reduced st.sol)) (lagging_tol cfg) = true
  · simp [h1, al_solve_calls_append, al_solve_calls]
  · by_cases h2 : lp_norm_infinity (vec_sub st.prev_sol st.sol) ≤ tiny_update_tol
    · simp [h1, h2, al_solve_calls_append, al_solve_calls]
    · by_cases h3 : lag_i ≥ P.max_lagging_iterations
      · simp [h1, h2, h3, al_solve_calls_append, al_solve_calls]
      · have h3' : lag_i < P.max_lagging_iterations := not_le.mp h3
        simp [h1, h2, h3, h3', al_solve_calls_append, al_solve_calls]

/-- Once `lag_i + k` has reached the iteration budget, the lagging loop ends within `k + 1`
evaluations of its condition and makes at most `k` calls of `minimize`. -/
theorem lagging_loop_bound {W Info : Type} (P : Env W Info) (cfg : Config) (nl_solver : NLSolver)
    (t : Int) :
    ∀ (k fuel : Nat) (lag_i : Int) (st : State W Info),
      P.max_lagging_iterations ≤ lag_i + k → k + 1 ≤ fuel →
      ∃ r, lagging_loop P cfg nl_solver t fuel lag_i st = Run.done r ∧
        minimize_calls r.trace ≤ minimize_calls st.trace + k ∧
        al_solve_calls r.trace = al_solve_calls st.trace := by
  intro k
  induction k with
  | zero =>
    intro fuel lag_i st hN hfuel
    obtain ⟨fuel, rfl⟩ : ∃ f, fuel = f + 1 := ⟨fuel - 1, by omega⟩
    cases hrun : st.lagging_converged with
    | true => exact ⟨st, by simp [lagging_loop, hrun], by simp, rfl⟩
    | false =>
      rcases lagging_body_cases P cfg nl_solver t lag_i st with ⟨hb, _, _, h4⟩ | ⟨_, hlt, _⟩
      · exact ⟨_, lagging_loop_of_break P cfg nl_solver t lag_i st fuel hrun hb, by omega,
          lagging_body_al_solve_calls P cfg nl_solver t lag_i st⟩
      · simp at hN; omega
  | succ k ih =>
    intro fuel lag_i st hN hfuel
    obtain ⟨fuel, rfl⟩ : ∃ f, fuel = f + 1 := ⟨fuel - 1, by omega⟩
    cases hrun : st.lagging_converged with
    | true => exact ⟨st, by simp [lagging_loop, hrun], by omega, rfl⟩
    | false =>
      rcases lagging_body_cases P cfg nl_solver t lag_i st with ⟨hb, _, _, h4⟩ | ⟨hb, _, _, h4⟩
      · exact ⟨_, lagging_loop_of_break P cfg nl_solver t lag_i st fuel hrun hb, by omega,
          lagging_body_al_solve_calls P cfg nl_solver t lag_i st⟩
      · obtain ⟨r, hr, hmin, hal⟩ := ih fuel (lag_i + 1)
          (lagging_body P cfg nl_solver t lag_i st).2 (by push_cast at hN; omega) (by omega)
        refine ⟨r, ?_, by omega, ?_⟩
        · unfold lagging_loop
          rcases hbody : lagging_body P cfg nl_solver t lag_i st with ⟨b, st1⟩
          rw [hbody] at hb hr
          simp only at hb hr
          subst hb
          simpa [hrun] using hr
        · rw [hal]; exact lagging_body_al_solve_calls P cfg nl_solver t lag_i st

/-- C10: for every value `N` of `max_lagging_iterations` and every behaviour of the solvers, the
lagging loop of `solve_tensor_nonlinear` terminates (fuel `max(N, 1)` is enough): after the one
AL solve the function makes at most `max(N, 1) - 1` calls of `minimize`; and a pass at an
iteration `lag_i ≥ N` at which the gradient criterion is not met leaves the loop with
`lagging_converged = false`. -/
theorem lagging_loop_budget {W Info : Type} (P : Env W Info) (cfg : Config) (fuel : Nat)
    (world : W) (solver_info : List (Record Info)) (sol : Vec) (t : Int) (init_lagging : Bool)
    (nl_solver : NLSolver)
    (hsolver : make_nl_solver cfg.nonlinear_solver cfg.linear_solver "" = Except.ok nl_solver)
    (hfuel : max P.max_lagging_iterations 1 ≤ (fuel : Int)) :
    (∃ r, solve_tensor_nonlinear P cfg fuel world solver_info sol t init_lagging
        = Except.ok (Run.done r) ∧
      al_solve_calls r.trace = 1 ∧
      (minimize_calls r.trace : Int) ≤ max P.max_lagging_iterations 1 - 1) ∧
    (∀ (lag_i : Int) (st : State W Info), lag_i ≥ P.max_lagging_iterations →
      ¬ Real.sqrt ((squared_norm (P.gradient
          (P.update_lagging st.world (P.full_to_reduced st.sol) lag_i)
          (P.full_to_reduced st.sol)) : ℚ) : ℝ)
        ≤ ((cfg.friction_convergence_tol.getD (1 / 100) : ℚ) : ℝ) →
      (lagging_body P cfg nl_solver t lag_i st).1 = true ∧
      (lagging_body P cfg nl_solver t lag_i st).2.lagging_converged = false) := by
  constructor
  · obtain ⟨_, b2, b3, _, _⟩ := before_solve_spec P world solver_info sol init_lagging
    obtain ⟨_, _, _, a4, a5, _⟩ := al_phase_spec P nl_solver t
      (before_solve P world solver_info sol init_lagging)
    obtain ⟨r, hr, hmin, hal⟩ := lagging_loop_bound P cfg nl_solver t
      (P.max_lagging_iterations - 1).toNat fuel 1
      { al_phase P nl_solver t (before_solve P world solver_info sol init_lagging) with
        lagging_converged := !P.uses_lagging }
      (by omega) (by omega)
    refine ⟨r, by simp [solve_tensor_nonlinear, hsolver, hr], ?_, ?_⟩
    · rw [hal]; simpa [b3] using a5
    · simp only [a4, b2] at hmin
      omega
  · intro lag_i st hN hgrad
    have hiff := norm_le_iff_sqrt (P.gradient
      (P.update_lagging st.world (P.full_to_reduced st.sol) lag_i) (P.full_to_reduced st.sol))
      (lagging_tol cfg)
    have hn : ¬ norm_le (P.gradient (P.update_lagging st.world (P.full_to_reduced st.sol) lag_i)
        (P.full_to_reduced st.sol)) (lagging_tol cfg) = true := fun h => hgrad (hiff.mp h)
    rcases lagging_body_cases P cfg nl_solver t lag_i st with ⟨hb, _⟩ | ⟨_, hlt, _⟩
    · refine ⟨hb, ?_⟩
      rw [lagging_body_flag P cfg nl_solver t lag_i st hb]
      simpa using hn
    · omega

/-- Witness for `lagging_loop_budget`: budget 3, gradient norm 1 throughout, every solve moving
the solution by 1: the run ends unconverged after the AL solve and two `minimize` calls. -/
theorem lagging_loop_budget_witness :
    (∃ r, solve_tensor_nonlinear (test_env true 3 1 1) test_config 3 0 [] [0] 1 true
        = Except.ok (Run.done r) ∧
      al_solve_calls r.trace = 1 ∧
      (minimize_calls r.trace : Int) ≤ max (test_env true 3 1 1).max_lagging_iterations 1 - 1) ∧
    (∀ (lag_i : Int) (st : State Nat Nat), lag_i ≥ (test_env true 3 1 1).max_lagging_iterations →
      ¬ Real.sqrt ((squared_norm ((test_env true 3 1 1).gradient
          ((test_env true 3 1 1).update_lagging st.world
            ((test_env true 3 1 1).full_to_reduced st.sol) lag_i)
          ((test_env true 3 1 1).full_to_reduced st.sol)) : ℚ) : ℝ)
        ≤ ((test_config.friction_convergence_tol.getD (1 / 100) : ℚ) : ℝ) →
      (lagging_body (test_env true 3 1 1) test_config (NLSolver.newton "Eigen::SimplicialLDLT")
        1 lag_i st).1 = true ∧
      (lagging_body (test_env true 3 1 1) test_config (NLSolver.newton "Eigen::SimplicialLDLT")
        1 lag_i st).2.lagging_converged = false) :=
  lagging_loop_budget (test_env true 3 1 1) test_config 3 0 [] [0] 1 true
    (NLSolver.newton "Eigen::SimplicialLDLT") (by simp [make_nl_solver, test_config])
    (by simp [test_env])

end StateSolveNonlinear

namespace StateSolve

/-- The first weight an AL loop hands to `set_weight`, if it hands over any, is the weight the
loop was entered with. -/
theorem al_loop_first_weight {S : Type} (P : Env S) (M : ℚ) (fuel : Nat) (s : S) (w x : ℚ)
    (h : (weights (al_loop P M fuel s w).val.trace).head? = some x) : x = w := by
  cases fuel with
  | zero => simp [al_loop] at h
  | succ fuel =>
    unfold al_loop at h
    by_cases hneed : needs_al P s = true
    · by_cases hbrk : w * 2 ≥ M
      · simp [hneed, hbrk] at h
        exact h.symm
      · simp [hneed, hbrk, Result.prepend] at h
        exact h.symm
    · simp [hneed] at h

/-- Invariant of the time loop for properties of an AL loop entered with the configured weight:
`al_weight` is back at `al_weight0` at the head of every step. -/
theorem transient_loop_base {S : Type} (P : Env S) (w0 M : ℚ) (fuel : Nat)
    (Q : List (Event S) → Prop)
    (hdone : ∀ s t r, al_loop P M fuel s w0 = Run.done r →
      Q ((final_solve P r).trace ++ [Event.update_quantities t]))
    (hout : ∀ s r, al_loop P M fuel s w0 = Run.out_of_fuel r → Q r.trace) :
    ∀ (n t : Nat) (st : Transient S), st.al_weight = w0 → (∀ tr ∈ st.steps, Q tr) →
      ∀ tr ∈ (transient_loop P w0 M fuel n t st).val.steps, Q tr := by
  intro n
  induction n with
  | zero => intro t st _ hst; simpa [transient_loop] using hst
  | succ n ih =>
    intro t st hw hst
    unfold transient_loop transient_step
    rw [hw]
    cases hrun : al_loop P M fuel (P.full_to_reduced st.state) w0 with
    | out_of_fuel r =>
      intro tr htr
      simp only [Run.val_out_of_fuel, List.mem_append, List.mem_singleton] at htr
      rcases htr with h | rfl
      · exact hst tr h
      · exact hout _ r hrun
    | done r =>
      refine ih (t + 1) _ rfl ?_
      intro tr htr
      simp only [List.mem_append, List.mem_singleton] at htr
      rcases htr with h | rfl
      · exact hst tr h
      · exact hdone _ t r hrun

/-- C13: in `solve_transient_tensor_non_linear`, for every time step, the first weight handed to
`set_weight` by that step's AL loop is the configured base `al_weight`, whatever escalation took
place in earlier steps (also in a step that is cut short). -/
theorem transient_step_starts_at_base_weight {S : Type} (P : Env S)
    (al_weight0 max_al_weight : ℚ) (fuel time_steps : Nat) (s0 : S) :
    ∀ tr ∈ (solve_transient_tensor_non_linear P al_weight0 max_al_weight fuel
        time_steps s0).val.steps,
      ∀ w, (weights tr).head? = some w → w = al_weight0 := by
  refine transient_loop_base P al_weight0 max_al_weight fuel
    (fun tr => ∀ w, (weights tr).head? = some w → w = al_weight0) ?_ ?_ time_steps 1
    ⟨s0, al_weight0, []⟩ rfl (by simp)
  · intro s t r hrun w hw
    have key := al_loop_first_weight P max_al_weight fuel s al_weight0 w
    rw [hrun] at key
    apply key
    simpa [weights_append] using hw
  · intro s r hrun w hw
    have key := al_loop_first_weight P max_al_weight fuel s al_weight0 w
    rw [hrun] at key
    exact key hw

/-- Witness for `transient_step_starts_at_base_weight`: two steps with ceiling 5, each escalating
through the weights 1, 2, 4. -/
theorem transient_step_starts_at_base_weight_witness :
    ((solve_transient_tensor_non_linear never_valid 1 5 9 2 0).val.steps.map weights
      = [[1, 2, 4], [1, 2, 4]]) ∧
    ∀ tr ∈ (solve_transient_tensor_non_linear never_valid 1 5 9 2 0).val.steps,
      ∀ w, (weights tr).head? = some w → w = 1 :=
  ⟨by norm_num [solve_transient_tensor_non_linear, transient_loop, transient_step, al_loop,
      needs_al, never_valid, final_solve, Run.map, Result.prepend, weights],
    transient_step_starts_at_base_weight never_valid 1 5 9 2 0⟩

end StateSolve

namespace StateSolveNonlinear

/-- A pass through the body of the lagging loop that goes on has made one solve: `sol` is the
output of that `minimize` call, `prev_sol` the configuration before it, and `stats.solver_info`
has gained exactly the record of that solve, of type "rc" and carrying `lag_i`. -/
theorem lagging_body_continue_spec {W Info : Type} (P : Env W Info) (cfg : Config)
    (nl_solver : NLSolver) (t lag_i : Int) (st : State W Info)
    (hcont : (lagging_body P cfg nl_solver t lag_i st).1 = false) :
    (lagging_body P cfg nl_solver t lag_i st).2.sol
      = P.reduced_to_full
          (P.minimize nl_solver (P.update_barrier_stiffness (P.init
            (P.update_lagging st.world (P.full_to_reduced st.sol) lag_i) st.sol) st.sol)
            (P.full_to_reduced st.sol)).1
          (P.minimize nl_solver (P.update_barrier_stiffness (P.init
            (P.update_lagging st.world (P.full_to_reduced st.sol) lag_i) st.sol) st.sol)
            (P.full_to_reduced st.sol)).2 ∧
    (lagging_body P cfg nl_solver t lag_i st).2.prev_sol = st.sol ∧
    (lagging_body P cfg nl_solver t lag_i st).2.solver_info
      = st.solver_info ++
        [{ type := "rc", t := t, weight := none, lag_i := some lag_i,
           info := P.get_info (P.minimize nl_solver (P.update_barrier_stiffness (P.init
             (P.update_lagging st.world (P.full_to_reduced st.sol) lag_i) st.sol) st.sol)
             (P.full_to_reduced st.sol)).1 }] := by
  unfold lagging_body at hcont ⊢
  by_cases h1 : norm_le (P.gradient (P.update_lagging st.world (P.full_to_reduced st.sol) lag_i)
      (P.full_to_reduced st.sol)) (lagging_tol cfg) = true
  · simp [h1] at hcont
  · by_cases h2 : lp_norm_infinity (vec_sub st.prev_sol st.sol) ≤ tiny_update_tol
    · simp [h1, h2] at hcont
    · by_cases h3 : lag_i ≥ P.max_lagging_iterations
      · simp [h1, h2, h3] at hcont
      · have h3' : lag_i < P.max_lagging_iterations := not_le.mp h3
        simp [h1, h2, h3, h3']

/-- The record pushed by the callback `post_subsolve`, and what the callback leaves alone. -/
theorem post_subsolve_spec {W Info : Type} (t : Int) (st : State W Info) (sub : Subsolve Info) :
    (post_subsolve t st sub).solver_info
      = st.solver_info ++
        [if sub.al_weight > 0 then
          { type := "al", t := t, info := sub.info, weight := some sub.al_weight, lag_i := none }
        else
          { type := "rc", t := t, info := sub.info, weight := none, lag_i := none }] ∧
    (post_subsolve t st sub).sol = st.sol ∧
    (post_subsolve t st sub).prev_sol = st.prev_sol ∧
    (post_subsolve t st sub).world = st.world := by
  unfold post_subsolve
  by_cases h : sub.al_weight > 0 <;> simp [h]

/-- The callbacks of one AL solve append one record each to `stats.solver_info`. -/
theorem foldl_post_subsolve_info {W Info : Type} (t : Int) (subs : List (Subsolve Info)) :
    ∀ st : State W Info,
      st.solver_info <+: (subs.foldl (post_subsolve t) st).solver_info ∧
      (subs.foldl (post_subsolve t) st).solver_info.length
        = st.solver_info.length + subs.length := by
  induction subs with
  | nil => intro st; simp
  | cons sub subs ih =>
    intro st
    obtain ⟨h1, h2⟩ := ih (post_subsolve t st sub)
    have hp := (post_subsolve_spec t st sub).1
    simp only [List.foldl_cons]
    have hlen : (post_subsolve t st sub).solver_info.length = st.solver_info.length + 1 := by
      rw [hp]; simp
    constructor
    · exact List.IsPrefix.trans (by rw [hp]; exact List.prefix_append _ _) h1
    · rw [h2, hlen, List.length_cons]
      omega

/-- From the head of any pass on, the lagging loop only appends to `stats.solver_info`, one
record per `minimize` call. -/
theorem lagging_loop_info {W Info : Type} (P : Env W Info) (cfg : Config) (nl_solver : NLSolver)
    (t : Int) :
    ∀ (fuel : Nat) (lag_i : Int) (st : State W Info),
      st.solver_info <+: (lagging_loop P cfg nl_solver t fuel lag_i st).val.solver_info ∧
      (lagging_loop P cfg nl_solver t fuel lag_i st).val.solver_info.length
          + minimize_calls st.trace
        = st.solver_info.length
          + minimize_calls (lagging_loop P cfg nl_solver t fuel lag_i st).val.trace := by
  intro fuel
  induction fuel with
  | zero => intro lag_i st; simp [lagging_loop]
  | succ fuel ih =>
    intro lag_i st
    unfold lagging_loop
    cases hrun : st.lagging_converged with
    | true => simp
    | false =>
      simp only [Bool.not_false, if_true]
      rcases hbody : lagging_body P cfg nl_solver t lag_i st with ⟨b, st1⟩
      cases b with
      | true =>
        rcases lagging_body_cases P cfg nl_solver t lag_i st with ⟨_, _, h3, h4⟩ | ⟨h1, _⟩
        · rw [hbody] at h3 h4
          simp only at h3 h4
          simp only [Run.val_done, h3, h4]
          exact ⟨List.prefix_refl _, trivial⟩
        · rw [hbody] at h1; exact absurd h1 (by simp)
      | false =>
        have hc := lagging_body_continue_spec P cfg nl_solver t lag_i st (by rw [hbody])
        rcases lagging_body_cases P cfg nl_solver t lag_i st with ⟨h1, _⟩ | ⟨_, _, _, h4⟩
        · rw [hbody] at h1; exact absurd h1 (by simp)
        · rw [hbody] at hc h4
          simp only at hc h4
          obtain ⟨i1, i2⟩ := ih (lag_i + 1) st1
          simp only
          constructor
          · exact List.IsPrefix.trans (by rw [hc.2.2]; exact List.prefix_append _ _) i1
          · rw [hc.2.2, h4] at i2
            simp only [List.length_append, List.length_singleton] at i2
            omega

/-- The AL solve with its callbacks only appends to `stats.solver_info`, one record per
invocation of `post_subsolve`. -/
theorem al_phase_info {W Info : Type} (P : Env W Info) (nl_solver : NLSolver) (t : Int)
    (st : State W Info) :
    st.solver_info <+: (al_phase P nl_solver t st).solver_info ∧
    (al_phase P nl_solver t st).solver_info.length
      = st.solver_info.length + (P.al_solve nl_solver st.world st.sol).subsolves.length :=
  foldl_post_subsolve_info t (P.al_solve nl_solver st.world st.sol).subsolves
    ({ st with prev_sol := st.sol, trace := st.trace ++ [Call.al_solve st.sol] } : State W Info)

/-- The part before the solver is built does not touch `stats.solver_info`. -/
theorem before_solve_info {W Info : Type} (P : Env W Info) (world : W)
    (solver_info : List (Record Info)) (sol : Vec) (init_lagging : Bool) :
    (before_solve P world solver_info sol init_lagging).solver_info = solver_info := by
  cases hl : P.uses_lagging <;> cases init_lagging <;> simp [before_solve, hl]

/-- C15: during `solve_tensor_nonlinear`, `stats.solver_info` is append-only: its value on entry
is a prefix of its value on exit (also when `make_nl_solver` throws, and on a run cut short).
Each invocation of the `post_subsolve` callback appends exactly one record, of type "al" carrying
the weight when `al_weight > 0` and otherwise of type "rc" with no weight, and changes neither
`sol` nor the collaborators' state; each lagging re-solve appends exactly one record of type "rc"
carrying its `lag_i`; so the number of records appended is the number of callback invocations
plus the number of `minimize` calls. -/
theorem solver_info_append_only {W Info : Type} (P : Env W Info) (cfg : Config) (fuel : Nat)
    (world : W) (solver_info : List (Record Info)) (sol : Vec) (t : Int) (init_lagging : Bool) :
    (match solve_tensor_nonlinear P cfg fuel world solver_info sol t init_lagging with
      | Except.error (_, st) => st.solver_info = solver_info
      | Except.ok run => solver_info <+: run.val.solver_info ∧
          ∀ nl_solver,
            make_nl_solver cfg.nonlinear_solver cfg.linear_solver "" = Except.ok nl_solver →
            run.val.solver_info.length = solver_info.length
              + (P.al_solve nl_solver
                  (before_solve P world solver_info sol init_lagging).world sol).subsolves.length
              + minimize_calls run.val.trace) ∧
    (∀ (st : State W Info) (sub : Subsolve Info),
      (post_subsolve t st sub).solver_info
        = st.solver_info ++
          [if sub.al_weight > 0 then
            { type := "al", t := t, info := sub.info, weight := some sub.al_weight, lag_i := none }
          else
            { type := "rc", t := t, info := sub.info, weight := none, lag_i := none }] ∧
      (post_subsolve t st sub).sol = st.sol) ∧
    (∀ (nl_solver : NLSolver) (lag_i : Int) (st : State W Info),
      (lagging_body P cfg nl_solver t lag_i st).1 = false →
      ∃ info, (lagging_body P cfg nl_solver t lag_i st).2.solver_info
        = st.solver_info ++
          [{ type := "rc", t := t, info := info, weight := none, lag_i := some lag_i }]) := by
  refine ⟨?_, fun st sub => ⟨(post_subsolve_spec t st sub).1, (post_subsolve_spec t st sub).2.1⟩,
    fun nl_solver lag_i st h => ⟨_, (lagging_body_continue_spec P cfg nl_solver t lag_i st h).2.2⟩⟩
  unfold solve_tensor_nonlinear
  have hb := before_solve_info P world solver_info sol init_lagging
  have hbsol : (before_solve P world solver_info sol init_lagging).sol = sol :=
    (before_solve_spec P world solver_info sol init_lagging).1
  have hbmin := (before_solve_spec P world solver_info sol init_lagging).2.1
  cases hs : make_nl_solver cfg.nonlinear_solver cfg.linear_solver "" with
  | error msg => simpa using hb
  | ok nl_solver =>
    simp only
    obtain ⟨f1, f2⟩ := al_phase_info P nl_solver t
      (before_solve P world solver_info sol init_lagging)
    have l := lagging_loop_info P cfg nl_solver t fuel 1
      ⟨(al_phase P nl_solver t (before_solve P world solver_info sol init_lagging)).world,
        (al_phase P nl_solver t (before_solve P world solver_info sol init_lagging)).sol,
        (al_phase P nl_solver t (before_solve P world solver_info sol init_lagging)).prev_sol,
        (al_phase P nl_solver t (before_solve P world solver_info sol init_lagging)).subsolve_count,
        (al_phase P nl_solver t (before_solve P world solver_info sol init_lagging)).solver_info,
        !P.uses_lagging,
        (al_phase P nl_solver t (before_solve P world solver_info sol init_lagging)).trace⟩
    dsimp only at l
    obtain ⟨l1, l2⟩ := l
    have hamin := (al_phase_spec P nl_solver t
      (before_solve P world solver_info sol init_lagging)).2.2.2.1
    rw [hb] at f1 f2
    rw [hbsol] at f2
    rw [hamin, hbmin, f2] at l2
    refine ⟨List.IsPrefix.trans f1 l1, ?_⟩
    intro nl_solver' hs'
    cases hs'
    omega

end StateSolveNonlinear

namespace StateSolveNonlinear

/-- When the lagging loop ends, `sol` and `stats.solver_info` are as the last completed solve
left them: either no `minimize` call was made by the loop and both are as on entry, or `sol` is
the output of a `minimize` call and the last record is the record of that call. -/
theorem lagging_loop_last_solve {W Info : Type} (P : Env W Info) (cfg : Config)
    (nl_solver : NLSolver) (t : Int) :
    ∀ (fuel : Nat) (lag_i : Int) (st r : State W Info),
      lagging_loop P cfg nl_solver t fuel lag_i st = Run.done r →
      (r.sol = st.sol ∧ r.solver_info = st.solver_info ∧
        minimize_calls r.trace = minimize_calls st.trace) ∨
      (∃ (lag_j : Int) (world : W) (tmp_sol : Vec) (pre : List (Record Info)),
        r.sol = P.reduced_to_full (P.minimize nl_solver world tmp_sol).1
          (P.minimize nl_solver world tmp_sol).2 ∧
        r.solver_info = pre ++
          [{ type := "rc", t := t, info := P.get_info (P.minimize nl_solver world tmp_sol).1,
             weight := none, lag_i := some lag_j }]) := by
  intro fuel
  induction fuel with
  | zero => intro lag_i st r h; simp [lagging_loop] at h
  | succ fuel ih =>
    intro lag_i st r h
    unfold lagging_loop at h
    cases hrun : st.lagging_converged with
    | true =>
      simp only [hrun, Bool.not_true, Bool.false_eq_true, if_false, Run.done.injEq] at h
      subst h
      exact Or.inl ⟨rfl, rfl, rfl⟩
    | false =>
      simp only [hrun, Bool.not_false, if_true] at h
      rcases hbody : lagging_body P cfg nl_solver t lag_i st with ⟨b, st1⟩
      rw [hbody] at h
      cases b with
      | true =>
        simp only [Run.done.injEq] at h
        subst h
        rcases lagging_body_cases P cfg nl_solver t lag_i st with ⟨_, h2, h3, h4⟩ | ⟨h1, _⟩
        · rw [hbody] at h2 h3 h4
          exact Or.inl ⟨h2, h3, h4⟩
        · rw [hbody] at h1; exact absurd h1 (by simp)
      | false =>
        simp only at h
        have hc := lagging_body_continue_spec P cfg nl_solver t lag_i st (by rw [hbody])
        rw [hbody] at hc
        simp only at hc
        rcases ih (lag_i + 1) st1 r h with ⟨h2, h3, _⟩ | hlast
        · exact Or.inr ⟨lag_i, _, _, st.solver_info, by rw [h2, hc.1], by rw [h3, hc.2.2]⟩
        · exact Or.inr hlast

/-- C11: `solve_tensor_nonlinear` returns normally whether or not the lagging loop converges
(the solver being built, fuel `max(N, 1)` is enough), and on return `sol` is exactly the
configuration produced by the last completed solve: the AL solve if the loop made no `minimize`
call, otherwise the last `minimize` call, whose record is the last one of `stats.solver_info`.
A pass that ends the loop without convergence (stagnation or exhausted budget) neither modifies
`sol` nor appends a record to `stats.solver_info` nor calls `minimize`. -/
theorem unconverged_lagging_keeps_last_solve {W Info : Type} (P : Env W Info) (cfg : Config)
    (fuel : Nat) (world : W) (solver_info : List (Record Info)) (sol : Vec) (t : Int)
    (init_lagging : Bool) (nl_solver : NLSolver)
    (hsolver : make_nl_solver cfg.nonlinear_solver cfg.linear_solver "" = Except.ok nl_solver)
    (hfuel : max P.max_lagging_iterations 1 ≤ (fuel : Int)) :
    (∃ r, solve_tensor_nonlinear P cfg fuel world solver_info sol t init_lagging
        = Except.ok (Run.done r) ∧
      ((r.sol = (P.al_solve nl_solver
            (before_solve P world solver_info sol init_lagging).world sol).sol ∧
          minimize_calls r.trace = 0) ∨
        (∃ (lag_j : Int) (world' : W) (tmp_sol : Vec) (pre : List (Record Info)),
          r.sol = P.reduced_to_full (P.minimize nl_solver world' tmp_sol).1
            (P.minimize nl_solver world' tmp_sol).2 ∧
          r.solver_info = pre ++
            [{ type := "rc", t := t, info := P.get_info (P.minimize nl_solver world' tmp_sol).1,
               weight := none, lag_i := some lag_j }]))) ∧
    (∀ (lag_i : Int) (st : State W Info),
      (lagging_body P cfg nl_solver t lag_i st).1 = true →
      (lagging_body P cfg nl_solver t lag_i st).2.lagging_converged = false →
      (lagging_body P cfg nl_solver t lag_i st).2.sol = st.sol ∧
      (lagging_body P cfg nl_solver t lag_i st).2.solver_info = st.solver_info ∧
      minimize_calls (lagging_body P cfg nl_solver t lag_i st).2.trace
        = minimize_calls st.trace) := by
  constructor
  · obtain ⟨b1, b2, _, _, _⟩ := before_solve_spec P world solver_info sol init_lagging
    obtain ⟨a1, _, _, a4, _, _⟩ := al_phase_spec P nl_solver t
      (before_solve P world solver_info sol init_lagging)
    obtain ⟨r, hr, _, _⟩ := lagging_loop_bound P cfg nl_solver t
      (P.max_lagging_iterations - 1).toNat fuel 1
      ⟨(al_phase P nl_solver t (before_solve P world solver_info sol init_lagging)).world,
        (al_phase P nl_solver t (before_solve P world solver_info sol init_lagging)).sol,
        (al_phase P nl_solver t (before_solve P world solver_info sol init_lagging)).prev_sol,
        (al_phase P nl_solver t (before_solve P world solver_info sol init_lagging)).subsolve_count,
        (al_phase P nl_solver t (before_solve P world solver_info sol init_lagging)).solver_info,
        !P.uses_lagging,
        (al_phase P nl_solver t (before_solve P world solver_info sol init_lagging)).trace⟩
      (by omega) (by omega)
    refine ⟨r, by simp only [solve_tensor_nonlinear, hsolver]; exact congrArg Except.ok hr, ?_⟩
    rcases lagging_loop_last_solve P cfg nl_solver t fuel 1 _ r hr with ⟨h1, _, h3⟩ | hlast
    · left
      dsimp only at h1 h3
      rw [b1] at a1
      exact ⟨h1.trans a1, by rw [h3, a4, b2]⟩
    · exact Or.inr hlast
  · intro lag_i st hb _
    rcases lagging_body_cases P cfg nl_solver t lag_i st with ⟨_, h2, h3, h4⟩ | ⟨h1, _⟩
    · exact ⟨h2, h3, h4⟩
    · rw [hb] at h1; exact absurd h1 (by simp)

/-- Witness for `unconverged_lagging_keeps_last_solve`: budget 3, gradient norm 1 throughout,
every solve moving the solution by 1. -/
theorem unconverged_lagging_keeps_last_solve_witness :
    (∃ r, solve_tensor_nonlinear (test_env true 3 1 1) test_config 3 0 [] [0] 1 true
        = Except.ok (Run.done r) ∧
      ((r.sol = ((test_env true 3 1 1).al_solve (NLSolver.newton "Eigen::SimplicialLDLT")
            (before_solve (test_env true 3 1 1) 0 [] [0] true).world [0]).sol ∧
          minimize_calls r.trace = 0) ∨
        (∃ (lag_j : Int) (world' : Nat) (tmp_sol : Vec) (pre : List (Record Nat)),
          r.sol = (test_env true 3 1 1).reduced_to_full
            ((test_env true 3 1 1).minimize (NLSolver.newton "Eigen::SimplicialLDLT")
              world' tmp_sol).1
            ((test_env true 3 1 1).minimize (NLSolver.newton "Eigen::SimplicialLDLT")
              world' tmp_sol).2 ∧
          r.solver_info = pre ++
            [{ type := "rc", t := 1,
               info := (test_env true 3 1 1).get_info
                 ((test_env true 3 1 1).minimize (NLSolver.newton "Eigen::SimplicialLDLT")
                   world' tmp_sol).1,
               weight := none, lag_i := some lag_j }]))) :=
  (unconverged_lagging_keeps_last_solve (test_env true 3 1 1) test_config 3 0 [] [0] 1 true
    (NLSolver.newton "Eigen::SimplicialLDLT") (by simp [make_nl_solver, test_config])
    (by simp [test_env])).1

end StateSolveNonlinear

namespace StateSolveNonlinear

/-- The checker runs over a concatenation by running over the parts in turn. -/
theorem discipline_append (a b : List Call) :
    ∀ p, discipline p (a ++ b) = (discipline p a).bind (fun q => discipline q b) := by
  induction a with
  | nil => intro p; rfl
  | cons c a ih =>
    intro p
    simp only [List.cons_append, discipline]
    cases discipline_step p c with
    | none => rfl
    | some q => exact ih q

/-- The `post_subsolve` callbacks add only `save_subsolve` calls, which the checker passes. -/
theorem foldl_post_subsolve_discipline {W Info : Type} (t : Int) (subs : List (Subsolve Info)) :
    ∀ (st : State W Info) (p : Phase), discipline Phase.start st.trace = some p →
      discipline Phase.start (subs.foldl (post_subsolve t) st).trace = some p := by
  induction subs with
  | nil => intro st p h; exact h
  | cons sub subs ih =>
    intro st p h
    simp only [List.foldl_cons]
    apply ih
    simp only [post_subsolve, discipline_append, h, Option.some_bind]
    cases p <;> rfl

/-- The calls of one pass through the body of the lagging loop: `update_lagging` on the current
candidate comes first and is the only lagging call of the pass. -/
theorem lagging_body_trace {W Info : Type} (P : Env W Info) (cfg : Config) (nl_solver : NLSolver)
    (t lag_i : Int) (st : State W Info) :
    ∃ rest, (lagging_body P cfg nl_solver t lag_i st).2.trace
        = st.trace ++ Call.update_lagging (P.full_to_reduced st.sol) lag_i :: rest ∧
      lagging_calls rest = 0 ∧
      discipline Phase.refreshed rest
        = some (if (lagging_body P cfg nl_solver t lag_i st).1 then Phase.refreshed
            else Phase.solved) := by
  unfold lagging_body
  by_cases h1 : norm_le (P.gradient (P.update_lagging st.world (P.full_to_reduced st.sol) lag_i)
      (P.full_to_reduced st.sol)) (lagging_tol cfg) = true
  · exact ⟨[Call.gradient (P.full_to_reduced st.sol)], by simp [h1], rfl, by simp [h1]; rfl⟩
  · by_cases h2 : lp_norm_infinity (vec_sub st.prev_sol st.sol) ≤ tiny_update_tol
    · exact ⟨[Call.gradient (P.full_to_reduced st.sol)], by simp [h1, h2], rfl,
        by simp [h1, h2]; rfl⟩
    · by_cases h3 : lag_i ≥ P.max_lagging_iterations
      · exact ⟨[Call.gradient (P.full_to_reduced st.sol)], by simp [h1, h2, h3], rfl,
          by simp [h1, h2, h3]; rfl⟩
      · have h3' : lag_i < P.max_lagging_iterations := not_le.mp h3
        exact ⟨[Call.gradient (P.full_to_reduced st.sol), Call.init st.sol,
            Call.update_barrier_stiffness st.sol, Call.minimize (P.full_to_reduced st.sol),
            Call.save_subsolve (st.subsolve_count + 1)
              (P.reduced_to_full
                (P.minimize nl_solver (P.update_barrier_stiffness (P.init
                  (P.update_lagging st.world (P.full_to_reduced st.sol) lag_i) st.sol) st.sol)
                  (P.full_to_reduced st.sol)).1
                (P.minimize nl_solver (P.update_barrier_stiffness (P.init
                  (P.update_lagging st.world (P.full_to_reduced st.sol) lag_i) st.sol) st.sol)
                  (P.full_to_reduced st.sol)).2)],
          by simp [h1, h2, h3, h3'], rfl, by simp [h1, h2, h3, h3']; rfl⟩

/-- The `post_subsolve` callbacks only add calls at the end of the trace. -/
theorem foldl_post_subsolve_extends {W Info : Type} (t : Int) (subs : List (Subsolve Info)) :
    ∀ (st : State W Info), st.trace <+: (subs.foldl (post_subsolve t) st).trace := by
  induction subs with
  | nil => intro st; exact List.prefix_refl _
  | cons sub subs ih =>
    intro st
    simp only [List.foldl_cons]
    exact List.IsPrefix.trans (by simp [post_subsolve]) (ih _)

/-- The lagging loop only adds calls at the end of the trace. -/
theorem lagging_loop_extends {W Info : Type} (P : Env W Info) (cfg : Config)
    (nl_solver : NLSolver) (t : Int) :
    ∀ (fuel : Nat) (lag_i : Int) (st : State W Info),
      st.trace <+: (lagging_loop P cfg nl_solver t fuel lag_i st).val.trace := by
  intro fuel
  induction fuel with
  | zero => intro lag_i st; simp [lagging_loop]
  | succ fuel ih =>
    intro lag_i st
    unfold lagging_loop
    cases hrun : st.lagging_converged with
    | true => simp
    | false =>
      simp only [Bool.not_false, if_true]
      obtain ⟨rest, htr, _, _⟩ := lagging_body_trace P cfg nl_solver t lag_i st
      have hpre : st.trace <+: (lagging_body P cfg nl_solver t lag_i st).2.trace := by
        rw [htr]; exact List.prefix_append _ _
      rcases hbody : lagging_body P cfg nl_solver t lag_i st with ⟨b, st1⟩
      rw [hbody] at hpre
      cases b with
      | true => simpa using hpre
      | false => exact List.IsPrefix.trans hpre (ih (lag_i + 1) st1)

/-- Right after the AL solve the run keeps to the discipline and a solve has just ended; the
calls made before the solver was built are still the head of the trace. -/
theorem al_phase_discipline {W Info : Type} (P : Env W Info) (nl_solver : NLSolver) (t : Int)
    (world : W) (solver_info : List (Record Info)) (sol : Vec) (init_lagging : Bool) :
    discipline Phase.start
        (al_phase P nl_solver t (before_solve P world solver_info sol init_lagging)).trace
      = some Phase.solved ∧
    (before_solve P world solver_info sol init_lagging).trace
      <+: (al_phase P nl_solver t (before_solve P world solver_info sol init_lagging)).trace := by
  constructor
  · apply foldl_post_subsolve_discipline
    cases hl : P.uses_lagging <;> cases init_lagging <;>
      simp [before_solve, hl, discipline, discipline_step]
  · exact List.IsPrefix.trans (List.prefix_append _ _)
      (foldl_post_subsolve_extends t _
        ({ before_solve P world solver_info sol init_lagging with
            prev_sol := (before_solve P world solver_info sol init_lagging).sol,
            trace := (before_solve P world solver_info sol init_lagging).trace
              ++ [Call.al_solve (before_solve P world solver_info sol init_lagging).sol] } :
          State W Info))

/-- From a state in which a solve has just ended, the lagging loop keeps to the discipline. -/
theorem lagging_loop_discipline {W Info : Type} (P : Env W Info) (cfg : Config)
    (nl_solver : NLSolver) (t : Int) :
    ∀ (fuel : Nat) (lag_i : Int) (st : State W Info),
      discipline Phase.start st.trace = some Phase.solved →
      discipline Phase.start (lagging_loop P cfg nl_solver t fuel lag_i st).val.trace
          = some Phase.solved ∨
        discipline Phase.start (lagging_loop P cfg nl_solver t fuel lag_i st).val.trace
          = some Phase.refreshed := by
  intro fuel
  induction fuel with
  | zero => intro lag_i st h; exact Or.inl (by simpa [lagging_loop] using h)
  | succ fuel ih =>
    intro lag_i st h
    unfold lagging_loop
    cases hrun : st.lagging_converged with
    | true => exact Or.inl (by simpa using h)
    | false =>
      simp only [Bool.not_false, if_true]
      obtain ⟨rest, htr, _, hd⟩ := lagging_body_trace P cfg nl_solver t lag_i st
      have hpass : discipline Phase.start (lagging_body P cfg nl_solver t lag_i st).2.trace
          = some (if (lagging_body P cfg nl_solver t lag_i st).1 then Phase.refreshed
              else Phase.solved) := by
        rw [htr, discipline_append, h]
        exact hd
      rcases hbody : lagging_body P cfg nl_solver t lag_i st with ⟨b, st1⟩
      rw [hbody] at hpass
      cases b with
      | true => exact Or.inr (by simpa using hpass)
      | false => exact ih (lag_i + 1) st1 (by simpa using hpass)

/-- C12: in `solve_tensor_nonlinear` the lagging state is changed only between inner solves.
`init_lagging` is called at most once, as the first call and so before the AL solve, and exactly
when `uses_lagging()` and the argument `init_lagging` both hold; every pass through the lagging
loop starts with its one `update_lagging` call, on the current candidate
`full_to_reduced(sol)`; and the calls of every run keep to the discipline of `discipline_step`:
one AL solve first, then exactly one `update_lagging` between two consecutive solves, no lagging
call anywhere else. -/
theorem lagging_state_changed_between_solves {W Info : Type} (P : Env W Info) (cfg : Config)
    (fuel : Nat) (world : W) (solver_info : List (Record Info)) (sol : Vec) (t : Int)
    (init_lagging : Bool) :
    ((before_solve P world solver_info sol init_lagging).trace
      = (if P.uses_lagging && init_lagging then [Call.init_lagging sol] else [])
        ++ [Call.save_subsolve 0 sol]) ∧
    (match solve_tensor_nonlinear P cfg fuel world solver_info sol t init_lagging with
      | Except.error (_, st) => st.trace = (before_solve P world solver_info sol init_lagging).trace
      | Except.ok run =>
          (before_solve P world solver_info sol init_lagging).trace <+: run.val.trace ∧
          (discipline Phase.start run.val.trace = some Phase.solved ∨
            discipline Phase.start run.val.trace = some Phase.refreshed)) ∧
    (∀ (nl_solver : NLSolver) (lag_i : Int) (st : State W Info),
      ∃ rest, (lagging_body P cfg nl_solver t lag_i st).2.trace
          = st.trace ++ Call.update_lagging (P.full_to_reduced st.sol) lag_i :: rest ∧
        lagging_calls rest = 0) := by
  have hbefore : (before_solve P world solver_info sol init_lagging).trace
      = (if P.uses_lagging && init_lagging then [Call.init_lagging sol] else [])
        ++ [Call.save_subsolve 0 sol] := by
    cases hl : P.uses_lagging <;> cases init_lagging <;> simp [before_solve, hl]
  refine ⟨hbefore, ?_, fun nl_solver lag_i st => ?_⟩
  · unfold solve_tensor_nonlinear
    cases hs : make_nl_solver cfg.nonlinear_solver cfg.linear_solver "" with
    | error msg => rfl
    | ok nl_solver =>
      simp only
      obtain ⟨hd, hp⟩ := al_phase_discipline P nl_solver t world solver_info sol init_lagging
      exact ⟨List.IsPrefix.trans hp (lagging_loop_extends P cfg nl_solver t fuel 1
          ⟨_, _, _, _, _, !P.uses_lagging, _⟩),
        lagging_loop_discipline P cfg nl_solver t fuel 1 ⟨_, _, _, _, _, !P.uses_lagging, _⟩ hd⟩
  · obtain ⟨rest, h1, h2, _⟩ := lagging_body_trace P cfg nl_solver t lag_i st
    exact ⟨rest, h1, h2⟩

end StateSolveNonlinear

namespace StateSolveNonlinear

/-- The checker is not vacuous: two refreshes in a row, a `minimize` without a refresh, and a
late `init_lagging` are all rejected. -/
theorem discipline_rejects :
    discipline Phase.start [Call.al_solve [], Call.update_lagging [] 1, Call.update_lagging [] 1]
      = none ∧
    discipline Phase.start [Call.al_solve [], Call.minimize []] = none ∧
    discipline Phase.start [Call.al_solve [], Call.init_lagging []] = none := by
  refine ⟨rfl, rfl, rfl⟩

/-- Witness for `lagging_state_changed_between_solves`: the run with budget 3 that ends
unconverged after two re-solves keeps to the discipline and ends right after a refresh. -/
theorem lagging_state_changed_between_solves_witness :
    (before_solve (test_env true 3 1 1) 0 ([] : List (Record Nat)) [0] true).trace
      = [Call.init_lagging [0], Call.save_subsolve 0 [0]] ∧
    ∀ (nl_solver : NLSolver) (lag_i : Int) (st : State Nat Nat),
      ∃ rest, (lagging_body (test_env true 3 1 1) test_config nl_solver 1 lag_i st).2.trace
          = st.trace ++ Call.update_lagging ((test_env true 3 1 1).full_to_reduced st.sol) lag_i
            :: rest ∧
        lagging_calls rest = 0 :=
  ⟨(lagging_state_changed_between_solves (test_env true 3 1 1) test_config 3 0 [] [0] 1 true).1,
    (lagging_state_changed_between_solves (test_env true 3 1 1) test_config 3 0 [] [0] 1
      true).2.2⟩

/-- C16: `make_nl_solver` returns a Newton solver exactly when the configured name is "newton"
or "Newton", an L-BFGS solver exactly when it is "lbfgs", "LBFGS" or "L-BFGS", and for every
other name it throws `std::invalid_argument` (message "invalid nonlinear solver type: " followed
by the name) and returns no solver. -/
theorem make_nl_solver_by_name (name configured_linear_solver linear_solver_type : String) :
    ((∃ ls, make_nl_solver name configured_linear_solver linear_solver_type
        = Except.ok (NLSolver.newton ls)) ↔ (name = "newton" ∨ name = "Newton")) ∧
    (make_nl_solver name configured_linear_solver linear_solver_type = Except.ok NLSolver.lbfgs ↔
      (name = "lbfgs" ∨ name = "LBFGS" ∨ name = "L-BFGS")) ∧
    ((∃ msg, make_nl_solver name configured_linear_solver linear_solver_type
        = Except.error msg) ↔
      ¬ (name = "newton" ∨ name = "Newton" ∨ name = "lbfgs" ∨ name = "LBFGS" ∨
        name = "L-BFGS")) ∧
    (∀ msg, make_nl_solver name configured_linear_solver linear_solver_type = Except.error msg →
      msg = "invalid nonlinear solver type: " ++ name) := by
  have e1 : (name = "newton" ∨ name = "Newton") →
      make_nl_solver name configured_linear_solver linear_solver_type
        = Except.ok (NLSolver.newton
            (if linear_solver_type ≠ "" then linear_solver_type else configured_linear_solver)) := by
    intro h
    unfold make_nl_solver
    rw [if_pos h]
  have e2 : ¬ (name = "newton" ∨ name = "Newton") →
      (name = "lbfgs" ∨ name = "LBFGS" ∨ name = "L-BFGS") →
      make_nl_solver name configured_linear_solver linear_solver_type
        = Except.ok NLSolver.lbfgs := by
    intro h h'
    unfold make_nl_solver
    rw [if_neg h, if_pos h']
  have e3 : ¬ (name = "newton" ∨ name = "Newton") →
      ¬ (name = "lbfgs" ∨ name = "LBFGS" ∨ name = "L-BFGS") →
      make_nl_solver name configured_linear_solver linear_solver_type
        = Except.error ("invalid nonlinear solver type: " ++ name) := by
    intro h h'
    unfold make_nl_solver
    rw [if_neg h, if_neg h']
  by_cases h1 : name = "newton" ∨ name = "Newton"
  · have h2 : ¬ (name = "lbfgs" ∨ name = "LBFGS" ∨ name = "L-BFGS") := by
      rcases h1 with rfl | rfl <;> decide
    rw [e1 h1]
    refine ⟨⟨fun _ => h1, fun _ => ⟨_, rfl⟩⟩, ⟨fun h => (by cases h), fun h => absurd h h2⟩,
      ⟨fun ⟨_, h⟩ => (by cases h), fun h => absurd ?_ h⟩, fun msg h => by cases h⟩
    rcases h1 with h | h
    · exact Or.inl h
    · exact Or.inr (Or.inl h)
  · by_cases h2 : name = "lbfgs" ∨ name = "LBFGS" ∨ name = "L-BFGS"
    · rw [e2 h1 h2]
      refine ⟨⟨fun ⟨_, h⟩ => (by cases h), fun h => absurd h h1⟩,
        ⟨fun _ => h2, fun _ => rfl⟩,
        ⟨fun ⟨_, h⟩ => (by cases h), fun h => absurd ?_ h⟩, fun msg h => by cases h⟩
      rcases h2 with h | h | h
      · exact Or.inr (Or.inr (Or.inl h))
      · exact Or.inr (Or.inr (Or.inr (Or.inl h)))
      · exact Or.inr (Or.inr (Or.inr (Or.inr h)))
    · rw [e3 h1 h2]
      refine ⟨⟨fun ⟨_, h⟩ => (by cases h), fun h => absurd h h1⟩,
        ⟨fun h => (by cases h), fun h => absurd h h2⟩,
        ⟨fun _ => ?_, fun _ => ⟨_, rfl⟩⟩, fun msg h => by cases h; rfl⟩
      intro h
      rcases h with h | h | h | h | h
      · exact h1 (Or.inl h)
      · exact h1 (Or.inr h)
      · exact h2 (Or.inl h)
      · exact h2 (Or.inr (Or.inl h))
      · exact h2 (Or.inr (Or.inr h))

end StateSolveNonlinear

namespace StateSolveNonlinear

/-- C17: `init_nonlinear_tensor_solve` raises the error "Unable to solve, initial solution has
intersections!" if and only if contact is enabled and the collision mesh displaced by the
initial solution has intersections; it raises no other error, and when it raises, the
collaborators' state (time integrator, forms, `solve_data.nl_problem`) and `stats.solver_info`
are as they were on entry. -/
theorem init_raises_iff_intersections {W Info : Type} (E : SetupEnv W) (world : W)
    (solver_info : List (Record Info)) (sol : Vec) (t : ℚ) (init_time_integrator : Bool) :
    ((∃ st, init_nonlinear_tensor_solve E world solver_info sol t init_time_integrator
        = Except.error ("Unable to solve, initial solution has intersections!", st)) ↔
      (E.is_contact_enabled = true ∧ E.has_intersections world sol = true)) ∧
    (∀ msg st, init_nonlinear_tensor_solve E world solver_info sol t init_time_integrator
        = Except.error (msg, st) →
      msg = "Unable to solve, initial solution has intersections!" ∧
      st.world = world ∧ st.solver_info = solver_info) := by
  unfold init_nonlinear_tensor_solve
  cases hc : E.is_contact_enabled <;> cases hi : E.has_intersections world sol <;>
    simp

/-- Witness for `init_raises_iff_intersections`: the test set-up at an intersecting start. -/
theorem init_raises_iff_intersections_witness :
    (∃ st, init_nonlinear_tensor_solve test_setup 7 ([] : List (Record Nat)) [-1] 1 true
        = Except.error ("Unable to solve, initial solution has intersections!", st)) ∧
    (∀ msg st, init_nonlinear_tensor_solve test_setup 7 ([] : List (Record Nat)) [-1] 1 true
        = Except.error (msg, st) →
      msg = "Unable to solve, initial solution has intersections!" ∧
      st.world = 7 ∧ st.solver_info = []) :=
  ⟨(init_raises_iff_intersections test_setup 7 [] [-1] 1 true).1.mpr ⟨rfl, by decide⟩,
    (init_raises_iff_intersections test_setup 7 [] [-1] 1 true).2⟩

end StateSolveNonlinear

namespace StateSolveNonlinear

/-- With the solver built and fuel `max(N, 1)`, `solve_tensor_nonlinear` returns normally. -/
theorem solve_tensor_nonlinear_returns {W Info : Type} (P : Env W Info) (cfg : Config)
    (fuel : Nat) (world : W) (solver_info : List (Record Info)) (sol : Vec) (t : Int)
    (init_lagging : Bool) (nl_solver : NLSolver)
    (hsolver : make_nl_solver cfg.nonlinear_solver cfg.linear_solver "" = Except.ok nl_solver)
    (hfuel : max P.max_lagging_iterations 1 ≤ (fuel : Int)) :
    ∃ r, solve_tensor_nonlinear P cfg fuel world solver_info sol t init_lagging
      = Except.ok (Run.done r) := by
  obtain ⟨r, hr, _, _⟩ := lagging_loop_bound P cfg nl_solver t
    (P.max_lagging_iterations - 1).toNat fuel 1
    ⟨(al_phase P nl_solver t (before_solve P world solver_info sol init_lagging)).world,
      (al_phase P nl_solver t (before_solve P world solver_info sol init_lagging)).sol,
      (al_phase P nl_solver t (before_solve P world solver_info sol init_lagging)).prev_sol,
      (al_phase P nl_solver t (before_solve P world solver_info sol init_lagging)).subsolve_count,
      (al_phase P nl_solver t (before_solve P world solver_info sol init_lagging)).solver_info,
      !P.uses_lagging,
      (al_phase P nl_solver t (before_solve P world solver_info sol init_lagging)).trace⟩
    (by omega) (by omega)
  exact ⟨r, by simp only [solve_tensor_nonlinear, hsolver]; exact congrArg Except.ok hr⟩

/-- A call of `solve_tensor_nonlinear` from the time loop returns and adds only calls of the
solve phase. -/
theorem call_solve_returns {W Info : Type} (P : Env W Info) (cfg : Config) (fuel : Nat)
    (t : Int) (init_lagging : Bool) (s : StepState W Info) (nl_solver : NLSolver)
    (hsolver : make_nl_solver cfg.nonlinear_solver cfg.linear_solver "" = Except.ok nl_solver)
    (hfuel : max P.max_lagging_iterations 1 ≤ (fuel : Int)) :
    ∃ s' extra, call_solve P cfg fuel t init_lagging s = Except.ok (Run.done s') ∧
      s'.calls = s.calls ++ StepCall.solve_tensor_nonlinear t init_lagging :: extra ∧
      extra.all StepCall.in_solve_phase = true := by
  obtain ⟨r, hr⟩ := solve_tensor_nonlinear_returns P cfg fuel s.world s.solver_info s.sol t
    init_lagging nl_solver hsolver hfuel
  refine ⟨⟨r.world, r.sol, r.solver_info, s.save_i,
      s.calls ++ StepCall.solve_tensor_nonlinear t init_lagging :: r.trace.map StepCall.inner⟩,
    r.trace.map StepCall.inner, by simp only [call_solve, hr], rfl, ?_⟩
  simp [List.all_eq_true, StepCall.in_solve_phase]

/-- The remeshing block returns and adds only calls of the solve phase. -/
theorem remesh_part_returns {W Info : Type} (P : Env W Info) (E : SetupEnv W) (cfg : Config)
    (tc : TransientConfig) (fuel : Nat) (t0 dt : ℚ) (t : Int) (s : StepState W Info)
    (nl_solver : NLSolver)
    (hsolver : make_nl_solver cfg.nonlinear_solver cfg.linear_solver "" = Except.ok nl_solver)
    (hfuel : max P.max_lagging_iterations 1 ≤ (fuel : Int)) :
    ∃ s' extra, remesh_part P E cfg tc fuel t0 dt t s = Except.ok (Run.done s') ∧
      s'.calls = s.calls ++ extra ∧ extra.all StepCall.in_solve_phase = true := by
  unfold remesh_part
  by_cases hre : (tc.with_remeshing && tc.remesh_enabled) = true
  · rw [if_pos hre]
    by_cases hsucc : (E.remesh s.world s.sol (t0 + dt * t) dt).success = true
    · obtain ⟨s2, extra, h2, hcalls, hall⟩ := call_solve_returns P cfg fuel t false
        (save_frame (t0 + dt * t)
          ⟨(E.remesh s.world s.sol (t0 + dt * t) dt).world,
            (E.remesh s.world s.sol (t0 + dt * t) dt).sol, s.solver_info, s.save_i,
            s.calls ++ [StepCall.remesh (t0 + dt * t)]⟩)
        nl_solver hsolver hfuel
      refine ⟨save_frame (t0 + dt * t) s2,
        [StepCall.remesh (t0 + dt * t), StepCall.save_energy s.save_i,
          StepCall.save_timestep (t0 + dt * t) s.save_i,
          StepCall.solve_tensor_nonlinear t false] ++ extra
          ++ [StepCall.save_energy s2.save_i, StepCall.save_timestep (t0 + dt * t) s2.save_i],
        ?_, ?_, ?_⟩
      · simp only [hsucc, if_true, h2]
      · simp only [save_frame, hcalls]
        simp
      · simp only [List.all_append, hall, Bool.and_true, Bool.true_and]
        rfl
    · refine ⟨save_frame (t0 + dt * t) (save_frame (t0 + dt * t)
          ⟨(E.remesh s.world s.sol (t0 + dt * t) dt).world,
            (E.remesh s.world s.sol (t0 + dt * t) dt).sol, s.solver_info, s.save_i,
            s.calls ++ [StepCall.remesh (t0 + dt * t)]⟩),
        [StepCall.remesh (t0 + dt * t), StepCall.save_energy s.save_i,
          StepCall.save_timestep (t0 + dt * t) s.save_i,
          StepCall.save_energy (s.save_i + 1),
          StepCall.save_timestep (t0 + dt * t) (s.save_i + 1)], ?_, ?_, rfl⟩
      · simp only [hsucc, Bool.false_eq_true, if_false]
      · simp [save_frame]
  · rw [if_neg hre]
    exact ⟨s, [], rfl, by simp, rfl⟩

/-- Every closing sequence is the four update calls, `update_quantities` first and
`update_barrier_stiffness` last, followed by output calls only. -/
theorem closing_calls_spec (tc : TransientConfig) (t0 dt : ℚ) (t : Int) (sol : Vec) :
    ∃ tail, closing_calls tc t0 dt t sol
        = [StepCall.update_quantities sol,
            StepCall.nl_problem_update_quantities (t0 + (t + 1) * dt) sol,
            StepCall.update_dt, StepCall.update_barrier_stiffness sol] ++ tail ∧
      tail.all StepCall.is_output = true := by
  unfold closing_calls
  by_cases h : (tc.remesh_enabled && tc.rest_mesh_path ≠ "") = true
  · exact ⟨[StepCall.write_rest_mesh t, StepCall.save_raw t, StepCall.save_restart_json t,
      StepCall.save_stats t], by rw [if_pos h]; rfl, rfl⟩
  · exact ⟨[StepCall.save_raw t, StepCall.save_restart_json t, StepCall.save_stats t],
      by rw [if_neg h]; rfl, rfl⟩

/-- A whole time step returns; its calls are the first solve, further calls of the solve phase,
the four update calls on the step's final `sol`, and output calls; the state it hands on is the
one left by `update_barrier_stiffness`. -/
theorem time_step_returns {W Info : Type} (P : Env W Info) (E : SetupEnv W) (cfg : Config)
    (tc : TransientConfig) (fuel : Nat) (t0 dt : ℚ) (t : Int) (s : StepState W Info)
    (nl_solver : NLSolver)
    (hsolver : make_nl_solver cfg.nonlinear_solver cfg.linear_solver "" = Except.ok nl_solver)
    (hfuel : max P.max_lagging_iterations 1 ≤ (fuel : Int)) :
    ∃ s' pre tail, time_step P E cfg tc fuel t0 dt t s = Except.ok (Run.done s') ∧
      s'.calls = s.calls ++ StepCall.solve_tensor_nonlinear t true :: pre
        ++ [StepCall.update_quantities s'.sol,
            StepCall.nl_problem_update_quantities (t0 + (t + 1) * dt) s'.sol,
            StepCall.update_dt, StepCall.update_barrier_stiffness s'.sol] ++ tail ∧
      pre.all StepCall.in_solve_phase = true ∧ tail.all StepCall.is_output = true ∧
      ∃ w, s'.world = P.update_barrier_stiffness w s'.sol := by
  obtain ⟨s1, e1, h1, c1, a1⟩ := call_solve_returns P cfg fuel t true s nl_solver hsolver hfuel
  obtain ⟨s2, e2, h2, c2, a2⟩ := remesh_part_returns P E cfg tc fuel t0 dt t
    (save_frame (t0 + dt * t) s1) nl_solver hsolver hfuel
  obtain ⟨tail, htail, hout⟩ := closing_calls_spec tc t0 dt t s2.sol
  refine ⟨finish_step P E tc t0 dt t s2,
    e1 ++ [StepCall.save_energy s1.save_i, StepCall.save_timestep (t0 + dt * t) s1.save_i] ++ e2,
    tail, ?_, ?_, ?_, hout, ⟨_, rfl⟩⟩
  · simp only [time_step, h1, h2]
  · simp only [finish_step, c2, save_frame, c1, htail]
    simp
  · simp only [List.all_append, a1, a2, Bool.and_true, Bool.true_and]
    rfl

end StateSolveNonlinear

namespace StateSolveNonlinear

/-- The time loop runs its `n` steps to the end, leaves the earlier steps' calls alone, and the
`i`-th step it runs has step number `t + i` and the shape given by `time_step_returns`. -/
theorem time_loop_returns {W Info : Type} (P : Env W Info) (E : SetupEnv W) (cfg : Config)
    (tc : TransientConfig) (fuel : Nat) (t0 dt : ℚ) (nl_solver : NLSolver)
    (hsolver : make_nl_solver cfg.nonlinear_solver cfg.linear_solver "" = Except.ok nl_solver)
    (hfuel : max P.max_lagging_iterations 1 ≤ (fuel : Int)) :
    ∀ (n : Nat) (t : Int) (tl : Timeline W Info),
      ∃ r, time_loop P E cfg tc fuel t0 dt n t tl = Except.ok (Run.done r) ∧
        r.steps.length = tl.steps.length + n ∧
        (∀ i, i < tl.steps.length → r.steps[i]? = tl.steps[i]?) ∧
        (∀ i : Nat, i < n → ∃ pre sol_i tail,
          r.steps[tl.steps.length + i]?
            = some (StepCall.solve_tensor_nonlinear (t + i) true :: pre
                ++ [StepCall.update_quantities sol_i,
                    StepCall.nl_problem_update_quantities (t0 + (((t + (i : Int) : Int) : ℚ) + 1) * dt) sol_i,
                    StepCall.update_dt, StepCall.update_barrier_stiffness sol_i] ++ tail) ∧
          pre.all StepCall.in_solve_phase = true ∧ tail.all StepCall.is_output = true) ∧
        (0 < n → ∃ w, r.world = P.update_barrier_stiffness w r.sol) := by
  intro n
  induction n with
  | zero =>
    intro t tl
    exact ⟨tl, rfl, rfl, fun _ _ => rfl, fun i hi => absurd hi (Nat.not_lt_zero i),
      fun h => absurd h (Nat.lt_irrefl 0)⟩
  | succ n ih =>
    intro t tl
    obtain ⟨s', pre, tail, hstep, hcalls, hpre, htail, hworld⟩ :=
      time_step_returns P E cfg tc fuel t0 dt t
        ⟨tl.world, tl.sol, tl.solver_info, tl.save_i, []⟩ nl_solver hsolver hfuel
    obtain ⟨r, hr, hlen, hold, hnew, hw⟩ := ih (t + 1) (tl.commit s')
    have hclen : (tl.commit s').steps.length = tl.steps.length + 1 := by
      simp [Timeline.commit]
    refine ⟨r, ?_, ?_, ?_, ?_, ?_⟩
    · simp only [time_loop, hstep]
      exact hr
    · rw [hlen, hclen]; omega
    · intro i hi
      rw [hold i (by rw [hclen]; omega)]
      simp only [Timeline.commit]
      exact List.getElem?_append_left hi
    · intro i hi
      cases i with
      | zero =>
        refine ⟨pre, s'.sol, tail, ?_, hpre, htail⟩
        rw [Nat.add_zero, hold _ (by rw [hclen]; omega)]
        simp only [Timeline.commit, List.getElem?_append_right (le_refl _), Nat.sub_self,
          List.getElem?_cons_zero, hcalls, List.nil_append, Nat.cast_zero, add_zero]
      | succ j =>
        obtain ⟨pre', sol', tail', hj, hp', ht'⟩ := hnew j (by omega)
        refine ⟨pre', sol', tail', ?_, hp', ht'⟩
        rw [hclen] at hj
        have e1 : tl.steps.length + (j + 1) = tl.steps.length + 1 + j := by omega
        have e2 : t + ((j + 1 : Nat) : Int) = t + 1 + (j : Int) := by push_cast; ring
        rw [e1, e2]
        exact hj
    · intro _
      rcases Nat.eq_zero_or_pos n with h0 | hpos
      · subst h0
        simp only [time_loop, Except.ok.injEq, Run.done.injEq] at hr
        subst hr
        exact hworld
      · exact hw hpos

/-- Calls of the solve phase and output calls are not the time integrator update. -/
theorem countP_update_quantities (pre tail : List StepCall) (sol : Vec) (time : ℚ) (c : StepCall)
    (hc : c.is_update_quantities = false)
    (hpre : pre.all StepCall.in_solve_phase = true) (htail : tail.all StepCall.is_output = true) :
    (c :: pre ++ [StepCall.update_quantities sol,
        StepCall.nl_problem_update_quantities time sol,
        StepCall.update_dt, StepCall.update_barrier_stiffness sol] ++ tail).countP
      StepCall.is_update_quantities = 1 := by
  have h1 : pre.countP StepCall.is_update_quantities = 0 := by
    rw [List.countP_eq_zero]
    intro x hx
    have := List.all_eq_true.1 hpre x hx
    cases x <;> simp_all [StepCall.in_solve_phase, StepCall.is_update_quantities]
  have h2 : tail.countP StepCall.is_update_quantities = 0 := by
    rw [List.countP_eq_zero]
    intro x hx
    have := List.all_eq_true.1 htail x hx
    cases x <;> simp_all [StepCall.is_output, StepCall.is_update_quantities]
  have e1 : (StepCall.update_quantities sol).is_update_quantities = true := rfl
  have e2 : (StepCall.nl_problem_update_quantities time sol).is_update_quantities = false := rfl
  have e3 : StepCall.update_dt.is_update_quantities = false := rfl
  have e4 : (StepCall.update_barrier_stiffness sol).is_update_quantities = false := rfl
  simp [List.countP_append, List.countP_cons, h1, h2, hc, e1, e2, e3, e4]

/-- A whole time step, with its states: the first solve starts from the state the step is given;
`w_s`, `sol_s` are the state left by the last solve of the step (or by a failed remeshing); the
step hands on `sol_s` and the world obtained from `w_s` by
`time_integrator->update_quantities(sol_s)`, `nl_problem->update_quantities`, `update_dt` and
`update_barrier_stiffness(sol_s)`, in this order. -/
theorem time_step_states {W Info : Type} (P : Env W Info) (E : SetupEnv W) (cfg : Config)
    (tc : TransientConfig) (fuel : Nat) (t0 dt : ℚ) (t : Int) (s : StepState W Info)
    (nl_solver : NLSolver)
    (hsolver : make_nl_solver cfg.nonlinear_solver cfg.linear_solver "" = Except.ok nl_solver)
    (hfuel : max P.max_lagging_iterations 1 ≤ (fuel : Int)) :
    ∃ (st1 : State W Info) (w_s : W) (sol_s : Vec) (info_s : List (Record Info)) (save_s : Nat)
      (pre tail : List StepCall),
      solve_tensor_nonlinear P cfg fuel s.world s.solver_info s.sol t true
        = Except.ok (Run.done st1) ∧
      ((tc.with_remeshing && tc.remesh_enabled) = false →
        w_s = st1.world ∧ sol_s = st1.sol) ∧
      ((tc.with_remeshing && tc.remesh_enabled) = true →
        (E.remesh st1.world st1.sol (t0 + dt * t) dt).success = false →
        w_s = (E.remesh st1.world st1.sol (t0 + dt * t) dt).world ∧
        sol_s = (E.remesh st1.world st1.sol (t0 + dt * t) dt).sol) ∧
      ((tc.with_remeshing && tc.remesh_enabled) = true →
        (E.remesh st1.world st1.sol (t0 + dt * t) dt).success = true →
        ∃ st2 : State W Info,
          solve_tensor_nonlinear P cfg fuel (E.remesh st1.world st1.sol (t0 + dt * t) dt).world
            st1.solver_info (E.remesh st1.world st1.sol (t0 + dt * t) dt).sol t false
            = Except.ok (Run.done st2) ∧
          w_s = st2.world ∧ sol_s = st2.sol) ∧
      time_step P E cfg tc fuel t0 dt t s
        = Except.ok (Run.done
            ⟨P.update_barrier_stiffness
                (E.update_dt
                  (E.nl_problem_update_quantities
                    (E.time_integrator_update_quantities w_s sol_s)
                    (t0 + (t + 1) * dt) sol_s))
                sol_s,
              sol_s, info_s, save_s,
              s.calls ++ StepCall.solve_tensor_nonlinear t true :: pre
                ++ [StepCall.update_quantities sol_s,
                    StepCall.nl_problem_update_quantities (t0 + (t + 1) * dt) sol_s,
                    StepCall.update_dt, StepCall.update_barrier_stiffness sol_s] ++ tail⟩) ∧
      pre.all StepCall.in_solve_phase = true ∧ tail.all StepCall.is_output = true := by
  obtain ⟨st1, hst1⟩ := solve_tensor_nonlinear_returns P cfg fuel s.world s.solver_info s.sol t
    true nl_solver hsolver hfuel
  have hcall : call_solve P cfg fuel t true s
      = Except.ok (Run.done ⟨st1.world, st1.sol, st1.solver_info, s.save_i,
          s.calls ++ StepCall.solve_tensor_nonlinear t true
            :: st1.trace.map StepCall.inner⟩) := by
    simp only [call_solve, hst1]
  have hinner : ∀ (tr : List Call), (tr.map StepCall.inner).all StepCall.in_solve_phase = true := by
    intro tr
    simp [List.all_eq_true, StepCall.in_solve_phase]
  by_cases hre : (tc.with_remeshing && tc.remesh_enabled) = true
  · by_cases hsucc : (E.remesh st1.world st1.sol (t0 + dt * t) dt).success = true
    · obtain ⟨st2, hst2⟩ := solve_tensor_nonlinear_returns P cfg fuel
        (E.remesh st1.world st1.sol (t0 + dt * t) dt).world st1.solver_info
        (E.remesh st1.world st1.sol (t0 + dt * t) dt).sol t false nl_solver hsolver hfuel
      obtain ⟨tail, htail, hout⟩ := closing_calls_spec tc t0 dt t st2.sol
      refine ⟨st1, st2.world, st2.sol, st2.solver_info, s.save_i + 1 + 1 + 1,
        st1.trace.map StepCall.inner
          ++ [StepCall.save_energy s.save_i, StepCall.save_timestep (t0 + dt * t) s.save_i,
              StepCall.remesh (t0 + dt * t),
              StepCall.save_energy (s.save_i + 1),
              StepCall.save_timestep (t0 + dt * t) (s.save_i + 1),
              StepCall.solve_tensor_nonlinear t false]
          ++ st2.trace.map StepCall.inner
          ++ [StepCall.save_energy (s.save_i + 1 + 1),
              StepCall.save_timestep (t0 + dt * t) (s.save_i + 1 + 1)],
        tail, hst1, ?_, ?_, ?_, ?_, ?_, hout⟩
      · intro h; rw [hre] at h; cases h
      · intro _ h; rw [hsucc] at h; cases h
      · intro _ _; exact ⟨st2, hst2, rfl, rfl⟩
      · rw [time_step, hcall]
        simp only [remesh_part, hre, if_true, save_frame, hsucc, call_solve, hst2, finish_step,
          htail]
        simp
      · simp only [List.all_append, hinner, Bool.and_true, Bool.true_and]
        rfl
    · have hsucc' : (E.remesh st1.world st1.sol (t0 + dt * t) dt).success = false := by
        simpa using hsucc
      obtain ⟨tail, htail, hout⟩ := closing_calls_spec tc t0 dt t
        (E.remesh st1.world st1.sol (t0 + dt * t) dt).sol
      refine ⟨st1, (E.remesh st1.world st1.sol (t0 + dt * t) dt).world,
        (E.remesh st1.world st1.sol (t0 + dt * t) dt).sol, st1.solver_info,
        s.save_i + 1 + 1 + 1,
        st1.trace.map StepCall.inner
          ++ [StepCall.save_energy s.save_i, StepCall.save_timestep (t0 + dt * t) s.save_i,
              StepCall.remesh (t0 + dt * t),
              StepCall.save_energy (s.save_i + 1),
              StepCall.save_timestep (t0 + dt * t) (s.save_i + 1),
              StepCall.save_energy (s.save_i + 1 + 1),
              StepCall.save_timestep (t0 + dt * t) (s.save_i + 1 + 1)],
        tail, hst1, ?_, ?_, ?_, ?_, ?_, hout⟩
      · intro h; rw [hre] at h; cases h
      · intro _ _; exact ⟨rfl, rfl⟩
      · intro _ h; rw [hsucc'] at h; cases h
      · rw [time_step, hcall]
        simp only [remesh_part, hre, if_true, save_frame, hsucc', Bool.false_eq_true, if_false,
          finish_step, htail]
        simp
      · simp only [List.all_append, hinner, Bool.and_true, Bool.true_and]
        rfl
  · have hre' : (tc.with_remeshing && tc.remesh_enabled) = false := by simpa using hre
    obtain ⟨tail, htail, hout⟩ := closing_calls_spec tc t0 dt t st1.sol
    refine ⟨st1, st1.world, st1.sol, st1.solver_info, s.save_i + 1,
      st1.trace.map StepCall.inner
        ++ [StepCall.save_energy s.save_i, StepCall.save_timestep (t0 + dt * t) s.save_i],
      tail, hst1, ?_, ?_, ?_, ?_, ?_, hout⟩
    · intro _; exact ⟨rfl, rfl⟩
    · intro h; rw [hre'] at h; cases h
    · intro h; rw [hre'] at h; cases h
    · rw [time_step, hcall]
      simp only [remesh_part, hre', Bool.false_eq_true, if_false, save_frame, finish_step,
        htail]
      simp
    · simp only [List.all_append, hinner, Bool.and_true, Bool.true_and]
      rfl

/-- The time loop with its states: there is a sequence of loop states, one per step boundary,
such that step `i` starts its first solve in state `i`, and state `i + 1` is what the last solve
of the step left, updated by `time_integrator->update_quantities`,
`nl_problem->update_quantities`, `update_dt` and `update_barrier_stiffness`, in this order. -/
theorem time_loop_states {W Info : Type} (P : Env W Info) (E : SetupEnv W) (cfg : Config)
    (tc : TransientConfig) (fuel : Nat) (t0 dt : ℚ) (nl_solver : NLSolver)
    (hsolver : make_nl_solver cfg.nonlinear_solver cfg.linear_solver "" = Except.ok nl_solver)
    (hfuel : max P.max_lagging_iterations 1 ≤ (fuel : Int)) :
    ∀ (n : Nat) (t : Int) (tl : Timeline W Info),
      ∃ tls : Nat → Timeline W Info, tls 0 = tl ∧
        time_loop P E cfg tc fuel t0 dt n t tl = Except.ok (Run.done (tls n)) ∧
        ∀ i : Nat, i < n →
          ∃ (st1 : State W Info) (w_s : W) (sol_s : Vec) (pre tail : List StepCall),
          solve_tensor_nonlinear P cfg fuel (tls i).world (tls i).solver_info (tls i).sol
            (t + (i : Int)) true = Except.ok (Run.done st1) ∧
          ((tc.with_remeshing && tc.remesh_enabled) = false →
            w_s = st1.world ∧ sol_s = st1.sol) ∧
          ((tc.with_remeshing && tc.remesh_enabled) = true →
            (E.remesh st1.world st1.sol (t0 + dt * ((t + (i : Int) : Int) : ℚ)) dt).success = false →
            w_s = (E.remesh st1.world st1.sol (t0 + dt * ((t + (i : Int) : Int) : ℚ)) dt).world ∧
            sol_s = (E.remesh st1.world st1.sol (t0 + dt * ((t + (i : Int) : Int) : ℚ)) dt).sol) ∧
          ((tc.with_remeshing && tc.remesh_enabled) = true →
            (E.remesh st1.world st1.sol (t0 + dt * ((t + (i : Int) : Int) : ℚ)) dt).success = true →
            ∃ st2 : State W Info,
              solve_tensor_nonlinear P cfg fuel
                (E.remesh st1.world st1.sol (t0 + dt * ((t + (i : Int) : Int) : ℚ)) dt).world st1.solver_info
                (E.remesh st1.world st1.sol (t0 + dt * ((t + (i : Int) : Int) : ℚ)) dt).sol (t + (i : Int)) false
                = Except.ok (Run.done st2) ∧
              w_s = st2.world ∧ sol_s = st2.sol) ∧
          (tls (i + 1)).world
            = P.update_barrier_stiffness
                (E.update_dt
                  (E.nl_problem_update_quantities
                    (E.time_integrator_update_quantities w_s sol_s)
                    (t0 + (((t + (i : Int) : Int) : ℚ) + 1) * dt) sol_s))
                sol_s ∧
          (tls (i + 1)).sol = sol_s ∧
          (tls (i + 1)).steps = (tls i).steps
            ++ [StepCall.solve_tensor_nonlinear (t + (i : Int)) true :: pre
                ++ [StepCall.update_quantities sol_s,
                    StepCall.nl_problem_update_quantities (t0 + (((t + (i : Int) : Int) : ℚ) + 1) * dt) sol_s,
                    StepCall.update_dt, StepCall.update_barrier_stiffness sol_s] ++ tail] ∧
          pre.all StepCall.in_solve_phase = true ∧ tail.all StepCall.is_output = true ∧
          (StepCall.solve_tensor_nonlinear (t + (i : Int)) true :: pre
              ++ [StepCall.update_quantities sol_s,
                  StepCall.nl_problem_update_quantities (t0 + (((t + (i : Int) : Int) : ℚ) + 1) * dt) sol_s,
                  StepCall.update_dt, StepCall.update_barrier_stiffness sol_s] ++ tail).countP
            StepCall.is_update_quantities = 1 := by
  intro n
  induction n with
  | zero =>
    intro t tl
    exact ⟨fun _ => tl, rfl, rfl, fun i hi => absurd hi (Nat.not_lt_zero i)⟩
  | succ n ih =>
    intro t tl
    obtain ⟨st1, w_s, sol_s, info_s, save_s, pre, tail, h1, hc1, hc2, hc3, hstep, hpre, htail⟩ :=
      time_step_states P E cfg tc fuel t0 dt t
        ⟨tl.world, tl.sol, tl.solver_info, tl.save_i, []⟩ nl_solver hsolver hfuel
    obtain ⟨tls', h0, hrun, hrel⟩ := ih (t + 1) (tl.commit
      ⟨P.update_barrier_stiffness
          (E.update_dt
            (E.nl_problem_update_quantities
              (E.time_integrator_update_quantities w_s sol_s)
              (t0 + (t + 1) * dt) sol_s))
          sol_s,
        sol_s, info_s, save_s,
        [] ++ StepCall.solve_tensor_nonlinear t true :: pre
          ++ [StepCall.update_quantities sol_s,
              StepCall.nl_problem_update_quantities (t0 + (t + 1) * dt) sol_s,
              StepCall.update_dt, StepCall.update_barrier_stiffness sol_s] ++ tail⟩)
    refine ⟨fun k => match k with
      | 0 => tl
      | k + 1 => tls' k, rfl, ?_, ?_⟩
    · simp only [time_loop, hstep]
      exact hrun
    · intro i hi
      cases i with
      | zero =>
        have e0 : t + ((0 : Nat) : Int) = t := by simp
        simp only [e0]
        refine ⟨st1, w_s, sol_s, pre, tail, h1, hc1, hc2, hc3, ?_, ?_, ?_, hpre, htail, ?_⟩
        · simp only [h0, Timeline.commit]
        · simp only [h0, Timeline.commit]
        · simp only [h0, Timeline.commit]
          simp
        · exact countP_update_quantities pre tail sol_s _
            (StepCall.solve_tensor_nonlinear t true) rfl hpre htail
      | succ j =>
        obtain ⟨st1', w', sol', pre', tail', r1, r2, r3, r4, r5, r6, r7, r8, r9, r10⟩ :=
          hrel j (by omega)
        have e : t + ((j + 1 : Nat) : Int) = t + 1 + (j : Int) := by push_cast; ring
        simp only [e]
        exact ⟨st1', w', sol', pre', tail', r1, r2, r3, r4, r5, r6, r7, r8, r9, r10⟩

/-- C14: in `solve_transient_tensor_nonlinear` with `time_steps = n`, once the initial check and
the solver construction succeed, the driver returns after exactly `n` steps with the step
numbers `1, ..., n` in this order.  There is a sequence of loop states `tls 0, ..., tls n`: step
`i + 1` starts its first solve `solve_tensor_nonlinear(sol, i + 1)` in state `tls i`; with
`w_s`, `sol_s` the state left by the last solve of the step (the first solve, or the solve
after a successful remeshing; after a failed remeshing, what the remeshing left),
`time_integrator->update_quantities(sol_s)` is called exactly once, after the calls of the
solve phase, and the world handed to the next step is
`update_barrier_stiffness(update_dt(nl_problem->update_quantities(
time_integrator->update_quantities(w_s, sol_s), t0 + (t + 1) dt, sol_s)), sol_s)`: the integrator
update comes after all solves and before `update_barrier_stiffness`, whose result is the state
in which the next step solves. -/
theorem transient_steps_in_order {W Info : Type} (P : Env W Info) (E : SetupEnv W)
    (cfg : Config) (tc : TransientConfig) (fuel : Nat) (n : Nat) (t0 dt : ℚ) (world : W)
    (solver_info : List (Record Info)) (sol : Vec) (nl_solver : NLSolver)
    (hsolver : make_nl_solver cfg.nonlinear_solver cfg.linear_solver "" = Except.ok nl_solver)
    (hfuel : max P.max_lagging_iterations 1 ≤ (fuel : Int))
    (hinit : ¬ (E.is_contact_enabled = true ∧ E.has_intersections world sol = true)) :
    ∃ (st0 : Setup W Info) (tls : Nat → Timeline W Info),
      init_nonlinear_tensor_solve E world solver_info sol (t0 + dt) true = Except.ok st0 ∧
      tls 0 = ⟨st0.world, sol, st0.solver_info, 1, [StepCall.save_timestep t0 0], []⟩ ∧
      solve_transient_tensor_nonlinear P E cfg tc fuel (n : Int) t0 dt world solver_info sol
        = Except.ok (Run.done (tls n)) ∧
      (tls n).steps.length = n ∧
      ∀ i : Nat, i < n →
        (tls i).steps.length = i ∧
          ∃ (st1 : State W Info) (w_s : W) (sol_s : Vec) (pre tail : List StepCall),
          solve_tensor_nonlinear P cfg fuel (tls i).world (tls i).solver_info (tls i).sol
            ((i : Int) + 1) true = Except.ok (Run.done st1) ∧
          ((tc.with_remeshing && tc.remesh_enabled) = false →
            w_s = st1.world ∧ sol_s = st1.sol) ∧
          ((tc.with_remeshing && tc.remesh_enabled) = true →
            (E.remesh st1.world st1.sol (t0 + dt * (((i : Int) + 1 : Int) : ℚ)) dt).success = false →
            w_s = (E.remesh st1.world st1.sol (t0 + dt * (((i : Int) + 1 : Int) : ℚ)) dt).world ∧
            sol_s = (E.remesh st1.world st1.sol (t0 + dt * (((i : Int) + 1 : Int) : ℚ)) dt).sol) ∧
          ((tc.with_remeshing && tc.remesh_enabled) = true →
            (E.remesh st1.world st1.sol (t0 + dt * (((i : Int) + 1 : Int) : ℚ)) dt).success = true →
            ∃ st2 : State W Info,
              solve_tensor_nonlinear P cfg fuel
                (E.remesh st1.world st1.sol (t0 + dt * (((i : Int) + 1 : Int) : ℚ)) dt).world st1.solver_info
                (E.remesh st1.world st1.sol (t0 + dt * (((i : Int) + 1 : Int) : ℚ)) dt).sol ((i : Int) + 1) false
                = Except.ok (Run.done st2) ∧
              w_s = st2.world ∧ sol_s = st2.sol) ∧
          (tls (i + 1)).world
            = P.update_barrier_stiffness
                (E.update_dt
                  (E.nl_problem_update_quantities
                    (E.time_integrator_update_quantities w_s sol_s)
                    (t0 + ((((i : Int) + 1 : Int) : ℚ) + 1) * dt) sol_s))
                sol_s ∧
          (tls (i + 1)).sol = sol_s ∧
          (tls (i + 1)).steps = (tls i).steps
            ++ [StepCall.solve_tensor_nonlinear ((i : Int) + 1) true :: pre
                ++ [StepCall.update_quantities sol_s,
                    StepCall.nl_problem_update_quantities (t0 + ((((i : Int) + 1 : Int) : ℚ) + 1) * dt) sol_s,
                    StepCall.update_dt, StepCall.update_barrier_stiffness sol_s] ++ tail] ∧
          pre.all StepCall.in_solve_phase = true ∧ tail.all StepCall.is_output = true ∧
          (StepCall.solve_tensor_nonlinear ((i : Int) + 1) true :: pre
              ++ [StepCall.update_quantities sol_s,
                  StepCall.nl_problem_update_quantities (t0 + ((((i : Int) + 1 : Int) : ℚ) + 1) * dt) sol_s,
                  StepCall.update_dt, StepCall.update_barrier_stiffness sol_s] ++ tail).countP
            StepCall.is_update_quantities = 1 := by
  have hno : (if E.is_contact_enabled then E.has_intersections world sol else false) = false := by
    cases hc : E.is_contact_enabled <;> cases hi : E.has_intersections world sol <;>
      simp_all
  obtain ⟨st, hst⟩ : ∃ st : Setup W Info,
      init_nonlinear_tensor_solve E world solver_info sol (t0 + dt) true = Except.ok st := by
    unfold init_nonlinear_tensor_solve
    simp only [hno, Bool.false_eq_true, if_false]
    exact ⟨_, rfl⟩
  obtain ⟨tls, h0, hrun, hrel⟩ := time_loop_states P E cfg tc fuel t0 dt nl_solver
    hsolver hfuel n 1
    ⟨st.world, sol, st.solver_info, 1, [StepCall.save_timestep t0 0], []⟩
  have hlen : ∀ i, i ≤ n → (tls i).steps.length = i := by
    intro i
    induction i with
    | zero => intro _; rw [h0]; rfl
    | succ j ihj =>
      intro hj
      obtain ⟨_, _, _, _, _, _, _, _, _, _, _, hsteps, _⟩ := hrel j (by omega)
      rw [hsteps, List.length_append, ihj (by omega)]
      rfl
  refine ⟨st, tls, hst, h0, ?_, hlen n (le_refl n), ?_⟩
  · simp only [solve_transient_tensor_nonlinear, hst, Int.toNat_ofNat]
    exact hrun
  · intro i hi
    refine ⟨hlen i (by omega), ?_⟩
    obtain ⟨st1, w', sol', pre', tail', r1, r2, r3, r4, r5, r6, r7, r8, r9, r10⟩ := hrel i hi
    have e : (1 : Int) + (i : Int) = (i : Int) + 1 := by ring
    simp only [e] at r1 r2 r3 r4 r5 r6 r7 r8 r9 r10
    exact ⟨st1, w', sol', pre', tail', r1, r2, r3, r4, r5, r6, r7, r8, r9, r10⟩

/-- Witness for `transient_steps_in_order`: two steps of the frictionless test set-up. -/
theorem transient_steps_in_order_witness :
    ∃ (st0 : Setup Nat Nat) (tls : Nat → Timeline Nat Nat),
      init_nonlinear_tensor_solve test_setup 0 ([] : List (Record Nat)) [0] (0 + 1) true
        = Except.ok st0 ∧
      solve_transient_tensor_nonlinear (test_env false 5 1 1) test_setup test_config
        test_transient_config 5 ((2 : Nat) : Int) 0 1 0 ([] : List (Record Nat)) [0]
        = Except.ok (Run.done (tls 2)) ∧
      (tls 2).steps.length = 2 := by
  obtain ⟨st0, tls, h1, _, h3, h4, _⟩ :=
    transient_steps_in_order (test_env false 5 1 1) test_setup test_config
      test_transient_config 5 2 0 1 0 ([] : List (Record Nat)) [0]
      (NLSolver.newton "Eigen::SimplicialLDLT")
      (by simp [make_nl_solver, test_config]) (by simp [test_env])
      (fun h => absurd h.2 (by decide))
  exact ⟨st0, tls, h1, h3, h4⟩

end StateSolveNonlinear

namespace ElasticityUtils

/-- A statically sized gradient assigned to `grad` is never empty, so the generic fallback is not
entered after one of the eight cases. -/
theorem to_vector_length {n : Nat} (g : Fin n → ℚ) : (to_vector g).length = n := by
  simp [to_vector]

/-- The table of the stated selection, entry by entry, and the generic evaluator elsewhere. -/
theorem stated_evaluator_cases (size n_bases : Int) :
    (size = 2 → n_bases = 3 → stated_evaluator size n_bases = Evaluator.fun6) ∧
    (size = 2 → n_bases = 4 → stated_evaluator size n_bases = Evaluator.fun8) ∧
    (size = 2 → n_bases = 6 → stated_evaluator size n_bases = Evaluator.fun12) ∧
    (size = 2 → n_bases = 9 → stated_evaluator size n_bases = Evaluator.fun18) ∧
    (size = 3 → n_bases = 4 → stated_evaluator size n_bases = Evaluator.fun12) ∧
    (size = 3 → n_bases = 8 → stated_evaluator size n_bases = Evaluator.fun24) ∧
    (size = 3 → n_bases = 10 → stated_evaluator size n_bases = Evaluator.fun30) ∧
    (size = 3 → n_bases = 27 → stated_evaluator size n_bases = Evaluator.fun81) ∧
    (¬ (size = 2 ∧ (n_bases = 3 ∨ n_bases = 4 ∨ n_bases = 6 ∨ n_bases = 9)) →
      ¬ (size = 3 ∧ (n_bases = 4 ∨ n_bases = 8 ∨ n_bases = 10 ∨ n_bases = 27)) →
      stated_evaluator size n_bases = Evaluator.funn) := by
  refine ⟨?_, ?_, ?_, ?_, ?_, ?_, ?_, ?_, ?_⟩
  all_goals first
    | (rintro rfl rfl; rfl)
    | (intro h2 h3
       have a1 : ¬ (size = 2 ∧ n_bases = 3) := fun h => h2 ⟨h.1, Or.inl h.2⟩
       have a2 : ¬ (size = 2 ∧ n_bases = 4) := fun h => h2 ⟨h.1, Or.inr (Or.inl h.2)⟩
       have a3 : ¬ (size = 2 ∧ n_bases = 6) := fun h => h2 ⟨h.1, Or.inr (Or.inr (Or.inl h.2))⟩
       have a4 : ¬ (size = 2 ∧ n_bases = 9) := fun h => h2 ⟨h.1, Or.inr (Or.inr (Or.inr h.2))⟩
       have b1 : ¬ (size = 3 ∧ n_bases = 4) := fun h => h3 ⟨h.1, Or.inl h.2⟩
       have b2 : ¬ (size = 3 ∧ n_bases = 8) := fun h => h3 ⟨h.1, Or.inr (Or.inl h.2)⟩
       have b3 : ¬ (size = 3 ∧ n_bases = 10) := fun h => h3 ⟨h.1, Or.inr (Or.inr (Or.inl h.2))⟩
       have b4 : ¬ (size = 3 ∧ n_bases = 27) := fun h => h3 ⟨h.1, Or.inr (Or.inr (Or.inr h.2))⟩
       simp only [stated_evaluator, standard_elements, List.find?, a1, a2, a3, a4, b1, b2, b3, b4,
         decide_False])

/-- In each of its eight cases `gradient_from_energy` calls exactly the evaluator of the table and
returns its gradient; in every other case it calls exactly `funn` and returns its gradient. -/
theorem gradient_from_energy_stated {A : Type} (size n_bases : Int) (a : A)
    (E : GradientEvaluators A) (show_message : Bool) :
    (gradient_from_energy size n_bases a E show_message).called
      = [stated_evaluator size n_bases] ∧
    (gradient_from_energy size n_bases a E show_message).grad
      = gradient_of E a (stated_evaluator size n_bases) := by
  by_cases h2 : size = 2 ∧ (n_bases = 3 ∨ n_bases = 4 ∨ n_bases = 6 ∨ n_bases = 9)
  · obtain ⟨rfl, rfl | rfl | rfl | rfl⟩ := h2 <;>
      simp [gradient_from_energy, stated_evaluator, standard_elements, gradient_of,
        to_vector_length]
  · by_cases h3 : size = 3 ∧ (n_bases = 4 ∨ n_bases = 8 ∨ n_bases = 10 ∨ n_bases = 27)
    · obtain ⟨rfl, rfl | rfl | rfl | rfl⟩ := h3 <;>
        simp [gradient_from_energy, stated_evaluator, standard_elements, gradient_of,
          to_vector_length]
    · rw [(stated_evaluator_cases size n_bases).2.2.2.2.2.2.2.2 h2 h3]
      unfold gradient_from_energy
      by_cases hs2 : size = 2
      · have n3 : ¬ n_bases = 3 := fun h => h2 ⟨hs2, Or.inl h⟩
        have n4 : ¬ n_bases = 4 := fun h => h2 ⟨hs2, Or.inr (Or.inl h)⟩
        have n6 : ¬ n_bases = 6 := fun h => h2 ⟨hs2, Or.inr (Or.inr (Or.inl h))⟩
        have n9 : ¬ n_bases = 9 := fun h => h2 ⟨hs2, Or.inr (Or.inr (Or.inr h))⟩
        simp [hs2, n3, n4, n6, n9, gradient_of]
      · by_cases hs3 : size = 3
        · have n4 : ¬ n_bases = 4 := fun h => h3 ⟨hs3, Or.inl h⟩
          have n8 : ¬ n_bases = 8 := fun h => h3 ⟨hs3, Or.inr (Or.inl h)⟩
          have n10 : ¬ n_bases = 10 := fun h => h3 ⟨hs3, Or.inr (Or.inr (Or.inl h))⟩
          have n27 : ¬ n_bases = 27 := fun h => h3 ⟨hs3, Or.inr (Or.inr (Or.inr h))⟩
          simp [hs3, n4, n8, n10, n27, gradient_of]
        · simp [hs2, hs3, gradient_of]

/-- C19: `gradient_from_energy` selects, for each of the eight standard elements
`(size, n_bases)` of the table `standard_elements`, the statically sized evaluator listed there,
whose dimension is `size * n_bases`; for every other `(size, n_bases)` it falls back to the
generic evaluator `funn`; and in every case it calls exactly the selected evaluator and returns
the gradient of exactly that one. -/
theorem gradient_dispatch_by_element {A : Type} (size n_bases : Int) (a : A)
    (E : GradientEvaluators A) (show_message : Bool) :
    (gradient_from_energy size n_bases a E show_message).called
      = [stated_evaluator size n_bases] ∧
    (gradient_from_energy size n_bases a E show_message).grad
      = gradient_of E a (stated_evaluator size n_bases) ∧
    (standard_elements
      = [(2, 3, Evaluator.fun6), (2, 4, Evaluator.fun8), (2, 6, Evaluator.fun12),
         (2, 9, Evaluator.fun18), (3, 4, Evaluator.fun12), (3, 8, Evaluator.fun24),
         (3, 10, Evaluator.fun30), (3, 27, Evaluator.fun81)]) ∧
    (∀ e ∈ standard_elements, e.2.2.dimension = some (e.1 * e.2.1) ∧
      stated_evaluator e.1 e.2.1 = e.2.2) ∧
    ((∀ e ∈ standard_elements, ¬ (size = e.1 ∧ n_bases = e.2.1)) →
      stated_evaluator size n_bases = Evaluator.funn) := by
  refine ⟨(gradient_from_energy_stated size n_bases a E show_message).1,
    (gradient_from_energy_stated size n_bases a E show_message).2, rfl, by decide, ?_⟩
  intro h
  apply (stated_evaluator_cases size n_bases).2.2.2.2.2.2.2.2
  · rintro ⟨hs, h3 | h4 | h6 | h9⟩
    · exact h (2, 3, Evaluator.fun6) (by simp [standard_elements]) ⟨hs, h3⟩
    · exact h (2, 4, Evaluator.fun8) (by simp [standard_elements]) ⟨hs, h4⟩
    · exact h (2, 6, Evaluator.fun12) (by simp [standard_elements]) ⟨hs, h6⟩
    · exact h (2, 9, Evaluator.fun18) (by simp [standard_elements]) ⟨hs, h9⟩
  · rintro ⟨hs, h4 | h8 | h10 | h27⟩
    · exact h (3, 4, Evaluator.fun12) (by simp [standard_elements]) ⟨hs, h4⟩
    · exact h (3, 8, Evaluator.fun24) (by simp [standard_elements]) ⟨hs, h8⟩
    · exact h (3, 10, Evaluator.fun30) (by simp [standard_elements]) ⟨hs, h10⟩
    · exact h (3, 27, Evaluator.fun81) (by simp [standard_elements]) ⟨hs, h27⟩

/-- In each of its seven cases `hessian_from_energy` calls the evaluator `gradient_from_energy`
calls there and returns its Hessian; in every other case, the element `(3, 27)` included, it
calls exactly `funn` and returns its Hessian. -/
theorem hessian_from_energy_stated {A : Type} (size n_bases : Int) (a : A)
    (E : HessianEvaluators A) (show_message : Bool) :
    (hessian_from_energy size n_bases a E show_message).called
      = [if size = 3 ∧ n_bases = 27 then Evaluator.funn else stated_evaluator size n_bases] ∧
    some (hessian_from_energy size n_bases a E show_message).hessian
      = hessian_of E a
          (if size = 3 ∧ n_bases = 27 then Evaluator.funn else stated_evaluator size n_bases) := by
  by_cases h2 : size = 2 ∧ (n_bases = 3 ∨ n_bases = 4 ∨ n_bases = 6 ∨ n_bases = 9)
  · obtain ⟨rfl, rfl | rfl | rfl | rfl⟩ := h2 <;>
      simp [hessian_from_energy, stated_evaluator, standard_elements, hessian_of,
        MatrixXd.size, to_matrix]
  · by_cases h3 : size = 3 ∧ (n_bases = 4 ∨ n_bases = 8 ∨ n_bases = 10 ∨ n_bases = 27)
    · obtain ⟨rfl, rfl | rfl | rfl | rfl⟩ := h3 <;>
        simp [hessian_from_energy, stated_evaluator, standard_elements, hessian_of,
          MatrixXd.size, to_matrix, MatrixXd.empty]
    · rw [(stated_evaluator_cases size n_bases).2.2.2.2.2.2.2.2 h2 h3]
      unfold hessian_from_energy
      by_cases hs2 : size = 2
      · have n3 : ¬ n_bases = 3 := fun h => h2 ⟨hs2, Or.inl h⟩
        have n4 : ¬ n_bases = 4 := fun h => h2 ⟨hs2, Or.inr (Or.inl h)⟩
        have n6 : ¬ n_bases = 6 := fun h => h2 ⟨hs2, Or.inr (Or.inr (Or.inl h))⟩
        have n9 : ¬ n_bases = 9 := fun h => h2 ⟨hs2, Or.inr (Or.inr (Or.inr h))⟩
        simp [hs2, n3, n4, n6, n9, hessian_of, MatrixXd.size, MatrixXd.empty]
      · by_cases hs3 : size = 3
        · have n4 : ¬ n_bases = 4 := fun h => h3 ⟨hs3, Or.inl h⟩
          have n8 : ¬ n_bases = 8 := fun h => h3 ⟨hs3, Or.inr (Or.inl h)⟩
          have n10 : ¬ n_bases = 10 := fun h => h3 ⟨hs3, Or.inr (Or.inr (Or.inl h))⟩
          simp [hs3, n4, n8, n10, hessian_of, MatrixXd.size, MatrixXd.empty]
        · simp [hs2, hs3, hessian_of, MatrixXd.size, MatrixXd.empty]

/-- C20 (amended): for every `(size, n_bases)` other than `(3, 27)`, `hessian_from_energy` makes
the same choice as `gradient_from_energy`: the same statically sized evaluator for the standard
elements, the generic `funn` for all others, and it returns the Hessian of the evaluator it
calls.  For `(3, 27)`, where `gradient_from_energy` uses the static `fun81`,
`hessian_from_energy` has no static case and uses the generic `funn`. -/
theorem hessian_dispatch_matches_gradient {A : Type} (size n_bases : Int) (a : A)
    (Eg : GradientEvaluators A) (Eh : HessianEvaluators A) (sg sh : Bool) :
    (¬ (size = 3 ∧ n_bases = 27) →
      (hessian_from_energy size n_bases a Eh sh).called
        = (gradient_from_energy size n_bases a Eg sg).called ∧
      some (hessian_from_energy size n_bases a Eh sh).hessian
        = hessian_of Eh a (stated_evaluator size n_bases)) ∧
    (size = 3 ∧ n_bases = 27 →
      (gradient_from_energy size n_bases a Eg sg).called = [Evaluator.fun81] ∧
      (hessian_from_energy size n_bases a Eh sh).called = [Evaluator.funn] ∧
      (hessian_from_energy size n_bases a Eh sh).hessian = (Eh.funn a).hessian) := by
  obtain ⟨hc, hh⟩ := hessian_from_energy_stated size n_bases a Eh sh
  obtain ⟨gc, _⟩ := gradient_from_energy_stated size n_bases a Eg sg
  constructor
  · intro hne
    rw [if_neg hne] at hc hh
    exact ⟨by rw [hc, gc], hh⟩
  · intro heq
    rw [if_pos heq] at hc hh
    refine ⟨?_, hc, ?_⟩
    · rw [gc, (stated_evaluator_cases size n_bases).2.2.2.2.2.2.2.1 heq.1 heq.2]
    · simpa [hessian_of] using hh

/-- Witness for `hessian_dispatch_matches_gradient`: the quadratic hexahedron `(3, 27)` with the
test evaluators. -/
theorem hessian_dispatch_matches_gradient_witness :
    (gradient_from_energy 3 27 () test_gradient_evaluators true).called = [Evaluator.fun81] ∧
    (hessian_from_energy 3 27 () test_hessian_evaluators true).called = [Evaluator.funn] ∧
    (hessian_from_energy 3 27 () test_hessian_evaluators true).hessian
      = (test_hessian_evaluators.funn ()).hessian :=
  (hessian_dispatch_matches_gradient 3 27 () test_gradient_evaluators test_hessian_evaluators
    true true).2 ⟨rfl, rfl⟩

/-- C20 as stated fails: for the element `(3, 27)` `gradient_from_energy` calls the statically
sized `fun81` while `hessian_from_energy` calls the generic `funn`. -/
theorem hessian_dispatch_counterexample :
    ¬ (∀ size n_bases : Int,
        (hessian_from_energy size n_bases () test_hessian_evaluators true).called
          = (gradient_from_energy size n_bases () test_gradient_evaluators true).called) := by
  intro h
  have h327 := h 3 27
  simp [hessian_from_energy, gradient_from_energy, MatrixXd.size, MatrixXd.empty,
    to_vector_length] at h327

end ElasticityUtils

namespace ElasticityUtils

/-- What one call of `gradient_from_energy` prints and leaves in the static flag: the warning
exactly when the flag is set and the call falls back to `funn`, after which the flag is
cleared; otherwise nothing is printed and the flag is unchanged. -/
theorem gradient_from_energy_flag {A : Type} (size n_bases : Int) (a : A)
    (E : GradientEvaluators A) (show_message : Bool) :
    (gradient_from_energy size n_bases a E show_message).printed
      = (if show_message = true ∧ stated_evaluator size n_bases = Evaluator.funn
          then [warning n_bases] else []) ∧
    (gradient_from_energy size n_bases a E show_message).show_message
      = (if stated_evaluator size n_bases = Evaluator.funn then false else show_message) := by
  by_cases h2 : size = 2 ∧ (n_bases = 3 ∨ n_bases = 4 ∨ n_bases = 6 ∨ n_bases = 9)
  · obtain ⟨rfl, rfl | rfl | rfl | rfl⟩ := h2 <;>
      simp [gradient_from_energy, stated_evaluator, standard_elements, to_vector_length]
  · by_cases h3 : size = 3 ∧ (n_bases = 4 ∨ n_bases = 8 ∨ n_bases = 10 ∨ n_bases = 27)
    · obtain ⟨rfl, rfl | rfl | rfl | rfl⟩ := h3 <;>
        simp [gradient_from_energy, stated_evaluator, standard_elements, to_vector_length]
    · rw [(stated_evaluator_cases size n_bases).2.2.2.2.2.2.2.2 h2 h3]
      unfold gradient_from_energy
      by_cases hs2 : size = 2
      · have n3 : ¬ n_bases = 3 := fun h => h2 ⟨hs2, Or.inl h⟩
        have n4 : ¬ n_bases = 4 := fun h => h2 ⟨hs2, Or.inr (Or.inl h)⟩
        have n6 : ¬ n_bases = 6 := fun h => h2 ⟨hs2, Or.inr (Or.inr (Or.inl h))⟩
        have n9 : ¬ n_bases = 9 := fun h => h2 ⟨hs2, Or.inr (Or.inr (Or.inr h))⟩
        cases show_message <;> simp [hs2, n3, n4, n6, n9]
      · by_cases hs3 : size = 3
        · have n4 : ¬ n_bases = 4 := fun h => h3 ⟨hs3, Or.inl h⟩
          have n8 : ¬ n_bases = 8 := fun h => h3 ⟨hs3, Or.inr (Or.inl h)⟩
          have n10 : ¬ n_bases = 10 := fun h => h3 ⟨hs3, Or.inr (Or.inr (Or.inl h))⟩
          have n27 : ¬ n_bases = 27 := fun h => h3 ⟨hs3, Or.inr (Or.inr (Or.inr h))⟩
          cases show_message <;> simp [hs3, n4, n8, n10, n27]
        · cases show_message <;> simp [hs2, hs3]

/-- What one call of `hessian_from_energy` prints and leaves in its static flag. -/
theorem hessian_from_energy_flag {A : Type} (size n_bases : Int) (a : A)
    (E : HessianEvaluators A) (show_message : Bool) :
    (hessian_from_energy size n_bases a E show_message).printed
      = (if show_message = true ∧
            Evaluator.funn ∈ (hessian_from_energy size n_bases a E show_message).called
          then [warning n_bases] else []) ∧
    (hessian_from_energy size n_bases a E show_message).show_message
      = (if Evaluator.funn ∈ (hessian_from_energy size n_bases a E show_message).called
          then false else show_message) := by
  rw [(hessian_from_energy_stated size n_bases a E show_message).1]
  by_cases h2 : size = 2 ∧ (n_bases = 3 ∨ n_bases = 4 ∨ n_bases = 6 ∨ n_bases = 9)
  · obtain ⟨rfl, rfl | rfl | rfl | rfl⟩ := h2 <;>
      simp [hessian_from_energy, stated_evaluator, standard_elements,
        MatrixXd.size, to_matrix]
  · by_cases h3 : size = 3 ∧ (n_bases = 4 ∨ n_bases = 8 ∨ n_bases = 10 ∨ n_bases = 27)
    · obtain ⟨rfl, rfl | rfl | rfl | rfl⟩ := h3 <;>
        cases show_message <;>
        simp [hessian_from_energy, stated_evaluator, standard_elements,
          MatrixXd.size, to_matrix, MatrixXd.empty]
    · rw [(stated_evaluator_cases size n_bases).2.2.2.2.2.2.2.2 h2 h3]
      unfold hessian_from_energy
      by_cases hs2 : size = 2
      · have n3 : ¬ n_bases = 3 := fun h => h2 ⟨hs2, Or.inl h⟩
        have n4 : ¬ n_bases = 4 := fun h => h2 ⟨hs2, Or.inr (Or.inl h)⟩
        have n6 : ¬ n_bases = 6 := fun h => h2 ⟨hs2, Or.inr (Or.inr (Or.inl h))⟩
        have n9 : ¬ n_bases = 9 := fun h => h2 ⟨hs2, Or.inr (Or.inr (Or.inr h))⟩
        cases show_message <;> simp [hs2, n3, n4, n6, n9, MatrixXd.size, MatrixXd.empty]
      · by_cases hs3 : size = 3
        · have n4 : ¬ n_bases = 4 := fun h => h3 ⟨hs3, Or.inl h⟩
          have n8 : ¬ n_bases = 8 := fun h => h3 ⟨hs3, Or.inr (Or.inl h)⟩
          have n10 : ¬ n_bases = 10 := fun h => h3 ⟨hs3, Or.inr (Or.inr (Or.inl h))⟩
          have n27 : ¬ n_bases = 27 := fun h => h3 ⟨hs3, Or.inr (Or.inr (Or.inr h))⟩
          cases show_message <;> simp [hs3, n4, n8, n10, n27, MatrixXd.size, MatrixXd.empty]
        · cases show_message <;> simp [hs2, hs3, MatrixXd.size, MatrixXd.empty]

end ElasticityUtils

namespace ElasticityUtils

/-- Over a sequence of gradient calls started with any flag, call `i` prints the warning exactly
when the flag was set at the start, call `i` falls back and no earlier call fell back. -/
theorem gradient_calls_printed {A : Type} (E : GradientEvaluators A) :
    ∀ (calls : List (Int × Int × A)) (flag : Bool) (i : Nat) (r : GradientResult),
      (gradient_calls E flag calls)[i]? = some r →
      ∃ c, calls[i]? = some c ∧
        r.printed =
          (if flag = true ∧ Evaluator.funn ∈ r.called ∧
              (∀ r' ∈ (gradient_calls E flag calls).take i, Evaluator.funn ∉ r'.called)
            then [warning c.2.1] else []) := by
  intro calls
  induction calls with
  | nil => intro flag i r h; simp [gradient_calls] at h
  | cons c rest ih =>
    obtain ⟨size, n_bases, a⟩ := c
    intro flag i r h
    have hfl := gradient_from_energy_flag size n_bases a E flag
    have hst := (gradient_from_energy_stated size n_bases a E flag).1
    have hmem : Evaluator.funn ∈ (gradient_from_energy size n_bases a E flag).called ↔
        stated_evaluator size n_bases = Evaluator.funn := by
      rw [hst]; simp [eq_comm]
    cases i with
    | zero =>
      simp only [gradient_calls, List.getElem?_cons_zero, Option.some.injEq] at h
      subst h
      refine ⟨(size, n_bases, a), by simp, ?_⟩
      rw [hfl.1]
      simp [hmem]
    | succ i =>
      simp only [gradient_calls, List.getElem?_cons_succ] at h
      obtain ⟨c, hc, hp⟩ := ih _ i r h
      refine ⟨c, by simpa using hc, ?_⟩
      rw [hp]
      simp only [gradient_calls, List.take_succ_cons, List.mem_cons, forall_eq_or_imp, hmem]
      rw [hfl.2]
      by_cases hne : stated_evaluator size n_bases = Evaluator.funn
      · simp [hne]
      · simp [hne]

/-- Over a sequence of Hessian calls started with any flag, call `i` prints the warning exactly
when the flag was set at the start, call `i` falls back and no earlier call fell back. -/
theorem hessian_calls_printed {A : Type} (E : HessianEvaluators A) :
    ∀ (calls : List (Int × Int × A)) (flag : Bool) (i : Nat) (r : HessianResult),
      (hessian_calls E flag calls)[i]? = some r →
      ∃ c, calls[i]? = some c ∧
        r.printed =
          (if flag = true ∧ Evaluator.funn ∈ r.called ∧
              (∀ r' ∈ (hessian_calls E flag calls).take i, Evaluator.funn ∉ r'.called)
            then [warning c.2.1] else []) := by
  intro calls
  induction calls with
  | nil => intro flag i r h; simp [hessian_calls] at h
  | cons c rest ih =>
    obtain ⟨size, n_bases, a⟩ := c
    intro flag i r h
    have hfl := hessian_from_energy_flag size n_bases a E flag
    cases i with
    | zero =>
      simp only [hessian_calls, List.getElem?_cons_zero, Option.some.injEq] at h
      subst h
      refine ⟨(size, n_bases, a), by simp, ?_⟩
      rw [hfl.1]
      simp
    | succ i =>
      simp only [hessian_calls, List.getElem?_cons_succ] at h
      obtain ⟨c, hc, hp⟩ := ih _ i r h
      refine ⟨c, by simpa using hc, ?_⟩
      rw [hp]
      simp only [hessian_calls, List.take_succ_cons, List.mem_cons, forall_eq_or_imp]
      rw [hfl.2]
      by_cases hne : Evaluator.funn ∈ (hessian_from_energy size n_bases a E flag).called
      · simp [hne]
      · simp [hne]

/-- C21: over any sequence of calls of `gradient_from_energy` in one process (the static flag
starts set), and likewise of `hessian_from_energy`, the call number `i` prints the warning
"[Warning] n_bases not using static sizes" (with its own `n_bases`) exactly when it takes the
generic fallback and no earlier call of the sequence took it; every other call prints nothing.
So the warning is printed on the first fallback call only, whatever the values of `n_bases`. -/
theorem warning_printed_on_first_fallback_only {A : Type} (Eg : GradientEvaluators A)
    (Eh : HessianEvaluators A) (calls : List (Int × Int × A)) (i : Nat) :
    (∀ r, (gradient_calls Eg true calls)[i]? = some r →
      ∃ c, calls[i]? = some c ∧
        r.printed =
          (if Evaluator.funn ∈ r.called ∧
              (∀ r' ∈ (gradient_calls Eg true calls).take i, Evaluator.funn ∉ r'.called)
            then [warning c.2.1] else [])) ∧
    (∀ r, (hessian_calls Eh true calls)[i]? = some r →
      ∃ c, calls[i]? = some c ∧
        r.printed =
          (if Evaluator.funn ∈ r.called ∧
              (∀ r' ∈ (hessian_calls Eh true calls).take i, Evaluator.funn ∉ r'.called)
            then [warning c.2.1] else [])) ∧
    (gradient_calls Eg true calls).length = calls.length ∧
    (hessian_calls Eh true calls).length = calls.length := by
  refine ⟨?_, ?_, ?_, ?_⟩
  · intro r h
    obtain ⟨c, hc, hp⟩ := gradient_calls_printed Eg calls true i r h
    exact ⟨c, hc, by simpa using hp⟩
  · intro r h
    obtain ⟨c, hc, hp⟩ := hessian_calls_printed Eh calls true i r h
    exact ⟨c, hc, by simpa using hp⟩
  · generalize true = flag
    induction calls generalizing flag with
    | nil => rfl
    | cons c rest ih => obtain ⟨s, n, a⟩ := c; simp [gradient_calls, ih]
  · generalize true = flag
    induction calls generalizing flag with
    | nil => rfl
    | cons c rest ih => obtain ⟨s, n, a⟩ := c; simp [hessian_calls, ih]

/-- Witness for C21: of the calls with `(size, n_bases)` = (2, 3), (2, 5), (3, 4), (7, 7),
the second is the first fallback and prints the warning for 5 bases; the fourth falls back too
and prints nothing. -/
theorem warning_printed_on_first_fallback_only_witness :
    (∃ r, (gradient_calls test_gradient_evaluators true
              [(2, 3, ()), (2, 5, ()), (3, 4, ()), (7, 7, ())])[3]? = some r ∧
        Evaluator.funn ∈ r.called ∧
        ∃ c, [((2 : Int), (3 : Int), ()), (2, 5, ()), (3, 4, ()), (7, 7, ())][3]? = some c ∧
          r.printed =
            (if Evaluator.funn ∈ r.called ∧
                (∀ r' ∈ (gradient_calls test_gradient_evaluators true
                    [(2, 3, ()), (2, 5, ()), (3, 4, ()), (7, 7, ())]).take 3,
                  Evaluator.funn ∉ r'.called)
              then [warning c.2.1] else [])) ∧
    (gradient_calls test_gradient_evaluators true
        [(2, 3, ()), (2, 5, ()), (3, 4, ()), (7, 7, ())]).map (fun r => r.printed)
      = [[], ["[Warning] 5 not using static sizes"], [], []] ∧
    (hessian_calls test_hessian_evaluators true
        [(2, 3, ()), (2, 5, ()), (3, 4, ()), (7, 7, ())]).map (fun r => r.printed)
      = [[], ["[Warning] 5 not using static sizes"], [], []] :=
  ⟨⟨gradient_from_energy 7 7 () test_gradient_evaluators false, rfl, by decide,
    (warning_printed_on_first_fallback_only test_gradient_evaluators test_hessian_evaluators
      [(2, 3, ()), (2, 5, ()), (3, 4, ()), (7, 7, ())] 3).1 _ rfl⟩, by decide, by decide⟩

end ElasticityUtils

namespace ElasticityUtils

/-- The slot computed by `operator()` for indices in range, for the two storage layouts. -/
theorem ElasticityTensor.index_in_range (t : ElasticityTensor)
    (ht : (t.size_ = 2 ∧ t.stifness_tensor_.length = 6) ∨
          (t.size_ = 3 ∧ t.stifness_tensor_.length = 21))
    (i j : Int) (hi0 : 0 ≤ i) (hj0 : 0 ≤ j)
    (hi : i < (if t.size_ = 2 then 3 else 6)) (hj : j < (if t.size_ = 2 then 3 else 6)) :
    t.index i j
      = some ((if t.size_ = 2 then 3 else 6) * min i j + max i j - min i j * (min i j + 1) / 2) := by
  rcases ht with ⟨hs, hl⟩ | ⟨hs, hl⟩
  · rw [hs] at hi hj ⊢
    simp only [if_true] at hi hj ⊢
    interval_cases i <;> interval_cases j <;>
      (simp [ElasticityTensor.index, hs, hl]; try decide)
  · rw [hs] at hi hj ⊢
    norm_num at hi hj ⊢
    interval_cases i <;> interval_cases j <;>
      (simp [ElasticityTensor.index, hs, hl]; try decide)

/-- The row-wise upper-triangle slot is below `n (n + 1) / 2` and determines the ordered pair. -/
theorem upper_triangle_slot (n : Int) (hn : n = 3 ∨ n = 6) (a b : Int)
    (h0 : 0 ≤ a) (hab : a ≤ b) (hb : b < n) :
    0 ≤ n * a + b - a * (a + 1) / 2 ∧ n * a + b - a * (a + 1) / 2 < n * (n + 1) / 2 ∧
    ∀ a' b' : Int, 0 ≤ a' → a' ≤ b' → b' < n →
      n * a + b - a * (a + 1) / 2 = n * a' + b' - a' * (a' + 1) / 2 → a = a' ∧ b = b' := by
  rcases hn with rfl | rfl
  · have ha : a < 3 := by omega
    refine ⟨?_, ?_, ?_⟩
    · interval_cases a <;> omega
    · interval_cases a <;> omega
    · intro a' b' h0' hab' hb' he
      have ha' : a' < 3 := by omega
      interval_cases a <;> interval_cases a' <;> omega
  · have ha : a < 6 := by omega
    refine ⟨?_, ?_, ?_⟩
    · interval_cases a <;> omega
    · interval_cases a <;> omega
    · intro a' b' h0' hab' hb' he
      have ha' : a' < 6 := by omega
      interval_cases a <;> interval_cases a' <;> omega

/-- C24: for an `ElasticityTensor` of size 2 (`n = 3`, 6 stored entries) or size 3 (`n = 6`,
21 stored entries) and indices `0 ≤ i, j < n`, `operator()(i, j)` and `operator()(j, i)` pass all
assertions and address the same slot `n a + b - a (a + 1) / 2` with `a = min i j`,
`b = max i j`; the slot lies in `[0, n (n + 1) / 2)`, which is the size of the storage, and two
pairs with the same slot are the same unordered pair. -/
theorem tensor_index_symmetric_in_range_injective (t : ElasticityTensor) (n : Int)
    (ht : (t.size_ = 2 ∧ t.stifness_tensor_.length = 6) ∨
          (t.size_ = 3 ∧ t.stifness_tensor_.length = 21))
    (hn : n = if t.size_ = 2 then 3 else 6)
    (i j : Int) (hi0 : 0 ≤ i) (hj0 : 0 ≤ j) (hi : i < n) (hj : j < n) :
    t.index i j = some (n * min i j + max i j - min i j * (min i j + 1) / 2) ∧
    t.index j i = t.index i j ∧
    0 ≤ n * min i j + max i j - min i j * (min i j + 1) / 2 ∧
    n * min i j + max i j - min i j * (min i j + 1) / 2 < n * (n + 1) / 2 ∧
    (t.stifness_tensor_.length : Int) = n * (n + 1) / 2 ∧
    (∃ v, t.get i j = some v ∧ t.get j i = some v) ∧
    ∀ i2 j2 : Int, 0 ≤ i2 → 0 ≤ j2 → i2 < n → j2 < n →
      t.index i2 j2 = t.index i j → min i2 j2 = min i j ∧ max i2 j2 = max i j := by
  have hn36 : n = 3 ∨ n = 6 := by
    rcases ht with ⟨hs, _⟩ | ⟨hs, _⟩ <;> simp [hn, hs]
  have hlen : (t.stifness_tensor_.length : Int) = n * (n + 1) / 2 := by
    rcases ht with ⟨hs, hl⟩ | ⟨hs, hl⟩ <;> simp [hn, hs, hl]
  have hij := ElasticityTensor.index_in_range t ht i j hi0 hj0 (hn ▸ hi) (hn ▸ hj)
  have hji := ElasticityTensor.index_in_range t ht j i hj0 hi0 (hn ▸ hj) (hn ▸ hi)
  rw [← hn] at hij hji
  rw [min_comm j i, max_comm j i] at hji
  have hslot := upper_triangle_slot n hn36 (min i j) (max i j) (le_min hi0 hj0)
    (min_le_max) (max_lt hi hj)
  refine ⟨hij, by rw [hij, hji], hslot.1, hslot.2.1, hlen, ?_, ?_⟩
  · have hlt : (n * min i j + max i j - min i j * (min i j + 1) / 2).toNat
        < t.stifness_tensor_.length := by
      have := hslot.2.1
      omega
    refine ⟨t.stifness_tensor_.get ⟨_, hlt⟩, ?_, ?_⟩
    · simp [ElasticityTensor.get, hij, ElasticityTensor.coeff, hslot.1, List.getElem?_eq_getElem hlt]
    · simp [ElasticityTensor.get, hji, ElasticityTensor.coeff, hslot.1, List.getElem?_eq_getElem hlt]
  · intro i2 j2 hi20 hj20 hi2 hj2 he
    have h2 := ElasticityTensor.index_in_range t ht i2 j2 hi20 hj20 (hn ▸ hi2) (hn ▸ hj2)
    rw [← hn] at h2
    rw [h2, hij, Option.some.injEq] at he
    have := hslot.2.2 (min i2 j2) (max i2 j2) (le_min hi20 hj20) min_le_max (max_lt hi2 hj2)
      he.symm
    exact ⟨this.1.symm, this.2.symm⟩

/-- Witness for C24: in the tensor `resize(3)` the pairs (4, 1) and (1, 4) address slot 9. -/
theorem tensor_index_symmetric_in_range_injective_witness :
    (ElasticityTensor.resize 3).index 4 1 = some 9 ∧
    (ElasticityTensor.resize 3).index 1 4 = (ElasticityTensor.resize 3).index 4 1 := by
  have h := tensor_index_symmetric_in_range_injective (ElasticityTensor.resize 3) 6
    (Or.inr ⟨rfl, rfl⟩) (by decide) 4 1 (by decide) (by decide) (by decide) (by decide)
  exact ⟨h.1.trans (by decide), h.2.1⟩

end ElasticityUtils

namespace ElasticityUtils

/-- The truncating divisions `i (i + 1) / 2` met for `i < 6`. -/
theorem tdiv_row_offsets :
    Int.tdiv 0 2 = 0 ∧ Int.tdiv 2 2 = 1 ∧ Int.tdiv 6 2 = 3 ∧ Int.tdiv 12 2 = 6 ∧
    Int.tdiv 20 2 = 10 ∧ Int.tdiv 30 2 = 15 := by decide

/-- The slot of a pair in a tensor of size 3 with 21 entries, from a decidable check. -/
theorem index_three (s : List ℚ) (hl : s.length = 21) (i j : Int) (k : Nat)
    (h : decide ((if j < i then j else i) ≥ 0 ∧ (if j < i then i else j) < 6 ∧
      6 * (if j < i then j else i) + (if j < i then i else j)
        - Int.tdiv ((if j < i then j else i) * ((if j < i then j else i) + 1)) 2 = (k : Int) ∧
      k < 21) = true) :
    (ElasticityTensor.mk s 3).index i j = some (k : Int) := by
  simp only [decide_eq_true_eq] at h
  obtain ⟨h1, h2, h3, h4⟩ := h
  unfold ElasticityTensor.index
  by_cases hji : j < i
  · simp only [hji, if_true] at h1 h2 h3 ⊢
    simp [hl, h3]
    omega
  · simp only [hji, if_false] at h1 h2 h3 ⊢
    simp [hl, h3]
    omega

/-- An assignment to a tensor of size 3 with 21 entries overwrites the slot of the pair. -/
theorem assign_three (s : List ℚ) (hl : s.length = 21) (i j : Int) (k : Nat)
    (hk : (ElasticityTensor.mk s 3).index i j = some (k : Int)) (hlt : k < 21) (v : ℚ) :
    (ElasticityTensor.mk s 3).assign i j v = some (ElasticityTensor.mk (s.set k v) 3) := by
  simp [ElasticityTensor.assign, hk, hl, hlt]

/-- The storage after `resize(2)` and `set_from_lambda_mu`. -/
theorem set_from_lambda_mu_two (lambda mu : ℚ) :
    (ElasticityTensor.resize 2).set_from_lambda_mu lambda mu
      = some (ElasticityTensor.mk [2 * mu + lambda, lambda, 0, 2 * mu + lambda, 0, mu] 2) := by
  rfl

/-- The storage after `resize(3)` and `set_from_lambda_mu`. -/
theorem set_from_lambda_mu_three (lambda mu : ℚ) :
    (ElasticityTensor.resize 3).set_from_lambda_mu lambda mu
      = some (ElasticityTensor.mk
                 [2 * mu + lambda, lambda, lambda, 0, 0, 0,
                  2 * mu + lambda, lambda, 0, 0, 0,
                  2 * mu + lambda, 0, 0, 0,
                  mu, 0, 0,
                  mu, 0,
                  mu] 3) := by
  have step : ∀ (s : List ℚ) (i j : Int) (k : Nat) (v : ℚ) (rest : List (Int × Int × ℚ)),
      s.length = 21 →
      decide ((if j < i then j else i) ≥ 0 ∧ (if j < i then i else j) < 6 ∧
        6 * (if j < i then j else i) + (if j < i then i else j)
          - Int.tdiv ((if j < i then j else i) * ((if j < i then j else i) + 1)) 2 = (k : Int) ∧
        k < 21) = true →
      (ElasticityTensor.mk s 3).assign_all ((i, j, v) :: rest)
        = (ElasticityTensor.mk (s.set k v) 3).assign_all rest := by
    intro s i j k v rest hl h
    simp only [ElasticityTensor.assign_all, List.foldlM_cons]
    rw [assign_three s hl i j k (index_three s hl i j k h)
      (by simp only [decide_eq_true_eq] at h; exact h.2.2.2) v]
    rfl
  unfold ElasticityTensor.set_from_lambda_mu
  rw [if_neg (by decide)]
  have hrep : ElasticityTensor.resize 3 = ElasticityTensor.mk
      [0, 0, 0, 0, 0, 0, 0, 0, 0, 0, 0, 0, 0, 0, 0, 0, 0, 0, 0, 0, 0] 3 := rfl
  rw [hrep]
  rw [step _ 0 0 0 _ _ (by rfl) (by decide)]
  simp only [List.set_cons_succ, List.set_cons_zero]
  rw [step _ 0 1 1 _ _ (by rfl) (by decide)]
  simp only [List.set_cons_succ, List.set_cons_zero]
  rw [step _ 0 2 2 _ _ (by rfl) (by decide)]
  simp only [List.set_cons_succ, List.set_cons_zero]
  rw [step _ 0 3 3 _ _ (by rfl) (by decide)]
  simp only [List.set_cons_succ, List.set_cons_zero]
  rw [step _ 0 4 4 _ _ (by rfl) (by decide)]
  simp only [List.set_cons_succ, List.set_cons_zero]
  rw [step _ 0 5 5 _ _ (by rfl) (by decide)]
  simp only [List.set_cons_succ, List.set_cons_zero]
  rw [step _ 1 1 6 _ _ (by rfl) (by decide)]
  simp only [List.set_cons_succ, List.set_cons_zero]
  rw [step _ 1 2 7 _ _ (by rfl) (by decide)]
  simp only [List.set_cons_succ, List.set_cons_zero]
  rw [step _ 1 3 8 _ _ (by rfl) (by decide)]
  simp only [List.set_cons_succ, List.set_cons_zero]
  rw [step _ 1 4 9 _ _ (by rfl) (by decide)]
  simp only [List.set_cons_succ, List.set_cons_zero]
  rw [step _ 1 5 10 _ _ (by rfl) (by decide)]
  simp only [List.set_cons_succ, List.set_cons_zero]
  rw [step _ 2 2 11 _ _ (by rfl) (by decide)]
  simp only [List.set_cons_succ, List.set_cons_zero]
  rw [step _ 2 3 12 _ _ (by rfl) (by decide)]
  simp only [List.set_cons_succ, List.set_cons_zero]
  rw [step _ 2 4 13 _ _ (by rfl) (by decide)]
  simp only [List.set_cons_succ, List.set_cons_zero]
  rw [step _ 2 5 14 _ _ (by rfl) (by decide)]
  simp only [List.set_cons_succ, List.set_cons_zero]
  rw [step _ 3 3 15 _ _ (by rfl) (by decide)]
  simp only [List.set_cons_succ, List.set_cons_zero]
  rw [step _ 3 4 16 _ _ (by rfl) (by decide)]
  simp only [List.set_cons_succ, List.set_cons_zero]
  rw [step _ 3 5 17 _ _ (by rfl) (by decide)]
  simp only [List.set_cons_succ, List.set_cons_zero]
  rw [step _ 4 4 18 _ _ (by rfl) (by decide)]
  simp only [List.set_cons_succ, List.set_cons_zero]
  rw [step _ 4 5 19 _ _ (by rfl) (by decide)]
  simp only [List.set_cons_succ, List.set_cons_zero]
  rw [step _ 5 5 20 _ _ (by rfl) (by decide)]
  simp only [List.set_cons_succ, List.set_cons_zero]
  rfl

/-- A run of `compute_stress` whose coefficient reads all succeed is the dot product of row `j`
with the strain. -/
theorem compute_stress_eq_sum (t : ElasticityTensor) (DIM : Nat) (strain : Fin DIM → ℚ) (j : Int)
    (c : Fin DIM → ℚ) (hc : ∀ k : Fin DIM, t.get j (k.val : Int) = some (c k)) :
    t.compute_stress DIM strain j = some (∑ k : Fin DIM, c k * strain k) := by
  unfold ElasticityTensor.compute_stress
  have key : ∀ (l : List (Fin DIM)) (init : ℚ),
      l.foldlM (fun res k => match t.get j (k.val : Int) with
        | none => none
        | some c => some (res + c * strain k)) init
        = some (init + (l.map (fun k => c k * strain k)).sum) := by
    intro l
    induction l with
    | nil => intro init; simp
    | cons k l ih =>
      intro init
      simp only [List.foldlM_cons, hc k, List.map_cons, List.sum_cons]
      show List.foldlM _ _ l = _
      rw [ih]
      simp [add_assoc]
  rw [key, zero_add]
  congr 1

/-- The coefficients read from the storage of size 2 filled by `set_from_lambda_mu`. -/
theorem get_two_coeff (lambda mu : ℚ) (j k : Fin 3) :
    (ElasticityTensor.mk [2 * mu + lambda, lambda, 0, 2 * mu + lambda, 0, mu] 2).get
        (j.val : Int) (k.val : Int)
      = some (if j = k then (if j.val < 2 then 2 * mu + lambda else mu)
              else if j.val < 2 ∧ k.val < 2 then lambda else 0) := by
  obtain ⟨h0, h2, h6, h12, h20, h30⟩ := tdiv_row_offsets
  fin_cases j <;> fin_cases k <;>
    simp [ElasticityTensor.get, ElasticityTensor.index, ElasticityTensor.coeff,
      h0, h2, h6, h12, h20, h30]

/-- The coefficients read from the storage of size 3 filled by `set_from_lambda_mu`. -/
theorem get_three_coeff (lambda mu : ℚ) (j k : Fin 6) :
    (ElasticityTensor.mk
        [2 * mu + lambda, lambda, lambda, 0, 0, 0,
         2 * mu + lambda, lambda, 0, 0, 0,
         2 * mu + lambda, 0, 0, 0,
         mu, 0, 0,
         mu, 0,
         mu] 3).get (j.val : Int) (k.val : Int)
      = some (if j = k then (if j.val < 3 then 2 * mu + lambda else mu)
              else if j.val < 3 ∧ k.val < 3 then lambda else 0) := by
  obtain ⟨h0, h2, h6, h12, h20, h30⟩ := tdiv_row_offsets
  fin_cases j <;> fin_cases k <;>
    simp [ElasticityTensor.get, ElasticityTensor.index, ElasticityTensor.coeff,
      h0, h2, h6, h12, h20, h30]

/-- C25: after `resize(s)` and `set_from_lambda_mu(lambda, mu)` (both succeed),
`compute_stress` gives isotropic Hooke's law in Voigt form for every strain, in exact
arithmetic: for `s = 2` the components are `(2 mu + lambda) e0 + lambda e1`,
`lambda e0 + (2 mu + lambda) e1` and `mu e2`; for `s = 3` component `j < 3` is
`lambda (e0 + e1 + e2) + 2 mu e_j` and component `j ≥ 3` is `mu e_j`. -/
theorem compute_stress_hooke (lambda mu : ℚ) :
    (∃ t, (ElasticityTensor.resize 2).set_from_lambda_mu lambda mu = some t ∧
      ∀ e : Fin 3 → ℚ,
        t.compute_stress 3 e 0 = some ((2 * mu + lambda) * e 0 + lambda * e 1) ∧
        t.compute_stress 3 e 1 = some (lambda * e 0 + (2 * mu + lambda) * e 1) ∧
        t.compute_stress 3 e 2 = some (mu * e 2)) ∧
    (∃ t, (ElasticityTensor.resize 3).set_from_lambda_mu lambda mu = some t ∧
      ∀ (e : Fin 6 → ℚ) (j : Fin 6),
        t.compute_stress 6 e (j.val : Int)
          = some (if j.val < 3 then lambda * (e 0 + e 1 + e 2) + 2 * mu * e j
                  else mu * e j)) := by
  refine ⟨⟨_, set_from_lambda_mu_two lambda mu, ?_⟩, ⟨_, set_from_lambda_mu_three lambda mu, ?_⟩⟩
  · intro e
    have h := fun j : Fin 3 => compute_stress_eq_sum _ 3 e (j.val : Int) _
      (get_two_coeff lambda mu j)
    refine ⟨?_, ?_, ?_⟩
    · have h0 := h 0
      simp only [Fin.val_zero, Nat.cast_zero] at h0
      rw [h0]; simp [Fin.sum_univ_three]
    · have h1 := h 1
      simp only [Fin.val_one, Nat.cast_one] at h1
      rw [h1]; simp [Fin.sum_univ_three]
    · have h2 := h 2
      simp only [Fin.val_two, Nat.cast_ofNat] at h2
      rw [h2]; simp [Fin.sum_univ_three]
  · intro e j
    rw [compute_stress_eq_sum _ 6 e (j.val : Int) _ (get_three_coeff lambda mu j)]
    have v3 : ((3 : Fin 6) : Nat) = 3 := rfl
    have v4 : ((4 : Fin 6) : Nat) = 4 := rfl
    have v5 : ((5 : Fin 6) : Nat) = 5 := rfl
    fin_cases j <;> simp [Fin.sum_univ_six, v3, v4, v5] <;> ring

end ElasticityUtils

namespace PolygonalBasis3d

/-- Function `unique` keeps exactly the elements of the list. -/
theorem mem_unique : ∀ (l : List Int) (a : Int), a ∈ unique l ↔ a ∈ l
  | [], a => by simp [unique]
  | [x], a => by simp [unique]
  | x :: y :: rest, a => by
    have ih := mem_unique (y :: rest) a
    unfold unique
    by_cases h : x = y
    · rw [if_pos h, ih]; subst h; simp
    · rw [if_neg h, List.mem_cons, ih]; simp

/-- On a sorted list `unique` returns a strictly increasing list. -/
theorem sorted_unique : ∀ (l : List Int), l.Sorted (· ≤ ·) → (unique l).Sorted (· < ·)
  | [], _ => by simp [unique]
  | [x], _ => by simp [unique]
  | x :: y :: rest, hs => by
    have hs' : (y :: rest).Sorted (· ≤ ·) := hs.of_cons
    have ih := sorted_unique (y :: rest) hs'
    unfold unique
    by_cases h : x = y
    · rw [if_pos h]; exact ih
    · rw [if_neg h]
      refine List.sorted_cons.2 ⟨?_, ih⟩
      intro b hb
      rw [mem_unique] at hb
      have hxy : x ≤ y := List.rel_of_sorted_cons hs y (List.mem_cons_self _ _)
      have hyb : y ≤ b := by
        rcases List.mem_cons.1 hb with rfl | hb'
        · exact le_refl _
        · exact List.rel_of_sorted_cons hs' b hb'
      omega

/-- The column loop of `sample_polyhedra` over entries whose ids are all in `local_to_global`
finds every id: it returns, for each entry in order, the position of its id. -/
theorem columns_of_mem (local_to_global : List Int) :
    ∀ (xs : List Global) (cols : List Nat),
      (∀ x ∈ xs, x.index ∈ local_to_global) →
      xs.foldlM
        (fun cols x =>
          let global_node_id := x.index
          let poly_local_basis_id := local_to_global.indexOf global_node_id
          if poly_local_basis_id < local_to_global.length then some (cols ++ [poly_local_basis_id])
          else none) cols
        = some (cols ++ xs.map (fun x => local_to_global.indexOf x.index)) := by
  intro xs
  induction xs with
  | nil => intro cols _; simp
  | cons x xs ih =>
    intro cols h
    have hx : local_to_global.indexOf x.index < local_to_global.length :=
      List.indexOf_lt_length.2 (h x (List.mem_cons_self _ _))
    simp only [List.foldlM_cons, if_pos hx]
    show List.foldlM _ _ xs = _
    rw [ih _ (fun y hy => h y (List.mem_cons_of_mem _ hy))]
    simp

/-- C30: when `compute_nonzero_bases_ids` returns for cell `c` (all its accesses succeed), the
list it returns is strictly increasing (hence without duplicates) and holds exactly the global
node ids `x.index` visited on the faces of `c`; the right-hand side loop of `sample_polyhedra`
for the same cell then finds every `global_node_id` in `local_to_global`:
`poly_local_basis_id` is below `local_to_global.size()`, the number of columns of `rhs`, and
`local_to_global[poly_local_basis_id]` is the id looked up. -/
theorem nonzero_bases_ids_sorted_and_found (mesh : Mesh3D) (c : Int) (bases : List ElementBases)
    (poly_face_to_data : Int → Option InterfaceData) (local_to_global : List Int)
    (h : compute_nonzero_bases_ids mesh c bases poly_face_to_data = some local_to_global) :
    local_to_global.Sorted (· < ·) ∧ local_to_global.Nodup ∧
    ∃ xs, cell_entries mesh c bases poly_face_to_data = some xs ∧
      (∀ id, id ∈ local_to_global ↔ ∃ x ∈ xs, x.index = id) ∧
      sample_polyhedra_columns mesh c bases poly_face_to_data
        = some (xs.map (fun x => local_to_global.indexOf x.index)) ∧
      ∀ x ∈ xs, local_to_global.indexOf x.index < local_to_global.length ∧
        local_to_global[local_to_global.indexOf x.index]? = some x.index := by
  unfold compute_nonzero_bases_ids at h
  cases hxs : cell_entries mesh c bases poly_face_to_data with
  | none => rw [hxs] at h; cases h
  | some xs =>
    rw [hxs] at h
    simp only [Option.some.injEq] at h
    have hsorted : local_to_global.Sorted (· < ·) := by
      rw [← h]
      exact sorted_unique _ (List.sorted_insertionSort _ _)
    have hmem : ∀ id, id ∈ local_to_global ↔ ∃ x ∈ xs, x.index = id := by
      intro id
      rw [← h, mem_unique, (List.perm_insertionSort _ _).mem_iff, List.mem_map]
    have hfound : ∀ x ∈ xs, x.index ∈ local_to_global :=
      fun x hx => (hmem x.index).2 ⟨x, hx, rfl⟩
    refine ⟨hsorted, hsorted.nodup, xs, rfl, hmem, ?_, ?_⟩
    · unfold sample_polyhedra_columns compute_nonzero_bases_ids
      rw [hxs]
      simp only []
      rw [h, columns_of_mem local_to_global xs [] hfound]
      simp
    · intro x hx
      have hlt := List.indexOf_lt_length.2 (hfound x hx)
      refine ⟨hlt, ?_⟩
      rw [List.getElem?_eq_getElem hlt]
      simp

/-- Witness for C30: on the test cell the visited ids are 7, 3, 3, 5; the list returned is
3, 5, 7 and the columns addressed are 2, 0, 0, 1. -/
theorem nonzero_bases_ids_sorted_and_found_witness :
    compute_nonzero_bases_ids test_mesh 0 test_bases test_data = some [3, 5, 7] ∧
    sample_polyhedra_columns test_mesh 0 test_bases test_data = some [2, 0, 0, 1] ∧
    [(3 : Int), 5, 7].Sorted (· < ·) := by
  have h0 : compute_nonzero_bases_ids test_mesh 0 test_bases test_data = some [3, 5, 7] := by
    decide
  have h := nonzero_bases_ids_sorted_and_found test_mesh 0 test_bases test_data [3, 5, 7] h0
  exact ⟨h0, by decide, h.1⟩

end PolygonalBasis3d

namespace UpsampleMesh

/-- One more round of the loop that finds the removed vertices. -/
theorem removed_loop_succ (s : List Int) (m : Nat) :
    removed_loop s (m + 1) =
      (if (removed_loop s m).1 < s.length ∧ s[(removed_loop s m).1]? = some (m : Int)
        then ((removed_loop s m).1 + 1, (removed_loop s m).2)
        else ((removed_loop s m).1, (removed_loop s m).2 ++ [(m : Int)])) := by
  simp only [removed_loop, List.range_succ, List.foldl_append, List.foldl_cons, List.foldl_nil]

/-- Invariant of the loop that finds the removed vertices, for strictly increasing nonnegative
`indices`: after `m` rounds `j` counts the indices below `m`, and `removed_indices` lists, in
increasing order, the `i < m` that are not in `indices`. -/
theorem removed_loop_invariant (s : List Int) (hs : s.Sorted (· < ·)) (h0 : ∀ x ∈ s, 0 ≤ x)
    (m : Nat) :
    ∃ pre rest, s = pre ++ rest ∧ (removed_loop s m).1 = pre.length ∧
      (∀ x ∈ pre, x < (m : Int)) ∧ (∀ x ∈ rest, (m : Int) ≤ x) ∧
      (removed_loop s m).2
        = ((List.range m).map (fun i : Nat => (i : Int))).filter (fun i => i ∉ s) ∧
      (removed_loop s m).1 + (removed_loop s m).2.length = m := by
  induction m with
  | zero =>
    refine ⟨[], s, rfl, rfl, ?_, ?_, rfl, rfl⟩
    · intro x hx; cases hx
    · intro x hx; exact_mod_cast h0 x hx
  | succ m ih =>
    obtain ⟨pre, rest, hspl, hj, hpre, hrest, hrem, hcount⟩ := ih
    have hfilter : ((List.range (m + 1)).map (fun i : Nat => (i : Int))).filter (fun i => i ∉ s)
        = (removed_loop s m).2 ++ (if (m : Int) ∈ s then [] else [(m : Int)]) := by
      rw [List.range_succ, List.map_append, List.filter_append, ← hrem]
      by_cases hm : (m : Int) ∈ s <;> simp [hm]
    have hget : s[(removed_loop s m).1]? = rest.head? := by
      rw [hj, hspl, List.getElem?_append_right (le_refl _), Nat.sub_self]
      cases rest <;> simp
    rw [removed_loop_succ, hget]
    cases rest with
    | nil =>
      have hm : (m : Int) ∉ s := by
        intro hm
        rw [hspl, List.append_nil] at hm
        exact absurd (hpre _ hm) (lt_irrefl _)
      rw [if_neg (by simp)]
      refine ⟨pre, [], hspl, hj, ?_, ?_, ?_, ?_⟩
      · intro x hx; have := hpre x hx; push_cast; omega
      · intro x hx; cases hx
      · rw [hfilter, if_neg hm]
      · simp only [List.length_append, List.length_singleton]; omega
    | cons r rest' =>
      have hsr : (r :: rest').Sorted (· < ·) := by
        rw [hspl] at hs
        exact (List.pairwise_append.1 hs).2.1
      have hr' : ∀ x ∈ rest', r < x := fun x hx => List.rel_of_sorted_cons hsr x hx
      have hlt : (removed_loop s m).1 < s.length := by
        rw [hj, hspl, List.length_append, List.length_cons]; omega
      by_cases hrm : r = (m : Int)
      · have hm : (m : Int) ∈ s := by
          rw [hspl, ← hrm]; simp
        rw [if_pos ⟨hlt, by simp [hrm]⟩]
        refine ⟨pre ++ [r], rest', by simp [hspl], by simp [hj], ?_, ?_, ?_, ?_⟩
        · intro x hx
          rcases List.mem_append.1 hx with hx | hx
          · have := hpre x hx; push_cast; omega
          · simp only [List.mem_singleton] at hx; push_cast; omega
        · intro x hx; have := hr' x hx; push_cast; omega
        · rw [hfilter, if_pos hm, List.append_nil]
        · dsimp only; omega
      · have hrm' : (m : Int) < r := by
          have := hrest r (List.mem_cons_self _ _)
          omega
        have hm : (m : Int) ∉ s := by
          intro hm
          rw [hspl] at hm
          rcases List.mem_append.1 hm with hm | hm
          · exact absurd (hpre _ hm) (lt_irrefl _)
          · rcases List.mem_cons.1 hm with hm | hm
            · omega
            · have := hr' _ hm; omega
        rw [if_neg (by simp [hrm])]
        · refine ⟨pre, r :: rest', hspl, hj, ?_, ?_, ?_, ?_⟩
          · intro x hx; have := hpre x hx; push_cast; omega
          · intro x hx
            rcases List.mem_cons.1 hx with hx | hx
            · push_cast; omega
            · have := hr' x hx; push_cast; omega
          · rw [hfilter, if_neg hm]
          · simp only [List.length_append, List.length_singleton]; omega

/-- The weight loop of `stitch_mesh` over triplets whose rows are rows of `V`: the triplets whose
row is not removed are kept in order, with the row mapped through `inverse`. -/
theorem weights_loop (removed_indices inverse : List Int) :
    ∀ (W W_out : List Triplet), (∀ w ∈ W, 0 ≤ w.row ∧ w.row < (inverse.length : Int)) →
      W.foldlM
        (fun (W_out : List Triplet) (w : Triplet) =>
          if w.row ∈ removed_indices then some W_out
          else match coeff inverse w.row with
            | none => none
            | some r => some (W_out ++ [{ row := r, col := w.col, value := w.value }])) W_out
        = some (W_out ++ (W.filter (fun w => w.row ∉ removed_indices)).map
            (fun w => { row := inverse.getD w.row.toNat 0, col := w.col, value := w.value })) := by
  intro W
  induction W with
  | nil => intro W_out _; simp
  | cons w W ih =>
    intro W_out h
    have hw := h w (List.mem_cons_self _ _)
    have hlt : w.row.toNat < inverse.length := by omega
    have hc : coeff inverse w.row = some (inverse.getD w.row.toNat 0) := by
      simp [coeff, hw.1, List.getD_eq_getElem?_getD, List.getElem?_eq_getElem hlt]
    simp only [List.foldlM_cons]
    by_cases hr : w.row ∈ removed_indices
    · simp only [if_pos hr]
      show List.foldlM _ _ W = _
      rw [ih _ (fun y hy => h y (List.mem_cons_of_mem _ hy))]
      simp [hr]
    · simp only [if_neg hr, hc]
      show List.foldlM _ _ W = _
      rw [ih _ (fun y hy => h y (List.mem_cons_of_mem _ hy))]
      simp [hr]

/-- C28: in `stitch_mesh`, given that `indices` lists distinct rows of `V`, as many as `V_out`
has rows, that `inverse` maps every row of `V` to a row of `V_out`, and that the triplets of `W`
address rows of `V`, the function passes its assertions; `removed_indices` is the increasing
list of the row ids of `[0, #V)` that are not in `indices`, of length `#V - #indices`; and
`W_out` is, in the original order, the triplets of `W` whose row is not removed, each with its
row replaced by `inverse(row)`, which is a row of `V_out`, and its column and value unchanged. -/
theorem stitch_mesh_removed_and_weights (V_rows V_out_rows : Nat) (W : List Triplet)
    (indices inverse : List Int)
    (hnodup : indices.Nodup) (hrange : ∀ k ∈ indices, 0 ≤ k ∧ k < (V_rows : Int))
    (hilen : indices.length = V_out_rows) (hvlen : inverse.length = V_rows)
    (hinv : ∀ r ∈ inverse, 0 ≤ r ∧ r < (V_out_rows : Int))
    (hW : ∀ w ∈ W, 0 ≤ w.row ∧ w.row < (V_rows : Int)) :
    ∃ st, stitch_mesh V_rows W indices inverse V_out_rows = some st ∧
      st.removed_indices
        = ((List.range V_rows).map (fun i : Nat => (i : Int))).filter (fun i => i ∉ indices) ∧
      st.removed_indices.Sorted (· < ·) ∧
      (st.removed_indices.length : Int) = (V_rows : Int) - (indices.length : Int) ∧
      st.W_out = (W.filter (fun w => w.row ∉ st.removed_indices)).map
          (fun w => { row := inverse.getD w.row.toNat 0, col := w.col, value := w.value }) ∧
      ∀ w ∈ st.W_out, 0 ≤ w.row ∧ w.row < (V_out_rows : Int) := by
  have hperm := List.perm_insertionSort (fun a b : Int => a ≤ b) indices
  have hsorted : (indices.insertionSort (fun a b => a ≤ b)).Sorted (· < ·) :=
    (List.sorted_insertionSort _ _).lt_of_le (hperm.nodup_iff.2 hnodup)
  obtain ⟨pre, rest, hspl, hj, hpre, hrest, hrem, hcount⟩ :=
    removed_loop_invariant _ hsorted (fun x hx => (hrange x (hperm.mem_iff.1 hx)).1) V_rows
  have hrest_nil : rest = [] := by
    cases rest with
    | nil => rfl
    | cons r rest' =>
      have hr : r ∈ indices.insertionSort (fun a b => a ≤ b) := by rw [hspl]; simp
      have h1 := (hrange r (hperm.mem_iff.1 hr)).2
      have h2 := hrest r (List.mem_cons_self _ _)
      omega
  have hjlen : (removed_loop (indices.insertionSort (fun a b => a ≤ b)) V_rows).1
      = indices.length := by
    rw [hj, ← List.length_insertionSort (fun a b : Int => a ≤ b) indices]
    conv_rhs => rw [hspl, hrest_nil, List.append_nil]
  have hrem' : (removed_loop (indices.insertionSort (fun a b => a ≤ b)) V_rows).2
      = ((List.range V_rows).map (fun i : Nat => (i : Int))).filter (fun i => i ∉ indices) := by
    rw [hrem]
    apply List.filter_congr
    intro x _
    simp [hperm.mem_iff]
  have hstrict : (((List.range V_rows).map (fun i : Nat => (i : Int))).filter
      (fun i => i ∉ indices)).Sorted (· < ·) := by
    apply List.Pairwise.filter
    rw [List.pairwise_map]
    exact (List.pairwise_lt_range V_rows).imp (fun h => by exact_mod_cast h)
  have hlen : ((removed_loop (indices.insertionSort (fun a b => a ≤ b)) V_rows).2.length : Int)
      = (V_rows : Int) - ((indices.insertionSort (fun a b => a ≤ b)).length : Int) := by
    rw [List.length_insertionSort]
    omega
  have hWr : ∀ w ∈ W, 0 ≤ w.row ∧ w.row < (inverse.length : Int) := by
    rw [hvlen]; exact hW
  refine ⟨⟨((List.range V_rows).map (fun i : Nat => (i : Int))).filter (fun i => i ∉ indices),
    (W.filter (fun w => w.row ∉ ((List.range V_rows).map (fun i : Nat => (i : Int))).filter
        (fun i => i ∉ indices))).map
      (fun w => { row := inverse.getD w.row.toNat 0, col := w.col, value := w.value })⟩,
    ?_, rfl, hstrict, ?_, rfl, ?_⟩
  · unfold stitch_mesh
    rw [if_neg (not_not.2 hilen), if_neg (not_not.2 hvlen)]
    simp only []
    have hle : List.Sorted (fun a b : Int => a ≤ b)
        (((List.range V_rows).map (fun i : Nat => (i : Int))).filter (fun i => i ∉ indices)) :=
      hstrict.imp (fun h => le_of_lt h)
    rw [if_neg (not_not.2 hlen), hrem', if_neg (not_not.2 hle), weights_loop _ _ W [] hWr]
    simp
  · rw [← hrem', hlen, List.length_insertionSort]
  · intro w hw
    simp only [List.mem_map, List.mem_filter] at hw
    obtain ⟨w0, ⟨hw0, _⟩, rfl⟩ := hw
    have hw0r := hWr w0 hw0
    have hlt : w0.row.toNat < inverse.length := by omega
    apply hinv
    simp only [List.getD_eq_getElem?_getD, List.getElem?_eq_getElem hlt, Option.getD_some]
    exact List.getElem_mem _

/-- Witness for C28: five vertices of which rows 1 and 3 duplicate rows 0 and 2. -/
theorem stitch_mesh_removed_and_weights_witness :
    ∃ st, stitch_mesh 5 [⟨0, 7, 1⟩, ⟨1, 8, 2⟩, ⟨4, 9, 3⟩] [4, 0, 2] [0, 0, 1, 1, 2] 3 = some st ∧
      st.removed_indices = [1, 3] ∧
      st.W_out = [⟨0, 7, 1⟩, ⟨2, 9, 3⟩] := by
  obtain ⟨st, h, hr, _, _, hw, _⟩ := stitch_mesh_removed_and_weights 5 3
    [⟨0, 7, 1⟩, ⟨1, 8, 2⟩, ⟨4, 9, 3⟩] [4, 0, 2] [0, 0, 1, 1, 2]
    (by decide) (by decide) (by decide) (by decide) (by decide) (by decide)
  refine ⟨st, h, ?_, ?_⟩
  · rw [hr]; decide
  · rw [hw, hr]; decide

end UpsampleMesh

namespace UpsampleMesh

/-- The boundary loop of `build_collision_proxy` from any temporary proxy: it throws exactly when
some local boundary is not a triangle, and then with the message for triangles. -/
theorem boundary_loop_error (UV : List (ℚ × ℚ)) :
    ∀ (bs : List LocalBoundary) (acc : List FaceTessellation),
      ((∃ lb ∈ bs, lb.type ≠ BoundaryType.TRI) →
        bs.foldlM
          (fun proxy_tmp local_boundary =>
            if local_boundary.type ≠ BoundaryType.TRI then
              Except.error "build_collision_proxy() is only implemented for triangles!"
            else
              Except.ok (boundary_face_loop UV local_boundary proxy_tmp)) acc
          = Except.error "build_collision_proxy() is only implemented for triangles!") ∧
      ((∀ lb ∈ bs, lb.type = BoundaryType.TRI) →
        bs.foldlM
          (fun proxy_tmp local_boundary =>
            if local_boundary.type ≠ BoundaryType.TRI then
              Except.error "build_collision_proxy() is only implemented for triangles!"
            else
              Except.ok (boundary_face_loop UV local_boundary proxy_tmp)) acc
          = Except.ok (bs.foldl (fun proxy_tmp lb => boundary_face_loop UV lb proxy_tmp) acc)) := by
  intro bs
  induction bs with
  | nil =>
    intro acc
    exact ⟨fun ⟨_, h, _⟩ => (by cases h), fun _ => rfl⟩
  | cons b bs ih =>
    intro acc
    by_cases hb : b.type = BoundaryType.TRI
    · have hstep : ∀ (f : List FaceTessellation → LocalBoundary →
            Except String (List FaceTessellation)),
          f acc b = Except.ok (boundary_face_loop UV b acc) →
          List.foldlM f acc (b :: bs) = List.foldlM f (boundary_face_loop UV b acc) bs := by
        intro f hf
        simp only [List.foldlM_cons, hf]
        rfl
      rw [hstep _ (by simp [hb])]
      refine ⟨?_, ?_⟩
      · rintro ⟨lb, hlb, hne⟩
        rcases List.mem_cons.1 hlb with rfl | hlb
        · exact absurd hb hne
        · exact (ih _).1 ⟨lb, hlb, hne⟩
      · intro hall
        rw [(ih _).2 (fun lb hlb => hall lb (List.mem_cons_of_mem _ hlb))]
        rfl
    · refine ⟨?_, ?_⟩
      · intro _
        simp only [List.foldlM_cons, ne_eq, hb, not_false_eq_true, if_true]
        rfl
      · intro hall
        exact absurd (hall b (List.mem_cons_self _ _)) hb

/-- C29 (the code diverges): `build_collision_proxy` throws exactly when the mesh is not
conforming or some local boundary is not of type `TRI`; a boundary face with a local face id
outside `0, 1, 2, 3` never raises "build_collision_proxy(): unknown local_fid": the face is
skipped silently and a proxy is returned, as for the conforming mesh with one triangle boundary
whose only face has local id 4. -/
theorem unknown_local_fid_is_skipped (is_conforming : Bool) (UV : List (ℚ × ℚ))
    (total_local_boundary : List LocalBoundary) :
    ((∃ msg, build_collision_proxy is_conforming UV total_local_boundary = Except.error msg) ↔
      (is_conforming = false ∨ ∃ lb ∈ total_local_boundary, lb.type ≠ BoundaryType.TRI)) ∧
    (∀ local_fid, build_collision_proxy is_conforming UV total_local_boundary
      ≠ Except.error (unknown_local_fid_error local_fid)) ∧
    build_collision_proxy true UV [{ type := BoundaryType.TRI, element_id := 0,
                                     local_primitive_id := [4] }] = Except.ok [] := by
  have hcases : (is_conforming = false ∧
        build_collision_proxy is_conforming UV total_local_boundary
          = Except.error "build_collision_proxy() is only implemented for conforming meshes!") ∨
      (is_conforming = true ∧ (∃ lb ∈ total_local_boundary, lb.type ≠ BoundaryType.TRI) ∧
        build_collision_proxy is_conforming UV total_local_boundary
          = Except.error "build_collision_proxy() is only implemented for triangles!") ∨
      (is_conforming = true ∧ (∀ lb ∈ total_local_boundary, lb.type = BoundaryType.TRI) ∧
        ∃ p, build_collision_proxy is_conforming UV total_local_boundary = Except.ok p) := by
    cases is_conforming with
    | false => exact Or.inl ⟨rfl, rfl⟩
    | true =>
      right
      by_cases hall : ∀ lb ∈ total_local_boundary, lb.type = BoundaryType.TRI
      · right
        refine ⟨rfl, hall,
          total_local_boundary.foldl (fun proxy_tmp lb => boundary_face_loop UV lb proxy_tmp) [], ?_⟩
        unfold build_collision_proxy
        rw [if_neg (by simp)]
        exact (boundary_loop_error UV total_local_boundary []).2 hall
      · left
        push_neg at hall
        refine ⟨rfl, hall, ?_⟩
        unfold build_collision_proxy
        rw [if_neg (by simp)]
        exact (boundary_loop_error UV total_local_boundary []).1 hall
  refine ⟨?_, ?_, ?_⟩
  · rcases hcases with ⟨hc, he⟩ | ⟨hc, hex, he⟩ | ⟨hc, hall, p, hp⟩
    · exact ⟨fun _ => Or.inl hc, fun _ => ⟨_, he⟩⟩
    · exact ⟨fun _ => Or.inr hex, fun _ => ⟨_, he⟩⟩
    · constructor
      · rintro ⟨msg, hmsg⟩
        rw [hp] at hmsg
        cases hmsg
      · rintro (hf | ⟨lb, hlb, hne⟩)
        · rw [hc] at hf; cases hf
        · exact absurd (hall lb hlb) hne
  · intro local_fid he
    have hne1 : unknown_local_fid_error local_fid
        ≠ "build_collision_proxy() is only implemented for conforming meshes!" := by
      intro h
      have h26 := congrArg (fun s : String => s.data.take 26) h
      simp only [unknown_local_fid_error, String.data_append] at h26
      rw [List.take_append_of_le_length (by decide)] at h26
      revert h26
      decide
    have hne2 : unknown_local_fid_error local_fid
        ≠ "build_collision_proxy() is only implemented for triangles!" := by
      intro h
      have h26 := congrArg (fun s : String => s.data.take 26) h
      simp only [unknown_local_fid_error, String.data_append] at h26
      rw [List.take_append_of_le_length (by decide)] at h26
      revert h26
      decide
    rcases hcases with ⟨_, he'⟩ | ⟨_, _, he'⟩ | ⟨_, _, p, hp⟩
    · rw [he'] at he; exact hne1 (Except.error.inj he).symm
    · rw [he'] at he; exact hne2 (Except.error.inj he).symm
    · rw [hp] at he; cases he
  · rfl

end UpsampleMesh

namespace ControlProblem

/-- A checked write keeps the length of the vector. -/
theorem write_length (v w : TVector) (i : Int) (a : ℚ) (h : write v i a = some w) :
    w.length = v.length := by
  unfold write at h
  split_ifs at h
  simp only [Option.some.injEq] at h
  rw [← h, List.length_set]

/-- Whatever `x_to_param` returns has the length of `boundary_ids_list`. -/
theorem x_to_param_length (cp : Data) (x param : TVector) (h : x_to_param cp x = some param) :
    param.length = cp.boundary_ids_list.length := by
  unfold x_to_param at h
  have key : ∀ (l : List (Nat × Nat)) (p0 p : TVector),
      l.foldlM
        (fun (param : TVector) (tb : Nat × Nat) =>
          match cp.boundary_ids_list[tb.2]? with
          | none => none
          | some boundary_id =>
            match cp.optimize_boundary_ids_to_position.lookup boundary_id with
            | none => some param
            | some position =>
              match read x (x_index cp tb.1 tb.2 position) with
              | none => none
              | some a => write param (param_index cp tb.1 tb.2) a) p0 = some p →
      p.length = p0.length := by
    intro l
    induction l with
    | nil => intro p0 p h; simp at h; rw [h]
    | cons tb l ih =>
      intro p0 p h
      simp only [List.foldlM_cons] at h
      cases h1 : cp.boundary_ids_list[tb.2]? with
      | none => simp [h1] at h
      | some boundary_id =>
        cases h2 : cp.optimize_boundary_ids_to_position.lookup boundary_id with
        | none =>
          simp only [h1, h2] at h
          exact ih _ _ h
        | some position =>
          cases h3 : read x (x_index cp tb.1 tb.2 position) with
          | none => simp [h1, h2, h3] at h
          | some a =>
            cases h4 : write p0 (param_index cp tb.1 tb.2) a with
            | none => simp [h1, h2, h3, h4] at h
            | some p1 =>
              simp only [h1, h2, h3, h4] at h
              rw [ih _ _ h, write_length _ _ _ _ h4]
  rw [key _ _ _ h, List.length_replicate]

/-- C23 (the code diverges): `x_to_param` sizes `param` with `boundary_ids_list.size()`, without
the factor `time_steps`, but addresses it with `t * boundary_ids_list.size() + b`.  So whatever it
returns has length `boundary_ids_list.size()`, and `param_to_x` rejects it by its assertion
whenever `boundary_ids_list.size() * time_steps` is another number.  For two time steps, one
boundary node on the optimised boundary and `x = (1, 2)` the write `param(1)` is out of range;
for two time steps, one boundary node and no optimised boundary `x_to_param` returns a vector
of length 1 that fails the assertion of `param_to_x`. -/
theorem x_to_param_misses_time_steps :
    (∀ (cp : Data) (x param : TVector), x_to_param cp x = some param →
      param.length = cp.boundary_ids_list.length ∧
      ((cp.boundary_ids_list.length : Int) * cp.time_steps ≠ (cp.boundary_ids_list.length : Int) →
        param_to_x cp param = none)) ∧
    x_to_param test_data [1, 2] = none ∧
    x_to_param { boundary_ids_list := [7], optimize_boundary_ids_to_position := build_positions [],
                 time_steps := 2, dimension := 1 } [] = some [0] ∧
    param_to_x { boundary_ids_list := [7], optimize_boundary_ids_to_position := build_positions [],
                 time_steps := 2, dimension := 1 } [0] = none := by
  refine ⟨?_, ?_, ?_, ?_⟩
  · intro cp x param h
    have hlen := x_to_param_length cp x param h
    refine ⟨hlen, fun hne => ?_⟩
    unfold param_to_x
    rw [if_pos (by rw [hlen]; exact fun h => hne h.symm)]
  · decide
  · decide
  · decide

end ControlProblem

namespace UpsampleMesh

/-- Rounding to the nearest integer moves a number by at most one half. -/
theorem round_half_even_err (y : ℚ) : |(round_half_even y : ℚ) - y| ≤ 1 / 2 := by
  have h1 := Int.floor_le y
  have h2 := Int.lt_floor_add_one y
  unfold round_half_even
  split_ifs with a b c
  · rw [abs_le]; constructor <;> linarith
  · rw [abs_le]; push_cast; constructor <;> linarith
  · rw [abs_le]; constructor <;> linarith
  · rw [abs_le]; push_cast; constructor <;> linarith

/-- Rounding a nonnegative number gives a nonnegative integer. -/
theorem round_half_even_nonneg (y : ℚ) (hy : 0 ≤ y) : 0 ≤ round_half_even y := by
  have h0 : 0 ≤ Int.floor y := Int.floor_nonneg.2 hy
  unfold round_half_even
  split_ifs <;> omega

/-- An integer is its own rounding. -/
theorem round_half_even_int (m : Int) : round_half_even (m : ℚ) = m := by
  unfold round_half_even
  simp

/-- A number strictly within one half of an integer rounds to it. -/
theorem round_half_even_eq (y : ℚ) (m : Int) (h1 : (m : ℚ) - 1 / 2 < y)
    (h2 : y < (m : ℚ) + 1 / 2) : round_half_even y = m := by
  have hf1 := Int.floor_le y
  have hf2 := Int.lt_floor_add_one y
  have hlo : m - 1 ≤ Int.floor y := by
    rw [Int.le_floor]; push_cast; linarith
  have hhi : Int.floor y ≤ m := by
    have : Int.floor y < m + 1 := by
      rw [Int.floor_lt]; push_cast; linarith
    omega
  rcases (by omega : Int.floor y = m ∨ Int.floor y = m - 1) with h | h
  · unfold round_half_even
    rw [h, if_pos (by linarith)]
  · unfold round_half_even
    rw [h]
    have e : ((m - 1 : Int) : ℚ) = (m : ℚ) - 1 := by push_cast; ring
    rw [e, if_neg (by linarith), if_pos (by linarith)]
    ring

/-- A number halfway above an even integer rounds down to it. -/
theorem round_half_even_tie_even (y : ℚ) (m : Int) (h : y = (m : ℚ) + 1 / 2) (hm : m % 2 = 0) :
    round_half_even y = m := by
  have hf : Int.floor y = m := by
    rw [Int.floor_eq_iff]; constructor <;> linarith
  unfold round_half_even
  rw [hf, if_neg (by linarith), if_neg (by linarith), if_pos hm]

/-- A number halfway above an odd integer rounds up to the next integer. -/
theorem round_half_even_tie_odd (y : ℚ) (m : Int) (h : y = (m : ℚ) + 1 / 2) (hm : m % 2 = 1) :
    round_half_even y = m + 1 := by
  have hf : Int.floor y = m := by
    rw [Int.floor_eq_iff]; constructor <;> linarith
  unfold round_half_even
  rw [hf, if_neg (by linarith), if_neg (by linarith), if_neg (by omega)]

/-- Zero is a double. -/
theorem fl_zero : fl 0 = 0 := by
  simp [fl, round_half_even]

/-- Rounding keeps a nonnegative number nonnegative. -/
theorem fl_nonneg (x : ℚ) (hx : 0 ≤ x) : 0 ≤ fl x := by
  unfold fl
  have h := round_half_even_nonneg (x / 2 ^ (max (Int.log 2 |x|) (-1022) - 52)) (by positivity)
  have h' : (0 : ℚ) ≤ (round_half_even (x / 2 ^ (max (Int.log 2 |x|) (-1022) - 52)) : ℚ) := by
    exact_mod_cast h
  positivity

/-- The rounding error of a double: at most `2 ^ -53` times the magnitude of the number, or
times `2 ^ -1022` for a number in the subnormal range. -/
theorem fl_err (x : ℚ) : |fl x - x| ≤ 2 ^ (-53 : Int) * max |x| (2 ^ (-1022 : Int)) := by
  by_cases hx : x = 0
  · subst hx; rw [fl_zero]; simp; positivity
  have hq : (0 : ℚ) < 2 ^ (max (Int.log 2 |x|) (-1022) - 52) := by positivity
  have h1 := round_half_even_err (x / 2 ^ (max (Int.log 2 |x|) (-1022) - 52))
  have h2 : |fl x - x| ≤ 1 / 2 * 2 ^ (max (Int.log 2 |x|) (-1022) - 52) := by
    have e : fl x - x = ((round_half_even (x / 2 ^ (max (Int.log 2 |x|) (-1022) - 52)) : ℚ)
        - x / 2 ^ (max (Int.log 2 |x|) (-1022) - 52))
          * 2 ^ (max (Int.log 2 |x|) (-1022) - 52) := by
      unfold fl; field_simp
    rw [e, abs_mul, abs_of_pos hq]
    exact mul_le_mul_of_nonneg_right h1 (le_of_lt hq)
  refine le_trans h2 ?_
  have e2 : (1 / 2 : ℚ) * 2 ^ (max (Int.log 2 |x|) (-1022) - 52)
      = 2 ^ (-53 : Int) * 2 ^ (max (Int.log 2 |x|) (-1022)) := by
    have : (1 / 2 : ℚ) = 2 ^ (-1 : Int) := by norm_num
    rw [this, ← zpow_add₀ (by norm_num : (2 : ℚ) ≠ 0), ← zpow_add₀ (by norm_num : (2 : ℚ) ≠ 0)]
    congr 1; ring
  rw [e2]
  apply mul_le_mul_of_nonneg_left _ (by positivity)
  rcases le_total (Int.log 2 |x|) (-1022) with h | h
  · rw [max_eq_right h]; exact le_max_right _ _
  · rw [max_eq_left h]
    exact le_trans (Int.zpow_log_le_self (by norm_num) (abs_pos.2 hx)) (le_max_left _ _)

/-- The rounding error of a number of magnitude at most `B`, where `B` is not subnormal. -/
theorem fl_err_le (x B : ℚ) (hB : |x| ≤ B) (hB0 : 2 ^ (-1022 : Int) ≤ B) :
    |fl x - x| ≤ 2 ^ (-53 : Int) * B :=
  le_trans (fl_err x) (mul_le_mul_of_nonneg_left (max_le hB hB0) (by positivity))

/-- The relative rounding error of a number that is not subnormal. -/
theorem fl_err_rel (x : ℚ) (hx : 2 ^ (-1022 : Int) ≤ |x|) : |fl x - x| ≤ 2 ^ (-53 : Int) * |x| :=
  fl_err_le x |x| (le_refl _) hx

/-- The binary exponent of a number between two consecutive powers of two. -/
theorem log_two_eq (x : ℚ) (e : Int) (h1 : (2 : ℚ) ^ e ≤ x) (h2 : x < (2 : ℚ) ^ (e + 1)) :
    Int.log 2 x = e := by
  have hpos : 0 < x := lt_of_lt_of_le (by positivity) h1
  have a : e ≤ Int.log 2 x := by
    rw [← Int.zpow_le_iff_le_log (by norm_num) hpos]
    simpa using h1
  have b : Int.log 2 x < e + 1 := by
    rw [← Int.lt_zpow_iff_log_lt (by norm_num) hpos]
    simpa using h2
  omega

/-- The double of a number with known binary exponent `e ≥ -1022`. -/
theorem fl_eq (x : ℚ) (e m : Int) (he : -1022 ≤ e) (h1 : (2 : ℚ) ^ e ≤ |x|)
    (h2 : |x| < (2 : ℚ) ^ (e + 1)) (hm : round_half_even (x / 2 ^ (e - 52)) = m) :
    fl x = (m : ℚ) * 2 ^ (e - 52) := by
  unfold fl
  rw [log_two_eq |x| e h1 h2, max_eq_left he, hm]

/-- An integer of magnitude at most `2 ^ 53` is a double. -/
theorem fl_int (m : Int) (hm : |m| ≤ 2 ^ 53) : fl (m : ℚ) = (m : ℚ) := by
  by_cases h0 : m = 0
  · subst h0; simpa using fl_zero
  have hpos : (0 : ℚ) < |(m : ℚ)| := abs_pos.2 (by exact_mod_cast h0)
  have hlog0 : 0 ≤ Int.log 2 |(m : ℚ)| := by
    rw [← Int.zpow_le_iff_le_log (by norm_num) hpos]
    have : (1 : Int) ≤ |m| := Int.one_le_abs h0
    have : (1 : ℚ) ≤ |(m : ℚ)| := by exact_mod_cast this
    simpa using this
  have hlog1 : Int.log 2 |(m : ℚ)| < 54 := by
    rw [← Int.lt_zpow_iff_log_lt (by norm_num) hpos]
    have : |(m : ℚ)| ≤ 2 ^ 53 := by exact_mod_cast hm
    calc |(m : ℚ)| ≤ 2 ^ 53 := this
      _ < ((2 : Nat) : ℚ) ^ (54 : Int) := by norm_num
  unfold fl
  rw [max_eq_left (by omega)]
  by_cases h53 : Int.log 2 |(m : ℚ)| = 53
  · have hle := Int.zpow_log_le_self (by norm_num : 1 < 2) hpos
    rw [h53] at hle ⊢
    have hge : (2 : ℚ) ^ 53 ≤ |(m : ℚ)| := by
      have e53 : ((2 : Nat) : ℚ) ^ (53 : Int) = (2 : ℚ) ^ 53 := by norm_num
      rw [e53] at hle; exact hle
    have habs : |m| = 2 ^ 53 := by
      have : ((2 ^ 53 : Int) : ℚ) ≤ ((|m| : Int) : ℚ) := by push_cast; exact hge
      have : (2 ^ 53 : Int) ≤ |m| := by exact_mod_cast this
      omega
    have hcases : m = 2 ^ 53 ∨ m = -2 ^ 53 := by
      rcases abs_cases m with ⟨h, _⟩ | ⟨h, _⟩ <;> omega
    rcases hcases with h | h
    · subst h
      have : (((2 ^ 53 : Int) : ℚ) / 2 ^ ((53 : Int) - 52)) = ((2 ^ 52 : Int) : ℚ) := by
        norm_num
      rw [this, round_half_even_int]; norm_num
    · subst h
      have : (((-2 ^ 53 : Int) : ℚ) / 2 ^ ((53 : Int) - 52)) = ((-2 ^ 52 : Int) : ℚ) := by
        norm_num
      rw [this, round_half_even_int]; norm_num
  · obtain ⟨k, hk⟩ : ∃ k : Nat, Int.log 2 |(m : ℚ)| = 52 - (k : Int) :=
      ⟨(52 - Int.log 2 |(m : ℚ)|).toNat, by omega⟩
    rw [hk]
    have e1 : (52 : Int) - (k : Int) - 52 = -(k : Int) := by ring
    rw [e1]
    have e2 : (m : ℚ) / 2 ^ (-(k : Int)) = ((m * 2 ^ k : Int) : ℚ) := by
      rw [zpow_neg, div_inv_eq_mul, zpow_natCast]; push_cast; rfl
    rw [e2, round_half_even_int]
    push_cast
    rw [zpow_neg, zpow_natCast]
    field_simp

/-- A double is at least the number it rounds, less the rounding error. -/
theorem fl_ge (y : ℚ) (hy : 0 ≤ y) :
    y * (1 - 2 ^ (-53 : Int)) - 2 ^ (-1075 : Int) ≤ fl y := by
  have h := (abs_le.1 (fl_err y)).1
  have hmax : max |y| (2 ^ (-1022 : Int)) ≤ y + 2 ^ (-1022 : Int) := by
    rw [abs_of_nonneg hy]
    exact max_le (le_add_of_nonneg_right (by positivity)) (le_add_of_nonneg_left hy)
  have hmul : (2 : ℚ) ^ (-53 : Int) * max |y| (2 ^ (-1022 : Int))
      ≤ 2 ^ (-53 : Int) * (y + 2 ^ (-1022 : Int)) :=
    mul_le_mul_of_nonneg_left hmax (by positivity)
  have e : (2 : ℚ) ^ (-53 : Int) * 2 ^ (-1022 : Int) = 2 ^ (-1075 : Int) := by
    rw [← zpow_add₀ (by norm_num : (2 : ℚ) ≠ 0)]; norm_num
  rw [mul_add, e] at hmul
  linarith

/-- The rounded square root is a nonnegative multiple `m * q` of the spacing `q`, with `m` not
below the integer square root of `x / q ^ 2` and `x / q ^ 2 ≤ (m + 1 / 2) ^ 2`. -/
theorem fl_sqrt_cases (x : ℚ) :
    ∃ m : Nat, fl_sqrt x = (m : ℚ) * 2 ^ (max (Int.log 2 x / 2) (-1022) - 52) ∧
      Nat.sqrt (Nat.floor (x / (2 ^ (max (Int.log 2 x / 2) (-1022) - 52)
        * 2 ^ (max (Int.log 2 x / 2) (-1022) - 52)))) ≤ m ∧
      x / (2 ^ (max (Int.log 2 x / 2) (-1022) - 52)
        * 2 ^ (max (Int.log 2 x / 2) (-1022) - 52)) ≤ ((m : ℚ) + 1 / 2) * ((m : ℚ) + 1 / 2) := by
  unfold fl_sqrt
  simp only []
  generalize (2 : ℚ) ^ (max (Int.log 2 x / 2) (-1022) - 52) = q
  generalize x / (q * q) = y
  have h1 := Nat.lt_floor_add_one y
  have h2 : Nat.floor y < (Nat.sqrt (Nat.floor y) + 1) * (Nat.sqrt (Nat.floor y) + 1) :=
    Nat.lt_succ_sqrt (Nat.floor y)
  have h3 : ((Nat.floor y : Nat) : ℚ) + 1
      ≤ (((Nat.sqrt (Nat.floor y) : Nat) : ℚ) + 1) * (((Nat.sqrt (Nat.floor y) : Nat) : ℚ) + 1) := by
    exact_mod_cast h2
  have hm0 : (0 : ℚ) ≤ ((Nat.sqrt (Nat.floor y) : Nat) : ℚ) := Nat.cast_nonneg _
  generalize Nat.sqrt (Nat.floor y) = m at h2 h3 hm0 ⊢
  split_ifs with c1 c2 c3
  · exact ⟨m, rfl, le_refl _, le_of_lt c1⟩
  · refine ⟨m + 1, by push_cast; ring, Nat.le_succ _, ?_⟩
    push_cast
    nlinarith
  · exact ⟨m, rfl, le_refl _, not_lt.1 c2⟩
  · refine ⟨m + 1, by push_cast; ring, Nat.le_succ _, ?_⟩
    push_cast
    nlinarith

/-- The rounded square root is not negative. -/
theorem fl_sqrt_nonneg (x : ℚ) : 0 ≤ fl_sqrt x := by
  obtain ⟨m, hm, _, _⟩ := fl_sqrt_cases x
  rw [hm]
  positivity

/-- The rounded square root is not far below the square root: `x` is at most the square of
`fl_sqrt x` enlarged by one rounding error. -/
theorem fl_sqrt_upper (x : ℚ) (hx : 0 ≤ x) :
    x ≤ (fl_sqrt x * (1 + 2 ^ (-53 : Int)) + 2 ^ (-1075 : Int)) ^ 2 := by
  rcases eq_or_lt_of_le hx with h0 | hpos
  · rw [← h0]; positivity
  obtain ⟨m, hm, hsqrt, hy⟩ := fl_sqrt_cases x
  have hr0 := fl_sqrt_nonneg x
  have hqpos : (0 : ℚ) < 2 ^ (max (Int.log 2 x / 2) (-1022) - 52) := by positivity
  have hm0 : (0 : ℚ) ≤ (m : ℚ) := Nat.cast_nonneg m
  -- x ≤ (r + q / 2) ^ 2
  have h1 : x ≤ (fl_sqrt x + 2 ^ (max (Int.log 2 x / 2) (-1022) - 52) / 2) ^ 2 := by
    have hx' : x = x / (2 ^ (max (Int.log 2 x / 2) (-1022) - 52)
        * 2 ^ (max (Int.log 2 x / 2) (-1022) - 52))
        * (2 ^ (max (Int.log 2 x / 2) (-1022) - 52)
          * 2 ^ (max (Int.log 2 x / 2) (-1022) - 52)) := by
      field_simp
    have h := mul_le_mul_of_nonneg_right hy
      (le_of_lt (mul_pos hqpos hqpos))
    rw [← hx'] at h
    rw [hm]
    calc x ≤ _ := h
      _ = _ := by ring
  -- q / 2 ≤ 2 ^ -53 * r + 2 ^ -1075
  have h2 : (2 : ℚ) ^ (max (Int.log 2 x / 2) (-1022) - 52) / 2
      ≤ fl_sqrt x * 2 ^ (-53 : Int) + 2 ^ (-1075 : Int) := by
    rcases le_total (Int.log 2 x / 2) (-1022) with hc | hc
    · rw [max_eq_right hc]
      have e : (2 : ℚ) ^ ((-1022 : Int) - 52) / 2 = 2 ^ (-1075 : Int) := by
        have : (2 : ℚ) ^ (-1075 : Int) * 2 = 2 ^ ((-1022 : Int) - 52) := by
          rw [← zpow_add_one₀ (by norm_num : (2 : ℚ) ≠ 0)]; norm_num
        rw [← this, mul_div_assoc, div_self (by norm_num : (2 : ℚ) ≠ 0), mul_one]
      rw [e]
      have : 0 ≤ fl_sqrt x * 2 ^ (-53 : Int) := by positivity
      linarith
    · rw [max_eq_left hc] at hm hsqrt ⊢
      have hlog := Int.zpow_log_le_self (by norm_num : 1 < 2) hpos
      have h2e : (2 : ℚ) ^ (2 * (Int.log 2 x / 2)) ≤ x := by
        have hle : 2 * (Int.log 2 x / 2) ≤ Int.log 2 x := by omega
        calc (2 : ℚ) ^ (2 * (Int.log 2 x / 2)) ≤ (2 : ℚ) ^ (Int.log 2 x) :=
              zpow_le_zpow_right₀ (by norm_num) hle
          _ ≤ x := by simpa using hlog
      have hqq : (2 : ℚ) ^ (Int.log 2 x / 2 - 52) * 2 ^ (Int.log 2 x / 2 - 52)
          = 2 ^ (2 * (Int.log 2 x / 2)) * 2 ^ (-104 : Int) := by
        rw [← zpow_add₀ (by norm_num : (2 : ℚ) ≠ 0), ← zpow_add₀ (by norm_num : (2 : ℚ) ≠ 0)]
        congr 1; ring
      have hybig : ((2 ^ 104 : Nat) : ℚ) ≤ x / (2 ^ (Int.log 2 x / 2 - 52)
          * 2 ^ (Int.log 2 x / 2 - 52)) := by
        rw [hqq, le_div_iff₀ (by positivity)]
        have e104 : ((2 ^ 104 : Nat) : ℚ) * 2 ^ (-104 : Int) = 1 := by norm_num
        calc ((2 ^ 104 : Nat) : ℚ) * (2 ^ (2 * (Int.log 2 x / 2)) * 2 ^ (-104 : Int))
            = 2 ^ (2 * (Int.log 2 x / 2)) * (((2 ^ 104 : Nat) : ℚ) * 2 ^ (-104 : Int)) := by ring
          _ = 2 ^ (2 * (Int.log 2 x / 2)) := by rw [e104, mul_one]
          _ ≤ x := h2e
      have hfloor : 2 ^ 104 ≤ Nat.floor (x / (2 ^ (Int.log 2 x / 2 - 52)
          * 2 ^ (Int.log 2 x / 2 - 52))) := Nat.le_floor hybig
      have hmbig : 2 ^ 52 ≤ m := by
        refine le_trans ?_ hsqrt
        rw [Nat.le_sqrt]
        exact le_trans (by norm_num) hfloor
      have hmq : ((2 ^ 52 : Nat) : ℚ) ≤ (m : ℚ) := by exact_mod_cast hmbig
      rw [hm]
      have hq0 : (0 : ℚ) < 2 ^ (Int.log 2 x / 2 - 52) := by positivity
      have e53 : (2 : ℚ) ^ (-53 : Int) = 1 / 9007199254740992 := by norm_num
      have e52 : ((2 ^ 52 : Nat) : ℚ) = 4503599627370496 := by norm_num
      rw [e52] at hmq
      rw [e53]
      have ht0 : (0 : ℚ) ≤ 2 ^ (-1075 : Int) := by positivity
      generalize (2 : ℚ) ^ (-1075 : Int) = t at ht0 ⊢
      generalize (2 : ℚ) ^ (Int.log 2 x / 2 - 52) = q at hq0 ⊢
      have hmul : 4503599627370496 * q ≤ (m : ℚ) * q :=
        mul_le_mul_of_nonneg_right hmq (le_of_lt hq0)
      linarith
  have h3 : fl_sqrt x + 2 ^ (max (Int.log 2 x / 2) (-1022) - 52) / 2
      ≤ fl_sqrt x * (1 + 2 ^ (-53 : Int)) + 2 ^ (-1075 : Int) := by linarith
  have h4 : 0 ≤ fl_sqrt x + 2 ^ (max (Int.log 2 x / 2) (-1022) - 52) / 2 := by positivity
  exact le_trans h1 (pow_le_pow_left₀ h4 h3 2)

/-- Adding nonnegative doubles from the left, rounding every sum, loses at most a factor
`1 - 2 ^ -53` and `2 ^ -1075` per addition. -/
theorem foldl_fl_ge (ys : List ℚ) :
    ∀ (acc : ℚ), 0 ≤ acc → (∀ y ∈ ys, 0 ≤ y) →
      0 ≤ ys.foldl (fun s y => fl (s + y)) acc ∧
      (acc + ys.sum) * (1 - 2 ^ (-53 : Int)) ^ ys.length - (ys.length : ℚ) * 2 ^ (-1075 : Int)
        ≤ ys.foldl (fun s y => fl (s + y)) acc := by
  have hε0 : (0 : ℚ) ≤ 1 - 2 ^ (-53 : Int) := by norm_num
  have hε1 : (1 : ℚ) - 2 ^ (-53 : Int) ≤ 1 := by norm_num
  have ht : (0 : ℚ) ≤ 2 ^ (-1075 : Int) := by positivity
  induction ys with
  | nil => intro acc hacc _; simp [hacc]
  | cons y ys ih =>
    intro acc hacc hys
    have hy : 0 ≤ y := hys y (List.mem_cons_self _ _)
    have hys' : ∀ z ∈ ys, 0 ≤ z := fun z hz => hys z (List.mem_cons_of_mem _ hz)
    have hsum : 0 ≤ ys.sum := List.sum_nonneg hys'
    have hfl0 : 0 ≤ fl (acc + y) := fl_nonneg _ (by linarith)
    obtain ⟨i1, i2⟩ := ih (fl (acc + y)) hfl0 hys'
    refine ⟨i1, le_trans ?_ i2⟩
    have hge := fl_ge (acc + y) (by linarith)
    have hpow0 : (0 : ℚ) ≤ (1 - 2 ^ (-53 : Int)) ^ ys.length := pow_nonneg hε0 _
    have hpow1 : (1 - 2 ^ (-53 : Int) : ℚ) ^ ys.length ≤ 1 := pow_le_one₀ hε0 hε1
    simp only [List.sum_cons, List.length_cons, pow_succ, Nat.cast_add, Nat.cast_one]
    have k1 : ((acc + y) * (1 - 2 ^ (-53 : Int)) - 2 ^ (-1075 : Int) + ys.sum)
        * (1 - 2 ^ (-53 : Int)) ^ ys.length
        ≤ (fl (acc + y) + ys.sum) * (1 - 2 ^ (-53 : Int)) ^ ys.length :=
      mul_le_mul_of_nonneg_right (by linarith) hpow0
    have k2 : ys.sum * ((1 - 2 ^ (-53 : Int)) ^ ys.length * (1 - 2 ^ (-53 : Int)))
        ≤ ys.sum * (1 - 2 ^ (-53 : Int)) ^ ys.length := by
      apply mul_le_mul_of_nonneg_left _ hsum
      calc (1 - 2 ^ (-53 : Int) : ℚ) ^ ys.length * (1 - 2 ^ (-53 : Int))
          ≤ (1 - 2 ^ (-53 : Int)) ^ ys.length * 1 := mul_le_mul_of_nonneg_left hε1 hpow0
        _ = _ := mul_one _
    have k3 : (2 : ℚ) ^ (-1075 : Int) * (1 - 2 ^ (-53 : Int)) ^ ys.length ≤ 2 ^ (-1075 : Int) := by
      calc (2 : ℚ) ^ (-1075 : Int) * (1 - 2 ^ (-53 : Int)) ^ ys.length
          ≤ 2 ^ (-1075 : Int) * 1 := mul_le_mul_of_nonneg_left hpow1 ht
        _ = _ := mul_one _
    nlinarith

/-- The rounded sum of at most three nonnegative doubles. -/
theorem sum_doubles_ge (l : List ℚ) (hl : ∀ y ∈ l, 0 ≤ y) (hlen : l.length ≤ 3) :
    0 ≤ sum_doubles l ∧
    l.sum * (1 - 2 ^ (-53 : Int)) ^ 2 - 2 * 2 ^ (-1075 : Int) ≤ sum_doubles l := by
  have hε0 : (0 : ℚ) ≤ 1 - 2 ^ (-53 : Int) := by norm_num
  have hε1 : (1 : ℚ) - 2 ^ (-53 : Int) ≤ 1 := by norm_num
  have ht : (0 : ℚ) ≤ 2 ^ (-1075 : Int) := by positivity
  cases l with
  | nil =>
    simp only [sum_doubles, List.sum_nil, zero_mul, zero_sub, le_refl, true_and]
    linarith
  | cons x xs =>
    have hx : 0 ≤ x := hl x (List.mem_cons_self _ _)
    have hxs : ∀ z ∈ xs, 0 ≤ z := fun z hz => hl z (List.mem_cons_of_mem _ hz)
    obtain ⟨i1, i2⟩ := foldl_fl_ge xs x hx hxs
    refine ⟨i1, le_trans ?_ i2⟩
    have hsum : 0 ≤ x + xs.sum := add_nonneg hx (List.sum_nonneg hxs)
    have hlen2 : xs.length ≤ 2 := by simpa using hlen
    have hpow : (1 - 2 ^ (-53 : Int) : ℚ) ^ 2 ≤ (1 - 2 ^ (-53 : Int)) ^ xs.length :=
      pow_le_pow_of_le_one hε0 hε1 hlen2
    have hlenq : (xs.length : ℚ) ≤ 2 := by exact_mod_cast hlen2
    have k1 : (x + xs.sum) * (1 - 2 ^ (-53 : Int)) ^ 2
        ≤ (x + xs.sum) * (1 - 2 ^ (-53 : Int)) ^ xs.length :=
      mul_le_mul_of_nonneg_left hpow hsum
    have k2 : (xs.length : ℚ) * 2 ^ (-1075 : Int) ≤ 2 * 2 ^ (-1075 : Int) :=
      mul_le_mul_of_nonneg_right hlenq ht
    simp only [List.sum_cons]
    linarith

/-- The error of a double, with the subnormal case as an additive term. -/
theorem fl_err_add (x : ℚ) : |fl x - x| ≤ 2 ^ (-53 : Int) * |x| + 2 ^ (-1075 : Int) := by
  have hmax : max |x| (2 ^ (-1022 : Int)) ≤ |x| + 2 ^ (-1022 : Int) :=
    max_le (le_add_of_nonneg_right (by positivity)) (le_add_of_nonneg_left (abs_nonneg x))
  have e : (2 : ℚ) ^ (-53 : Int) * 2 ^ (-1022 : Int) = 2 ^ (-1075 : Int) := by
    rw [← zpow_add₀ (by norm_num : (2 : ℚ) ≠ 0)]; norm_num
  calc |fl x - x| ≤ 2 ^ (-53 : Int) * max |x| (2 ^ (-1022 : Int)) := fl_err x
    _ ≤ 2 ^ (-53 : Int) * (|x| + 2 ^ (-1022 : Int)) :=
        mul_le_mul_of_nonneg_left hmax (by positivity)
    _ = _ := by rw [mul_add, e]

/-- One coordinate of an edge: the square of the exact difference `x` is, up to three roundings,
at most the double square of the double difference. -/
theorem coord_sq_le (x A : ℚ) (hx : |x| ≤ A) (hA : 1 ≤ A) :
    0 ≤ fl (fl x * fl x) ∧
    x ^ 2 * (1 - 2 ^ (-53 : Int)) ^ 3 ≤ fl (fl x * fl x) + 2 ^ (-1075 : Int) * (8 * A) := by
  have hsq0 : 0 ≤ fl x * fl x := mul_self_nonneg _
  refine ⟨fl_nonneg _ hsq0, ?_⟩
  have herr2 := fl_err_add x
  have hge := fl_ge (fl x * fl x) hsq0
  have ht0 : (0 : ℚ) ≤ 2 ^ (-1075 : Int) := by positivity
  have ht1 : (2 : ℚ) ^ (-1075 : Int) ≤ 1 :=
    zpow_le_one_of_nonpos₀ (by norm_num) (by norm_num)
  have hε : (2 : ℚ) ^ (-53 : Int) = 1 / 9007199254740992 := by norm_num
  rw [hε] at herr2 hge ⊢
  generalize fl (fl x * fl x) = sq at hge ⊢
  generalize fl x = f at herr2 hge
  generalize (2 : ℚ) ^ (-1075 : Int) = t at herr2 hge ht0 ht1 ⊢
  have hxa := abs_nonneg x
  have hfa := abs_nonneg f
  -- |f| is close to |x|
  have hf1 : |f| ≤ |x| + (1 / 9007199254740992 * |x| + t) := by
    have := abs_sub_abs_le_abs_sub f x
    linarith
  have hf2 : |x| ≤ |f| + (1 / 9007199254740992 * |x| + t) := by
    have := abs_sub_abs_le_abs_sub x f
    rw [abs_sub_comm] at this
    linarith
  have hfB : |f| ≤ 3 * A := by linarith
  -- squares
  have hx2 : x ^ 2 = |x| ^ 2 := (sq_abs x).symm
  have hf2' : f * f = |f| ^ 2 := by rw [sq_abs]; ring
  have h1 : |x| * (1 - 1 / 9007199254740992) ≤ |f| + t := by linarith
  have h1' : 0 ≤ |x| * (1 - 1 / 9007199254740992) := by
    apply mul_nonneg hxa; norm_num
  have h2 : (|x| * (1 - 1 / 9007199254740992)) ^ 2 ≤ (|f| + t) ^ 2 :=
    pow_le_pow_left₀ h1' h1 2
  have h3 : (|f| + t) ^ 2 ≤ |f| ^ 2 + t * (6 * A + 1) := by
    have k1 : t * |f| ≤ t * (3 * A) := mul_le_mul_of_nonneg_left hfB ht0
    have k2 : t * t ≤ t * 1 := mul_le_mul_of_nonneg_left ht1 ht0
    have k3 : (|f| + t) ^ 2 = |f| ^ 2 + 2 * (t * |f|) + t * t := by ring
    rw [k3]
    linarith
  have h4 : x ^ 2 * (1 - 1 / 9007199254740992) ^ 2 ≤ f * f + t * (6 * A + 1) := by
    rw [hx2, hf2']
    calc |x| ^ 2 * (1 - 1 / 9007199254740992) ^ 2
        = (|x| * (1 - 1 / 9007199254740992)) ^ 2 := by ring
      _ ≤ _ := le_trans h2 h3
  have htA : 0 ≤ t * A := mul_nonneg ht0 (by linarith)
  have htA1 : t * 1 ≤ t * A := mul_le_mul_of_nonneg_left hA ht0
  have hc0 : 0 ≤ t * (6 * A + 1) := by linarith
  have h6 : x ^ 2 * (1 - 1 / 9007199254740992) ^ 3
      ≤ (f * f + t * (6 * A + 1)) * (1 - 1 / 9007199254740992) := by
    have := mul_le_mul_of_nonneg_right h4 (by norm_num : (0 : ℚ) ≤ 1 - 1 / 9007199254740992)
    calc x ^ 2 * (1 - 1 / 9007199254740992) ^ 3
        = x ^ 2 * (1 - 1 / 9007199254740992) ^ 2 * (1 - 1 / 9007199254740992) := by ring
      _ ≤ _ := this
  have h7 : (f * f + t * (6 * A + 1)) * (1 - 1 / 9007199254740992)
      ≤ f * f * (1 - 1 / 9007199254740992) + t * (6 * A + 1) := by
    have : t * (6 * A + 1) * (1 - 1 / 9007199254740992) ≤ t * (6 * A + 1) * 1 :=
      mul_le_mul_of_nonneg_left (by norm_num) hc0
    linarith
  linarith

/-- The norm computed for the double difference of two rows is not far below the Euclidean
length of the exact difference `x`, for vectors in dimension at most 3 with coordinates of
magnitude at most `2 ^ 501`: the sum of the squares of `x` is at most the square of the computed
norm enlarged by `2 ^ -50` of itself and by `2 ^ -282`. -/
theorem sum_sq_le_rowwise_norm {d : Nat} (hd : d ≤ 3) (x : VectorNd d) (A : ℚ) (hA : 1 ≤ A)
    (hA2 : A ≤ 2 ^ 501) (hx : ∀ c, |x c| ≤ A) :
    ∑ c, (x c) ^ 2
      ≤ (rowwise_norm (fun c => fl (x c)) * (1 + 2 ^ (-50 : Int)) + 2 ^ (-282 : Int)) ^ 2 := by
  have hL0 : 0 ≤ rowwise_norm (fun c => fl (x c)) := fl_sqrt_nonneg _
  have hsq : ∀ c, 0 ≤ fl (fl (x c) * fl (x c)) ∧
      (x c) ^ 2 * (1 - 2 ^ (-53 : Int)) ^ 3
        ≤ fl (fl (x c) * fl (x c)) + 2 ^ (-1075 : Int) * (8 * A) :=
    fun c => coord_sq_le (x c) A (hx c) hA
  have hlist : ∀ y ∈ (List.finRange d).map (fun c => fl (fl (x c) * fl (x c))), 0 ≤ y := by
    intro y hy
    obtain ⟨c, _, rfl⟩ := List.mem_map.1 hy
    exact (hsq c).1
  obtain ⟨hs0, hs⟩ := sum_doubles_ge _ hlist (by simpa using hd)
  have hsum : ((List.finRange d).map (fun c => fl (fl (x c) * fl (x c)))).sum
      = ∑ c, fl (fl (x c) * fl (x c)) := (Fin.sum_univ_def _).symm
  rw [hsum] at hs
  have hup := fl_sqrt_upper _ hs0
  change sum_doubles ((List.finRange d).map (fun c => fl (fl (x c) * fl (x c))))
    ≤ (rowwise_norm (fun c => fl (x c)) * (1 + 2 ^ (-53 : Int)) + 2 ^ (-1075 : Int)) ^ 2 at hup
  have hX0 : 0 ≤ ∑ c, (x c) ^ 2 := Finset.sum_nonneg (fun c _ => sq_nonneg _)
  -- the sum over the coordinates
  have hcomp : (∑ c, (x c) ^ 2) * (1 - 2 ^ (-53 : Int)) ^ 3
      ≤ ∑ c, fl (fl (x c) * fl (x c)) + 2 ^ (-1075 : Int) * (24 * A) := by
    have h1 : ∑ c : Fin d, (x c) ^ 2 * (1 - 2 ^ (-53 : Int)) ^ 3
        ≤ ∑ c : Fin d, (fl (fl (x c) * fl (x c)) + 2 ^ (-1075 : Int) * (8 * A)) :=
      Finset.sum_le_sum (fun c _ => (hsq c).2)
    rw [← Finset.sum_mul, Finset.sum_add_distrib, Finset.sum_const, Finset.card_univ,
      Fintype.card_fin, nsmul_eq_mul] at h1
    have hdq : (d : ℚ) ≤ 3 := by exact_mod_cast hd
    have hc : (0 : ℚ) ≤ 2 ^ (-1075 : Int) * (8 * A) := by positivity
    have h2 : (d : ℚ) * (2 ^ (-1075 : Int) * (8 * A)) ≤ 3 * (2 ^ (-1075 : Int) * (8 * A)) :=
      mul_le_mul_of_nonneg_right hdq hc
    linarith
  -- numeric facts
  have n1 : (2 : ℚ) ^ (-1075 : Int) * (26 * 2 ^ 501) ≤ (2 ^ (-284 : Int)) ^ 2 := by norm_num
  have n2 : ((2 : ℚ) ^ (-1075 : Int) + 2 ^ (-284 : Int)) * (1 + 3 * 2 ^ (-53 : Int))
      ≤ 2 ^ (-282 : Int) := by norm_num
  have n3 : (1 : ℚ) ≤ (1 - 2 ^ (-53 : Int)) ^ 5 * (1 + 3 * 2 ^ (-53 : Int)) ^ 2 := by norm_num
  have n4 : (1 + (2 : ℚ) ^ (-53 : Int)) * (1 + 3 * 2 ^ (-53 : Int)) ≤ 1 + 2 ^ (-50 : Int) := by
    norm_num
  have n5 : (0 : ℚ) ≤ 1 - 2 ^ (-53 : Int) := by norm_num
  have n6 : (1 : ℚ) - 2 ^ (-53 : Int) ≤ 1 := by norm_num
  have ht0 : (0 : ℚ) ≤ 2 ^ (-1075 : Int) := by positivity
  have hτ0 : (0 : ℚ) ≤ 2 ^ (-284 : Int) := by positivity
  have hρ0 : (0 : ℚ) ≤ 2 ^ (-282 : Int) := by positivity
  have hA26 : (2 : ℚ) ^ (-1075 : Int) * (26 * A) ≤ 2 ^ (-1075 : Int) * (26 * 2 ^ 501) :=
    mul_le_mul_of_nonneg_left (by linarith) ht0
  have hA26' := le_trans hA26 n1
  have htA : (2 : ℚ) ^ (-1075 : Int) * 1 ≤ 2 ^ (-1075 : Int) * A :=
    mul_le_mul_of_nonneg_left hA ht0
  clear n1 hA26 hA2 hsq hlist hsum hx
  generalize rowwise_norm (fun c => fl (x c)) = L at *
  generalize sum_doubles ((List.finRange d).map (fun c => fl (fl (x c) * fl (x c)))) = s at *
  generalize ∑ c, fl (fl (x c) * fl (x c)) = S at *
  generalize ∑ c, (x c) ^ 2 = X at *
  generalize (2 : ℚ) ^ (-1075 : Int) = t at *
  generalize (2 : ℚ) ^ (-284 : Int) = τ at *
  generalize (2 : ℚ) ^ (-282 : Int) = ρ at *
  generalize (2 : ℚ) ^ (-50 : Int) = η at *
  generalize (2 : ℚ) ^ (-53 : Int) = ε at *
  -- X (1 - ε) ^ 5 ≤ s + τ ^ 2
  have hk2 : (0 : ℚ) ≤ (1 - ε) ^ 2 := sq_nonneg _
  have hk2' : (1 - ε) ^ 2 ≤ 1 := pow_le_one₀ n5 n6
  have hS0 : 0 ≤ S + t * (24 * A) := by
    have : 0 ≤ X * (1 - ε) ^ 3 := mul_nonneg hX0 (pow_nonneg n5 3)
    linarith
  have h5 : X * (1 - ε) ^ 5 ≤ (S + t * (24 * A)) * (1 - ε) ^ 2 := by
    have := mul_le_mul_of_nonneg_right hcomp hk2
    calc X * (1 - ε) ^ 5 = X * (1 - ε) ^ 3 * (1 - ε) ^ 2 := by ring
      _ ≤ _ := this
  have h6 : (S + t * (24 * A)) * (1 - ε) ^ 2 ≤ S * (1 - ε) ^ 2 + t * (24 * A) := by
    have hc : 0 ≤ t * (24 * A) := by
      have : 0 ≤ t * A := le_trans (by linarith) htA
      linarith
    have : t * (24 * A) * (1 - ε) ^ 2 ≤ t * (24 * A) * 1 := mul_le_mul_of_nonneg_left hk2' hc
    linarith
  have h7 : X * (1 - ε) ^ 5 ≤ (L * (1 + ε) + t) ^ 2 + τ ^ 2 := by linarith
  -- completing the square
  have ha0 : 0 ≤ L * (1 + ε) + t := by
    have : 0 ≤ L * (1 + ε) := mul_nonneg hL0 (by linarith)
    linarith
  have h8 : (L * (1 + ε) + t) ^ 2 + τ ^ 2 ≤ (L * (1 + ε) + t + τ) ^ 2 := by
    have : 0 ≤ (L * (1 + ε) + t) * τ := mul_nonneg ha0 hτ0
    have e : (L * (1 + ε) + t + τ) ^ 2
        = (L * (1 + ε) + t) ^ 2 + τ ^ 2 + 2 * ((L * (1 + ε) + t) * τ) := by ring
    rw [e]; linarith
  have hK0 : (0 : ℚ) ≤ (1 + 3 * ε) ^ 2 := sq_nonneg _
  have h9 : X ≤ X * ((1 - ε) ^ 5 * (1 + 3 * ε) ^ 2) := by
    have := mul_le_mul_of_nonneg_left n3 hX0
    linarith
  have h10 : X * ((1 - ε) ^ 5 * (1 + 3 * ε) ^ 2)
      ≤ ((L * (1 + ε) + t + τ) * (1 + 3 * ε)) ^ 2 := by
    have := mul_le_mul_of_nonneg_right (le_trans h7 h8) hK0
    calc X * ((1 - ε) ^ 5 * (1 + 3 * ε) ^ 2) = X * (1 - ε) ^ 5 * (1 + 3 * ε) ^ 2 := by ring
      _ ≤ (L * (1 + ε) + t + τ) ^ 2 * (1 + 3 * ε) ^ 2 := this
      _ = _ := by ring
  have hε0 : 0 ≤ ε := by linarith
  have h11 : (L * (1 + ε) + t + τ) * (1 + 3 * ε) ≤ L * (1 + η) + ρ := by
    have := mul_le_mul_of_nonneg_left n4 hL0
    have e : (L * (1 + ε) + t + τ) * (1 + 3 * ε)
        = L * ((1 + ε) * (1 + 3 * ε)) + (t + τ) * (1 + 3 * ε) := by ring
    rw [e]; linarith
  have h12 : 0 ≤ (L * (1 + ε) + t + τ) * (1 + 3 * ε) :=
    mul_nonneg (by linarith) (by linarith)
  exact le_trans h9 (le_trans h10 (pow_le_pow_left₀ h12 h11 2))

/-- The error of a product of two approximations. -/
theorem mul_err (u u0 D D0 eu eD BD : ℚ) (h1 : |u - u0| ≤ eu) (h2 : |D - D0| ≤ eD)
    (h3 : |D| ≤ BD) (h4 : |u0| ≤ 1) : |u * D - u0 * D0| ≤ eu * BD + eD := by
  have e : u * D - u0 * D0 = (u - u0) * D + u0 * (D - D0) := by ring
  rw [e]
  have k1 : |(u - u0) * D| ≤ eu * BD := by
    rw [abs_mul]
    exact mul_le_mul h1 h3 (abs_nonneg _) (le_trans (abs_nonneg _) h1)
  have k2 : |u0 * (D - D0)| ≤ eD := by
    rw [abs_mul]
    calc |u0| * |D - D0| ≤ 1 * eD := mul_le_mul h4 h2 (abs_nonneg _) (by norm_num)
      _ = eD := one_mul _
  exact le_trans (abs_add _ _) (add_le_add k1 k2)

/-- One term `coords(i, 0) * (b - a)` of `sample_triangle`, for coordinates of magnitude at most
`M`: the computed term is within `14 * 2 ^ -53 * M` of the exact term with the exact
barycentric coordinate `u0`. -/
theorem term_err (a b u u0 M : ℚ) (hM : 2 ^ (-1022 : Int) ≤ M) (ha : |a| ≤ M) (hb : |b| ≤ M)
    (hu0 : 0 ≤ u0) (hu1 : u0 ≤ 1) (hu : |u - u0| ≤ ((1 + 2 ^ (-53 : Int)) ^ 2 - 1) * u0) :
    |fl (u * fl (b - a)) - u0 * (b - a)| ≤ 14 * (2 ^ (-53 : Int) * M) := by
  have hM0 : 0 ≤ M := le_trans (by positivity) hM
  have hba : |b - a| ≤ 2 * M := by
    have := abs_sub b a
    linarith
  have hD := fl_err_le (b - a) (2 * M) hba (by linarith)
  have hκ : ((1 + (2 : ℚ) ^ (-53 : Int)) ^ 2 - 1) * u0 ≤ 3 * 2 ^ (-53 : Int) := by
    have k : ((1 + (2 : ℚ) ^ (-53 : Int)) ^ 2 - 1) ≤ 3 * 2 ^ (-53 : Int) := by norm_num
    have k0 : (0 : ℚ) ≤ (1 + (2 : ℚ) ^ (-53 : Int)) ^ 2 - 1 := by norm_num
    calc ((1 + (2 : ℚ) ^ (-53 : Int)) ^ 2 - 1) * u0
        ≤ ((1 + (2 : ℚ) ^ (-53 : Int)) ^ 2 - 1) * 1 := mul_le_mul_of_nonneg_left hu1 k0
      _ ≤ _ := by rw [mul_one]; exact k
  have hu' : |u - u0| ≤ 3 * 2 ^ (-53 : Int) := le_trans hu hκ
  have hε : (2 : ℚ) ^ (-53 : Int) = 1 / 9007199254740992 := by norm_num
  have hDabs : |fl (b - a)| ≤ 3 * M := by
    have := abs_sub_abs_le_abs_sub (fl (b - a)) (b - a)
    rw [hε] at hD
    linarith
  have hprod := mul_err u u0 (fl (b - a)) (b - a) _ _ _ hu' hD hDabs
    (by rw [abs_of_nonneg hu0]; exact hu1)
  have hu0ba : |u0 * (b - a)| ≤ 2 * M := by
    rw [abs_mul, abs_of_nonneg hu0]
    calc u0 * |b - a| ≤ 1 * (2 * M) := mul_le_mul hu1 hba (abs_nonneg _) (by norm_num)
      _ = 2 * M := one_mul _
  have hprodabs : |u * fl (b - a)| ≤ 3 * M := by
    have := abs_sub_abs_le_abs_sub (u * fl (b - a)) (u0 * (b - a))
    rw [hε] at hprod
    linarith
  have ht := fl_err_le (u * fl (b - a)) (3 * M) hprodabs (by linarith)
  have := abs_sub_le (fl (u * fl (b - a))) (u * fl (b - a)) (u0 * (b - a))
  rw [hε] at hprod ht ⊢
  linarith

/-- One coordinate of a row of `sample_triangle`, for corners with coordinates of magnitude at
most `M`: the computed coordinate is within `2 ^ -47 * M` of the exact point with the exact
barycentric coordinates `u0`, `v0`. -/
theorem sample_coord_err (a b c u v u0 v0 M : ℚ) (hM : 2 ^ (-1022 : Int) ≤ M)
    (ha : |a| ≤ M) (hb : |b| ≤ M) (hc : |c| ≤ M)
    (hu0 : 0 ≤ u0) (hv0 : 0 ≤ v0) (huv : u0 + v0 ≤ 1)
    (hu : |u - u0| ≤ ((1 + 2 ^ (-53 : Int)) ^ 2 - 1) * u0)
    (hv : |v - v0| ≤ ((1 + 2 ^ (-53 : Int)) ^ 2 - 1) * v0) :
    |fl (fl (fl (u * fl (b - a)) + fl (v * fl (c - a))) + a)
        - (a + u0 * (b - a) + v0 * (c - a))| ≤ 2 ^ (-47 : Int) * M := by
  have hM0 : 0 ≤ M := le_trans (by positivity) hM
  have h1 := term_err a b u u0 M hM ha hb hu0 (by linarith) hu
  have h2 := term_err a c v v0 M hM ha hc hv0 (by linarith) hv
  have hba : |b - a| ≤ 2 * M := by
    have := abs_sub b a
    linarith
  have hca : |c - a| ≤ 2 * M := by
    have := abs_sub c a
    linarith
  have hideal : |u0 * (b - a) + v0 * (c - a)| ≤ 2 * M := by
    have k1 : |u0 * (b - a)| ≤ u0 * (2 * M) := by
      rw [abs_mul, abs_of_nonneg hu0]
      exact mul_le_mul_of_nonneg_left hba hu0
    have k2 : |v0 * (c - a)| ≤ v0 * (2 * M) := by
      rw [abs_mul, abs_of_nonneg hv0]
      exact mul_le_mul_of_nonneg_left hca hv0
    have k3 : (u0 + v0) * (2 * M) ≤ 1 * (2 * M) :=
      mul_le_mul_of_nonneg_right huv (by linarith)
    have := abs_add (u0 * (b - a)) (v0 * (c - a))
    linarith
  have hε : (2 : ℚ) ^ (-53 : Int) = 1 / 9007199254740992 := by norm_num
  have h47 : (2 : ℚ) ^ (-47 : Int) = 1 / 140737488355328 := by norm_num
  rw [hε] at h1 h2
  rw [h47]
  generalize fl (u * fl (b - a)) = t1 at h1 ⊢
  generalize fl (v * fl (c - a)) = t2 at h2 ⊢
  -- the sum of the two terms
  have hs : |t1 + t2 - (u0 * (b - a) + v0 * (c - a))| ≤ 28 * (1 / 9007199254740992 * M) := by
    have e : t1 + t2 - (u0 * (b - a) + v0 * (c - a))
        = (t1 - u0 * (b - a)) + (t2 - v0 * (c - a)) := by ring
    rw [e]
    have := abs_add (t1 - u0 * (b - a)) (t2 - v0 * (c - a))
    linarith
  have hsabs : |t1 + t2| ≤ 3 * M := by
    have := abs_sub_abs_le_abs_sub (t1 + t2) (u0 * (b - a) + v0 * (c - a))
    linarith
  have h3 := fl_err_le (t1 + t2) (3 * M) hsabs (by linarith)
  rw [hε] at h3
  have h3' : |fl (t1 + t2) - (u0 * (b - a) + v0 * (c - a))|
      ≤ 31 * (1 / 9007199254740992 * M) := by
    have := abs_sub_le (fl (t1 + t2)) (t1 + t2) (u0 * (b - a) + v0 * (c - a))
    linarith
  generalize fl (t1 + t2) = t3 at h3' ⊢
  have h3abs : |t3 + a| ≤ 4 * M := by
    have k1 := abs_sub_abs_le_abs_sub t3 (u0 * (b - a) + v0 * (c - a))
    have k2 := abs_add t3 a
    linarith
  have h4 := fl_err_le (t3 + a) (4 * M) h3abs (by linarith)
  rw [hε] at h4
  have e : t3 + a - (a + u0 * (b - a) + v0 * (c - a))
      = t3 - (u0 * (b - a) + v0 * (c - a)) := by ring
  have := abs_sub_le (fl (t3 + a)) (t3 + a) (a + u0 * (b - a) + v0 * (c - a))
  rw [e] at this
  linarith

end UpsampleMesh

namespace UpsampleMesh

/-- The pairs visited by the vertex loop are the `(i, j)` with `i + j < n`. -/
theorem mem_vertex_pairs (n i j : Nat) : (i, j) ∈ vertex_pairs n ↔ i + j < n := by
  simp only [vertex_pairs, List.mem_flatMap, List.mem_map, List.mem_range, Prod.mk.injEq]
  constructor
  · rintro ⟨a, ha, b, hb, rfl, rfl⟩; omega
  · intro h; exact ⟨i, by omega, j, by omega, rfl, rfl⟩

/-- The vertex loop visits no pair twice. -/
theorem nodup_vertex_pairs (n : Nat) : (vertex_pairs n).Nodup := by
  unfold vertex_pairs
  rw [List.nodup_flatMap]
  refine ⟨fun i _ => ?_, ?_⟩
  · exact (List.nodup_range _).map (fun a b h => by simpa using h)
  · refine (List.nodup_range n).imp ?_
    intro a b hab
    simp only [Function.onFun, List.Disjoint, List.mem_map, List.mem_range]
    rintro ⟨x, y⟩ ⟨_, _, h1⟩ ⟨_, _, h2⟩
    simp only [Prod.mk.injEq] at h1 h2
    exact hab (h1.1.trans h2.1.symm)

/-- The vertex loop visits `n (n + 1) / 2` pairs. -/
theorem length_vertex_pairs (n : Nat) : 2 * (vertex_pairs n).length = n * (n + 1) := by
  have key : ∀ k, k ≤ n →
      2 * ((List.range k).map (fun i => n - i)).sum + k * k = k * (2 * n + 1) := by
    intro k
    induction k with
    | zero => intro _; simp
    | succ k ih =>
      intro hk
      have ih' := ih (by omega)
      obtain ⟨d, rfl⟩ : ∃ d, n = k + 1 + d := ⟨n - (k + 1), by omega⟩
      rw [List.sum_range_succ]
      have hsub : k + 1 + d - k = d + 1 := by omega
      rw [hsub]
      nlinarith [ih']
  have hlen : (vertex_pairs n).length = ((List.range n).map (fun i => n - i)).sum := by
    unfold vertex_pairs
    rw [List.length_flatMap]
    congr 1
    apply List.map_congr_left
    intro i _
    simp
  rw [hlen]
  have := key n (le_refl n)
  nlinarith [this]

/-- The vertex loop over any list of distinct pairs: the counter is the number of pairs, the
rows of `V` are their coordinates in order, and `ij2v` maps a visited pair to its position in
the list and every other pair to `-1`. -/
theorem vertex_fold (delta : ℚ) (l : List (Nat × Nat)) (hl : l.Nodup) :
    (l.foldl
      (fun (st : VertexState) ij =>
        { vi := st.vi + 1,
          ij2v := fun i j => if i = ij.1 ∧ j = ij.2 then st.vi else st.ij2v i j,
          V := st.V ++ [(fl ((ij.1 : ℚ) * delta), fl ((ij.2 : ℚ) * delta))] })
      { vi := 0, ij2v := fun _ _ => -1, V := [] }).vi = (l.length : Int) ∧
    (l.foldl
      (fun (st : VertexState) ij =>
        { vi := st.vi + 1,
          ij2v := fun i j => if i = ij.1 ∧ j = ij.2 then st.vi else st.ij2v i j,
          V := st.V ++ [(fl ((ij.1 : ℚ) * delta), fl ((ij.2 : ℚ) * delta))] })
      { vi := 0, ij2v := fun _ _ => -1, V := [] }).V
        = l.map (fun ij => (fl ((ij.1 : ℚ) * delta), fl ((ij.2 : ℚ) * delta))) ∧
    ∀ i j,
      ((i, j) ∈ l → ∃ k : Nat, l[k]? = some (i, j) ∧
        (l.foldl
          (fun (st : VertexState) ij =>
            { vi := st.vi + 1,
              ij2v := fun i j => if i = ij.1 ∧ j = ij.2 then st.vi else st.ij2v i j,
              V := st.V ++ [(fl ((ij.1 : ℚ) * delta), fl ((ij.2 : ℚ) * delta))] })
          { vi := 0, ij2v := fun _ _ => -1, V := [] }).ij2v i j = (k : Int)) ∧
      ((i, j) ∉ l →
        (l.foldl
          (fun (st : VertexState) ij =>
            { vi := st.vi + 1,
              ij2v := fun i j => if i = ij.1 ∧ j = ij.2 then st.vi else st.ij2v i j,
              V := st.V ++ [(fl ((ij.1 : ℚ) * delta), fl ((ij.2 : ℚ) * delta))] })
          { vi := 0, ij2v := fun _ _ => -1, V := [] }).ij2v i j = -1) := by
  induction l using List.reverseRecOn with
  | nil => simp
  | append_singleton l x ih =>
    have hx : x ∉ l := by
      intro hx
      have := List.nodup_append.1 hl
      exact this.2.2 hx (List.mem_singleton_self x)
    obtain ⟨h1, h2, h3⟩ := ih (List.nodup_append.1 hl).1
    simp only [List.foldl_append, List.foldl_cons, List.foldl_nil]
    refine ⟨?_, ?_, ?_⟩
    · rw [h1]; simp
    · rw [h2]; simp
    · intro i j
      by_cases hij : i = x.1 ∧ j = x.2
      · have hxe : (i, j) = x := by rw [hij.1, hij.2]
        rw [if_pos hij, h1, hxe]
        refine ⟨fun _ => ⟨l.length, by simp, rfl⟩, fun h => absurd (by simp) h⟩
      · have hne : (i, j) ≠ x := by
          intro h; rw [← h] at hij; exact hij ⟨rfl, rfl⟩
        rw [if_neg hij]
        refine ⟨fun hm => ?_, fun hm => ?_⟩
        · have hm' : (i, j) ∈ l := by
            rcases List.mem_append.1 hm with h | h
            · exact h
            · exact absurd (List.mem_singleton.1 h) hne
          obtain ⟨k, hk, hv⟩ := (h3 i j).1 hm'
          refine ⟨k, ?_, hv⟩
          have hklt : k < l.length := by
            by_contra hge
            rw [List.getElem?_eq_none (by omega)] at hk
            cases hk
          rw [List.getElem?_append_left hklt, hk]
        · exact (h3 i j).2 (fun h => hm (List.mem_append_left _ h))

/-- After the vertex loop `vi` is the number of pairs with `i + j < n`, the rows of `V` are
the doubles `(i * delta, j * delta)` for these pairs in order, and `ij2v(i, j)` is nonnegative exactly for
them, where it is the position of the pair. -/
theorem vertex_loop_spec (n : Nat) (delta : ℚ) :
    (vertex_loop n delta).vi = ((vertex_pairs n).length : Int) ∧
    (vertex_loop n delta).V
      = (vertex_pairs n).map (fun ij => (fl ((ij.1 : ℚ) * delta), fl ((ij.2 : ℚ) * delta))) ∧
    ∀ i j,
      (i + j < n → ∃ k : Nat, (vertex_pairs n)[k]? = some (i, j) ∧
        (vertex_loop n delta).ij2v i j = (k : Int)) ∧
      (¬ i + j < n → (vertex_loop n delta).ij2v i j = -1) := by
  obtain ⟨h1, h2, h3⟩ := vertex_fold delta (vertex_pairs n) (nodup_vertex_pairs n)
  refine ⟨h1, h2, ?_⟩
  intro i j
  have := h3 i j
  simp only [mem_vertex_pairs] at this
  exact this

/-- The rows of `F` are the rows written for the cells, in the order of the cells. -/
theorem face_loop_eq (n : Nat) (ij2v : Nat → Nat → Int) :
    face_loop n ij2v = (face_pairs n).flatMap (cell_faces ij2v) := by
  unfold face_loop
  have key : ∀ (l : List (Nat × Nat)) (F : List (Int × Int × Int)),
      l.foldl (fun F ij => F ++ cell_faces ij2v ij) F = F ++ l.flatMap (cell_faces ij2v) := by
    intro l
    induction l with
    | nil => intro F; simp
    | cons x l ih => intro F; simp [ih, List.append_assoc]
  rw [key]; simp

/-- The number of `j < m` below a bound `k`. -/
theorem sum_range_lt (m k : Nat) :
    ((List.range m).map (fun j => if j < k then 1 else 0)).sum = min k m := by
  induction m with
  | zero => simp
  | succ m ih =>
    rw [List.sum_range_succ, ih]
    split_ifs <;> omega

/-- The sum of the odd numbers `2 (m - i) - 1` for `i < m` is `m * m`. -/
theorem sum_row_counts (m : Nat) :
    ((List.range m).map (fun i => (m - i) + (m - i - 1))).sum = m * m := by
  have key : ∀ k, k ≤ m →
      ((List.range k).map (fun i => (m - i) + (m - i - 1))).sum + k * k = 2 * k * m := by
    intro k
    induction k with
    | zero => intro _; simp
    | succ k ih =>
      intro hk
      have ih' := ih (by omega)
      obtain ⟨d, rfl⟩ : ∃ d, m = k + 1 + d := ⟨m - (k + 1), by omega⟩
      rw [List.sum_range_succ]
      have h1 : k + 1 + d - k = d + 1 := by omega
      have h2 : d + 1 - 1 = d := by omega
      rw [h1, h2]
      nlinarith [ih']
  have := key m (le_refl m)
  nlinarith [this]

/-- The rows written for a cell when `ij2v` is nonnegative exactly on the pairs with
`i + j < n`: the first triangle when `i + j + 1 < n`, the second when `i + j + 2 < n`. -/
theorem cell_faces_of_spec (n : Nat) (ij2v : Nat → Nat → Int)
    (H : ∀ i j, (i + j < n → 0 ≤ ij2v i j) ∧ (¬ i + j < n → ij2v i j = -1)) (i j : Nat) :
    cell_faces ij2v (i, j)
      = (if i + j + 1 < n then [(ij2v i j, ij2v (i + 1) j, ij2v i (j + 1))] else [])
        ++ (if i + j + 2 < n then [(ij2v (i + 1) j, ij2v (i + 1) (j + 1), ij2v i (j + 1))]
            else []) := by
  have hpos : ∀ a b, 0 ≤ ij2v a b ↔ a + b < n := by
    intro a b
    constructor
    · intro h
      by_contra hn
      rw [(H a b).2 hn] at h
      omega
    · exact (H a b).1
  have c1 : (ij2v i j ≥ 0 ∧ ij2v (i + 1) j ≥ 0 ∧ ij2v i (j + 1) ≥ 0) ↔ i + j + 1 < n := by
    simp only [ge_iff_le, hpos]; omega
  have c2 : (ij2v (i + 1) j ≥ 0 ∧ ij2v (i + 1) (j + 1) ≥ 0 ∧ ij2v i (j + 1) ≥ 0)
      ↔ i + j + 2 < n := by
    simp only [ge_iff_le, hpos]; omega
  unfold cell_faces
  simp only [c1, c2]

/-- The face loop writes `(n - 1) * (n - 1)` rows when `ij2v` is nonnegative exactly on the
pairs with `i + j < n`. -/
theorem length_face_loop (n : Nat) (hn : 1 ≤ n) (ij2v : Nat → Nat → Int)
    (H : ∀ i j, (i + j < n → 0 ≤ ij2v i j) ∧ (¬ i + j < n → ij2v i j = -1)) :
    (face_loop n ij2v).length = (n - 1) * (n - 1) := by
  obtain ⟨m, rfl⟩ : ∃ m, n = m + 1 := ⟨n - 1, by omega⟩
  rw [face_loop_eq, face_pairs, List.flatMap_assoc, List.length_flatMap]
  have hm : m + 1 - 1 = m := by omega
  rw [hm, ← sum_row_counts m]
  congr 1
  apply List.map_congr_left
  intro i hi
  rw [List.mem_range] at hi
  simp only [Function.comp, List.flatMap_map, List.length_flatMap]
  have hrow : ∀ j, (cell_faces ij2v (i, j)).length
      = (if j < m - i then 1 else 0) + (if j < m - i - 1 then 1 else 0) := by
    intro j
    rw [cell_faces_of_spec (m + 1) ij2v H i j, List.length_append]
    congr 1
    · by_cases h : i + j + 1 < m + 1
      · rw [if_pos h, if_pos (by omega)]; rfl
      · rw [if_neg h, if_neg (by omega)]; rfl
    · by_cases h : i + j + 2 < m + 1
      · rw [if_pos h, if_pos (by omega)]; rfl
      · rw [if_neg h, if_neg (by omega)]; rfl
  simp only [Function.comp_def, hrow]
  have hsplit : ((List.range m).map
        (fun j => (if j < m - i then 1 else 0) + (if j < m - i - 1 then 1 else 0))).sum
      = ((List.range m).map (fun j => if j < m - i then 1 else 0)).sum
        + ((List.range m).map (fun j => if j < m - i - 1 then 1 else 0)).sum := by
    exact List.sum_map_add
  rw [hsplit, sum_range_lt, sum_range_lt]
  omega

/-- The three ids of a row of `F` are positions of three distinct visited pairs. -/
theorem face_ids_distinct (l : List (Nat × Nat)) (p q r : Nat × Nat) (a b c : Int)
    (hp : ∃ k : Nat, l[k]? = some p ∧ a = (k : Int))
    (hq : ∃ k : Nat, l[k]? = some q ∧ b = (k : Int))
    (hr : ∃ k : Nat, l[k]? = some r ∧ c = (k : Int))
    (hpq : p ≠ q) (hpr : p ≠ r) (hqr : q ≠ r) :
    (0 ≤ a ∧ a < (l.length : Int)) ∧ (0 ≤ b ∧ b < (l.length : Int)) ∧
    (0 ≤ c ∧ c < (l.length : Int)) ∧ a ≠ b ∧ a ≠ c ∧ b ≠ c := by
  obtain ⟨ka, hka, rfl⟩ := hp
  obtain ⟨kb, hkb, rfl⟩ := hq
  obtain ⟨kc, hkc, rfl⟩ := hr
  have hlt : ∀ (k : Nat) (x : Nat × Nat), l[k]? = some x → k < l.length := by
    intro k x hk
    by_contra hge
    rw [List.getElem?_eq_none (by omega)] at hk
    cases hk
  have ha := hlt ka p hka
  have hb := hlt kb q hkb
  have hc := hlt kc r hkc
  refine ⟨⟨by omega, by omega⟩, ⟨by omega, by omega⟩, ⟨by omega, by omega⟩, ?_, ?_, ?_⟩
  · intro h
    have : ka = kb := by omega
    rw [this, hkb] at hka
    exact hpq (Option.some.inj hka).symm
  · intro h
    have : ka = kc := by omega
    rw [this, hkc] at hka
    exact hpr (Option.some.inj hka).symm
  · intro h
    have : kb = kc := by omega
    rw [this, hkc] at hkb
    exact hqr (Option.some.inj hkb).symm

/-- An `int` expression whose exact result fits in 32 bits keeps its value. -/
theorem wrap_int_eq (x : Int) (h1 : -2147483648 ≤ x) (h2 : x < 2147483648) : wrap_int x = x := by
  unfold wrap_int; omega

/-- The double `delta = 1.0 / (n - 1)` for `2 ≤ n ≤ 46340`: positive and within one rounding of
`1 / (n - 1)`. -/
theorem delta_spec (N : Nat) (hN : 2 ≤ N) (hmax : N ≤ 46340) :
    0 < fl (1 / ((N : ℚ) - 1)) ∧
    |fl (1 / ((N : ℚ) - 1)) - 1 / ((N : ℚ) - 1)| ≤ 2 ^ (-53 : Int) * (1 / ((N : ℚ) - 1)) ∧
    (1 : ℚ) / 46339 ≤ 1 / ((N : ℚ) - 1) := by
  have h2 : (2 : ℚ) ≤ (N : ℚ) := by exact_mod_cast hN
  have h3 : (N : ℚ) ≤ 46340 := by exact_mod_cast hmax
  have hpos : (0 : ℚ) < (N : ℚ) - 1 := by linarith
  have hd0 : (1 : ℚ) / 46339 ≤ 1 / ((N : ℚ) - 1) :=
    one_div_le_one_div_of_le hpos (by linarith)
  have hdpos : (0 : ℚ) < 1 / ((N : ℚ) - 1) := by positivity
  have hsmall : (2 : ℚ) ^ (-1022 : Int) ≤ |1 / ((N : ℚ) - 1)| := by
    rw [abs_of_pos hdpos]
    exact le_trans (by norm_num) hd0
  have herr := fl_err_rel (1 / ((N : ℚ) - 1)) hsmall
  rw [abs_of_pos hdpos] at herr
  refine ⟨?_, herr, hd0⟩
  have hε : (2 : ℚ) ^ (-53 : Int) = 1 / 9007199254740992 := by norm_num
  rw [hε] at herr
  have := (abs_le.1 herr).1
  nlinarith

/-- The double `i * delta` of the grid for `2 ≤ n ≤ 46340`: nonnegative and within two
roundings of `i / (n - 1)`. -/
theorem coord_spec (N : Nat) (hN : 2 ≤ N) (hmax : N ≤ 46340) (i : Nat) :
    0 ≤ fl ((i : ℚ) * fl (1 / ((N : ℚ) - 1))) ∧
    |fl ((i : ℚ) * fl (1 / ((N : ℚ) - 1))) - (i : ℚ) / ((N : ℚ) - 1)|
      ≤ ((1 + 2 ^ (-53 : Int)) ^ 2 - 1) * ((i : ℚ) / ((N : ℚ) - 1)) := by
  obtain ⟨hδpos, hδerr, hδ0⟩ := delta_spec N hN hmax
  have h2 : (2 : ℚ) ≤ (N : ℚ) := by exact_mod_cast hN
  have hpos : (0 : ℚ) < (N : ℚ) - 1 := by linarith
  have hi0 : (0 : ℚ) ≤ (i : ℚ) := Nat.cast_nonneg i
  have hε : (2 : ℚ) ^ (-53 : Int) = 1 / 9007199254740992 := by norm_num
  refine ⟨fl_nonneg _ (mul_nonneg hi0 (le_of_lt hδpos)), ?_⟩
  rcases Nat.eq_zero_or_pos i with h0 | h0
  · subst h0; simp [fl_zero]
  have hi1 : (1 : ℚ) ≤ (i : ℚ) := by exact_mod_cast h0
  have hlo := (abs_le.1 hδerr).1
  have hhi := (abs_le.1 hδerr).2
  rw [hε] at hlo hhi
  have hxpos : 0 < (i : ℚ) * fl (1 / ((N : ℚ) - 1)) := by positivity
  have hsmall : (2 : ℚ) ^ (-1022 : Int) ≤ |(i : ℚ) * fl (1 / ((N : ℚ) - 1))| := by
    rw [abs_of_pos hxpos]
    have : (1 : ℚ) / 92678 ≤ (i : ℚ) * fl (1 / ((N : ℚ) - 1)) := by nlinarith
    exact le_trans (by norm_num) this
  have herr := fl_err_rel _ hsmall
  rw [abs_of_pos hxpos, hε] at herr
  have e : (i : ℚ) / ((N : ℚ) - 1) = (i : ℚ) * (1 / ((N : ℚ) - 1)) := by ring
  rw [e, hε]
  have hd : (0 : ℚ) < 1 / ((N : ℚ) - 1) := by positivity
  have hilo := (abs_le.1 herr).1
  have hihi := (abs_le.1 herr).2
  have p1 : (i : ℚ) * fl (1 / ((N : ℚ) - 1))
      ≤ (i : ℚ) * ((1 + 1 / 9007199254740992) * (1 / ((N : ℚ) - 1))) :=
    mul_le_mul_of_nonneg_left (by linarith) hi0
  have p2 : (i : ℚ) * ((1 - 1 / 9007199254740992) * (1 / ((N : ℚ) - 1)))
      ≤ (i : ℚ) * fl (1 / ((N : ℚ) - 1)) :=
    mul_le_mul_of_nonneg_left (by linarith) hi0
  have hid : 0 ≤ (i : ℚ) * (1 / ((N : ℚ) - 1)) := by positivity
  rw [abs_le]
  constructor <;> nlinarith

/-- Distinct counters give distinct doubles `i * delta` in the grid for `2 ≤ n ≤ 46340`. -/
theorem coord_strict_mono (N : Nat) (hN : 2 ≤ N) (hmax : N ≤ 46340) (i k : Nat) (hik : i < k)
    (hk : k < 2147483648) :
    fl ((i : ℚ) * fl (1 / ((N : ℚ) - 1))) < fl ((k : ℚ) * fl (1 / ((N : ℚ) - 1))) := by
  obtain ⟨hδpos, hδerr, hδ0⟩ := delta_spec N hN hmax
  have hε : (2 : ℚ) ^ (-53 : Int) = 1 / 9007199254740992 := by norm_num
  have hδlo : (1 : ℚ) / 92678 ≤ fl (1 / ((N : ℚ) - 1)) := by
    have := (abs_le.1 hδerr).1
    rw [hε] at this
    nlinarith
  have hrel : ∀ j : Nat, 1 ≤ j →
      |fl ((j : ℚ) * fl (1 / ((N : ℚ) - 1))) - (j : ℚ) * fl (1 / ((N : ℚ) - 1))|
        ≤ 1 / 9007199254740992 * ((j : ℚ) * fl (1 / ((N : ℚ) - 1))) := by
    intro j hj
    have hj1 : (1 : ℚ) ≤ (j : ℚ) := by exact_mod_cast hj
    have hxpos : 0 < (j : ℚ) * fl (1 / ((N : ℚ) - 1)) := by positivity
    have hsmall : (2 : ℚ) ^ (-1022 : Int) ≤ |(j : ℚ) * fl (1 / ((N : ℚ) - 1))| := by
      rw [abs_of_pos hxpos]
      have : (1 : ℚ) / 92678 ≤ (j : ℚ) * fl (1 / ((N : ℚ) - 1)) := by nlinarith
      exact le_trans (by norm_num) this
    have herr := fl_err_rel _ hsmall
    rw [abs_of_pos hxpos, hε] at herr
    exact herr
  have hk1 : 1 ≤ k := by omega
  have hkq : (i : ℚ) + 1 ≤ (k : ℚ) := by exact_mod_cast hik
  have hkmax : (k : ℚ) ≤ 2147483648 := by exact_mod_cast (le_of_lt hk)
  have hklo := (abs_le.1 (hrel k hk1)).1
  have hi0 : (0 : ℚ) ≤ (i : ℚ) := Nat.cast_nonneg i
  have hkδ : ((i : ℚ) + 1) * fl (1 / ((N : ℚ) - 1)) ≤ (k : ℚ) * fl (1 / ((N : ℚ) - 1)) :=
    mul_le_mul_of_nonneg_right hkq (le_of_lt hδpos)
  have hiδ : (i : ℚ) * fl (1 / ((N : ℚ) - 1)) ≤ 2147483648 * fl (1 / ((N : ℚ) - 1)) :=
    mul_le_mul_of_nonneg_right (by linarith) (le_of_lt hδpos)
  rcases Nat.eq_zero_or_pos i with h0 | h0
  · subst h0
    simp only [Nat.cast_zero, zero_mul, fl_zero]
    have hxpos : 0 < (k : ℚ) * fl (1 / ((N : ℚ) - 1)) := by
      have : (1 : ℚ) ≤ (k : ℚ) := by exact_mod_cast hk1
      positivity
    nlinarith
  · have hihi := (abs_le.1 (hrel i h0)).2
    nlinarith

/-- For `2 ≤ n ≤ 46340` the grid function passes its checks and returns the rows written by the
two loops. -/
theorem regular_grid_returns (N : Nat) (hN : 2 ≤ N) (hmax : N ≤ 46340) :
    regular_grid_triangle_barycentric_coordinates (N : Int)
      = some { V := (vertex_loop N (fl (1 / ((N : ℚ) - 1)))).V,
               F := face_loop N (vertex_loop N (fl (1 / ((N : ℚ) - 1)))).ij2v } := by
  have c1 : ¬ ((N : Int) - 1 = 0) := by omega
  have c2 : ¬ ((N : Int) < 0) := by omega
  have c3 : ¬ (((vertex_pairs N).length : Int) < 0) := by omega
  have c5 : ¬ (((N : Int) - 1) * ((N : Int) - 1) < 0) := not_lt.2 (mul_self_nonneg _)
  have w1 : wrap_int ((N : Int) - 1) = (N : Int) - 1 := wrap_int_eq _ (by omega) (by omega)
  have w2 : wrap_int ((N : Int) + 1) = (N : Int) + 1 := wrap_int_eq _ (by omega) (by omega)
  have h1 : (N : Int) ≤ 46340 := by exact_mod_cast hmax
  have h0 : (2 : Int) ≤ (N : Int) := by exact_mod_cast hN
  have w3 : wrap_int ((N : Int) * ((N : Int) + 1)) = (N : Int) * ((N : Int) + 1) :=
    wrap_int_eq _ (by nlinarith) (by nlinarith)
  have w4 : wrap_int (((N : Int) - 1) * ((N : Int) - 1)) = ((N : Int) - 1) * ((N : Int) - 1) :=
    wrap_int_eq _ (by nlinarith) (by nlinarith)
  have htoNat : ((N : Int)).toNat = N := Int.toNat_ofNat N
  have hd : (((N : Int) - 1 : Int) : ℚ) = (N : ℚ) - 1 := by push_cast; ring
  obtain ⟨hvi, hV, hij⟩ := vertex_loop_spec N (fl (1 / ((N : ℚ) - 1)))
  have hlen2 := length_vertex_pairs N
  have H : ∀ i j, (i + j < N → 0 ≤ (vertex_loop N (fl (1 / ((N : ℚ) - 1)))).ij2v i j) ∧
      (¬ i + j < N → (vertex_loop N (fl (1 / ((N : ℚ) - 1)))).ij2v i j = -1) := by
    intro i j
    refine ⟨fun h => ?_, (hij i j).2⟩
    obtain ⟨k, _, hk⟩ := (hij i j).1 h
    rw [hk]; exact Int.natCast_nonneg k
  have hF := length_face_loop N (le_trans (by decide) hN) _ H
  have hrows : Int.tdiv ((N : Int) * ((N : Int) + 1)) 2 = ((vertex_pairs N).length : Int) := by
    have h2 : (2 : Int) * ((vertex_pairs N).length : Int) = (N : Int) * ((N : Int) + 1) := by
      exact_mod_cast hlen2
    rw [← h2, Int.tdiv_eq_ediv (Int.mul_nonneg (by decide) (Int.natCast_nonneg _))
      (by norm_num)]
    simp
  unfold regular_grid_triangle_barycentric_coordinates
  simp only [htoNat, w1, w2, w3, w4, hd, hrows]
  rw [if_neg c1, if_neg c2, if_neg c3, if_neg (by rw [hvi]; simp), if_neg c5, if_neg]
  rw [hF]
  have : (((N - 1) * (N - 1) : Nat) : Int) = ((N : Int) - 1) * ((N : Int) - 1) := by
    rw [Nat.cast_mul, Nat.cast_sub (le_trans (by decide) hN)]; simp
  rw [this]; simp

/-- C26 (amended): for every `int` `n` with `2 ≤ n ≤ 46340`,
`regular_grid_triangle_barycentric_coordinates(n)` returns (the assertion `vi == V.rows()`
holds and the rows of `F` fit its allocation); `V` has exactly `n (n + 1) / 2` rows, which are
the distinct points with the double coordinates `(i * delta, j * delta)`,
`delta = 1.0 / (n - 1)`, for the pairs `i, j ≥ 0`, `i + j ≤ n - 1`, each pair once; every
coordinate is within two roundings of `i / (n - 1)`, and all points satisfy `u ≥ 0`, `v ≥ 0`,
`u + v ≤ (1 + 2 ^ -53) ^ 2`; `F` has exactly `(n - 1) * (n - 1)` rows, each made of three
distinct vertex ids in `[0, n (n + 1) / 2)`. -/
theorem grid_vertices_and_faces (n : Int) (hn : 2 ≤ n) (hmax : n ≤ 46340) :
    ∃ g, regular_grid_triangle_barycentric_coordinates n = some g ∧
      (g.V.length : Int) = n * (n + 1) / 2 ∧
      g.V = (vertex_pairs n.toNat).map
        (fun ij => (fl ((ij.1 : ℚ) * fl (1 / ((n : ℚ) - 1))),
          fl ((ij.2 : ℚ) * fl (1 / ((n : ℚ) - 1))))) ∧
      (vertex_pairs n.toNat).Nodup ∧
      (∀ i j : Nat, (i, j) ∈ vertex_pairs n.toNat ↔ (i : Int) + (j : Int) ≤ n - 1) ∧
      (∀ i : Nat, (i : Int) ≤ n - 1 →
        |fl ((i : ℚ) * fl (1 / ((n : ℚ) - 1))) - (i : ℚ) / ((n : ℚ) - 1)|
          ≤ ((1 + 2 ^ (-53 : Int)) ^ 2 - 1) * ((i : ℚ) / ((n : ℚ) - 1))) ∧
      g.V.Nodup ∧
      (∀ p ∈ g.V, 0 ≤ p.1 ∧ 0 ≤ p.2 ∧ p.1 + p.2 ≤ (1 + 2 ^ (-53 : Int)) ^ 2) ∧
      (g.F.length : Int) = (n - 1) * (n - 1) ∧
      ∀ f ∈ g.F, (0 ≤ f.1 ∧ f.1 < (g.V.length : Int)) ∧
        (0 ≤ f.2.1 ∧ f.2.1 < (g.V.length : Int)) ∧
        (0 ≤ f.2.2 ∧ f.2.2 < (g.V.length : Int)) ∧
        f.1 ≠ f.2.1 ∧ f.1 ≠ f.2.2 ∧ f.2.1 ≠ f.2.2 := by
  obtain ⟨N, rfl⟩ : ∃ N : Nat, n = (N : Int) := ⟨n.toNat, by omega⟩
  have hN : 2 ≤ N := by omega
  have hNmax : N ≤ 46340 := by omega
  have htoNat : ((N : Int)).toNat = N := Int.toNat_ofNat N
  have hcast : (((N : Int)) : ℚ) = (N : ℚ) := by push_cast; rfl
  have hdpos : (0 : ℚ) < (N : ℚ) - 1 := by
    have : (2 : ℚ) ≤ (N : ℚ) := by exact_mod_cast hN
    linarith
  obtain ⟨hvi, hV, hij⟩ := vertex_loop_spec N (fl (1 / ((N : ℚ) - 1)))
  have hlen2 := length_vertex_pairs N
  have H : ∀ i j, (i + j < N → 0 ≤ (vertex_loop N (fl (1 / ((N : ℚ) - 1)))).ij2v i j) ∧
      (¬ i + j < N → (vertex_loop N (fl (1 / ((N : ℚ) - 1)))).ij2v i j = -1) := by
    intro i j
    refine ⟨fun h => ?_, (hij i j).2⟩
    obtain ⟨k, _, hk⟩ := (hij i j).1 h
    rw [hk]; omega
  have hF := length_face_loop N (by omega) _ H
  have hVlen : ((vertex_loop N (fl (1 / ((N : ℚ) - 1)))).V.length : Int)
      = (N : Int) * ((N : Int) + 1) / 2 := by
    rw [hV, List.length_map]
    have h2 : (2 : Int) * ((vertex_pairs N).length : Int) = (N : Int) * ((N : Int) + 1) := by
      exact_mod_cast hlen2
    rw [← h2]
    simp
  rw [hcast]
  refine ⟨⟨(vertex_loop N (fl (1 / ((N : ℚ) - 1)))).V,
      face_loop N (vertex_loop N (fl (1 / ((N : ℚ) - 1)))).ij2v⟩, ?_, hVlen, ?_, ?_, ?_, ?_, ?_,
      ?_, ?_, ?_⟩
  · exact regular_grid_returns N hN hNmax
  · rw [htoNat]; exact hV
  · rw [htoNat]; exact nodup_vertex_pairs N
  · intro i j
    rw [htoNat, mem_vertex_pairs]; omega
  · intro i _
    exact (coord_spec N hN hNmax i).2
  · show (vertex_loop N (fl (1 / ((N : ℚ) - 1)))).V.Nodup
    rw [hV]
    refine (nodup_vertex_pairs N).map_on ?_
    have hinj : ∀ a b : Nat, a < 2147483648 → b < 2147483648 →
        fl ((a : ℚ) * fl (1 / ((N : ℚ) - 1))) = fl ((b : ℚ) * fl (1 / ((N : ℚ) - 1))) →
        a = b := by
      intro a b ha hb h
      rcases Nat.lt_trichotomy a b with hlt | heq | hgt
      · exact absurd h (ne_of_lt (coord_strict_mono N hN hNmax a b hlt hb))
      · exact heq
      · exact absurd h.symm (ne_of_lt (coord_strict_mono N hN hNmax b a hgt ha))
    rintro ⟨a, b⟩ hab ⟨c, d⟩ hcd h
    rw [mem_vertex_pairs] at hab hcd
    simp only [Prod.mk.injEq] at h ⊢
    exact ⟨hinj a c (by omega) (by omega) h.1, hinj b d (by omega) (by omega) h.2⟩
  · intro p hp
    change p ∈ (vertex_loop N (fl (1 / ((N : ℚ) - 1)))).V at hp
    rw [hV, List.mem_map] at hp
    obtain ⟨⟨i, j⟩, hmem, rfl⟩ := hp
    rw [mem_vertex_pairs] at hmem
    have hi0 : (0 : ℚ) ≤ (i : ℚ) := Nat.cast_nonneg i
    have hj0 : (0 : ℚ) ≤ (j : ℚ) := Nat.cast_nonneg j
    have hsum : (i : ℚ) + (j : ℚ) ≤ (N : ℚ) - 1 := by
      have : i + j + 1 ≤ N := hmem
      have : ((i + j + 1 : Nat) : ℚ) ≤ (N : ℚ) := by exact_mod_cast this
      push_cast at this
      linarith
    obtain ⟨hu0, hu⟩ := coord_spec N hN hNmax i
    obtain ⟨hv0, hv⟩ := coord_spec N hN hNmax j
    refine ⟨hu0, hv0, ?_⟩
    have hu2 := (abs_le.1 hu).2
    have hv2 := (abs_le.1 hv).2
    have hfrac : (i : ℚ) / ((N : ℚ) - 1) + (j : ℚ) / ((N : ℚ) - 1) ≤ 1 := by
      rw [← add_div, div_le_one hdpos]; exact hsum
    have hc : (0 : ℚ) ≤ (1 + 2 ^ (-53 : Int)) ^ 2 := by positivity
    simp only
    nlinarith
  · show ((face_loop N (vertex_loop N (fl (1 / ((N : ℚ) - 1)))).ij2v).length : Int) = _
    rw [hF, Nat.cast_mul, Nat.cast_sub (by omega)]; simp
  · intro f hf
    change f ∈ face_loop N (vertex_loop N (fl (1 / ((N : ℚ) - 1)))).ij2v at hf
    show (0 ≤ f.1 ∧ f.1 < ((vertex_loop N (fl (1 / ((N : ℚ) - 1)))).V.length : Int)) ∧ _
    have hVl : (vertex_loop N (fl (1 / ((N : ℚ) - 1)))).V.length = (vertex_pairs N).length := by
      rw [hV, List.length_map]
    rw [hVl]
    rw [face_loop_eq, List.mem_flatMap] at hf
    obtain ⟨⟨i, j⟩, _, hf⟩ := hf
    rw [cell_faces_of_spec N _ H i j, List.mem_append] at hf
    rcases hf with hf | hf
    · by_cases hc : i + j + 1 < N
      · rw [if_pos hc, List.mem_singleton] at hf
        subst hf
        exact face_ids_distinct (vertex_pairs N) (i, j) (i + 1, j) (i, j + 1) _ _ _
          ((hij i j).1 (by omega)) ((hij (i + 1) j).1 (by omega)) ((hij i (j + 1)).1 (by omega))
          (by simp) (by simp) (by simp)
      · rw [if_neg hc] at hf; cases hf
    · by_cases hc : i + j + 2 < N
      · rw [if_pos hc, List.mem_singleton] at hf
        subst hf
        exact face_ids_distinct (vertex_pairs N) (i + 1, j) (i + 1, j + 1) (i, j + 1) _ _ _
          ((hij (i + 1) j).1 (by omega)) ((hij (i + 1) (j + 1)).1 (by omega))
          ((hij i (j + 1)).1 (by omega))
          (by simp) (by simp) (by simp)
      · rw [if_neg hc] at hf; cases hf

/-- Witness for C26: for `n = 3` the grid has 6 vertices and 4 triangles. -/
theorem grid_vertices_and_faces_witness :
    (2 : Int) ≤ 3 ∧ (3 : Int) ≤ 46340 ∧
    ∃ g, regular_grid_triangle_barycentric_coordinates 3 = some g ∧
      (g.V.length : Int) = 6 ∧ (g.F.length : Int) = 4 ∧
      ∀ p ∈ g.V, 0 ≤ p.1 ∧ 0 ≤ p.2 ∧ p.1 + p.2 ≤ (1 + 2 ^ (-53 : Int)) ^ 2 := by
  refine ⟨by decide, by decide, ?_⟩
  obtain ⟨g, hg, hV, _, _, _, _, _, hp, hF, _⟩ :=
    grid_vertices_and_faces 3 (by decide) (by decide)
  exact ⟨g, hg, by rw [hV]; decide, by rw [hF]; decide, hp⟩

/-- The double `1.0 / 5`. -/
theorem fl_one_fifth : fl (1 / 5) = 7205759403792794 * 2 ^ (-55 : Int) := by
  have h := fl_eq (1 / 5) (-3) 7205759403792794 (by norm_num) (by norm_num [abs_of_pos])
    (by norm_num [abs_of_pos])
    (round_half_even_eq _ _ (by norm_num) (by norm_num))
  simpa using h

/-- Counterexample to C26 as stated.  For `n = 46341` the `int` product `n * (n + 1)` wraps to a
negative number and `V.resize` is handed a negative size: nothing is returned.  For `n = 6` the
vertex of the pair `(3, 2)` has the double coordinates `3 * delta` and `2 * delta` with
`delta = 1.0 / 5`, whose sum is `1 + 2 ^ -53`: it lies outside the unit triangle. -/
theorem grid_overflow_and_rounding_counterexample :
    (2 : Int) ≤ 46341 ∧ regular_grid_triangle_barycentric_coordinates 46341 = none ∧
    ∃ g, regular_grid_triangle_barycentric_coordinates 6 = some g ∧
      ∃ p ∈ g.V, p.1 + p.2 = 1 + 2 ^ (-53 : Int) ∧ ¬ p.1 + p.2 ≤ 1 := by
  refine ⟨by decide, ?_, ?_⟩
  · unfold regular_grid_triangle_barycentric_coordinates
    rw [if_neg (by decide), if_neg (by decide), if_pos (by decide)]
  · have hret := regular_grid_returns 6 (by decide) (by decide)
    obtain ⟨_, hV, _⟩ := vertex_loop_spec 6 (fl (1 / (((6 : Nat) : ℚ) - 1)))
    refine ⟨_, hret, (fl ((3 : ℚ) * fl (1 / 5)), fl ((2 : ℚ) * fl (1 / 5))), ?_, ?_⟩
    · show _ ∈ (vertex_loop 6 (fl (1 / (((6 : Nat) : ℚ) - 1)))).V
      rw [hV, List.mem_map]
      refine ⟨(3, 2), (mem_vertex_pairs 6 3 2).2 (by decide), ?_⟩
      norm_num
    · have h3 : fl ((3 : ℚ) * fl (1 / 5)) = 5404319552844596 * 2 ^ (-53 : Int) := by
        rw [fl_one_fifth]
        have h := fl_eq ((3 : ℚ) * (7205759403792794 * 2 ^ (-55 : Int))) (-1) 5404319552844596
          (by norm_num) (by norm_num [abs_of_pos]) (by norm_num [abs_of_pos])
          (by rw [round_half_even_tie_odd _ 5404319552844595 (by norm_num) (by decide)]; rfl)
        simpa using h
      have h2 : fl ((2 : ℚ) * fl (1 / 5)) = 7205759403792794 * 2 ^ (-54 : Int) := by
        rw [fl_one_fifth]
        have h := fl_eq ((2 : ℚ) * (7205759403792794 * 2 ^ (-55 : Int))) (-2) 7205759403792794
          (by norm_num) (by norm_num [abs_of_pos]) (by norm_num [abs_of_pos])
          (round_half_even_eq _ _ (by norm_num) (by norm_num))
        simpa using h
      simp only [h3, h2]
      constructor <;> norm_num

end UpsampleMesh

namespace UpsampleMesh

/-- The fold of `max` is at least its start and every element. -/
theorem le_foldl_max (l : List ℚ) : ∀ (x : ℚ), x ≤ l.foldl max x ∧ ∀ y ∈ l, y ≤ l.foldl max x := by
  induction l with
  | nil => intro x; exact ⟨le_refl _, fun y hy => by cases hy⟩
  | cons z l ih =>
    intro x
    obtain ⟨h1, h2⟩ := ih (max x z)
    refine ⟨le_trans (le_max_left _ _) h1, ?_⟩
    intro y hy
    rcases List.mem_cons.1 hy with rfl | hy
    · exact le_trans (le_max_right _ _) h1
    · exact h2 y hy

/-- A returned `maxCoeff` bounds every coefficient. -/
theorem le_maxCoeff (l : List ℚ) (m : ℚ) (h : maxCoeff l = some m) : ∀ y ∈ l, y ≤ m := by
  cases l with
  | nil => cases h
  | cons x xs =>
    simp only [maxCoeff, Option.some.injEq] at h
    subst h
    intro y hy
    rcases List.mem_cons.1 hy with rfl | hy
    · exact (le_foldl_max xs _).1
    · exact (le_foldl_max xs _).2 y hy

/-- A returned `max_edge_length` is not negative and bounds the computed norm of every edge of
every face. -/
theorem edge_le_max_edge_length {d : Nat} (V : Nat → VectorNd d)
    (F : List (List Nat)) (cols : Nat) (L : ℚ) (h : max_edge_length V F cols = some L) :
    0 ≤ L ∧ ∀ row ∈ F, ∀ i, i < cols →
      rowwise_norm (fun c => fl (V (row.getD i 0) c - V (row.getD ((i + 1) % cols) 0) c))
        ≤ L := by
  unfold max_edge_length at h
  have key : ∀ (k : Nat) (L0 L : ℚ),
      (List.range k).foldlM
        (fun (max_edge_length : ℚ) (i : Nat) =>
          match maxCoeff (F.map (fun row =>
              rowwise_norm (fun c =>
                fl (V (row.getD i 0) c - V (row.getD ((i + 1) % cols) 0) c)))) with
          | none => none
          | some m => some (max max_edge_length m)) L0 = some L →
      L0 ≤ L ∧ ∀ row ∈ F, ∀ i, i < k →
        rowwise_norm (fun c => fl (V (row.getD i 0) c - V (row.getD ((i + 1) % cols) 0) c))
          ≤ L := by
    intro k
    induction k with
    | zero =>
      intro L0 L h
      simp only [List.range_zero, List.foldlM_nil] at h
      cases h
      exact ⟨le_refl _, fun _ _ i hi => absurd hi (Nat.not_lt_zero i)⟩
    | succ k ih =>
      intro L0 L h
      rw [List.range_succ, List.foldlM_append] at h
      cases h1 : (List.range k).foldlM
        (fun (max_edge_length : ℚ) (i : Nat) =>
          match maxCoeff (F.map (fun row =>
              rowwise_norm (fun c =>
                fl (V (row.getD i 0) c - V (row.getD ((i + 1) % cols) 0) c)))) with
          | none => none
          | some m => some (max max_edge_length m)) L0 with
      | none => rw [h1] at h; cases h
      | some L1 =>
        rw [h1] at h
        obtain ⟨h0, hedges⟩ := ih L0 L1 h1
        simp only [Option.some_bind, List.foldlM_cons, List.foldlM_nil] at h
        cases h2 : maxCoeff (F.map (fun row =>
              rowwise_norm (fun c =>
                fl (V (row.getD k 0) c - V (row.getD ((k + 1) % cols) 0) c)))) with
        | none => rw [h2] at h; cases h
        | some m =>
          rw [h2] at h
          cases h
          refine ⟨le_trans h0 (le_max_left _ _), ?_⟩
          intro row hrow i hi
          by_cases hik : i < k
          · exact le_trans (hedges row hrow i hik) (le_max_left _ _)
          · have : i = k := by omega
            subst this
            exact le_trans (le_maxCoeff _ m h2 _ (List.mem_map_of_mem _ hrow)) (le_max_right _ _)
  exact key cols 0 L h

/-- The number of vertices per edge when the rounded-up double quotient is at most 46339: it is
`max(1, ceil(L_in / L_out)) + 1`, between 2 and 46340, and `n - 1` segments of length `L_out`
cover `L_in` up to the rounding of the quotient. -/
theorem edge_vertices_spec (L_in L_out : ℚ) (hin : 0 ≤ L_in) (hout : 0 < L_out)
    (hrange : Int.ceil (fl (L_in / L_out)) ≤ 46339) :
    edge_vertices L_in L_out = max 1 (Int.ceil (fl (L_in / L_out))) + 1 ∧
    2 ≤ edge_vertices L_in L_out ∧ edge_vertices L_in L_out ≤ 46340 ∧
    L_in * (1 - 2 ^ (-53 : Int)) ≤ ((edge_vertices L_in L_out : Int) - 1 : ℚ) * L_out := by
  have hq0 : 0 ≤ L_in / L_out := div_nonneg hin (le_of_lt hout)
  have hfl0 : 0 ≤ fl (L_in / L_out) := fl_nonneg _ hq0
  have hc0 : 0 ≤ Int.ceil (fl (L_in / L_out)) := Int.ceil_nonneg hfl0
  have hev : edge_vertices L_in L_out = max 1 (Int.ceil (fl (L_in / L_out))) + 1 := by
    unfold edge_vertices double_to_int
    rw [if_pos ⟨by omega, by omega⟩]
    apply wrap_int_eq <;> omega
  refine ⟨hev, by rw [hev]; omega, by rw [hev]; omega, ?_⟩
  have hcast : ((edge_vertices L_in L_out : Int) - 1 : ℚ)
      = ((max 1 (Int.ceil (fl (L_in / L_out))) : Int) : ℚ) := by
    rw [hev]; push_cast; ring
  rw [hcast]
  have h1 : (1 : ℚ) ≤ ((max 1 (Int.ceil (fl (L_in / L_out))) : Int) : ℚ) := by
    exact_mod_cast le_max_left (1 : Int) _
  have h2 : fl (L_in / L_out) ≤ ((max 1 (Int.ceil (fl (L_in / L_out))) : Int) : ℚ) := by
    have : ((Int.ceil (fl (L_in / L_out)) : Int) : ℚ)
        ≤ ((max 1 (Int.ceil (fl (L_in / L_out))) : Int) : ℚ) := by
      exact_mod_cast le_max_right (1 : Int) _
    exact le_trans (Int.le_ceil _) this
  have hε0 : (0 : ℚ) ≤ 1 - 2 ^ (-53 : Int) := by norm_num
  have hε1 : (1 : ℚ) - 2 ^ (-53 : Int) ≤ 1 := by norm_num
  have hLq : L_in = L_in / L_out * L_out := by field_simp
  have hkey : L_in / L_out * (1 - 2 ^ (-53 : Int))
      ≤ ((max 1 (Int.ceil (fl (L_in / L_out))) : Int) : ℚ) := by
    rcases le_total (L_in / L_out) 1 with hq | hq
    · calc L_in / L_out * (1 - 2 ^ (-53 : Int)) ≤ 1 * 1 := mul_le_mul hq hε1 hε0 (by norm_num)
        _ = 1 := one_mul _
        _ ≤ _ := h1
    · have hsmall : (2 : ℚ) ^ (-1022 : Int) ≤ |L_in / L_out| := by
        rw [abs_of_nonneg hq0]
        exact le_trans (zpow_le_one_of_nonpos₀ (by norm_num) (by norm_num)) hq
      have herr := fl_err_rel _ hsmall
      rw [abs_of_nonneg hq0] at herr
      have := (abs_le.1 herr).1
      linarith
  calc L_in * (1 - 2 ^ (-53 : Int))
      = L_in / L_out * (1 - 2 ^ (-53 : Int)) * L_out := by
        conv_lhs => rw [hLq]
        ring
    _ ≤ _ := mul_le_mul_of_nonneg_right hkey (le_of_lt hout)

/-- A row of a matrix made of blocks of `m` rows each. -/
theorem getElem?_flatMap_blocks {α β : Type} (f : α → List β) (m : Nat) :
    ∀ (l : List α), (∀ a ∈ l, (f a).length = m) → ∀ (i v : Nat), v < m →
      (l.flatMap f)[i * m + v]? = (l[i]?).bind (fun a => (f a)[v]?) := by
  intro l
  induction l with
  | nil => intro _ i v _; simp
  | cons a l ih =>
    intro hf i v hv
    have hlen : (f a).length = m := hf a (List.mem_cons_self _ _)
    rw [List.flatMap_cons]
    cases i with
    | zero =>
      rw [Nat.zero_mul, Nat.zero_add, List.getElem?_append_left (by rw [hlen]; exact hv)]
      simp
    | succ i =>
      have hge : (f a).length ≤ (i + 1) * m + v := by
        rw [hlen, Nat.succ_mul]; omega
      rw [List.getElem?_append_right hge, hlen]
      have e : (i + 1) * m + v - m = i * m + v := by rw [Nat.succ_mul]; omega
      rw [e, ih (fun b hb => hf b (List.mem_cons_of_mem _ hb)) i v hv]
      simp

/-- Without weights `stitch_mesh` passes its assertions when `indices` lists distinct rows of
`V`, as many as `V_out` has rows, and `inverse` has one entry per row of `V`. -/
theorem stitch_mesh_no_weights (V_rows V_out_rows : Nat) (indices inverse : List Int)
    (hnodup : indices.Nodup) (hrange : ∀ k ∈ indices, 0 ≤ k ∧ k < (V_rows : Int))
    (hilen : indices.length = V_out_rows) (hvlen : inverse.length = V_rows) :
    ∃ st, stitch_mesh V_rows [] indices inverse V_out_rows = some st := by
  have hperm := List.perm_insertionSort (fun a b : Int => a ≤ b) indices
  have hsorted : (indices.insertionSort (fun a b => a ≤ b)).Sorted (· < ·) :=
    (List.sorted_insertionSort _ _).lt_of_le (hperm.nodup_iff.2 hnodup)
  obtain ⟨pre, rest, hspl, hj, hpre, hrest, hrem, hcount⟩ :=
    removed_loop_invariant _ hsorted (fun x hx => (hrange x (hperm.mem_iff.1 hx)).1) V_rows
  have hrest_nil : rest = [] := by
    cases rest with
    | nil => rfl
    | cons r rest' =>
      have hr : r ∈ indices.insertionSort (fun a b => a ≤ b) := by rw [hspl]; simp
      have h1 := (hrange r (hperm.mem_iff.1 hr)).2
      have h2 := hrest r (List.mem_cons_self _ _)
      omega
  have hjlen : (removed_loop (indices.insertionSort (fun a b => a ≤ b)) V_rows).1
      = indices.length := by
    rw [hj, ← List.length_insertionSort (fun a b : Int => a ≤ b) indices]
    conv_rhs => rw [hspl, hrest_nil, List.append_nil]
  have hstrict : (((List.range V_rows).map (fun i : Nat => (i : Int))).filter
      (fun i => i ∉ indices.insertionSort (fun a b => a ≤ b))).Sorted (· < ·) := by
    apply List.Pairwise.filter
    rw [List.pairwise_map]
    exact (List.pairwise_lt_range V_rows).imp (fun h => by exact_mod_cast h)
  have hlen : ((removed_loop (indices.insertionSort (fun a b => a ≤ b)) V_rows).2.length : Int)
      = (V_rows : Int) - ((indices.insertionSort (fun a b => a ≤ b)).length : Int) := by
    rw [List.length_insertionSort]
    omega
  have hle : List.Sorted (fun a b : Int => a ≤ b)
      (removed_loop (indices.insertionSort (fun a b => a ≤ b)) V_rows).2 := by
    rw [hrem]
    exact hstrict.imp (fun h => le_of_lt h)
  unfold stitch_mesh
  rw [if_neg (not_not.2 hilen), if_neg (not_not.2 hvlen)]
  simp only []
  rw [if_neg (not_not.2 hlen), if_neg (not_not.2 hle)]
  exact ⟨_, rfl⟩

/-- The triangle inequality for the Euclidean length, on squares: if the squared lengths of `g`
and `e` are at most `G ^ 2` and `E ^ 2`, the squared length of `g + e` is at most
`(G + E) ^ 2`. -/
theorem sum_sq_add_le {d : Nat} (g e : Fin d → ℚ) (G E : ℚ) (hG : 0 ≤ G) (hE : 0 ≤ E)
    (hg : ∑ c, (g c) ^ 2 ≤ G ^ 2) (he : ∑ c, (e c) ^ 2 ≤ E ^ 2) :
    ∑ c, (g c + e c) ^ 2 ≤ (G + E) ^ 2 := by
  have hcs := Finset.sum_mul_sq_le_sq_mul_sq Finset.univ g e
  have hg0 : 0 ≤ ∑ c, (g c) ^ 2 := Finset.sum_nonneg (fun c _ => sq_nonneg _)
  have he0 : 0 ≤ ∑ c, (e c) ^ 2 := Finset.sum_nonneg (fun c _ => sq_nonneg _)
  have hprod : (∑ c, g c * e c) ^ 2 ≤ (G * E) ^ 2 := by
    calc (∑ c, g c * e c) ^ 2 ≤ (∑ c, (g c) ^ 2) * ∑ c, (e c) ^ 2 := hcs
      _ ≤ G ^ 2 * E ^ 2 := mul_le_mul hg he he0 (sq_nonneg _)
      _ = (G * E) ^ 2 := by ring
  have hcross : ∑ c, g c * e c ≤ G * E :=
    le_trans (le_abs_self _) (abs_le_of_sq_le_sq hprod (mul_nonneg hG hE))
  have hexp : ∑ c, (g c + e c) ^ 2
      = ∑ c, (g c) ^ 2 + 2 * ∑ c, g c * e c + ∑ c, (e c) ^ 2 := by
    rw [Finset.mul_sum, ← Finset.sum_add_distrib, ← Finset.sum_add_distrib]
    apply Finset.sum_congr rfl
    intro c _
    ring
  rw [hexp]
  have : (G + E) ^ 2 = G ^ 2 + 2 * (G * E) + E ^ 2 := by ring
  rw [this]
  linarith

/-- A sample vertex of the tessellation, followed through `stitch_mesh`.  For the face number
`fi` and the grid pair `(i, j)`, the vertex id written to `F_tmp` addresses the row of `V_tmp`
sampled at the grid coordinates of `(i, j)`; the vertex that `inverse` assigns to it in `V_out`
is within `2 ^ -47 * M + tol` of the point with the exact barycentric coordinates
`i / (n - 1)`, `j / (n - 1)`. -/
theorem tessilation_vertex {d : Nat} (V : Nat → VectorNd d) (F : List (List Nat)) (N : Nat)
    (hN : 2 ≤ N) (hmax : N ≤ 46340) (M tol : ℚ) (hM0 : 2 ^ (-1022 : Int) ≤ M)
    (hV : ∀ row ∈ F, ∀ e, e < 3 → ∀ c, |V (row.getD e 0) c| ≤ M)
    (hcount : F.length * (vertex_pairs N).length < 2147483648)
    (V_out : List (VectorNd d)) (inverse : List Int)
    (hinv : ∀ (k : Nat) (p : VectorNd d),
      (F.flatMap (fun row =>
        sample_triangle (V (row.getD 0 0)) (V (row.getD 1 0)) (V (row.getD 2 0))
          (vertex_loop N (fl (1 / ((N : ℚ) - 1)))).V))[k]? = some p →
      ∃ (x : Nat) (w : VectorNd d), inverse[k]? = some (x : Int) ∧ V_out[x]? = some w ∧
        ∀ c, |w c - p c| ≤ tol)
    (fi : Nat) (row : List Nat) (hrow : F[fi]? = some row) (i j : Nat) (hij : i + j < N) :
    ∃ (x : Nat) (X : VectorNd d),
      inverse.getD (wrap_int ((vertex_loop N (fl (1 / ((N : ℚ) - 1)))).ij2v i j
        + wrap_int ((fi : Int)
          * ((vertex_loop N (fl (1 / ((N : ℚ) - 1)))).V.length : Int)))).toNat 0 = (x : Int) ∧
      V_out[x]? = some X ∧
      ∀ c, |X c - (V (row.getD 0 0) c
          + (i : ℚ) / ((N : ℚ) - 1) * (V (row.getD 1 0) c - V (row.getD 0 0) c)
          + (j : ℚ) / ((N : ℚ) - 1) * (V (row.getD 2 0) c - V (row.getD 0 0) c))|
        ≤ 2 ^ (-47 : Int) * M + tol := by
  obtain ⟨_, hVg, hspec⟩ := vertex_loop_spec N (fl (1 / ((N : ℚ) - 1)))
  obtain ⟨kk, hkk, hid⟩ := (hspec i j).1 hij
  have hrows : (vertex_loop N (fl (1 / ((N : ℚ) - 1)))).V.length = (vertex_pairs N).length := by
    rw [hVg, List.length_map]
  have hkk_lt : kk < (vertex_pairs N).length := by
    by_contra hge
    rw [List.getElem?_eq_none (by omega)] at hkk
    cases hkk
  have hfi : fi < F.length := by
    by_contra hge
    rw [List.getElem?_eq_none (by omega)] at hrow
    cases hrow
  have hmem : row ∈ F := List.getElem?_mem hrow
  -- the vertex id
  have hidx : fi * (vertex_pairs N).length + kk < 2147483648 := by
    have : (fi + 1) * (vertex_pairs N).length ≤ F.length * (vertex_pairs N).length :=
      Nat.mul_le_mul_right _ hfi
    rw [Nat.succ_mul] at this
    omega
  have hprod : fi * (vertex_pairs N).length < 2147483648 := by omega
  have hidxz : ((fi * (vertex_pairs N).length + kk : Nat) : Int) < 2147483648 := by
    exact_mod_cast hidx
  have hprodz : ((fi * (vertex_pairs N).length : Nat) : Int) < 2147483648 := by
    exact_mod_cast hprod
  have hw1 : wrap_int ((fi : Int) * ((vertex_pairs N).length : Int))
      = ((fi * (vertex_pairs N).length : Nat) : Int) := by
    have e : (fi : Int) * ((vertex_pairs N).length : Int)
        = ((fi * (vertex_pairs N).length : Nat) : Int) := by push_cast; rfl
    rw [e]
    exact wrap_int_eq _ (le_trans (by decide) (Int.natCast_nonneg _)) hprodz
  have hw2 : wrap_int ((kk : Int) + ((fi * (vertex_pairs N).length : Nat) : Int))
      = ((fi * (vertex_pairs N).length + kk : Nat) : Int) := by
    have e : (kk : Int) + ((fi * (vertex_pairs N).length : Nat) : Int)
        = ((fi * (vertex_pairs N).length + kk : Nat) : Int) := by push_cast; ring
    rw [e]
    exact wrap_int_eq _ (le_trans (by decide) (Int.natCast_nonneg _)) hidxz
  rw [hrows, hid, hw1, hw2, Int.toNat_ofNat]
  -- the row of V_tmp
  have hblocks : ∀ r ∈ F, (sample_triangle (V (r.getD 0 0)) (V (r.getD 1 0)) (V (r.getD 2 0))
      (vertex_loop N (fl (1 / ((N : ℚ) - 1)))).V).length = (vertex_pairs N).length := by
    intro r _
    rw [sample_triangle, List.length_map, hrows]
  have hVt := getElem?_flatMap_blocks (fun r : List Nat =>
    sample_triangle (V (r.getD 0 0)) (V (r.getD 1 0)) (V (r.getD 2 0))
      (vertex_loop N (fl (1 / ((N : ℚ) - 1)))).V) (vertex_pairs N).length F hblocks fi kk hkk_lt
  rw [hrow] at hVt
  simp only [Option.some_bind, sample_triangle, List.getElem?_map, hVg, hkk,
    Option.map_some'] at hVt
  obtain ⟨x, w, hx1, hx2, hx3⟩ := hinv _ _ (by
    simp only [sample_triangle, hVg]
    exact hVt)
  refine ⟨x, w, ?_, hx2, ?_⟩
  · rw [List.getD_eq_getElem?_getD, hx1]; rfl
  · intro c
    have hN2 : (2 : ℚ) ≤ (N : ℚ) := by exact_mod_cast hN
    have hdpos : (0 : ℚ) < (N : ℚ) - 1 := by linarith
    have hsum : (i : ℚ) + (j : ℚ) ≤ (N : ℚ) - 1 := by
      have : i + j + 1 ≤ N := hij
      have : ((i + j + 1 : Nat) : ℚ) ≤ (N : ℚ) := by exact_mod_cast this
      push_cast at this
      linarith
    have hacc := sample_coord_err (V (row.getD 0 0) c) (V (row.getD 1 0) c) (V (row.getD 2 0) c)
      (fl ((i : ℚ) * fl (1 / ((N : ℚ) - 1)))) (fl ((j : ℚ) * fl (1 / ((N : ℚ) - 1))))
      ((i : ℚ) / ((N : ℚ) - 1)) ((j : ℚ) / ((N : ℚ) - 1)) M hM0
      (hV row hmem 0 (by decide) c) (hV row hmem 1 (by decide) c) (hV row hmem 2 (by decide) c)
      (by positivity) (by positivity)
      (by rw [← add_div, div_le_one hdpos]; exact hsum)
      (coord_spec N hN hmax i).2 (coord_spec N hN hmax j).2
    have htri := abs_sub_le (w c)
      (fl (fl (fl (fl ((i : ℚ) * fl (1 / ((N : ℚ) - 1)))
          * fl (V (row.getD 1 0) c - V (row.getD 0 0) c))
        + fl (fl ((j : ℚ) * fl (1 / ((N : ℚ) - 1)))
          * fl (V (row.getD 2 0) c - V (row.getD 0 0) c))) + V (row.getD 0 0) c))
      (V (row.getD 0 0) c
          + (i : ℚ) / ((N : ℚ) - 1) * (V (row.getD 1 0) c - V (row.getD 0 0) c)
          + (j : ℚ) / ((N : ℚ) - 1) * (V (row.getD 2 0) c - V (row.getD 0 0) c))
    have := hx3 c
    linarith

/-- Two consecutive points on a side from `P` to `Q`: if they are within `E1` per coordinate of
the division points number `k` and `k + 1` of the side cut in `Nq` equal parts, and one part has
length at most `G`, their distance is at most `G + 4 * E1` (in dimension at most 3). -/
theorem segment_bound {d : Nat} (hd : d ≤ 3) (X Y P Q : VectorNd d) (Nq κ E1 G : ℚ)
    (hX : ∀ c, |X c - (P c + κ / Nq * (Q c - P c))| ≤ E1)
    (hY : ∀ c, |Y c - (P c + (κ + 1) / Nq * (Q c - P c))| ≤ E1)
    (hPQ : ∑ c, ((Q c - P c) / Nq) ^ 2 ≤ G ^ 2) (hG : 0 ≤ G) (hE : 0 ≤ E1) :
    ∑ c, (Y c - X c) ^ 2 ≤ (G + 4 * E1) ^ 2 := by
  have herr : ∀ c, |Y c - X c - (Q c - P c) / Nq| ≤ 2 * E1 := by
    intro c
    have e : Y c - X c - (Q c - P c) / Nq
        = (Y c - (P c + (κ + 1) / Nq * (Q c - P c))) - (X c - (P c + κ / Nq * (Q c - P c))) := by
      ring
    rw [e]
    have := abs_sub (Y c - (P c + (κ + 1) / Nq * (Q c - P c)))
      (X c - (P c + κ / Nq * (Q c - P c)))
    have := hX c
    have := hY c
    linarith
  have hsq : ∀ c, (Y c - X c - (Q c - P c) / Nq) ^ 2 ≤ (2 * E1) ^ 2 := by
    intro c
    rw [← sq_abs]
    exact pow_le_pow_left₀ (abs_nonneg _) (herr c) 2
  have hsum : ∑ c : Fin d, (Y c - X c - (Q c - P c) / Nq) ^ 2 ≤ (4 * E1) ^ 2 := by
    have h1 : ∑ c : Fin d, (Y c - X c - (Q c - P c) / Nq) ^ 2 ≤ ∑ _c : Fin d, (2 * E1) ^ 2 :=
      Finset.sum_le_sum (fun c _ => hsq c)
    rw [Finset.sum_const, Finset.card_univ, Fintype.card_fin, nsmul_eq_mul] at h1
    have hdq : (d : ℚ) ≤ 3 := by exact_mod_cast hd
    have h2 : (d : ℚ) * (2 * E1) ^ 2 ≤ 3 * (2 * E1) ^ 2 :=
      mul_le_mul_of_nonneg_right hdq (sq_nonneg _)
    have h3 : 3 * (2 * E1) ^ 2 ≤ (4 * E1) ^ 2 := by
      have : 0 ≤ E1 ^ 2 := sq_nonneg _
      have e1 : 3 * (2 * E1) ^ 2 = 12 * E1 ^ 2 := by ring
      have e2 : (4 * E1) ^ 2 = 16 * E1 ^ 2 := by ring
      rw [e1, e2]; linarith
    linarith
  have key := sum_sq_add_le (fun c => (Q c - P c) / Nq)
    (fun c => Y c - X c - (Q c - P c) / Nq) G (4 * E1) hG (by linarith) hPQ hsum
  have e : ∑ c : Fin d, (Y c - X c) ^ 2
      = ∑ c : Fin d, ((Q c - P c) / Nq + (Y c - X c - (Q c - P c) / Nq)) ^ 2 := by
    apply Finset.sum_congr rfl
    intro c _
    ring
  rw [e]
  exact key

/-- One of `Nq` equal parts of an edge from `P` to `Q` is at most `L_out` long, up to rounding:
when the computed norm of the double difference `P - Q` is at most `L_in` and
`L_in * (1 - 2 ^ -53) ≤ Nq * L_out`. -/
theorem edge_part_le {d : Nat} (hd : d ≤ 3) (P Q : VectorNd d) (M L_in L_out Nq : ℚ)
    (hM1 : M ≤ 2 ^ 500) (hP : ∀ c, |P c| ≤ M) (hQ : ∀ c, |Q c| ≤ M)
    (hnorm : rowwise_norm (fun c => fl (P c - Q c)) ≤ L_in) (hNq : 1 ≤ Nq)
    (hcover : L_in * (1 - 2 ^ (-53 : Int)) ≤ Nq * L_out) :
    ∑ c, ((Q c - P c) / Nq) ^ 2 ≤ (L_out * (1 + 2 ^ (-49 : Int)) + 2 ^ (-282 : Int)) ^ 2 := by
  have hA1 : (1 : ℚ) ≤ max (2 * M) 1 := le_max_right _ _
  have hA2 : max (2 * M) 1 ≤ (2 : ℚ) ^ 501 := by
    apply max_le
    · have : (2 : ℚ) ^ 501 = 2 * 2 ^ 500 := by norm_num
      rw [this]; linarith
    · exact one_le_pow₀ (by norm_num)
  have hx : ∀ c, |P c - Q c| ≤ max (2 * M) 1 := by
    intro c
    have := abs_sub (P c) (Q c)
    have := hP c
    have := hQ c
    exact le_trans (by linarith) (le_max_left _ _)
  have hsum := sum_sq_le_rowwise_norm hd (fun c => P c - Q c) _ hA1 hA2 hx
  have hn0 : 0 ≤ rowwise_norm (fun c => fl (P c - Q c)) := fl_sqrt_nonneg _
  have hNpos : 0 < Nq := by linarith
  have n1 : (1 + (2 : ℚ) ^ (-50 : Int)) ≤ (1 - 2 ^ (-53 : Int)) * (1 + 2 ^ (-49 : Int)) := by
    norm_num
  have hη0 : (0 : ℚ) ≤ 1 + 2 ^ (-50 : Int) := by positivity
  have hρ0 : (0 : ℚ) ≤ 2 ^ (-282 : Int) := by positivity
  have hκ0 : (0 : ℚ) ≤ 1 + 2 ^ (-49 : Int) := by positivity
  have hsum' : ∑ c, (P c - Q c) ^ 2
      ≤ (rowwise_norm (fun c => fl (P c - Q c)) * (1 + 2 ^ (-50 : Int))
        + 2 ^ (-282 : Int)) ^ 2 := hsum
  generalize rowwise_norm (fun c => fl (P c - Q c)) = L at hnorm hn0 hsum'
  generalize (2 : ℚ) ^ (-282 : Int) = ρ at hρ0 hsum' ⊢
  generalize (2 : ℚ) ^ (-50 : Int) = η at hη0 n1 hsum'
  generalize (2 : ℚ) ^ (-49 : Int) = κ at hκ0 n1 ⊢
  generalize (2 : ℚ) ^ (-53 : Int) = ε at n1 hcover
  -- (L (1 + η) + ρ) / Nq ≤ L_out (1 + κ) + ρ
  have h1 : L * (1 + η) ≤ L_in * (1 + η) := mul_le_mul_of_nonneg_right hnorm hη0
  have hLin0 : 0 ≤ L_in := le_trans hn0 hnorm
  have h2 : L_in * (1 + η) ≤ L_in * ((1 - ε) * (1 + κ)) := mul_le_mul_of_nonneg_left n1 hLin0
  have h3 : L_in * (1 - ε) * (1 + κ) ≤ Nq * L_out * (1 + κ) :=
    mul_le_mul_of_nonneg_right hcover hκ0
  have h4 : ρ ≤ Nq * ρ := by
    have := mul_le_mul_of_nonneg_right hNq hρ0
    linarith
  have h5 : L * (1 + η) + ρ ≤ Nq * (L_out * (1 + κ) + ρ) := by
    have e1 : L_in * ((1 - ε) * (1 + κ)) = L_in * (1 - ε) * (1 + κ) := by ring
    have e2 : Nq * (L_out * (1 + κ) + ρ) = Nq * L_out * (1 + κ) + Nq * ρ := by ring
    rw [e2]; linarith
  have h6 : 0 ≤ L * (1 + η) + ρ := by
    have := mul_nonneg hn0 hη0
    linarith
  have h7 : (L * (1 + η) + ρ) ^ 2 ≤ (Nq * (L_out * (1 + κ) + ρ)) ^ 2 :=
    pow_le_pow_left₀ h6 h5 2
  have e : ∑ c : Fin d, ((Q c - P c) / Nq) ^ 2 = (∑ c : Fin d, (P c - Q c) ^ 2) / Nq ^ 2 := by
    rw [Finset.sum_div]
    apply Finset.sum_congr rfl
    intro c _
    have e2 : (Q c - P c) ^ 2 = (P c - Q c) ^ 2 := by ring
    rw [div_pow, e2]
  rw [e, div_le_iff₀ (pow_pos hNpos 2)]
  calc ∑ c : Fin d, (P c - Q c) ^ 2 ≤ (L * (1 + η) + ρ) ^ 2 := hsum'
    _ ≤ (Nq * (L_out * (1 + κ) + ρ)) ^ 2 := h7
    _ = _ := by ring

/-- The first triangle of a grid cell `(i, j)` with `i + j + 1 < n` is a row of `F`. -/
theorem first_triangle_mem (N : Nat) (ij2v : Nat → Nat → Int)
    (H : ∀ i j, (i + j < N → 0 ≤ ij2v i j) ∧ (¬ i + j < N → ij2v i j = -1)) (i j : Nat)
    (hij : i + j + 1 < N) :
    (ij2v i j, ij2v (i + 1) j, ij2v i (j + 1)) ∈ face_loop N ij2v := by
  rw [face_loop_eq, List.mem_flatMap]
  refine ⟨(i, j), ?_, ?_⟩
  · simp only [face_pairs, List.mem_flatMap, List.mem_map, List.mem_range, Prod.mk.injEq]
    exact ⟨i, by omega, j, by omega, rfl, rfl⟩
  · rw [cell_faces_of_spec N ij2v H i j, if_pos hij]
    simp

/-- A grid cell of a face of the input mesh, followed through `stitch_mesh`.  The first
triangle of the cell `(ci, cj)` of the face number `fi` gives a row of `F_out`; its three
entries address rows of `V_out` within `2 ^ -47 * M + tol` of the points with the exact
barycentric coordinates of the grid pairs `(ci, cj)`, `(ci + 1, cj)` and `(ci, cj + 1)`. -/
theorem tessilation_cell {d : Nat} (V : Nat → VectorNd d) (F : List (List Nat)) (N : Nat)
    (hN : 2 ≤ N) (hmax : N ≤ 46340) (M tol : ℚ) (hM0 : 2 ^ (-1022 : Int) ≤ M)
    (hV : ∀ row ∈ F, ∀ e, e < 3 → ∀ c, |V (row.getD e 0) c| ≤ M)
    (hcount : F.length * (vertex_pairs N).length < 2147483648)
    (V_out : List (VectorNd d)) (inverse : List Int) (F_out : List (Int × Int × Int))
    (hinv : ∀ (k : Nat) (p : VectorNd d),
      (F.flatMap (fun row =>
        sample_triangle (V (row.getD 0 0)) (V (row.getD 1 0)) (V (row.getD 2 0))
          (vertex_loop N (fl (1 / ((N : ℚ) - 1)))).V))[k]? = some p →
      ∃ (x : Nat) (w : VectorNd d), inverse[k]? = some (x : Int) ∧ V_out[x]? = some w ∧
        ∀ c, |w c - p c| ≤ tol)
    (hF : F_out = (F.enum.flatMap (fun irow =>
        (face_loop N (vertex_loop N (fl (1 / ((N : ℚ) - 1)))).ij2v).map (fun f =>
          (wrap_int (f.1 + wrap_int ((irow.1 : Int)
              * ((vertex_loop N (fl (1 / ((N : ℚ) - 1)))).V.length : Int))),
           wrap_int (f.2.1 + wrap_int ((irow.1 : Int)
              * ((vertex_loop N (fl (1 / ((N : ℚ) - 1)))).V.length : Int))),
           wrap_int (f.2.2 + wrap_int ((irow.1 : Int)
              * ((vertex_loop N (fl (1 / ((N : ℚ) - 1)))).V.length : Int))))))).map
        (fun f => (inverse.getD f.1.toNat 0, inverse.getD f.2.1.toNat 0,
          inverse.getD f.2.2.toNat 0)))
    (fi : Nat) (row : List Nat) (hrow : F[fi]? = some row) (ci cj : Nat)
    (hc : ci + cj + 1 < N) :
    ∃ f ∈ F_out, ∃ (x0 x1 x2 : Nat) (X0 X1 X2 : VectorNd d),
      f = ((x0 : Int), (x1 : Int), (x2 : Int)) ∧
      V_out[x0]? = some X0 ∧ V_out[x1]? = some X1 ∧ V_out[x2]? = some X2 ∧
      (∀ c, |X0 c - (V (row.getD 0 0) c
          + (ci : ℚ) / ((N : ℚ) - 1) * (V (row.getD 1 0) c - V (row.getD 0 0) c)
          + (cj : ℚ) / ((N : ℚ) - 1) * (V (row.getD 2 0) c - V (row.getD 0 0) c))|
        ≤ 2 ^ (-47 : Int) * M + tol) ∧
      (∀ c, |X1 c - (V (row.getD 0 0) c
          + ((ci + 1 : Nat) : ℚ) / ((N : ℚ) - 1) * (V (row.getD 1 0) c - V (row.getD 0 0) c)
          + (cj : ℚ) / ((N : ℚ) - 1) * (V (row.getD 2 0) c - V (row.getD 0 0) c))|
        ≤ 2 ^ (-47 : Int) * M + tol) ∧
      (∀ c, |X2 c - (V (row.getD 0 0) c
          + (ci : ℚ) / ((N : ℚ) - 1) * (V (row.getD 1 0) c - V (row.getD 0 0) c)
          + ((cj + 1 : Nat) : ℚ) / ((N : ℚ) - 1) * (V (row.getD 2 0) c - V (row.getD 0 0) c))|
        ≤ 2 ^ (-47 : Int) * M + tol) := by
  obtain ⟨_, _, hspec⟩ := vertex_loop_spec N (fl (1 / ((N : ℚ) - 1)))
  have H : ∀ i j, (i + j < N → 0 ≤ (vertex_loop N (fl (1 / ((N : ℚ) - 1)))).ij2v i j) ∧
      (¬ i + j < N → (vertex_loop N (fl (1 / ((N : ℚ) - 1)))).ij2v i j = -1) := by
    intro i j
    refine ⟨fun h => ?_, (hspec i j).2⟩
    obtain ⟨k, _, hk⟩ := (hspec i j).1 h
    rw [hk]; exact Int.natCast_nonneg k
  have hface := first_triangle_mem N _ H ci cj hc
  obtain ⟨x0, X0, hx0, hX0, hacc0⟩ := tessilation_vertex V F N hN hmax M tol hM0 hV hcount
    V_out inverse hinv fi row hrow ci cj (by omega)
  obtain ⟨x1, X1, hx1, hX1, hacc1⟩ := tessilation_vertex V F N hN hmax M tol hM0 hV hcount
    V_out inverse hinv fi row hrow (ci + 1) cj (by omega)
  obtain ⟨x2, X2, hx2, hX2, hacc2⟩ := tessilation_vertex V F N hN hmax M tol hM0 hV hcount
    V_out inverse hinv fi row hrow ci (cj + 1) (by omega)
  refine ⟨((x0 : Int), (x1 : Int), (x2 : Int)), ?_, x0, x1, x2, X0, X1, X2, rfl, hX0, hX1, hX2,
    hacc0, hacc1, hacc2⟩
  rw [hF, List.mem_map]
  refine ⟨_, List.mem_flatMap.2 ⟨(fi, row), List.mk_mem_enum_iff_getElem?.2 hrow,
    List.mem_map.2 ⟨_, hface, rfl⟩⟩, ?_⟩
  simp only [hx0, hx1, hx2]

/-- With `n` vertices per edge, `2 ≤ n ≤ 46340`, and `igl::remove_duplicate_vertices` returning
distinct rows as `indices` and one entry of `inverse` per row, `regular_grid_tessilation`
returns the matrices `V_out` and `F_out` that the library call made for `V_tmp` and `F_tmp`. -/
theorem tessilation_returns {d : Nat}
    (remove_duplicate_vertices : List (VectorNd d) → List (Int × Int × Int) → Deduplicated d)
    (V : Nat → VectorNd d) (F : List (List Nat)) (L_in L_out : ℚ) (N : Nat)
    (hin : max_edge_length V F 3 = some L_in) (hNeq : edge_vertices L_in L_out = (N : Int))
    (hN : 2 ≤ N) (hNmax : N ≤ 46340)
    (hdedup : ∀ (Vt : List (VectorNd d)) (Ft : List (Int × Int × Int)),
      (remove_duplicate_vertices Vt Ft).indices.length
        = (remove_duplicate_vertices Vt Ft).V_out.length ∧
      (remove_duplicate_vertices Vt Ft).inverse.length = Vt.length ∧
      (remove_duplicate_vertices Vt Ft).indices.Nodup ∧
      (∀ k ∈ (remove_duplicate_vertices Vt Ft).indices, 0 ≤ k ∧ k < (Vt.length : Int))) :
    ∃ (Vt : List (VectorNd d)) (Ft : List (Int × Int × Int)),
      regular_grid_tessilation remove_duplicate_vertices V F L_out
        = some ⟨(remove_duplicate_vertices Vt Ft).V_out,
            (remove_duplicate_vertices Vt Ft).F_out⟩ ∧
      Vt = F.flatMap (fun row =>
        sample_triangle (V (row.getD 0 0)) (V (row.getD 1 0)) (V (row.getD 2 0))
          (vertex_loop N (fl (1 / ((N : ℚ) - 1)))).V) ∧
      Ft = F.enum.flatMap (fun irow =>
        (face_loop N (vertex_loop N (fl (1 / ((N : ℚ) - 1)))).ij2v).map (fun f =>
          (wrap_int (f.1 + wrap_int ((irow.1 : Int)
              * ((vertex_loop N (fl (1 / ((N : ℚ) - 1)))).V.length : Int))),
           wrap_int (f.2.1 + wrap_int ((irow.1 : Int)
              * ((vertex_loop N (fl (1 / ((N : ℚ) - 1)))).V.length : Int))),
           wrap_int (f.2.2 + wrap_int ((irow.1 : Int)
              * ((vertex_loop N (fl (1 / ((N : ℚ) - 1)))).V.length : Int)))))) := by
  refine ⟨_, _, ?_, rfl, rfl⟩
  obtain ⟨c1, c2, c3, c4⟩ := hdedup
    (F.flatMap (fun row =>
      sample_triangle (V (row.getD 0 0)) (V (row.getD 1 0)) (V (row.getD 2 0))
        (vertex_loop N (fl (1 / ((N : ℚ) - 1)))).V))
    (F.enum.flatMap (fun irow =>
      (face_loop N (vertex_loop N (fl (1 / ((N : ℚ) - 1)))).ij2v).map (fun f =>
        (wrap_int (f.1 + wrap_int ((irow.1 : Int)
            * ((vertex_loop N (fl (1 / ((N : ℚ) - 1)))).V.length : Int))),
         wrap_int (f.2.1 + wrap_int ((irow.1 : Int)
            * ((vertex_loop N (fl (1 / ((N : ℚ) - 1)))).V.length : Int))),
         wrap_int (f.2.2 + wrap_int ((irow.1 : Int)
            * ((vertex_loop N (fl (1 / ((N : ℚ) - 1)))).V.length : Int)))))))
  obtain ⟨st, hst⟩ := stitch_mesh_no_weights _ _ _ _ c3 c4 c1 c2
  unfold regular_grid_tessilation
  rw [hin]
  simp only []
  rw [hNeq, regular_grid_returns N hN hNmax]
  simp only []
  rw [hst]

/-- C27 (amended): `regular_grid_tessilation` on a triangle mesh in dimension at most 3 whose
vertex coordinates have magnitude at most `M` (`2 ^ -200 ≤ M ≤ 2 ^ 500`), with `L_in` the value
computed by `max_edge_length` and `L_out > 0`, when the rounded-up double quotient
`ceil(L_in / L_out)` is at most 46339 and the sample vertices number fewer than `2 ^ 31`, and
`igl::remove_duplicate_vertices` keeps its contract (`indices` lists distinct rows of `V`, as
many as `V_out` has rows; `inverse` maps every row of `V` to a row of `V_out` within `tol` of
it; `F_out` is `F` with every id mapped by `inverse`).  Then the function returns; it uses
`n = max(1, ceil(L_in / L_out)) + 1 ≥ 2` vertices per edge with
`(n - 1) * L_out ≥ L_in * (1 - 2 ^ -53)`; and every side of every input triangle, from `P` to
`Q`, is split into `n - 1` segments: for `k < n - 1` some row of `F_out` has as one of its three
directed edges a pair of vertices `X`, `Y` of `V_out` that lie within `2 ^ -47 * M + tol` per
coordinate of the division points `P + (k / (n - 1)) (Q - P)` and
`P + ((k + 1) / (n - 1)) (Q - P)`, and the squared distance of `X` and `Y` is at most the square
of `L_out * (1 + 2 ^ -49) + 2 ^ -44 * M + 4 * tol`. -/
theorem tessilation_splits_edges {d : Nat} (hd : d ≤ 3)
    (remove_duplicate_vertices : List (VectorNd d) → List (Int × Int × Int) → Deduplicated d)
    (V : Nat → VectorNd d) (F : List (List Nat)) (L_in L_out M tol : ℚ)
    (hin : max_edge_length V F 3 = some L_in) (hout : 0 < L_out)
    (hrange : Int.ceil (fl (L_in / L_out)) ≤ 46339)
    (hcount : (F.length : Int)
      * (edge_vertices L_in L_out * (edge_vertices L_in L_out + 1) / 2) < 2147483648)
    (hM0 : 2 ^ (-200 : Int) ≤ M) (hM1 : M ≤ 2 ^ 500)
    (hV : ∀ row ∈ F, ∀ e, e < 3 → ∀ c, |V (row.getD e 0) c| ≤ M)
    (htol : 0 ≤ tol)
    (hdedup : ∀ (Vt : List (VectorNd d)) (Ft : List (Int × Int × Int)),
      (remove_duplicate_vertices Vt Ft).indices.length
        = (remove_duplicate_vertices Vt Ft).V_out.length ∧
      (remove_duplicate_vertices Vt Ft).inverse.length = Vt.length ∧
      (remove_duplicate_vertices Vt Ft).indices.Nodup ∧
      (∀ k ∈ (remove_duplicate_vertices Vt Ft).indices, 0 ≤ k ∧ k < (Vt.length : Int)) ∧
      (∀ (k : Nat) (p : VectorNd d), Vt[k]? = some p →
        ∃ (x : Nat) (w : VectorNd d),
          (remove_duplicate_vertices Vt Ft).inverse[k]? = some (x : Int) ∧
          (remove_duplicate_vertices Vt Ft).V_out[x]? = some w ∧ ∀ c, |w c - p c| ≤ tol) ∧
      (remove_duplicate_vertices Vt Ft).F_out = Ft.map (fun f =>
        ((remove_duplicate_vertices Vt Ft).inverse.getD f.1.toNat 0,
         (remove_duplicate_vertices Vt Ft).inverse.getD f.2.1.toNat 0,
         (remove_duplicate_vertices Vt Ft).inverse.getD f.2.2.toNat 0))) :
    ∃ out, regular_grid_tessilation remove_duplicate_vertices V F L_out = some out ∧
      edge_vertices L_in L_out = max 1 (Int.ceil (fl (L_in / L_out))) + 1 ∧
      2 ≤ edge_vertices L_in L_out ∧
      L_in * (1 - 2 ^ (-53 : Int)) ≤ ((edge_vertices L_in L_out : Int) - 1 : ℚ) * L_out ∧
      ∀ row ∈ F, ∀ e, e < 3 → ∀ k : Nat, (k : Int) < edge_vertices L_in L_out - 1 →
        ∃ f ∈ out.F_out, ∃ (x y : Nat) (X Y : VectorNd d),
          (((x : Int), (y : Int)) = (f.1, f.2.1) ∨ ((x : Int), (y : Int)) = (f.2.1, f.2.2)
            ∨ ((x : Int), (y : Int)) = (f.2.2, f.1)) ∧
          out.V_out[x]? = some X ∧ out.V_out[y]? = some Y ∧
          (∀ c, |X c - (V (row.getD e 0) c
              + (k : ℚ) / ((edge_vertices L_in L_out : Int) - 1 : ℚ)
                * (V (row.getD ((e + 1) % 3) 0) c - V (row.getD e 0) c))|
            ≤ 2 ^ (-47 : Int) * M + tol) ∧
          (∀ c, |Y c - (V (row.getD e 0) c
              + ((k : ℚ) + 1) / ((edge_vertices L_in L_out : Int) - 1 : ℚ)
                * (V (row.getD ((e + 1) % 3) 0) c - V (row.getD e 0) c))|
            ≤ 2 ^ (-47 : Int) * M + tol) ∧
          ∑ c, (Y c - X c) ^ 2
            ≤ (L_out * (1 + 2 ^ (-49 : Int)) + 2 ^ (-44 : Int) * M + 4 * tol) ^ 2 := by
  obtain ⟨hL0, hedges⟩ := edge_le_max_edge_length V F 3 L_in hin
  obtain ⟨hev, hev2, hevmax, hcover⟩ := edge_vertices_spec L_in L_out hL0 hout hrange
  obtain ⟨N, hNeq⟩ : ∃ N : Nat, edge_vertices L_in L_out = (N : Int) :=
    ⟨(edge_vertices L_in L_out).toNat, by omega⟩
  have hN : 2 ≤ N := by omega
  have hNmax : N ≤ 46340 := by omega
  have hNq : ((edge_vertices L_in L_out : Int) : ℚ) = (N : ℚ) := by rw [hNeq]; simp
  have hN2 : (2 : ℚ) ≤ (N : ℚ) := by exact_mod_cast hN
  have hdpos : (0 : ℚ) < (N : ℚ) - 1 := by linarith
  have hMpos : (0 : ℚ) ≤ M := le_trans (zpow_nonneg (by norm_num) _) hM0
  have hM0' : (2 : ℚ) ^ (-1022 : Int) ≤ M :=
    le_trans (zpow_le_zpow_right₀ (by norm_num) (by norm_num)) hM0
  have hlen2 := length_vertex_pairs N
  have hcount' : F.length * (vertex_pairs N).length < 2147483648 := by
    have h2 : (2 : Int) * ((vertex_pairs N).length : Int) = (N : Int) * ((N : Int) + 1) := by
      exact_mod_cast hlen2
    rw [hNeq, ← h2, Int.mul_ediv_cancel_left _ (by norm_num : (2 : Int) ≠ 0)] at hcount
    exact_mod_cast hcount
  obtain ⟨Vt, Ft, hret, hVt, hFt⟩ := tessilation_returns remove_duplicate_vertices V F L_in L_out
    N hin hNeq hN hNmax (fun Vt Ft => ⟨(hdedup Vt Ft).1, (hdedup Vt Ft).2.1, (hdedup Vt Ft).2.2.1,
      (hdedup Vt Ft).2.2.2.1⟩)
  obtain ⟨_, _, _, _, c5, c6⟩ := hdedup Vt Ft
  generalize remove_duplicate_vertices Vt Ft = r at hret c5 c6
  subst hVt hFt
  refine ⟨⟨r.V_out, r.F_out⟩, hret, hev, hev2, hcover, ?_⟩
  intro row hrow e he k hk
  obtain ⟨fi, hfi⟩ := List.getElem?_of_mem hrow
  have hk' : k + 2 ≤ N := by
    have : (k : Int) < (N : Int) - 1 := by rw [← hNeq]; exact hk
    omega
  obtain ⟨m, hm⟩ : ∃ m : Nat, N = m + k + 2 := ⟨N - k - 2, by omega⟩
  have hmq : (N : ℚ) = (m : ℚ) + (k : ℚ) + 2 := by rw [hm]; push_cast; ring
  have hD : (N : ℚ) - 1 = (m : ℚ) + (k : ℚ) + 1 := by linarith
  have hDne : (m : ℚ) + (k : ℚ) + 1 ≠ 0 := by
    rw [← hD]; exact ne_of_gt hdpos
  simp only [hNq]
  -- the two vertices and their face
  have hside : ∃ f ∈ r.F_out,
      ∃ (x y : Nat) (X Y : VectorNd d),
        (((x : Int), (y : Int)) = (f.1, f.2.1) ∨ ((x : Int), (y : Int)) = (f.2.1, f.2.2)
          ∨ ((x : Int), (y : Int)) = (f.2.2, f.1)) ∧
        r.V_out[x]? = some X ∧ r.V_out[y]? = some Y ∧
        (∀ c, |X c - (V (row.getD e 0) c
            + (k : ℚ) / ((N : ℚ) - 1)
              * (V (row.getD ((e + 1) % 3) 0) c - V (row.getD e 0) c))|
          ≤ 2 ^ (-47 : Int) * M + tol) ∧
        (∀ c, |Y c - (V (row.getD e 0) c
            + ((k : ℚ) + 1) / ((N : ℚ) - 1)
              * (V (row.getD ((e + 1) % 3) 0) c - V (row.getD e 0) c))|
          ≤ 2 ^ (-47 : Int) * M + tol) := by
    rcases (by omega : e = 0 ∨ e = 1 ∨ e = 2) with rfl | rfl | rfl
    · -- the side from a to b: the grid pairs (k, 0) and (k + 1, 0) of the cell (k, 0)
      obtain ⟨f, hf, x0, x1, x2, X0, X1, X2, hfe, hX0, hX1, _, a0, a1, _⟩ :=
        tessilation_cell V F N hN hNmax M tol hM0' hV hcount' r.V_out r.inverse r.F_out c5 c6
          fi row hfi k 0
          (by omega)
      refine ⟨f, hf, x0, x1, X0, X1, Or.inl (by rw [hfe]), hX0, hX1, ?_, ?_⟩
      · intro c
        have := a0 c
        have e1 : (0 + 1) % 3 = 1 := rfl
        rw [e1]
        simpa using this
      · intro c
        have := a1 c
        have e1 : (0 + 1) % 3 = 1 := rfl
        rw [e1]
        simpa using this
    · -- the side from b to c: the grid pairs (m + 1, k) and (m, k + 1) of the cell (m, k)
      obtain ⟨f, hf, x0, x1, x2, X0, X1, X2, hfe, _, hX1, hX2, _, a1, a2⟩ :=
        tessilation_cell V F N hN hNmax M tol hM0' hV hcount' r.V_out r.inverse r.F_out c5 c6
          fi row hfi m k
          (by omega)
      refine ⟨f, hf, x1, x2, X1, X2, Or.inr (Or.inl (by rw [hfe])), hX1, hX2, ?_, ?_⟩
      · intro c
        have := a1 c
        have e1 : (1 + 1) % 3 = 2 := rfl
        rw [e1]
        have e2 : V (row.getD 1 0) c + (k : ℚ) / ((N : ℚ) - 1)
              * (V (row.getD 2 0) c - V (row.getD 1 0) c)
            = V (row.getD 0 0) c
              + ((m + 1 : Nat) : ℚ) / ((N : ℚ) - 1) * (V (row.getD 1 0) c - V (row.getD 0 0) c)
              + (k : ℚ) / ((N : ℚ) - 1) * (V (row.getD 2 0) c - V (row.getD 0 0) c) := by
          rw [hD]; push_cast; field_simp; ring
        rw [e2]; exact this
      · intro c
        have := a2 c
        have e1 : (1 + 1) % 3 = 2 := rfl
        rw [e1]
        have e2 : V (row.getD 1 0) c + ((k : ℚ) + 1) / ((N : ℚ) - 1)
              * (V (row.getD 2 0) c - V (row.getD 1 0) c)
            = V (row.getD 0 0) c
              + (m : ℚ) / ((N : ℚ) - 1) * (V (row.getD 1 0) c - V (row.getD 0 0) c)
              + ((k + 1 : Nat) : ℚ) / ((N : ℚ) - 1)
                * (V (row.getD 2 0) c - V (row.getD 0 0) c) := by
          rw [hD]; push_cast; field_simp; ring
        rw [e2]; exact this
    · -- the side from c to a: the grid pairs (0, m + 1) and (0, m) of the cell (0, m)
      obtain ⟨f, hf, x0, x1, x2, X0, X1, X2, hfe, hX0, _, hX2, a0, _, a2⟩ :=
        tessilation_cell V F N hN hNmax M tol hM0' hV hcount' r.V_out r.inverse r.F_out c5 c6
          fi row hfi 0 m
          (by omega)
      refine ⟨f, hf, x2, x0, X2, X0, Or.inr (Or.inr (by rw [hfe])), hX2, hX0, ?_, ?_⟩
      · intro c
        have := a2 c
        have e1 : (2 + 1) % 3 = 0 := rfl
        rw [e1]
        have e2 : V (row.getD 2 0) c + (k : ℚ) / ((N : ℚ) - 1)
              * (V (row.getD 0 0) c - V (row.getD 2 0) c)
            = V (row.getD 0 0) c
              + ((0 : Nat) : ℚ) / ((N : ℚ) - 1) * (V (row.getD 1 0) c - V (row.getD 0 0) c)
              + ((m + 1 : Nat) : ℚ) / ((N : ℚ) - 1)
                * (V (row.getD 2 0) c - V (row.getD 0 0) c) := by
          rw [hD]; push_cast; field_simp; ring
        rw [e2]; exact this
      · intro c
        have := a0 c
        have e1 : (2 + 1) % 3 = 0 := rfl
        rw [e1]
        have e2 : V (row.getD 2 0) c + ((k : ℚ) + 1) / ((N : ℚ) - 1)
              * (V (row.getD 0 0) c - V (row.getD 2 0) c)
            = V (row.getD 0 0) c
              + ((0 : Nat) : ℚ) / ((N : ℚ) - 1) * (V (row.getD 1 0) c - V (row.getD 0 0) c)
              + (m : ℚ) / ((N : ℚ) - 1) * (V (row.getD 2 0) c - V (row.getD 0 0) c) := by
          rw [hD]; push_cast; field_simp; ring
        rw [e2]; exact this
  obtain ⟨f, hf, x, y, X, Y, hpos, hX, hY, haX, haY⟩ := hside
  refine ⟨f, hf, x, y, X, Y, hpos, hX, hY, haX, haY, ?_⟩
  -- the length of the segment
  have hpart := edge_part_le hd (V (row.getD e 0)) (V (row.getD ((e + 1) % 3) 0)) M L_in
    L_out ((N : ℚ) - 1) hM1 (hV row hrow e he) (hV row hrow ((e + 1) % 3) (Nat.mod_lt _ (by decide)))
    (hedges row hrow e he) (by linarith) (by rw [← hNq]; exact hcover)
  have hE0 : 0 ≤ 2 ^ (-47 : Int) * M + tol :=
    add_nonneg (mul_nonneg (zpow_nonneg (by norm_num) _) hMpos) htol
  have hG0 : (0 : ℚ) ≤ L_out * (1 + 2 ^ (-49 : Int)) + 2 ^ (-282 : Int) :=
    add_nonneg (mul_nonneg (le_of_lt hout)
      (add_nonneg (by norm_num) (zpow_nonneg (by norm_num) _))) (zpow_nonneg (by norm_num) _)
  have hseg := segment_bound hd X Y (V (row.getD e 0)) (V (row.getD ((e + 1) % 3) 0))
    ((N : ℚ) - 1) (k : ℚ) _ _ haX haY hpart hG0 hE0
  refine le_trans hseg (pow_le_pow_left₀ (add_nonneg hG0 (mul_nonneg (by norm_num) hE0)) ?_ 2)
  have n1 : (2 : ℚ) ^ (-282 : Int) ≤ 2 ^ (-45 : Int) * 2 ^ (-200 : Int) := by
    rw [← zpow_add₀ (by norm_num : (2 : ℚ) ≠ 0)]
    exact zpow_le_zpow_right₀ (by norm_num) (by norm_num)
  have n2 : (2 : ℚ) ^ (-45 : Int) * 2 ^ (-200 : Int) ≤ 2 ^ (-45 : Int) * M :=
    mul_le_mul_of_nonneg_left hM0 (zpow_nonneg (by norm_num) _)
  have n3 : (4 : ℚ) * (2 ^ (-47 : Int) * M) = 2 ^ (-45 : Int) * M := by
    have : (4 : ℚ) * 2 ^ (-47 : Int) = 2 ^ (-45 : Int) := by norm_num
    rw [← mul_assoc, this]
  have n4 : (2 : ℚ) ^ (-45 : Int) * M + 2 ^ (-45 : Int) * M = 2 ^ (-44 : Int) * M := by
    have : (2 : ℚ) ^ (-45 : Int) + 2 ^ (-45 : Int) = 2 ^ (-44 : Int) := by norm_num
    rw [← add_mul, this]
  linarith

/-- The rounded square root of a number whose quotient by the square of the spacing is the
square of an integer. -/
theorem fl_sqrt_eq (x : ℚ) (e2 : Int) (m : Nat) (he : -1022 ≤ e2)
    (h1 : (2 : ℚ) ^ (2 * e2) ≤ x) (h2 : x < (2 : ℚ) ^ (2 * e2 + 2))
    (hm : x / (2 ^ (e2 - 52) * 2 ^ (e2 - 52)) = ((m * m : Nat) : ℚ)) :
    fl_sqrt x = (m : ℚ) * 2 ^ (e2 - 52) := by
  have hpos : 0 < x := lt_of_lt_of_le (by positivity) h1
  have hlog : Int.log 2 x / 2 = e2 := by
    have a : 2 * e2 ≤ Int.log 2 x := by
      rw [← Int.zpow_le_iff_le_log (by norm_num) hpos]
      simpa using h1
    have b : Int.log 2 x < 2 * e2 + 2 := by
      rw [← Int.lt_zpow_iff_log_lt (by norm_num) hpos]
      simpa using h2
    omega
  unfold fl_sqrt
  simp only []
  rw [hlog, max_eq_left he, hm, Nat.floor_natCast, Nat.sqrt_eq]
  rw [if_pos]
  push_cast
  have : (0 : ℚ) ≤ (m : ℚ) := Nat.cast_nonneg m
  nlinarith

/-- The double square roots of 9, 16 and 25. -/
theorem fl_sqrt_squares : fl_sqrt 9 = 3 ∧ fl_sqrt 16 = 4 ∧ fl_sqrt 25 = 5 := by
  refine ⟨?_, ?_, ?_⟩
  · rw [fl_sqrt_eq 9 1 6755399441055744 (by norm_num) (by norm_num) (by norm_num)
      (by norm_num)]
    norm_num
  · rw [fl_sqrt_eq 16 2 4503599627370496 (by norm_num) (by norm_num) (by norm_num)
      (by norm_num)]
    norm_num
  · rw [fl_sqrt_eq 25 2 5629499534213120 (by norm_num) (by norm_num) (by norm_num)
      (by norm_num)]
    norm_num

/-- The norm of a row with two columns. -/
theorem rowwise_norm_two (v : VectorNd 2) :
    rowwise_norm v = fl_sqrt (fl (fl (v 0 * v 0) + fl (v 1 * v 1))) := by
  simp [rowwise_norm, sum_doubles, List.finRange]

/-- Small integers are doubles. -/
theorem fl_small :
    fl 0 = 0 ∧ fl 1 = 1 ∧ fl 2 = 2 ∧ fl 3 = 3 ∧ fl 4 = 4 ∧ fl (-3) = -3 ∧ fl (-4) = -4 ∧
    fl 9 = 9 ∧ fl 16 = 16 ∧ fl 25 = 25 ∧ fl 5368709120 = 5368709120 := by
  refine ⟨fl_zero, ?_, ?_, ?_, ?_, ?_, ?_, ?_, ?_, ?_, ?_⟩
  · simpa using fl_int 1 (by norm_num)
  · simpa using fl_int 2 (by norm_num)
  · simpa using fl_int 3 (by norm_num)
  · simpa using fl_int 4 (by norm_num)
  · simpa using fl_int (-3) (by norm_num)
  · simpa using fl_int (-4) (by norm_num)
  · simpa using fl_int 9 (by norm_num)
  · simpa using fl_int 16 (by norm_num)
  · simpa using fl_int 25 (by norm_num)
  · simpa using fl_int 5368709120 (by norm_num)

/-- The longest edge of the test triangle, computed in doubles, is 5. -/
theorem test_max_edge_length : max_edge_length test_V [[0, 1, 2]] 3 = some 5 := by
  obtain ⟨f0, f1, f2, f3, f4, fm3, fm4, f9, f16, f25, _⟩ := fl_small
  obtain ⟨s9, s16, s25⟩ := fl_sqrt_squares
  have h3 : List.range 3 = [0, 1, 2] := by decide
  simp only [max_edge_length, h3, List.foldlM_cons, List.foldlM_nil, List.map_cons,
    List.map_nil, maxCoeff, List.foldl_nil, rowwise_norm_two]
  norm_num [test_V, f0, f3, f4, fm3, fm4, f9, f16, f25, s9, s16, s25]

/-- The identity result `keep_all` keeps the contract of `igl::remove_duplicate_vertices` with
any tolerance `tol ≥ 0`. -/
theorem keep_all_contract {d : Nat} (tol : ℚ) (htol : 0 ≤ tol) (Vt : List (VectorNd d))
    (Ft : List (Int × Int × Int)) :
    (keep_all Vt Ft).indices.length = (keep_all Vt Ft).V_out.length ∧
    (keep_all Vt Ft).inverse.length = Vt.length ∧
    (keep_all Vt Ft).indices.Nodup ∧
    (∀ k ∈ (keep_all Vt Ft).indices, 0 ≤ k ∧ k < (Vt.length : Int)) ∧
    (∀ (k : Nat) (p : VectorNd d), Vt[k]? = some p →
      ∃ (x : Nat) (w : VectorNd d),
        (keep_all Vt Ft).inverse[k]? = some (x : Int) ∧
        (keep_all Vt Ft).V_out[x]? = some w ∧ ∀ c, |w c - p c| ≤ tol) ∧
    (keep_all Vt Ft).F_out = Ft.map (fun f =>
      ((keep_all Vt Ft).inverse.getD f.1.toNat 0,
       (keep_all Vt Ft).inverse.getD f.2.1.toNat 0,
       (keep_all Vt Ft).inverse.getD f.2.2.toNat 0)) := by
  refine ⟨by simp [keep_all], by simp [keep_all], ?_, ?_, ?_, rfl⟩
  · exact (List.nodup_range _).map (fun a b h => by exact_mod_cast h)
  · intro k hk
    simp only [keep_all, List.mem_map, List.mem_range] at hk
    obtain ⟨i, hi, rfl⟩ := hk
    exact ⟨Int.natCast_nonneg i, by exact_mod_cast hi⟩
  · intro k p hk
    have hlt : k < Vt.length := by
      by_contra hge
      rw [List.getElem?_eq_none (by omega)] at hk
      cases hk
    refine ⟨k, p, ?_, hk, fun c => by simpa using htol⟩
    simp [keep_all, List.getElem?_map, List.getElem?_range hlt]

/-- The number of vertices per edge for the longest edge 5: two when `out_max_edge_length` is
`2 ^ -30` and the quotient `5 * 2 ^ 30` does not fit an `int`, three when it is `5 / 2`. -/
theorem test_edge_vertices :
    edge_vertices 5 (2 ^ (-30 : Int)) = 2 ∧ edge_vertices 5 (5 / 2) = 3 := by
  obtain ⟨_, _, f2, _, _, _, _, _, _, _, fbig⟩ := fl_small
  constructor
  · have e : (5 : ℚ) / 2 ^ (-30 : Int) = 5368709120 := by norm_num
    have hc : Int.ceil (5368709120 : ℚ) = 5368709120 := by
      rw [show (5368709120 : ℚ) = ((5368709120 : Int) : ℚ) by norm_num, Int.ceil_intCast]
    rw [edge_vertices, e, fbig, hc]
    decide
  · have e : (5 : ℚ) / (5 / 2) = 2 := by norm_num
    have hc : Int.ceil (2 : ℚ) = 2 := by
      rw [show (2 : ℚ) = ((2 : Int) : ℚ) by norm_num, Int.ceil_intCast]
    rw [edge_vertices, e, f2, hc]
    decide

/-- Counterexample to C27 as stated.  The test triangle has the longest edge `L_in = 5`; with
`out_max_edge_length = 2 ^ -30` the quotient `5 * 2 ^ 30` does not fit an `int`, the conversion
gives `INT_MIN` and `n = max(1, INT_MIN) + 1 = 2`: `(n - 1) * L_out = 2 ^ -30` is below `L_in`,
and the mesh returned is the input triangle with its edges unsplit. -/
theorem tessilation_int_range_counterexample :
    max_edge_length test_V [[0, 1, 2]] 3 = some 5 ∧ (0 : ℚ) < 5 ∧ (0 : ℚ) < 2 ^ (-30 : Int) ∧
    edge_vertices 5 (2 ^ (-30 : Int)) = 2 ∧
    ¬ ((5 : ℚ) ≤ ((edge_vertices 5 (2 ^ (-30 : Int)) : Int) - 1 : ℚ) * 2 ^ (-30 : Int)) ∧
    (regular_grid_tessilation keep_all test_V [[0, 1, 2]] (2 ^ (-30 : Int))).map
        (fun out => (out.V_out.map (fun v => (v 0, v 1)), out.F_out))
      = some ([(0, 0), (0, 4), (3, 0)], [(0, 2, 1)]) := by
  obtain ⟨f0, f1, f2, f3, f4, fm3, fm4, f9, f16, f25, _⟩ := fl_small
  refine ⟨test_max_edge_length, by norm_num, by positivity, test_edge_vertices.1, ?_, ?_⟩
  · rw [test_edge_vertices.1]; norm_num
  · obtain ⟨Vt, Ft, hret, hVt, hFt⟩ := tessilation_returns keep_all test_V [[0, 1, 2]] 5
      (2 ^ (-30 : Int)) 2 test_max_edge_length test_edge_vertices.1 (by decide) (by decide)
      (fun Vt Ft => ⟨(keep_all_contract 0 (le_refl _) Vt Ft).1,
        (keep_all_contract 0 (le_refl _) Vt Ft).2.1, (keep_all_contract 0 (le_refl _) Vt Ft).2.2.1,
        (keep_all_contract 0 (le_refl _) Vt Ft).2.2.2.1⟩)
    have hpairs : vertex_pairs 2 = [(0, 0), (0, 1), (1, 0)] := by decide
    have hfaces : face_pairs 2 = [(0, 0)] := by decide
    have hd1 : fl (1 / (((2 : Nat) : ℚ) - 1)) = 1 := by
      rw [show (1 / (((2 : Nat) : ℚ) - 1)) = 1 by norm_num]; exact f1
    have hV2 : (vertex_loop 2 1).V = [(0, 0), (0, 1), (1, 0)] := by
      simp [vertex_loop, hpairs, f0, f1]
    have hF2 : face_loop 2 (vertex_loop 2 1).ij2v = [(0, 2, 1)] := by
      simp [face_loop, hfaces, cell_faces, vertex_loop, hpairs]
    rw [hd1, hV2] at hVt
    rw [hd1, hV2, hF2] at hFt
    have hVt' : Vt.map (fun v => (v 0, v 1)) = [(0, 0), (0, 4), (3, 0)] := by
      rw [hVt]
      simp [sample_triangle, test_V, f0, f3, f4]
    have hFt' : Ft = [(0, 2, 1)] := by
      rw [hFt]
      simp [wrap_int]
    have hlen : Vt.length = 3 := by
      have := congrArg List.length hVt'
      simpa using this
    rw [hret]
    simp only [Option.map_some', keep_all, hVt', hFt', hlen]
    decide

/-- Witness for C27: the test triangle with longest edge 5 and `out_max_edge_length = 5 / 2`,
with no duplicate vertices to merge, is tessellated with 3 vertices per edge; every side is
split in two segments whose ends are rows of `V_out` joined by a row of `F_out`. -/
theorem tessilation_splits_edges_witness :
    ∃ out, regular_grid_tessilation keep_all test_V [[0, 1, 2]] (5 / 2) = some out ∧
      edge_vertices 5 (5 / 2) = 3 ∧
      (5 : ℚ) * (1 - 2 ^ (-53 : Int)) ≤ ((edge_vertices 5 (5 / 2) : Int) - 1 : ℚ) * (5 / 2) ∧
      ∀ e, e < 3 → ∀ k : Nat, (k : Int) < edge_vertices 5 (5 / 2) - 1 →
        ∃ f ∈ out.F_out, ∃ (x y : Nat) (X Y : VectorNd 2),
          (((x : Int), (y : Int)) = (f.1, f.2.1) ∨ ((x : Int), (y : Int)) = (f.2.1, f.2.2)
            ∨ ((x : Int), (y : Int)) = (f.2.2, f.1)) ∧
          out.V_out[x]? = some X ∧ out.V_out[y]? = some Y ∧
          ∑ c, (Y c - X c) ^ 2
            ≤ (5 / 2 * (1 + 2 ^ (-49 : Int)) + 2 ^ (-44 : Int) * 4 + 4 * 0) ^ 2 := by
  obtain ⟨_, _, f2, _⟩ := fl_small
  have hrange : Int.ceil (fl ((5 : ℚ) / (5 / 2))) ≤ 46339 := by
    have e : (5 : ℚ) / (5 / 2) = 2 := by norm_num
    have hc : Int.ceil (2 : ℚ) = 2 := by
      rw [show (2 : ℚ) = ((2 : Int) : ℚ) by norm_num, Int.ceil_intCast]
    rw [e, f2, hc]
    decide
  have hcount : ((([[0, 1, 2]] : List (List Nat)).length : Nat) : Int)
      * (edge_vertices 5 (5 / 2) * (edge_vertices 5 (5 / 2) + 1) / 2) < 2147483648 := by
    rw [test_edge_vertices.2]
    decide
  have hV : ∀ row ∈ ([[0, 1, 2]] : List (List Nat)), ∀ e, e < 3 → ∀ c : Fin 2,
      |test_V (row.getD e 0) c| ≤ 4 := by
    intro row hrow e he c
    rw [List.mem_singleton] at hrow
    subst hrow
    interval_cases e <;> fin_cases c <;> norm_num [test_V]
  obtain ⟨out, h1, _, _, h4, h5⟩ := tessilation_splits_edges (by decide) keep_all test_V
    [[0, 1, 2]] 5 (5 / 2) 4 0 test_max_edge_length (by norm_num) hrange hcount
    (le_trans (zpow_le_one_of_nonpos₀ (by norm_num) (by norm_num)) (by norm_num))
    (le_trans (by norm_num : (4 : ℚ) ≤ 2 ^ 2) (pow_le_pow_right₀ (by norm_num) (by norm_num)))
    hV (le_refl 0) (keep_all_contract 0 (le_refl 0))
  refine ⟨out, h1, test_edge_vertices.2, h4, ?_⟩
  intro e he k hk
  obtain ⟨f, hf, x, y, X, Y, hp, hX, hY, _, _, hlen⟩ :=
    h5 [0, 1, 2] (List.mem_singleton_self _) e he k hk
  exact ⟨f, hf, x, y, X, Y, hp, hX, hY, hlen⟩

end UpsampleMesh

namespace ControlProblem

/-- Coefficients of a vector tabulated over a range. -/
theorem getD_map_range (n : Nat) (f : Nat → ℚ) (i : Nat) :
    ((List.range n).map f).getD i 0 = if i < n then f i else 0 := by
  by_cases h : i < n
  · rw [if_pos h, List.getD_eq_getElem?_getD, List.getElem?_eq_getElem (by simpa using h)]
    simp
  · rw [if_neg h, List.getD_eq_getElem?_getD, List.getElem?_eq_none (by simpa using h)]
    rfl

/-- The difference of two vectors tabulated over the same range. -/
theorem sub_map_range (n : Nat) (f g : Nat → ℚ) :
    sub ((List.range n).map f) ((List.range n).map g) = (List.range n).map (fun i => f i - g i) := by
  unfold sub
  generalize List.range n = l
  induction l with
  | nil => rfl
  | cons a l ih => simp [ih]

/-- A block read as a segment. -/
theorem segment_eq_block (d : Nat) (x : TVector) (t : Nat) :
    segment x (t * d) d = (List.range d).map (block d x t) := rfl

/-- The zero vector is the block before the first block. -/
theorem replicate_eq_block_before (d : Nat) (x : TVector) :
    List.replicate d (0 : ℚ) = (List.range d).map (block_before d x 0) := by
  apply List.ext_getElem
  · simp
  · intro i h1 h2
    simp [block_before]

/-- A block is the block before the next one. -/
theorem block_before_succ (d : Nat) (x : TVector) (t : Nat) :
    block_before d x (t + 1) = block d x t := by
  funext i
  simp [block_before]

/-- An index `t d + i` with `i < d` lies in block `k` exactly when `t = k`. -/
theorem mem_block_iff (d k t i : Nat) (hi : i < d) :
    (k * d ≤ t * d + i ∧ t * d + i < k * d + d) ↔ t = k := by
  constructor
  · rintro ⟨h1, h2⟩
    by_contra hne
    rcases Nat.lt_or_gt_of_ne hne with h | h
    · have := Nat.mul_le_mul_right d (Nat.succ_le_of_lt h)
      rw [Nat.succ_mul] at this
      omega
    · have := Nat.mul_le_mul_right d (Nat.succ_le_of_lt h)
      rw [Nat.succ_mul] at this
      omega
  · rintro rfl
    omega

/-- The state of the loop of `smooth_value` after `k` rounds. -/
theorem smooth_value_loop (dt : ℚ) (d : Nat) (x : TVector) (k : Nat) :
    (List.range k).foldl
      (fun (st : ℚ × TVector) (t : Nat) =>
        let curr := segment x (t * d) d
        (st.1 + (((sub curr st.2).map (fun u => u / dt)).map (fun u => u ^ 2)).sum, curr))
      (0, List.replicate d 0)
    = (((List.range k).map (fun t => ((List.range d).map
          (fun i => ((block d x t i - block_before d x t i) / dt) ^ 2)).sum)).sum,
       (List.range d).map (block_before d x k)) := by
  induction k with
  | zero => simp [← replicate_eq_block_before d x]
  | succ k ih =>
    rw [List.range_succ, List.foldl_append, ih]
    simp only [List.foldl_cons, List.foldl_nil, segment_eq_block, sub_map_range, List.map_map,
      List.map_append, List.map_cons, List.map_nil, List.sum_append, List.sum_cons,
      List.sum_nil, add_zero, block_before_succ]
    rfl

/-- Closed form of `smooth_value`. -/
theorem smooth_value_eq (w dt : ℚ) (T d : Nat) (x : TVector) :
    smooth_value w dt T d x
      = w * ((List.range T).map (fun t => ((List.range d).map
          (fun i => ((block d x t i - block_before d x t i) / dt) ^ 2)).sum)).sum := by
  unfold smooth_value
  rw [smooth_value_loop]

/-- The segment updates keep the size of `gradv`. -/
theorem length_add_sub_segment (g : TVector) (start : Nat) (v : TVector) :
    (add_segment g start v).length = g.length ∧ (sub_segment g start v).length = g.length := by
  simp [add_segment, sub_segment]

/-- Coefficients after `gradv.segment(start, v.size()) += v`. -/
theorem getD_add_segment (g : TVector) (start : Nat) (v : TVector) (idx : Nat) :
    (add_segment g start v).getD idx 0
      = if idx < g.length then
          (if start ≤ idx ∧ idx < start + v.length then g.getD idx 0 + v.getD (idx - start) 0
           else g.getD idx 0)
        else 0 := by
  unfold add_segment
  rw [getD_map_range]

/-- Coefficients after `gradv.segment(start, v.size()) -= v`. -/
theorem getD_sub_segment (g : TVector) (start : Nat) (v : TVector) (idx : Nat) :
    (sub_segment g start v).getD idx 0
      = if idx < g.length then
          (if start ≤ idx ∧ idx < start + v.length then g.getD idx 0 - v.getD (idx - start) 0
           else g.getD idx 0)
        else 0 := by
  unfold sub_segment
  rw [getD_map_range]

/-- The state of the loop of `smooth_gradient` after `k ≤ time_steps` rounds: the blocks below
`k` of `gradv` hold their final value (before the scaling), the others are zero. -/
theorem smooth_gradient_loop (dt : ℚ) (T d : Nat) (x : TVector) (hx : x.length = T * d)
    (k : Nat) (hk : k ≤ T) :
    ∃ st : GradientState,
      (List.range k).foldl
        (fun (st : GradientState) (t : Nat) =>
          let gradv := add_segment st.gradv (t * d)
            ((sub st.curr st.prev).map (fun u => 2 * u / dt ^ 2))
          let prev := st.curr
          if (t : Int) < (T : Int) - 1 then
            let next := segment x ((t + 1) * d) d
            { gradv := sub_segment gradv (t * d)
                ((sub next st.curr).map (fun u => 2 * u / dt ^ 2)),
              prev := prev, curr := next }
          else
            { gradv := gradv, prev := prev, curr := st.curr })
        { gradv := List.replicate x.length 0,
          prev := List.replicate d 0,
          curr := segment x 0 d } = st ∧
      st.gradv.length = T * d ∧
      st.prev = (List.range d).map (block_before d x k) ∧
      st.curr = (List.range d).map (block d x (min k (T - 1))) ∧
      ∀ t i, i < d → st.gradv.getD (t * d + i) 0
        = if t < k then
            2 * (block d x t i - block_before d x t i) / dt ^ 2
              - (if t + 1 < T then 2 * (block d x (t + 1) i - block d x t i) / dt ^ 2 else 0)
          else 0 := by
  induction k with
  | zero =>
    refine ⟨⟨List.replicate x.length 0, List.replicate d 0, segment x 0 d⟩, rfl, by simp [hx],
      replicate_eq_block_before d x, ?_, ?_⟩
    · have h := segment_eq_block d x 0
      rw [Nat.zero_mul] at h
      simp [h]
    · intro t i _
      simp only [List.getD_eq_getElem?_getD, List.getElem?_replicate, Nat.not_lt_zero, if_false]
      split_ifs <;> rfl
  | succ k ih =>
    obtain ⟨st, hst, hlen, hprev, hcurr, hg⟩ := ih (by omega)
    rw [List.range_succ, List.foldl_append, hst]
    simp only [List.foldl_cons, List.foldl_nil]
    have hmin : min k (T - 1) = k := by omega
    rw [hmin] at hcurr
    have hv1 : (sub st.curr st.prev).map (fun u => 2 * u / dt ^ 2)
        = (List.range d).map
            (fun i => 2 * (block d x k i - block_before d x k i) / dt ^ 2) := by
      rw [hcurr, hprev, sub_map_range, List.map_map]; rfl
    have hv2 : (sub (segment x ((k + 1) * d) d) st.curr).map (fun u => 2 * u / dt ^ 2)
        = (List.range d).map
            (fun i => 2 * (block d x (k + 1) i - block d x k i) / dt ^ 2) := by
      rw [hcurr, segment_eq_block, sub_map_range, List.map_map]; rfl
    have hidx : ∀ t i, i < d → (t * d + i < T * d ↔ t < T) := by
      intro t i hi
      constructor
      · intro h
        by_contra hge
        have := Nat.mul_le_mul_right d (Nat.le_of_not_lt hge)
        omega
      · intro h
        have := Nat.mul_le_mul_right d (Nat.succ_le_of_lt h)
        rw [Nat.succ_mul] at this
        omega
    by_cases hlast : (k : Int) < (T : Int) - 1
    · rw [if_pos hlast]
      refine ⟨_, rfl, ?_, ?_, ?_, ?_⟩
      · simp [sub_segment, add_segment, hlen]
      · rw [block_before_succ]; exact hcurr
      · have : min (k + 1) (T - 1) = k + 1 := by omega
        rw [this, segment_eq_block]
      · intro t i hi
        simp only [getD_sub_segment, getD_add_segment, (length_add_sub_segment _ _ _).1, hlen,
          hv1, hv2, List.length_map,
          List.length_range, mem_block_iff d k t i hi, hidx t i hi, hg t i hi]
        by_cases htk : t = k
        · subst htk
          have h1 : t < T := by omega
          have h2 : t + 1 < T := by omega
          have h3 : t * d + i - t * d = i := by omega
          simp [h1, h2, h3, getD_map_range, hi]
        · by_cases hlt : t < k
          · have h1 : t < T := by omega
            have h2 : t < k + 1 := by omega
            simp [htk, hlt, h1, h2]
          · have h2 : ¬ t < k + 1 := by omega
            simp [htk, hlt, h2]
    · rw [if_neg hlast]
      refine ⟨_, rfl, ?_, ?_, ?_, ?_⟩
      · simp [add_segment, hlen]
      · rw [block_before_succ]; exact hcurr
      · have : min (k + 1) (T - 1) = k := by omega
        rw [this, hcurr]
      · intro t i hi
        simp only [getD_add_segment, hlen, hv1, List.length_map,
          List.length_range, mem_block_iff d k t i hi, hidx t i hi, hg t i hi]
        by_cases htk : t = k
        · subst htk
          have h1 : t < T := by omega
          have h2 : ¬ t + 1 < T := by omega
          have h3 : t * d + i - t * d = i := by omega
          simp [h1, h2, h3, getD_map_range, hi]
        · by_cases hlt : t < k
          · have h1 : t < T := by omega
            have h2 : t < k + 1 := by omega
            simp [htk, hlt, h1, h2]
          · have h2 : ¬ t < k + 1 := by omega
            simp [htk, hlt, h2]

/-- Coefficients after `gradv *= smoothing_weight`. -/
theorem getD_map_mul (g : TVector) (w : ℚ) (idx : Nat) :
    (g.map (fun u => u * w)).getD idx 0 = g.getD idx 0 * w := by
  simp only [List.getD_eq_getElem?_getD, List.getElem?_map]
  cases g[idx]? <;> simp

/-- Closed form of `smooth_gradient`: block `t` is
`(2 w / dt^2) ((x_t - x_(t-1)) - (x_(t+1) - x_t))`, without the second difference in the last
block. -/
theorem smooth_gradient_eq (w dt : ℚ) (T d : Nat) (x : TVector) (hx : x.length = T * d) :
    (smooth_gradient w dt T d x).length = T * d ∧
    ∀ t i, t < T → i < d →
      block d (smooth_gradient w dt T d x) t i
        = 2 * w / dt ^ 2 * ((block d x t i - block_before d x t i)
            - (if t + 1 < T then block d x (t + 1) i - block d x t i else 0)) := by
  obtain ⟨st, hst, hlen, _, _, hg⟩ := smooth_gradient_loop dt T d x hx T (le_refl T)
  unfold smooth_gradient
  simp only []
  rw [hst]
  refine ⟨by rw [List.length_map, hlen], ?_⟩
  intro t i ht hi
  unfold block
  rw [getD_map_mul, hg t i hi, if_pos ht]
  unfold block
  split_ifs <;> ring

/-- A sum over a range as a list sum. -/
theorem list_sum_range (n : Nat) (f : Nat → ℚ) :
    ((List.range n).map f).sum = ∑ i in Finset.range n, f i := by
  induction n with
  | zero => simp
  | succ n ih => rw [List.sum_range_succ, Finset.sum_range_succ, ih]

/-- Summation by parts against the differences of a sequence that starts from zero. -/
theorem sum_mul_diff (A b : Nat → ℚ) (T : Nat) :
    ∑ t in Finset.range T, A t * (b t - (if t = 0 then 0 else b (t - 1)))
      = ∑ t in Finset.range T, (A t - (if t + 1 < T then A (t + 1) else 0)) * b t := by
  cases T with
  | zero => simp
  | succ m =>
    have hr : ∑ t in Finset.range (m + 1), (A t - (if t + 1 < m + 1 then A (t + 1) else 0)) * b t
        = ∑ t in Finset.range m, (A t - A (t + 1)) * b t + A m * b m := by
      rw [Finset.sum_range_succ]
      congr 1
      · apply Finset.sum_congr rfl
        intro t ht
        rw [Finset.mem_range] at ht
        have h1 : t + 1 < m + 1 := by omega
        rw [if_pos h1]
      · have h1 : ¬ m + 1 < m + 1 := by omega
        rw [if_neg h1, sub_zero]
    rw [hr]
    clear hr
    induction m with
    | zero => simp
    | succ m ih =>
      rw [Finset.sum_range_succ, ih, Finset.sum_range_succ (fun t => (A t - A (t + 1)) * b t)]
      simp only [Nat.add_sub_cancel, Nat.succ_ne_zero, if_false]
      ring

/-- The quadratic expansion of the smoothing energy in terms of block differences `D` of the
point, `E` of the direction `Hh`, and a vector `G` with the block formula of the gradient. -/
theorem smoothing_expansion (w dt s : ℚ) (T d : Nat) (D E Hh G : Nat → Nat → ℚ)
    (hE : ∀ t i, E t i = Hh t i - (if t = 0 then 0 else Hh (t - 1) i))
    (hG : ∀ t i, t < T → i < d →
      G t i = 2 * w / dt ^ 2 * (D t i - (if t + 1 < T then D (t + 1) i else 0))) :
    w * ∑ t in Finset.range T, ∑ i in Finset.range d, ((D t i + s * E t i) / dt) ^ 2
      = w * ∑ t in Finset.range T, ∑ i in Finset.range d, (D t i / dt) ^ 2
        + s * ∑ t in Finset.range T, ∑ i in Finset.range d, G t i * Hh t i
        + s ^ 2 * (w * ∑ t in Finset.range T, ∑ i in Finset.range d, (E t i / dt) ^ 2) := by
  have step1 : ∑ t in Finset.range T, ∑ i in Finset.range d, D t i * E t i
      = ∑ t in Finset.range T, ∑ i in Finset.range d,
          (D t i - (if t + 1 < T then D (t + 1) i else 0)) * Hh t i := by
    rw [Finset.sum_comm]
    rw [Finset.sum_comm (f := fun t i => (D t i - (if t + 1 < T then D (t + 1) i else 0)) * Hh t i)]
    apply Finset.sum_congr rfl
    intro i _
    simp only [hE]
    exact sum_mul_diff (fun t => D t i) (fun t => Hh t i) T
  have step2 : ∑ t in Finset.range T, ∑ i in Finset.range d, G t i * Hh t i
      = 2 * w / dt ^ 2 * ∑ t in Finset.range T, ∑ i in Finset.range d,
          (D t i - (if t + 1 < T then D (t + 1) i else 0)) * Hh t i := by
    rw [Finset.mul_sum]
    apply Finset.sum_congr rfl
    intro t ht
    rw [Finset.mul_sum]
    apply Finset.sum_congr rfl
    intro i hi
    rw [hG t i (Finset.mem_range.1 ht) (Finset.mem_range.1 hi)]
    ring
  have e1 : ∀ t i, ((D t i + s * E t i) / dt) ^ 2
      = (D t i / dt) ^ 2 + s * (2 / dt ^ 2) * (D t i * E t i) + s ^ 2 * (E t i / dt) ^ 2 := by
    intro t i; ring
  simp only [e1, Finset.sum_add_distrib, ← Finset.mul_sum]
  rw [step2, ← step1]
  ring

/-- Blocks of the point `x + s h`. -/
theorem block_add_smul (d : Nat) (x h : TVector) (s : ℚ) (hl : h.length = x.length) (t i : Nat) :
    block d (List.zipWith (fun a b => a + s * b) x h) t i = block d x t i + s * block d h t i := by
  unfold block
  simp only [List.getD_eq_getElem?_getD, List.getElem?_zipWith]
  by_cases hlt : t * d + i < x.length
  · rw [List.getElem?_eq_getElem hlt, List.getElem?_eq_getElem (by omega)]
    simp
  · rw [List.getElem?_eq_none (by omega), List.getElem?_eq_none (by omega)]
    simp

/-- C22: for `x` of length `T d`, `smooth_gradient(x)` has length `T d` and its block `t` is
`(2 w / dt^2) ((x_t - x_(t-1)) - (x_(t+1) - x_t))` for `t < T - 1` and
`(2 w / dt^2) (x_t - x_(t-1))` for `t = T - 1`, with `x_(-1) = 0` and `w` the smoothing weight;
`smooth_value(x)` is `w` times the sum over `t < T` of the squared norms of
`(x_t - x_(t-1)) / dt`; and this vector is the gradient of `smooth_value` at `x`: for every
direction `h` and step `s`, `smooth_value(x + s h)` is
`smooth_value(x) + s <smooth_gradient(x), h> + s^2 smooth_value(h)`. -/
theorem smooth_gradient_is_gradient (w dt : ℚ) (T d : Nat) (x : TVector)
    (hx : x.length = T * d) :
    (smooth_gradient w dt T d x).length = T * d ∧
    (∀ t i, t < T → i < d →
      block d (smooth_gradient w dt T d x) t i
        = 2 * w / dt ^ 2 * ((block d x t i - block_before d x t i)
            - (if t + 1 < T then block d x (t + 1) i - block d x t i else 0))) ∧
    smooth_value w dt T d x
      = w * ∑ t in Finset.range T, ∑ i in Finset.range d,
          ((block d x t i - block_before d x t i) / dt) ^ 2 ∧
    ∀ (h : TVector) (s : ℚ), h.length = T * d →
      smooth_value w dt T d (List.zipWith (fun a b => a + s * b) x h)
        = smooth_value w dt T d x
          + s * (∑ t in Finset.range T, ∑ i in Finset.range d,
              block d (smooth_gradient w dt T d x) t i * block d h t i)
          + s ^ 2 * smooth_value w dt T d h := by
  obtain ⟨hlen, hblocks⟩ := smooth_gradient_eq w dt T d x hx
  have hval : ∀ y : TVector, smooth_value w dt T d y
      = w * ∑ t in Finset.range T, ∑ i in Finset.range d,
          ((block d y t i - block_before d y t i) / dt) ^ 2 := by
    intro y
    rw [smooth_value_eq]
    simp only [list_sum_range]
  refine ⟨hlen, hblocks, hval x, ?_⟩
  intro h s hh
  have hl : h.length = x.length := by rw [hh, hx]
  have hcomb : ∀ t i, block d (List.zipWith (fun a b => a + s * b) x h) t i
        - block_before d (List.zipWith (fun a b => a + s * b) x h) t i
      = (block d x t i - block_before d x t i)
        + s * (block d h t i - block_before d h t i) := by
    intro t i
    unfold block_before
    by_cases ht : t = 0
    · simp only [ht, if_true, block_add_smul d x h s hl]; ring
    · simp only [ht, if_false, block_add_smul d x h s hl]; ring
  rw [hval, hval x, hval h]
  simp only [hcomb]
  exact smoothing_expansion w dt s T d
    (fun t i => block d x t i - block_before d x t i)
    (fun t i => block d h t i - block_before d h t i)
    (fun t i => block d h t i)
    (fun t i => block d (smooth_gradient w dt T d x) t i)
    (fun t i => by simp only [block_before])
    (fun t i ht hi => by
      show block d (smooth_gradient w dt T d x) t i
        = 2 * w / dt ^ 2 * ((block d x t i - block_before d x t i)
            - (if t + 1 < T then block d x (t + 1) i - block_before d x (t + 1) i else 0))
      rw [hblocks t i ht hi, block_before_succ])

/-- Witness for C22: two time steps of one coordinate, `x = (1, 3)`, `dt = 1`, weight 1: the
value is `1 + 4 = 5` and the gradient is `(2 (1 - 2), 2 * 2) = (-2, 4)`. -/
theorem smooth_gradient_is_gradient_witness :
    smooth_value 1 1 2 1 [1, 3] = 5 ∧ smooth_gradient 1 1 2 1 [1, 3] = [-2, 4] ∧
    (smooth_gradient 1 1 2 1 [1, 3]).length = 2 * 1 ∧
    smooth_value 1 1 2 1 (List.zipWith (fun a b => a + 2 * b) [1, 3] [1, 0])
      = smooth_value 1 1 2 1 [1, 3]
        + 2 * (∑ t in Finset.range 2, ∑ i in Finset.range 1,
            block 1 (smooth_gradient 1 1 2 1 [1, 3]) t i * block 1 [1, 0] t i)
        + 2 ^ 2 * smooth_value 1 1 2 1 [1, 0] := by
  have h := smooth_gradient_is_gradient 1 1 2 1 [1, 3] rfl
  refine ⟨?_, ?_, h.1, h.2.2.2 [1, 0] 2 rfl⟩
  · rw [h.2.2.1]
    norm_num [Finset.sum_range_succ, block, block_before]
  · have h2 : List.range 2 = [0, 1] := by decide
    have h1 : List.range 1 = [0] := by decide
    norm_num [smooth_gradient, h2, h1, add_segment, sub_segment, segment, sub]

end ControlProblem
